import Mathlib

/-!
Verification development for the slate-stamps editing engine
(`src/withStamps.jsx`).

The engine is a plugin over the Slate editing substrate.  The document
model, point/path addressing and the host transform primitives
(insert-node, remove-node, split, move, wrap, delete-range, …) are the
"host document-editing substrate" of spec §6; they are embedded here as
executable Lean functions following their documented Slate semantics
(selection points are transformed alongside every structural edit, as
Slate's `apply` does).  The five intercepted entry points
(`insertBreak`, `insertText`, `deleteFragment`, `deleteBackward`,
`normalizeNode`) are translated statement by statement from
`withStamps.jsx`.

Modelling conventions:
  * strings are lists of characters (JS strings with non-negative
    clamping `slice` become `List.take`/`List.drop`),
  * the model has no inline elements, so every element is a block
    (`Editor.isBlock` is true on every element, as in the example app),
  * `structuredClone` is the identity on this pure data,
  * the `onStampInsert` callback is modelled by its returned value for
    the invocation at hand (the timestamp argument is irrelevant to the
    result), `onStampClick` does not touch the document at all,
  * the host's default `normalizeNode` for non-text nodes is modelled
    as the identity: spec §1/§6 place the base normalizer outside the
    core ("assumed available as a correct substrate") and never
    describe its rules, and no claim depends on them.
  * a failing operation is `Except.error (msg, st)` where `st` is the
    document/selection state at the moment the error is raised, so
    that "no partial mutation is committed" claims are statable.
-/

namespace SlateStamps

/-- Character sequences standing for JS strings. -/
abbrev Str := List Char

/-- Formatting marks of a text leaf (opaque key set). -/
abbrev Marks := List String

/-- A path: child indices from the document root to a node. -/
abbrev SPath := List Nat

/-- The value returned by `onStampInsert`: `value = none` models the
JS `null` "no value" sentinel. -/
structure StampData where
  label : String
  value : Option Int
deriving Repr, DecidableEq

/-- A Slate node: a text leaf, or an element.  Elements carry their
open `type` tag plus the (optional) `label`/`value` properties that
stamped elements use; `children` is the ordered child list.  The
editor root is not itself a node: a document is the root's child
list. -/
inductive SNode where
  | text (str : Str) (marks : Marks) : SNode
  | elem (ty : String) (label : Option String) (value : Option Int)
      (children : List SNode) : SNode
deriving Repr

/-- The `type` tag of stamped elements (`withStamps.jsx` line 16). -/
def stampedBlockType : String := "stamped-item"

def SNode.isText : SNode → Bool
  | .text _ _ => true
  | .elem _ _ _ _ => false

def SNode.isElem : SNode → Bool
  | .text _ _ => false
  | .elem _ _ _ _ => true

/-- `n.type === stampedBlockType` on an element. -/
def SNode.isStamped : SNode → Bool
  | .text _ _ => false
  | .elem ty _ _ _ => ty == stampedBlockType

def SNode.childrenOf : SNode → List SNode
  | .text _ _ => []
  | .elem _ _ _ cs => cs

def SNode.tyOf : SNode → String
  | .text _ _ => ""
  | .elem ty _ _ _ => ty

/-- A caret position: path of a text leaf plus a character offset. -/
structure SPoint where
  path : SPath
  offset : Nat
deriving Repr, DecidableEq

/-- A selection range (anchor and focus, in either order). -/
structure SRange where
  anchor : SPoint
  focus : SPoint
deriving Repr, DecidableEq

/-- Editor state: the root's children, the current selection, and the
pending `editor.marks`. -/
structure EState where
  doc : List SNode
  sel : Option SRange
  emarks : Option Marks
deriving Repr

/-- Collapsed ranges have equal anchor and focus (`Range.isCollapsed`). -/
def SRange.isCollapsed (r : SRange) : Bool := r.anchor = r.focus

def SRange.isExpanded (r : SRange) : Bool := !r.isCollapsed

/-! ### Path and point arithmetic -/

/-- `Path.next`: sibling immediately after (last index bumped). -/
def pathNext (p : SPath) : SPath := p.dropLast ++ [p.getLastD 0 + 1]

/-- `Path.parent`. -/
def pathParent (p : SPath) : SPath := p.dropLast

/-- `Path.compare`: lexicographic on the common length; a path and its
ancestor compare equal. -/
def pathCmp : SPath → SPath → Ordering
  | [], _ => .eq
  | _ :: _, [] => .eq
  | a :: as', b :: bs =>
      if a < b then .lt else if b < a then .gt else pathCmp as' bs

/-- `a` is a (non-strict) prefix of `b`. -/
def isPrefixOfP : SPath → SPath → Bool
  | [], _ => true
  | _ :: _, [] => false
  | a :: as', b :: bs => a == b && isPrefixOfP as' bs

/-- `Point.compare`: path comparison, offsets break ties. -/
def ptCmp (a b : SPoint) : Ordering :=
  match pathCmp a.path b.path with
  | .eq => compare a.offset b.offset
  | o => o

def ptLe (a b : SPoint) : Bool := ptCmp a b ≠ .gt
def ptLt (a b : SPoint) : Bool := ptCmp a b = .lt

/-- Sorted edges of a range (`Range.edges`). -/
def SRange.edges (r : SRange) : SPoint × SPoint :=
  if ptLe r.anchor r.focus then (r.anchor, r.focus) else (r.focus, r.anchor)

def SRange.startPt (r : SRange) : SPoint := r.edges.1
def SRange.endPt (r : SRange) : SPoint := r.edges.2

/-- `Editor.path` of a range: the common prefix of the two edge paths
(for a collapsed selection this is the text path itself). -/
def commonPath : SPath → SPath → SPath
  | [], _ => []
  | _ :: _, [] => []
  | a :: as', b :: bs => if a = b then a :: commonPath as' bs else []

def SRange.basePath (r : SRange) : SPath := commonPath r.anchor.path r.focus.path

/-! ### Tree lookups -/

/-- Node at a path (`Node.get`); `none` on an invalid path. -/
def nodeAt : List SNode → SPath → Option SNode
  | _, [] => none
  | ns, i :: rest =>
    match ns[i]? with
    | none => none
    | some n =>
      match rest with
      | [] => some n
      | _ :: _ => nodeAt n.childrenOf rest

/-- Child list of the node at a path; the empty path addresses the
root's own child list. -/
def childListAt (ns : List SNode) : SPath → Option (List SNode)
  | [] => some ns
  | p => (nodeAt ns p).map SNode.childrenOf

mutual
/-- Text leaves of a subtree, with absolute paths (document order). -/
def nodeLeaves (pre : SPath) : SNode → List (SPath × Str)
  | .text s _ => [(pre, s)]
  | .elem _ _ _ cs => listLeaves pre 0 cs

def listLeaves (pre : SPath) (i : Nat) : List SNode → List (SPath × Str)
  | [] => []
  | n :: ns => nodeLeaves (pre ++ [i]) n ++ listLeaves pre (i + 1) ns
end

/-- All text leaves of the document, in document order. -/
def docLeaves (doc : List SNode) : List (SPath × Str) := listLeaves [] 0 doc

/-- Leaves of the subtree at a path (the whole document for `[]`). -/
def subLeaves (doc : List SNode) (p : SPath) : List (SPath × Str) :=
  match p with
  | [] => docLeaves doc
  | _ =>
    match nodeAt doc p with
    | some n => nodeLeaves p n
    | none => []

/-- `Editor.start` of a path location: first leaf, offset 0. -/
def startOf (doc : List SNode) (p : SPath) : Option SPoint :=
  (subLeaves doc p).head?.map fun q => ⟨q.1, 0⟩

/-- `Editor.end` of a path location: last leaf at its full length. -/
def endOf (doc : List SNode) (p : SPath) : Option SPoint :=
  (subLeaves doc p).getLast?.map fun q => ⟨q.1, q.2.length⟩

/-- `Editor.range` of a path location. -/
def rangeOf (doc : List SNode) (p : SPath) : Option SRange := do
  let s ← startOf doc p
  let e ← endOf doc p
  pure ⟨s, e⟩

/-- The text string at a leaf path. -/
def leafStr (doc : List SNode) (p : SPath) : Option Str :=
  match nodeAt doc p with
  | some (.text s _) => some s
  | _ => none

def leafMarks (doc : List SNode) (p : SPath) : Option Marks :=
  match nodeAt doc p with
  | some (.text _ m) => some m
  | _ => none

/-- Proper ancestor paths of `p`, longest first, root (empty path)
excluded — the order `Editor.above` searches with mode `lowest`. -/
def ancestorPaths (p : SPath) : List SPath :=
  ((List.range p.length).drop 1).reverse.map fun k => p.take k

/-- `Editor.above` at a path: nearest proper ancestor (root excluded)
satisfying the predicate. -/
def aboveAt (doc : List SNode) (p : SPath) (pred : SNode → Bool) :
    Option (SNode × SPath) :=
  (ancestorPaths p).findSome? fun q =>
    match nodeAt doc q with
    | some n => if pred n then some (n, q) else none
    | none => none

/-- `getWrappingBlock` (helpers, `withStamps.jsx` 374-380): nearest
non-editor element that is a block — in this model every element. -/
def getWrappingBlockAt (doc : List SNode) (p : SPath) : Option (SNode × SPath) :=
  aboveAt doc p SNode.isElem

/-- `getWrappingUnstampedAncestor` (382-390): nearest non-editor
element whose type is not the stamped type. -/
def getWrappingUnstampedAncestorAt (doc : List SNode) (p : SPath) :
    Option (SNode × SPath) :=
  aboveAt doc p fun n => n.isElem && !n.isStamped

/-- `isBlockEmpty` (392-393): exactly one child and that child is a
text with the empty string (`children[0].text === ""`; for an element
child the JS access is `undefined`, which is not `""`). -/
def isBlockEmpty (b : SNode) : Bool :=
  match b.childrenOf with
  | [.text s _] => s.isEmpty
  | _ => false

/-- `Editor.before` with character/offset granularity: previous caret
position in document order. -/
def beforePt (doc : List SNode) (pt : SPoint) : Option SPoint :=
  if pt.offset > 0 then some ⟨pt.path, pt.offset - 1⟩
  else
    ((docLeaves doc).filter fun q => pathCmp q.1 pt.path = .lt).getLast?.map
      fun q => ⟨q.1, q.2.length⟩

/-- `Editor.after` with character/offset granularity: next caret
position in document order. -/
def afterPt (doc : List SNode) (pt : SPoint) : Option SPoint :=
  match leafStr doc pt.path with
  | some s =>
    if pt.offset < s.length then some ⟨pt.path, pt.offset + 1⟩
    else
      ((docLeaves doc).filter fun q => pathCmp pt.path q.1 = .lt).head?.map
        fun q => ⟨q.1, 0⟩
  | none => none

/-! ### Structural edits with selection transformation

Each host transform updates the document and transforms the selection
points the way Slate's `editor.apply` does for the corresponding
primitive operations. -/

/-- Split a nonempty path into its parent prefix and last index. -/
def splitLastP (p : SPath) : Option (SPath × Nat) :=
  match p.getLast? with
  | none => none
  | some j => some (p.dropLast, j)

/-- Apply `f` to the child list addressed by a path (the empty path
addresses the root's child list). -/
def modifyChildrenO : List SNode → SPath → (List SNode → Option (List SNode)) →
    Option (List SNode)
  | ns, [], f => f ns
  | ns, i :: rest, f =>
    match ns[i]? with
    | none => none
    | some (.text _ _) => none
    | some (.elem ty l v cs) =>
      (modifyChildrenO cs rest f).map fun cs' => ns.set i (.elem ty l v cs')

/-- Insert nodes at a sibling slot. -/
def insertAtPathD (doc : List SNode) (p : SPath) (ns : List SNode) :
    Option (List SNode) := do
  let (pref, j) ← splitLastP p
  modifyChildrenO doc pref fun cs =>
    if j ≤ cs.length then some (cs.take j ++ ns ++ cs.drop j) else none

/-- Remove the node at a path. -/
def removeAtPathD (doc : List SNode) (p : SPath) : Option (List SNode) := do
  let (pref, j) ← splitLastP p
  modifyChildrenO doc pref fun cs =>
    if j < cs.length then some (cs.eraseIdx j) else none

/-- Replace the node at a path by a list of nodes. -/
def replaceAtPathD (doc : List SNode) (p : SPath) (ns : List SNode) :
    Option (List SNode) := do
  let (pref, j) ← splitLastP p
  modifyChildrenO doc pref fun cs =>
    if j < cs.length then some (cs.take j ++ ns ++ cs.drop (j + 1)) else none

/-- `Path.transform` for inserting `cnt` nodes at slot `ip`. -/
def pathShiftIns (ip : SPath) (cnt : Nat) (p : SPath) : SPath :=
  match splitLastP ip with
  | none => p
  | some (pref, j) =>
    if p.take pref.length = pref ∧ pref.length < p.length ∧ j ≤ p.getD pref.length 0
    then p.set pref.length (p.getD pref.length 0 + cnt)
    else p

def ptShiftIns (ip : SPath) (cnt : Nat) (pt : SPoint) : SPoint :=
  ⟨pathShiftIns ip cnt pt.path, pt.offset⟩

/-- `Path.transform` for `remove_node` at `rp`; `none` for paths inside
the removed subtree. -/
def pathShiftRem (rp : SPath) (p : SPath) : Option SPath :=
  if isPrefixOfP rp p then none
  else
    match splitLastP rp with
    | none => some p
    | some (pref, j) =>
      if p.take pref.length = pref ∧ pref.length < p.length ∧ j < p.getD pref.length 0
      then some (p.set pref.length (p.getD pref.length 0 - 1))
      else some p

/-- `Point.transform` for `remove_node`, with Slate's `apply` fallback:
a point inside the removed subtree moves to the end of the last text
before the removal site (or the start of the first one after it);
`doc'` is the post-removal document. -/
def ptAfterRemove (doc' : List SNode) (rp : SPath) (pt : SPoint) : Option SPoint :=
  match pathShiftRem rp pt.path with
  | some q => some ⟨q, pt.offset⟩
  | none =>
    match ((docLeaves doc').filter fun q => pathCmp q.1 rp = .lt).getLast? with
    | some q => some ⟨q.1, q.2.length⟩
    | none =>
      ((docLeaves doc').filter fun q => pathCmp q.1 rp ≠ .lt).head?.map
        fun q => ⟨q.1, 0⟩

def mapSelTotal (f : SPoint → SPoint) : Option SRange → Option SRange
  | none => none
  | some r => some ⟨f r.anchor, f r.focus⟩

def mapSelO (f : SPoint → Option SPoint) : Option SRange → Option SRange
  | none => none
  | some r =>
    match f r.anchor, f r.focus with
    | some a, some b => some ⟨a, b⟩
    | _, _ => none

/-- `Transforms.insertNodes` at a path (empty node lists are a no-op,
as in Slate). -/
def stInsertNodesAtPath (st : EState) (ns : List SNode) (p : SPath) :
    Option EState :=
  if ns.isEmpty then some st
  else do
    let doc' ← insertAtPathD st.doc p ns
    pure { st with doc := doc', sel := mapSelTotal (ptShiftIns p ns.length) st.sel }

/-- `Transforms.removeNodes` at a single path. -/
def stRemoveNodeAtPath (st : EState) (p : SPath) : Option EState := do
  let doc' ← removeAtPathD st.doc p
  pure { st with doc := doc', sel := mapSelO (ptAfterRemove doc' p) st.sel }

/-- Rewrite the text node at a path. -/
def modifyTextAt (doc : List SNode) (p : SPath) (f : Str → Marks → SNode) :
    Option (List SNode) := do
  let (pref, j) ← splitLastP p
  modifyChildrenO doc pref fun cs =>
    match cs[j]? with
    | some (.text s m) => some (cs.set j (f s m))
    | _ => none

/-- `insert_text` at a leaf (JS string `slice` clamps, so does
`take`/`drop`). -/
def stInsertTextAt (st : EState) (p : SPath) (o : Nat) (txt : Str) :
    Option EState :=
  if txt.isEmpty then some st
  else do
    let doc' ← modifyTextAt st.doc p fun s m => .text (s.take o ++ txt ++ s.drop o) m
    let shift : SPoint → SPoint := fun pt =>
      if pt.path = p ∧ o ≤ pt.offset then ⟨pt.path, pt.offset + txt.length⟩ else pt
    pure { st with doc := doc', sel := mapSelTotal shift st.sel }

/-- `remove_text` of `len` characters at a leaf offset. -/
def stRemoveTextAt (st : EState) (p : SPath) (o len : Nat) : Option EState :=
  if len = 0 then some st
  else do
    let doc' ← modifyTextAt st.doc p fun s m => .text (s.take o ++ s.drop (o + len)) m
    let shift : SPoint → SPoint := fun pt =>
      if pt.path = p ∧ o ≤ pt.offset then ⟨pt.path, pt.offset - min len (pt.offset - o)⟩
      else pt
    pure { st with doc := doc', sel := mapSelTotal shift st.sel }

/-- `Transforms.setSelection`. -/
def stSetSel (st : EState) (r : SRange) : EState := { st with sel := some r }

/-- `Transforms.collapse` with edge `start`. -/
def stCollapseStart (st : EState) : EState :=
  match st.sel with
  | none => st
  | some r => { st with sel := some ⟨r.startPt, r.startPt⟩ }

/-! ### Splitting (`Transforms.splitNodes`)

`splitNodes` at a point with the default block match and
`always: false` splits the leaf and each ancestor up to the nearest
block; a level whose edge coincides with the point is not split.
`splitNodeRel` performs the subtree part: given the path and offset of
the point relative to the subtree root it either reports that the
point sits at the subtree's very start/end or returns the two halves
(both halves keep the element's `type`/`label`/`value` properties, as
`split_node` copies them). -/

inductive SplitRes where
  | atStart
  | atEnd
  | parts (l r : SNode)

def splitNodeRel : SPath → Nat → SNode → Option SplitRes
  | [], o, .text s m =>
    if o = 0 then some .atStart
    else if s.length ≤ o then some .atEnd
    else some (.parts (.text (s.take o) m) (.text (s.drop o) m))
  | [], _, .elem _ _ _ _ => none
  | _ :: _, _, .text _ _ => none
  | j :: rest, o, .elem ty l v cs =>
    match cs[j]? with
    | none => none
    | some c =>
      (splitNodeRel rest o c).map fun res =>
        match res with
        | .atStart =>
          if j = 0 then .atStart
          else .parts (.elem ty l v (cs.take j)) (.elem ty l v (cs.drop j))
        | .atEnd =>
          if j = cs.length - 1 then .atEnd
          else .parts (.elem ty l v (cs.take (j + 1))) (.elem ty l v (cs.drop (j + 1)))
        | .parts cl cr =>
          .parts (.elem ty l v (cs.take j ++ [cl])) (.elem ty l v (cr :: cs.drop (j + 1)))

/-- Coordinates, inside the right half, of a point at or after the
split point (relative coordinates in both cases). -/
def remapPt : SPath → Nat → SNode → SPath → Nat → SPath × Nat
  | [], so, _, pr, po => (pr, po - so)
  | _ :: _, _, .text _ _, pr, po => (pr, po)
  | j :: rest, so, .elem _ _ _ cs, pr, po =>
    match cs[j]? with
    | none => (pr, po)
    | some c =>
      match splitNodeRel rest so c with
      | some .atStart =>
        match pr with
        | [] => (pr, po)
        | i :: prrest => ((i - j) :: prrest, po)
      | some .atEnd =>
        match pr with
        | [] => (pr, po)
        | i :: prrest => ((i - (j + 1)) :: prrest, po)
      | some (.parts _ _) =>
        match pr with
        | [] => (pr, po)
        | i :: prrest =>
          if i = j then
            let q := remapPt rest so c prrest po
            (0 :: q.1, q.2)
          else ((i - j) :: prrest, po)
      | none => (pr, po)

/-- `Transforms.splitNodes` at a point (default match/`always:false`).
With no block above the point Slate returns silently; a point at the
block's edge splits nothing. -/
def stSplitAtPoint (st : EState) (pt : SPoint) : Option EState :=
  match getWrappingBlockAt st.doc pt.path with
  | none => some st
  | some (block, bp) =>
    let rel := pt.path.drop bp.length
    match splitNodeRel rel pt.offset block with
    | none => none
    | some .atStart => some st
    | some .atEnd => some st
    | some (.parts l r) => do
      let doc' ← replaceAtPathD st.doc bp [l, r]
      let shift : SPoint → SPoint := fun q =>
        if isPrefixOfP bp q.path ∧ q.path ≠ bp then
          let qrel := q.path.drop bp.length
          if ptCmp ⟨qrel, q.offset⟩ ⟨rel, pt.offset⟩ = .lt then q
          else
            let nr := remapPt rel pt.offset block qrel q.offset
            ⟨pathNext bp ++ nr.1, nr.2⟩
        else ⟨pathShiftIns (pathNext bp) 1 q.path, q.offset⟩
      pure { st with doc := doc', sel := mapSelTotal shift st.sel }

/-- The `always: true` variant of the subtree split (used by the
host's default `insertBreak`): every level splits, edges included. -/
def splitNodeRelAlways : SPath → Nat → SNode → Option (SNode × SNode)
  | [], o, .text s m => some (.text (s.take o) m, .text (s.drop o) m)
  | [], _, .elem _ _ _ _ => none
  | _ :: _, _, .text _ _ => none
  | j :: rest, o, .elem ty l v cs =>
    match cs[j]? with
    | none => none
    | some c =>
      (splitNodeRelAlways rest o c).map fun lr =>
        (.elem ty l v (cs.take j ++ [lr.1]), .elem ty l v (lr.2 :: cs.drop (j + 1)))

def remapPtAlways : SPath → Nat → SPath → Nat → SPath × Nat
  | [], so, pr, po => (pr, po - so)
  | j :: rest, so, pr, po =>
    match pr with
    | [] => (pr, po)
    | i :: prrest =>
      if i = j then
        let q := remapPtAlways rest so prrest po
        (0 :: q.1, q.2)
      else ((i - j) :: prrest, po)

/-- `Transforms.splitNodes` with `always: true` at a point. -/
def stSplitAlwaysAtPoint (st : EState) (pt : SPoint) : Option EState :=
  match getWrappingBlockAt st.doc pt.path with
  | none => some st
  | some (block, bp) =>
    let rel := pt.path.drop bp.length
    match splitNodeRelAlways rel pt.offset block with
    | none => none
    | some lr => do
      let doc' ← replaceAtPathD st.doc bp [lr.1, lr.2]
      let shift : SPoint → SPoint := fun q =>
        if isPrefixOfP bp q.path ∧ q.path ≠ bp then
          let qrel := q.path.drop bp.length
          if ptCmp ⟨qrel, q.offset⟩ ⟨rel, pt.offset⟩ = .lt then q
          else
            let nr := remapPtAlways rel pt.offset qrel q.offset
            ⟨pathNext bp ++ nr.1, nr.2⟩
        else ⟨pathShiftIns (pathNext bp) 1 q.path, q.offset⟩
      pure { st with doc := doc', sel := mapSelTotal shift st.sel }

/-- `Transforms.moveNodes` of the node at `f` to slot `t`. -/
def stMoveNode (st : EState) (f t : SPath) : Option EState := do
  if isPrefixOfP f t then none
  else do
    let n ← nodeAt st.doc f
    let doc1 ← removeAtPathD st.doc f
    let t' ← pathShiftRem f t
    let doc2 ← insertAtPathD doc1 t' [n]
    let shift : SPoint → Option SPoint := fun q =>
      if isPrefixOfP f q.path then some ⟨t' ++ q.path.drop f.length, q.offset⟩
      else do
        let q1 ← pathShiftRem f q.path
        pure ⟨pathShiftIns t' 1 q1, q.offset⟩
    pure { st with doc := doc2, sel := mapSelO shift st.sel }

/-- `Transforms.wrapNodes` with a bare `{ type }` element at a path:
the node is replaced by a fresh element of that type holding it as
sole child. -/
def stWrapNodeAt (st : EState) (ty : String) (p : SPath) : Option EState := do
  let n ← nodeAt st.doc p
  let doc' ← replaceAtPathD st.doc p [.elem ty none none [n]]
  let shift : SPoint → SPoint := fun q =>
    if isPrefixOfP p q.path ∧ q.path ≠ p then
      ⟨p ++ (0 :: q.path.drop p.length), q.offset⟩
    else q
  pure { st with doc := doc', sel := mapSelTotal shift st.sel }

/-- Unwrap the element at a path: its children splice into the parent
in its place. -/
def stUnwrapAt (st : EState) (p : SPath) : Option EState := do
  let n ← nodeAt st.doc p
  match n with
  | .text _ _ => none
  | .elem _ _ _ cs => do
    let (pref, j) ← splitLastP p
    let doc' ← modifyChildrenO st.doc pref fun l =>
      if j < l.length then some (l.take j ++ cs ++ l.drop (j + 1)) else none
    let shift : SPoint → SPoint := fun q =>
      if isPrefixOfP p q.path ∧ q.path ≠ p then
        match q.path.drop p.length with
        | [] => q
        | c :: rest => ⟨pref ++ ((j + c) :: rest), q.offset⟩
      else if q.path.take pref.length = pref ∧ pref.length < q.path.length ∧
          j < q.path.getD pref.length 0 then
        ⟨q.path.set pref.length (q.path.getD pref.length 0 - 1 + cs.length), q.offset⟩
      else q
    pure { st with doc := doc', sel := mapSelTotal shift st.sel }

/-! ### Node traversal, ranges and `Editor.nodes` modes -/

mutual
/-- All node entries of a subtree, pre-order, with absolute paths. -/
def nodeEntries (pre : SPath) : SNode → List (SPath × SNode)
  | .text s m => [(pre, .text s m)]
  | .elem ty l v cs => (pre, .elem ty l v cs) :: listEntries pre 0 cs

def listEntries (pre : SPath) (i : Nat) : List SNode → List (SPath × SNode)
  | [] => []
  | n :: ns => nodeEntries (pre ++ [i]) n ++ listEntries pre (i + 1) ns
end

def docEntries (doc : List SNode) : List (SPath × SNode) := listEntries [] 0 doc

/-- Entries whose path lies in the span `[sp, ep]` under `Path.compare`
(ancestors of the boundary paths compare equal, hence are included) —
the entries `Editor.nodes` visits for a range. -/
def entriesInSpan (doc : List SNode) (sp ep : SPath) : List (SPath × SNode) :=
  (docEntries doc).filter fun q => pathCmp q.1 sp ≠ .lt ∧ pathCmp q.1 ep ≠ .gt

/-- `Editor.nodes` with `mode: 'lowest'`: along each branch only the
deepest match is produced (the running `hit` of Slate's generator). -/
def lowestHits (pred : SNode → Bool) : List (SPath × SNode) → Option SPath → List SPath
  | [], hit => hit.toList
  | (p, n) :: rest, hit =>
    if pred n then
      match hit with
      | some h =>
        if pathCmp p h = .eq then lowestHits pred rest (some p)
        else h :: lowestHits pred rest (some p)
      | none => lowestHits pred rest (some p)
    else lowestHits pred rest hit

/-- `Editor.unhangRange`: a range whose edges both sit at offset 0 (and
whose end text is a first child) is pulled back so that its end is the
end of the last non-empty text before it (Slate's exact guard,
including the early exits). -/
def unhangRange (doc : List SNode) (r : SRange) : SRange :=
  let s := r.startPt
  let e := r.endPt
  if s.offset ≠ 0 ∨ e.offset ≠ 0 ∨ s = e ∨ 0 < e.path.getLastD 0 then r
  else
    let blockPath :=
      match getWrappingBlockAt doc e.path with
      | some be => be.2
      | none => []
    let texts := (docLeaves doc).filter fun q =>
      pathCmp q.1 s.path ≠ .lt ∧ pathCmp q.1 e.path ≠ .gt
    let cands := (texts.reverse.drop 1).filter fun q =>
      !q.2.isEmpty ∨ pathCmp q.1 blockPath = .lt
    match cands.head? with
    | some q => ⟨s, ⟨q.1, q.2.length⟩⟩
    | none => ⟨s, e⟩

/-- Remove a list of pairwise disjoint node paths one after another,
adjusting the later paths through the earlier removals (Slate's
`pathRef`s); a path invalidated by an earlier removal is skipped. -/
def stRemovePathsAux : EState → (SPath → Option SPath) → List SPath → Option EState
  | st, _, [] => some st
  | st, adj, p :: rest =>
    match adj p with
    | none => stRemovePathsAux st adj rest
    | some p' =>
      match stRemoveNodeAtPath st p' with
      | none => none
      | some st' =>
        stRemovePathsAux st' (fun q => (adj q).bind (pathShiftRem p')) rest

/-- `Transforms.removeNodes` with a match predicate over a range:
unhang, collect the lowest matches in the span, remove them all. -/
def stRemoveMatchingInRange (st : EState) (pred : SNode → Bool) (r : SRange) :
    Option EState :=
  let r1 := unhangRange st.doc r
  let targets := lowestHits pred (entriesInSpan st.doc r1.startPt.path r1.endPt.path) none
  stRemovePathsAux st some targets

/-- `Transforms.removeNodes(editor)` — at the selection, default block
match, lowest mode. -/
def stRemoveBlocksAtSelection (st : EState) : Option EState :=
  match st.sel with
  | none => some st
  | some r => stRemoveMatchingInRange st SNode.isElem r

/-- Sibling-index shift caused by unwrapping a node with `cslen`
children at `p`. -/
def unwrapShift (p : SPath) (cslen : Nat) (q : SPath) : SPath :=
  match splitLastP p with
  | none => q
  | some (pref, j) =>
    if q.take pref.length = pref ∧ pref.length < q.length ∧ j < q.getD pref.length 0
    then q.set pref.length (q.getD pref.length 0 - 1 + cslen)
    else q

def stUnwrapPathsAux : EState → (SPath → SPath) → List SPath → Option EState
  | st, _, [] => some st
  | st, adj, p :: rest =>
    let p' := adj p
    let cslen := ((nodeAt st.doc p').map fun n => n.childrenOf.length).getD 0
    match stUnwrapAt st p' with
    | none => none
    | some st' => stUnwrapPathsAux st' (fun q => unwrapShift p' cslen (adj q)) rest

/-- `Transforms.unwrapNodes(editor)` — lowest blocks in the selection
are dissolved into their parents. -/
def stUnwrapAtSelection (st : EState) : Option EState :=
  match st.sel with
  | none => some st
  | some r =>
    let r1 := unhangRange st.doc r
    let targets :=
      lowestHits SNode.isElem (entriesInSpan st.doc r1.startPt.path r1.endPt.path) none
    stUnwrapPathsAux st id targets

/-! ### Fragments and point insertion -/

/-- `Node.fragment` of a child list between two depth-one relative
points (the shape the engine builds with `path.slice(-1)`): children
between the two indices, boundary texts trimmed, elements kept whole.
JS `slice` clamps, so out-of-range offsets clamp too. -/
def fragmentOf (cs : List SNode) (a b : SPoint) : List SNode :=
  let s := (SRange.mk a b).startPt
  let e := (SRange.mk a b).endPt
  let j := s.path.getD 0 0
  let k := e.path.getD 0 0
  (List.range cs.length).filterMap fun i =>
    if i < j ∨ k < i then none
    else
      match cs[i]? with
      | none => none
      | some (.text str m) =>
        let str1 := if i = k then str.take e.offset else str
        let str2 := if i = j then str1.drop s.offset else str1
        some (.text str2 m)
      | some n => some n

/-- Split a text leaf in two at an interior offset (edges split
nothing) — `splitNodes` with the text match `insertNodes` uses. -/
def stSplitTextOnly (st : EState) (p : SPath) (off : Nat) : Option EState := do
  let s ← leafStr st.doc p
  if off = 0 ∨ s.length ≤ off then some st
  else do
    let m ← leafMarks st.doc p
    let doc' ← replaceAtPathD st.doc p [.text (s.take off) m, .text (s.drop off) m]
    let shift : SPoint → SPoint := fun q =>
      if q.path = p then
        if off ≤ q.offset then ⟨pathNext p, q.offset - off⟩ else q
      else ⟨pathShiftIns (pathNext p) 1 q.path, q.offset⟩
    pure { st with doc := doc', sel := mapSelTotal shift st.sel }

/-- `Transforms.insertNodes` at a point: split the leaf there and
insert the nodes as siblings between the halves (before/after the
leaf when the point is at its edge). -/
def stInsertNodesAtPoint (st : EState) (ns : List SNode) (pt : SPoint) :
    Option EState :=
  if ns.isEmpty then some st
  else
    match (subLeaves st.doc pt.path).head? with
    | none => some st
    | some q => do
      let isAtEnd := pt = SPoint.mk q.1 q.2.length
      let st1 ← stSplitTextOnly st q.1 pt.offset
      let slot :=
        if isAtEnd ∨ (q.1 = pt.path ∧ 0 < pt.offset ∧ pt.offset < q.2.length)
        then pathNext q.1 else q.1
      stInsertNodesAtPath st1 ns slot

/-! ### `Transforms.delete` over a range, block merging -/

/-- `Editor.isEmpty` on a block. -/
def isEmptyBlock : SNode → Bool
  | .elem _ _ _ [] => true
  | .elem _ _ _ [.text s _] => s.isEmpty
  | _ => false

/-- The previous lowest block before a path: the last element entry in
pre-order that is strictly before it. -/
def prevBlockEntry (doc : List SNode) (p : SPath) : Option (SPath × SNode) :=
  ((docEntries doc).filter fun q => q.2.isElem ∧ pathCmp q.1 p = .lt).getLast?

/-- Merge the block at `curPath` into its immediately preceding
sibling `prevPath` (`merge_node`): the previous block absorbs the
children, the merged block disappears. -/
def stMergeBlocks (st : EState) (prevPath curPath : SPath) : Option EState := do
  let cur ← nodeAt st.doc curPath
  let prev ← nodeAt st.doc prevPath
  match prev, cur with
  | .elem ty l v pcs, .elem _ _ _ ccs => do
    let doc1 ← replaceAtPathD st.doc prevPath [.elem ty l v (pcs ++ ccs)]
    let doc2 ← removeAtPathD doc1 curPath
    let pos := pcs.length
    let shift : SPoint → Option SPoint := fun q =>
      if isPrefixOfP curPath q.path then
        match q.path.drop curPath.length with
        | [] => some q
        | c :: rest => some ⟨prevPath ++ ((pos + c) :: rest), q.offset⟩
      else (pathShiftRem curPath q.path).map fun q1 => ⟨q1, q.offset⟩
    pure { st with doc := doc2, sel := mapSelO shift st.sel }
  | _, _ => none

/-- Ancestors of `path` strictly below the common path with `prevPath`
that have exactly one child; the highest is removed after a
cross-parent merge move (Slate's `emptyAncestor`). -/
def emptyAncestorPath (doc : List SNode) (path prevPath : SPath) : Option SPath :=
  let c := (commonPath path prevPath).length
  ((List.range path.length).filterMap fun k =>
    if c < k ∧ k < path.length then
      match nodeAt doc (path.take k) with
      | some (.elem _ _ _ [_]) => some (path.take k)
      | _ => none
    else none).head?

/-- `Transforms.mergeNodes` at a point (default block match): merge
the block there into the previous lowest block, moving it next to the
previous block first when they are not siblings, and removing the
previous block instead when it is empty. -/
def stMergeAtPoint (st : EState) (pt : SPoint) : Option EState :=
  match getWrappingBlockAt st.doc pt.path with
  | none => some st
  | some (_, path) =>
    match prevBlockEntry st.doc path with
    | none => some st
    | some (prevPath, prevNode) => do
      let isSib := pathParent path = pathParent prevPath
      let empAnc := if isSib then none else emptyAncestorPath st.doc path prevPath
      let st1 ← if isSib then pure st else stMoveNode st path (pathNext prevPath)
      let curPath1 := if isSib then path else pathNext prevPath
      let res ←
        match empAnc with
        | none => pure (st1, curPath1, prevPath)
        | some ap => do
          let ap1 := pathShiftIns (pathNext prevPath) 1 ap
          let st2 ← stRemoveNodeAtPath st1 ap1
          let cur2 ← pathShiftRem ap1 curPath1
          let prev2 ← pathShiftRem ap1 prevPath
          pure (st2, cur2, prev2)
      let (st3, curP, prevP) := res
      if isEmptyBlock prevNode then stRemoveNodeAtPath st3 prevP
      else stMergeBlocks st3 prevP curP

/-- The nodes a range delete removes whole: entries in the span that
are not ancestors of either boundary leaf, deduplicated so that only
the highest of nested candidates remains (Slate's `lastPath` guard). -/
def coveredAux (sp ep : SPath) : List (SPath × SNode) → Option SPath → List SPath
  | [], _ => []
  | (p, _) :: rest, last =>
    let skip : Bool :=
      match last with
      | some lp => pathCmp p lp == .eq
      | none => false
    if skip then coveredAux sp ep rest last
    else if !isPrefixOfP p sp ∧ !isPrefixOfP p ep then p :: coveredAux sp ep rest (some p)
    else coveredAux sp ep rest last

def coveredTargets (entries : List (SPath × SNode)) (sp ep : SPath) : List SPath :=
  coveredAux sp ep entries none

/-- Like `stRemovePathsAux`, additionally tracking a point (the end
`pointRef` of a range delete) through the removals. -/
def stRemovePathsTrack :
    EState → (SPath → Option SPath) → List SPath → SPoint → Option (EState × SPoint)
  | st, _, [], e => some (st, e)
  | st, adj, p :: rest, e =>
    match adj p with
    | none => stRemovePathsTrack st adj rest e
    | some p' =>
      match stRemoveNodeAtPath st p' with
      | none => none
      | some st' =>
        match pathShiftRem p' e.path with
        | none => none
        | some e' =>
          stRemovePathsTrack st' (fun q => (adj q).bind (pathShiftRem p')) rest ⟨e', e.offset⟩

/-- The core of `Transforms.delete` on an (already expanded) range:
unhang unless hanging, trim the boundary texts, remove the covered
nodes, and merge the end block into the start block when the range
crosses blocks. -/
def stDeleteRange (st : EState) (r : SRange) (hanging : Bool) : Option EState := do
  let r1 :=
    if hanging then r
    else if (endOf st.doc []).any fun de => de = r.endPt then r
    else unhangRange st.doc r
  let s := r1.startPt
  let e := r1.endPt
  if s = e then some st
  else do
    let isSingleText := s.path = e.path
    let startBlock := getWrappingBlockAt st.doc s.path
    let endBlock := getWrappingBlockAt st.doc e.path
    let isAcross : Bool :=
      match startBlock, endBlock with
      | some sb, some eb => sb.2 != eb.2
      | _, _ => false
    let targets := coveredTargets (entriesInSpan st.doc s.path e.path) s.path e.path
    let st1 ←
      if isSingleText then pure st
      else do
        let sLen := ((leafStr st.doc s.path).getD []).length
        stRemoveTextAt st s.path s.offset (sLen - s.offset)
    let tr ← stRemovePathsTrack st1 some targets e
    let (st2, e2) := tr
    let off0 := if isSingleText then s.offset else 0
    let st3 ← stRemoveTextAt st2 e2.path off0 (e.offset - off0)
    if isSingleText then some st3
    else if isAcross then stMergeAtPoint st3 ⟨e2.path, off0⟩
    else some st3

/-! ### `Transforms.delete` entry points -/

/-- `Transforms.delete(editor)` — at the selection: an expanded
selection is deleted (the caret ends at the transformed end point, the
`endRef` Slate selects); a collapsed one expands forward by one
character position first. -/
def transformsDeleteSel (st : EState) : Option EState :=
  match st.sel with
  | none => some st
  | some r =>
    if r.isExpanded then
      stDeleteRange { st with sel := some ⟨r.endPt, r.endPt⟩ } ⟨r.startPt, r.endPt⟩ false
    else
      match afterPt st.doc r.anchor <|> endOf st.doc [] with
      | none => some st
      | some t => stDeleteRange { st with sel := some ⟨t, t⟩ } ⟨r.anchor, t⟩ true

/-- `Transforms.delete(editor, { at })` with an explicit range: no
selection is set afterwards (the live selection still transforms
through the edits); a collapsed range expands forward. -/
def transformsDeleteAt (st : EState) (r : SRange) : Option EState :=
  if r.anchor = r.focus then
    match afterPt st.doc r.anchor <|> endOf st.doc [] with
    | none => some st
    | some t => stDeleteRange st ⟨r.anchor, t⟩ true
  else stDeleteRange st ⟨r.startPt, r.endPt⟩ false

/-- `Transforms.delete` reverse with character unit (the host's
backspace): collapsed selection expands backward. -/
def transformsDeleteReverseChar (st : EState) : Option EState :=
  match st.sel with
  | none => some st
  | some r =>
    if r.isExpanded then
      stDeleteRange { st with sel := some ⟨r.startPt, r.startPt⟩ } ⟨r.startPt, r.endPt⟩ false
    else
      match beforePt st.doc r.anchor <|> startOf st.doc [] with
      | none => some st
      | some t =>
        if t = r.anchor then some st
        else stDeleteRange { st with sel := some ⟨t, t⟩ } ⟨t, r.anchor⟩ true

/-- `Transforms.insertNodes` at an expanded range: delete the range,
then insert at the transformed end point. -/
def stInsertNodesAtRange (st : EState) (ns : List SNode) (r : SRange) :
    Option EState := do
  let r1 := unhangRange st.doc r
  let s := r1.startPt
  let e := r1.endPt
  if s = e then stInsertNodesAtPoint st ns s
  else do
    let stG ← stDeleteRange { st with sel := some ⟨e, e⟩ } r1 false
    let ePt ← stG.sel.map SRange.anchor
    let stR ← stDeleteRange st r1 false
    stInsertNodesAtPoint stR ns ePt

/-! ### Host default operations (`createEditor`) -/

/-- `Transforms.insertText` at the selection. -/
def transformsInsertTextSel (st : EState) (txt : Str) : Option EState :=
  match st.sel with
  | none => some st
  | some r =>
    if r.isExpanded then do
      let st1 ← stDeleteRange { st with sel := some ⟨r.endPt, r.endPt⟩ } ⟨r.startPt, r.endPt⟩ false
      match st1.sel with
      | some r1 => stInsertTextAt st1 r1.anchor.path r1.anchor.offset txt
      | none => some st1
    else stInsertTextAt st r.anchor.path r.anchor.offset txt

/-- `Editor.marks`: the pending marks, else the marks of the leaf at
the selection anchor (at offset 0, of the previous leaf in the same
block when there is one). -/
def editorMarks (st : EState) : Option Marks :=
  match st.emarks with
  | some m => some m
  | none =>
    match st.sel with
    | none => none
    | some r =>
      let a := r.anchor
      match leafMarks st.doc a.path with
      | none => none
      | some m =>
        if a.offset = 0 then
          match getWrappingBlockAt st.doc a.path with
          | none => some m
          | some (_, bp) =>
            let prevs := (docLeaves st.doc).filter fun q =>
              pathCmp q.1 a.path = .lt ∧ isPrefixOfP bp q.1
            match prevs.getLast? with
            | some q => some ((leafMarks st.doc q.1).getD m)
            | none => some m
        else some m

/-- The host's default `insertText`: with pending marks, insert a
marked text node at the caret and select its end, resetting
`editor.marks`; otherwise a plain `Transforms.insertText`. -/
def baseInsertText (st : EState) (txt : Str) : Option EState :=
  match st.sel with
  | none => some st
  | some r => do
    let st' ←
      match st.emarks with
      | some m => do
        let st1 ←
          if r.isExpanded then
            stDeleteRange { st with sel := some ⟨r.endPt, r.endPt⟩ } ⟨r.startPt, r.endPt⟩ false
          else pure st
        match st1.sel with
        | none => pure st1
        | some r1 => do
          let st2 ← stInsertNodesAtPoint st1 [.text txt m] r1.anchor
          pure (stSetSel st2 ⟨⟨r1.anchor.path, txt.length⟩, ⟨r1.anchor.path, txt.length⟩⟩)
      | none => transformsInsertTextSel st txt
    pure { st' with emarks := none }

/-- The host's default `insertBreak`:
`Transforms.splitNodes(editor, { always: true })`. -/
def baseInsertBreak (st : EState) : Option EState :=
  match st.sel with
  | none => some st
  | some r =>
    if r.isExpanded then do
      let stG ← stDeleteRange { st with sel := some ⟨r.endPt, r.endPt⟩ } ⟨r.startPt, r.endPt⟩ false
      match stG.sel with
      | some r1 => stSplitAlwaysAtPoint stG r1.anchor
      | none => some stG
    else stSplitAlwaysAtPoint st r.anchor

/-- The host's default `deleteBackward` (character unit): only a
collapsed selection deletes backward. -/
def baseDeleteBackward (st : EState) : Option EState :=
  match st.sel with
  | none => some st
  | some r => if r.isCollapsed then transformsDeleteReverseChar st else some st

/-- The host's default `deleteFragment`: delete the selection when it
is expanded. -/
def baseDeleteFragment (st : EState) : Option EState :=
  match st.sel with
  | none => some st
  | some r => if r.isExpanded then transformsDeleteSel st else some st

/-! ### The engine's intercepted operations (`withStamps.jsx`) -/

abbrev EngineRes := Except (String × EState) EState

def errMsgNoAncestor : String :=
  "Invalid node: Could not find non-editor, non-stamped ancestor at selection"
def errMsgNoBlockBreak : String :=
  "Invalid node: Could not find non-editor block at selection"
def errMsgNoBlockText : String :=
  "Invalid node: Text nodes must be wrapped inside a non-editor block element"
def errMsgNoBlockDelete : String :=
  "Invalid node: Selection before delete is not wrapped in a non-editor block"
def errMsgNoAncestorDelete : String :=
  "Could not find wrapping unstamped ancestor"
def errMsgNoBlockBackward : String :=
  "Could not find non-editor wrapping block"
def errMsgNoSelection : String :=
  "TypeError: selection is null"
def errMsgInternal : String :=
  "slate: invalid location"

/-- A failing host primitive surfaces as a thrown Slate error carrying
the state at that moment. -/
def liftO (st : EState) : Option EState → EngineRes
  | some st' => .ok st'
  | none => .error (errMsgInternal, st)

/-- `editor.deleteFragment` (`withStamps.jsx` 205-281). -/
def engineDeleteFragment (st : EState) : EngineRes :=
  match st.sel with
  | none => .error (errMsgNoSelection, st)
  | some selection =>
    let selectionStart := selection.startPt
    let selectionEnd := selection.endPt
    match getWrappingBlockAt st.doc selectionStart.path with
    | none => .error (errMsgNoBlockDelete, st)
    | some (_, blockPathAtSelectionStart) =>
      match getWrappingBlockAt st.doc selectionEnd.path with
      | none => .error (errMsgNoBlockDelete, st)
      | some (blockAtSelectionEnd, blockPathAtSelectionEnd) =>
        match startOf st.doc blockPathAtSelectionStart,
            endOf st.doc blockPathAtSelectionStart with
        | some bs, some be =>
          if ptCmp selectionStart bs ≠ .lt ∧ ptCmp selectionEnd be ≠ .gt then
            liftO st (transformsDeleteSel st)
          else
            match getWrappingUnstampedAncestorAt st.doc selectionStart.path with
            | none => .error (errMsgNoAncestorDelete, st)
            | some (_, ancPath) =>
              let endOfEndBlock := (endOf st.doc blockPathAtSelectionEnd).getD ⟨[], 0⟩
              let content := fragmentOf blockAtSelectionEnd.childrenOf
                ⟨[selectionEnd.path.getLastD 0], selectionEnd.offset⟩
                ⟨[endOfEndBlock.path.getLastD 0], endOfEndBlock.offset⟩
              match startOf st.doc (pathNext ancPath) with
              | none => .error (errMsgInternal, st)
              | some rmStart =>
                match stRemoveMatchingInRange st (fun n => n.isElem && !n.isStamped)
                    ⟨rmStart, selectionEnd⟩ with
                | none => .error (errMsgInternal, st)
                | some st1 =>
                  match endOf st1.doc ancPath with
                  | none => .error (errMsgInternal, st1)
                  | some ancEnd =>
                    match stInsertNodesAtRange st1 content ⟨selectionStart, ancEnd⟩ with
                    | none => .error (errMsgInternal, st1)
                    | some st2 => .ok (stCollapseStart st2)
        | _, _ => .error (errMsgInternal, st)

/-- The tail of `editor.insertBreak` (142-167): wrap the carried-over
content in a fresh StampedElement when the hook returned a non-null
value, insert the new sibling after the unstamped ancestor, and place
the collapsed selection at its start. -/
def engineInsertBreakFinish (hook : Option StampData) (ancTy : String)
    (unstampedAncestorPath : SPath) (contentAfterSelection : List SNode)
    (st1 : EState) : EngineRes :=
  let children :=
    match hook with
    | some sd =>
      match sd.value with
      | some v =>
        [SNode.elem stampedBlockType (some sd.label) (some v) contentAfterSelection]
      | none => contentAfterSelection
    | none => contentAfterSelection
  match stInsertNodesAtPath st1 [.elem ancTy none none children]
      (pathNext unstampedAncestorPath) with
  | none => .error (errMsgInternal, st1)
  | some st2 =>
    match startOf st2.doc (pathNext unstampedAncestorPath) with
    | none => .error (errMsgInternal, st2)
    | some sp => .ok (stSetSel st2 ⟨sp, sp⟩)

/-- The body of `editor.insertBreak` after the expanded-selection
prelude (`withStamps.jsx` 84-167). -/
def engineInsertBreakCore (hook : Option StampData) (st : EState) : EngineRes :=
  match st.sel with
  | none => .error (errMsgNoSelection, st)
  | some selection =>
    match getWrappingUnstampedAncestorAt st.doc selection.basePath with
    | none => .error (errMsgNoAncestor, st)
    | some (unstampedAncestor, unstampedAncestorPath) =>
      match getWrappingBlockAt st.doc selection.basePath with
      | none => .error (errMsgNoBlockBreak, st)
      | some (block, blockPath) =>
        match startOf st.doc blockPath, endOf st.doc blockPath with
        | some blockStart, some blockEnd =>
          if selection.focus = blockEnd then
            match stInsertNodesAtPath st
                [.elem unstampedAncestor.tyOf none none [.text [] []]]
                (pathNext unstampedAncestorPath) with
            | none => .error (errMsgInternal, st)
            | some st1 =>
              match rangeOf st1.doc (pathNext unstampedAncestorPath) with
              | none => .error (errMsgInternal, st1)
              | some rg => .ok (stSetSel st1 rg)
          else if selection.focus = blockStart then
            match transformsDeleteAt st ⟨blockStart, blockEnd⟩ with
            | none => .error (errMsgInternal, st)
            | some st1 =>
              engineInsertBreakFinish hook unstampedAncestor.tyOf
                unstampedAncestorPath block.childrenOf st1
          else
            match transformsDeleteAt st ⟨selection.anchor, blockEnd⟩ with
            | none => .error (errMsgInternal, st)
            | some st1 =>
              engineInsertBreakFinish hook unstampedAncestor.tyOf
                unstampedAncestorPath
                (fragmentOf block.childrenOf
                  ⟨[selection.focus.path.getLastD 0], selection.focus.offset⟩
                  ⟨[blockEnd.path.getLastD 0], blockEnd.offset⟩) st1
        | _, _ => .error (errMsgInternal, st)

/-- `editor.insertBreak` (76-168): an expanded selection first goes
through the engine's own `deleteFragment`. -/
def engineInsertBreak (hook : Option StampData) (st : EState) : EngineRes :=
  match st.sel with
  | none => .error (errMsgNoSelection, st)
  | some r =>
    if r.isExpanded then
      match engineDeleteFragment st with
      | .error e => .error e
      | .ok st1 => engineInsertBreakCore hook st1
    else engineInsertBreakCore hook st

/-- The body of `editor.insertText` after the expanded-selection
prelude (`withStamps.jsx` 172-202). -/
def engineInsertTextCore (hook : Option StampData) (txt : Str) (st : EState) :
    EngineRes :=
  let marks := editorMarks st
  match st.sel with
  | none => .error (errMsgNoSelection, st)
  | some r =>
    match getWrappingBlockAt st.doc r.basePath with
    | none => .error (errMsgNoBlockText, st)
    | some (block, blockPath) =>
      if !block.isStamped && isBlockEmpty block then
        match hook with
        | some sd =>
          match sd.value with
          | some v =>
            match stInsertNodesAtPath st
                [SNode.elem block.tyOf none none
                  [.elem stampedBlockType (some sd.label) (some v)
                    [.text [] (marks.getD [])]]]
                (pathNext blockPath) with
            | none => .error (errMsgInternal, st)
            | some stA =>
              match stRemoveNodeAtPath stA blockPath with
              | none => .error (errMsgInternal, stA)
              | some stB => liftO stB (baseInsertText stB txt)
          | none => liftO st (baseInsertText st txt)
        | none => liftO st (baseInsertText st txt)
      else liftO st (baseInsertText st txt)

/-- `editor.insertText` (170-203). -/
def engineInsertText (hook : Option StampData) (txt : Str) (st : EState) :
    EngineRes :=
  match st.sel with
  | none => .error (errMsgNoSelection, st)
  | some r =>
    if r.isExpanded then
      match engineDeleteFragment st with
      | .error e => .error e
      | .ok st1 => engineInsertTextCore hook txt st1
    else engineInsertTextCore hook txt st

/-- `editor.deleteBackward` (283-320). -/
def engineDeleteBackward (st : EState) : EngineRes :=
  match st.sel with
  | none => .error (errMsgNoSelection, st)
  | some selection =>
    match getWrappingBlockAt st.doc selection.basePath with
    | none => .error (errMsgNoBlockBackward, st)
    | some (block, blockPath) =>
      match startOf st.doc blockPath with
      | none => .error (errMsgInternal, st)
      | some blockStart =>
        if selection.anchor = blockStart then
          if block.isStamped then liftO st (stUnwrapAtSelection st)
          else
            let pointBefore := beforePt st.doc selection.anchor
            let stampAbove := pointBefore.bind fun pb =>
              (aboveAt st.doc pb.path fun n => n.isElem && n.isStamped).map
                fun _ => pb
            match stampAbove with
            | some pb =>
              match stRemoveBlocksAtSelection st with
              | none => .error (errMsgInternal, st)
              | some st1 =>
                let st2 := stSetSel st1 ⟨pb, pb⟩
                if !isBlockEmpty block then
                  liftO st2 (stInsertNodesAtPoint st2 block.childrenOf pb)
                else .ok st2
            | none => liftO st (baseDeleteBackward st)
        else liftO st (baseDeleteBackward st)

/-! ### The normalization hook (322-365) -/

/-- Index of the first unescaped newline after a character `prev`. -/
def findUNLAux (prev : Char) : Str → Option Nat
  | [] => none
  | c :: rest =>
    if c = '\n' ∧ prev ≠ '\\' then some 0
    else (findUNLAux c rest).map (· + 1)

/-- `text.search(/(?<!\\)\n/)` as an optional index. -/
def findUNL : Str → Option Nat
  | [] => none
  | c :: rest =>
    if c = '\n' then some 0 else (findUNLAux c rest).map (· + 1)

/-- The engine's `normalizeNode` body on a text entry (non-text
entries fall through to the host's normalizer).  `none` is a crashed
host primitive. -/
def engineNormalizeAt (st : EState) (path : SPath) : Option EState :=
  match nodeAt st.doc path with
  | some (.text s _) =>
    match findUNL s with
    | none => some st
    | some ni =>
      match getWrappingUnstampedAncestorAt st.doc path with
      | none => some st
      | some (unstampedAncestor, unstampedAncestorPath) => do
        let st1 ← stSplitAtPoint st ⟨path, ni + 1⟩
        let st2 ←
          match afterPt st1.doc ⟨path, ni⟩ <|> endOf st1.doc [] with
          | none => some st1
          | some t => stDeleteRange st1 ⟨⟨path, ni⟩, t⟩ true
        if (nodeAt st2.doc (pathNext (pathParent path))).isNone then some st2
        else
          match aboveAt st2.doc path (fun n => n.isElem && n.isStamped) with
          | none => some st2
          | some (_, pathOfLeftBlock) => do
            let st3 ← stMoveNode st2 (pathNext pathOfLeftBlock)
              (pathNext unstampedAncestorPath)
            stWrapNodeAt st3 unstampedAncestor.tyOf (pathNext unstampedAncestorPath)
  | _ => some st

/-- `editor.normalizeNode` on one entry, parameterised by the host's
original normalizer for the delegated (non-text) case. -/
def engineNormalizeEntry (bn : EState → SPath → EState) (st : EState) (path : SPath) :
    Option EState :=
  match nodeAt st.doc path with
  | some (.text _ _) => engineNormalizeAt st path
  | _ => some (bn st path)

/-- Unescaped-newline count of one string. -/
def unescAux (prev : Char) : Str → Nat
  | [] => 0
  | c :: rest => (if c = '\n' ∧ prev ≠ '\\' then 1 else 0) + unescAux c rest

def unesc : Str → Nat
  | [] => 0
  | c :: rest => (if c = '\n' then 1 else 0) + unescAux c rest

/-- Total unescaped newlines in the document — the termination measure
of the normalization pass. -/
def nlCountDoc (doc : List SNode) : Nat :=
  ((docLeaves doc).map fun q => unesc q.2).sum

/-- Whether the hook transforms anything at a leaf: an unescaped
newline plus an unstamped ancestor. -/
def normActs (doc : List SNode) (q : SPath × Str) : Bool :=
  (findUNL q.2).isSome && (getWrappingUnstampedAncestorAt doc q.1).isSome

/-- One step of the normalization pass: the first leaf (document
order) the hook acts on, transformed; `none` when the pass is at its
fix-point. -/
def normalizeStep (st : EState) : Option (Option EState) :=
  match (docLeaves st.doc).find? (normActs st.doc) with
  | none => none
  | some q => some (engineNormalizeAt st q.1)

def normalizeFixGo : Nat → EState → EngineRes
  | 0, st => .ok st
  | fuel + 1, st =>
    match normalizeStep st with
    | none => .ok st
    | some none => .error (errMsgInternal, st)
    | some (some st') => normalizeFixGo fuel st'

/-- The normalization pass run to its fix-point (the measure bounds
the number of acting steps, each of which removes one unescaped
newline). -/
def normalizeFix (st : EState) : EngineRes :=
  normalizeFixGo (nlCountDoc st.doc) st

/-! ### Operation sequences -/

inductive EngineOp where
  | ibreak (hook : Option StampData)
  | itext (hook : Option StampData) (txt : Str)
  | dfrag
  | dback
  | normalize

def applyOp : EngineOp → EState → EngineRes
  | .ibreak h, st => engineInsertBreak h st
  | .itext h t, st => engineInsertText h t st
  | .dfrag, st => engineDeleteFragment st
  | .dback, st => engineDeleteBackward st
  | .normalize, st => normalizeFix st

def runOps : List EngineOp → EState → EngineRes
  | [], st => .ok st
  | op :: rest, st => (applyOp op st).bind (runOps rest)

/-! ### The data-model invariants (spec §3)

Invariant 1 — a StampedElement is a Block — holds definitionally: the
model has no inline elements, so every element is a block. -/

/-- Sole-stamp condition of one child list (invariant 3 seen from the
parent): a stamped child is the only child. -/
def soleOk (cs : List SNode) : Bool := !cs.any SNode.isStamped || cs.length == 1

/-- Flat-lines condition of one child list: text children do not mix
with element children. -/
def homogOk (cs : List SNode) : Bool :=
  cs.all SNode.isText || cs.all fun n => !n.isText

mutual
/-- Invariants 3 and 4 at every element of a subtree. -/
def inv34Node : SNode → Bool
  | .text _ _ => true
  | .elem ty _ _ cs =>
    (!(ty == stampedBlockType) || cs.all SNode.isText) && soleOk cs && inv34List cs

def inv34List : List SNode → Bool
  | [] => true
  | n :: ns => inv34Node n && inv34List ns
end

mutual
/-- All text strings of a subtree. -/
def nodeTexts : SNode → List Str
  | .text s _ => [s]
  | .elem _ _ _ cs => listTexts cs

def listTexts : List SNode → List Str
  | [] => []
  | n :: ns => nodeTexts n ++ listTexts ns
end

def docTexts (doc : List SNode) : List Str := listTexts doc

/-- Invariant 5: no text holds an unescaped newline. -/
def inv5 (doc : List SNode) : Bool :=
  (docTexts doc).all fun s => (findUNL s).isNone

/-- Invariant 2: a stamp's parent is never the Root — no top-level
stamped element (deeper stamps always have an element parent). -/
def inv2 (doc : List SNode) : Bool := doc.all fun n => !n.isStamped

/-- Invariants 1-5 of spec §3 on a document. -/
def invariants15 (doc : List SNode) : Bool :=
  inv2 doc && inv34List doc && inv5 doc

mutual
/-- The flat-lines condition everywhere. -/
def flatNode : SNode → Bool
  | .text _ _ => true
  | .elem _ _ _ cs => homogOk cs && flatList cs

def flatList : List SNode → Bool
  | [] => true
  | n :: ns => flatNode n && flatList ns
end

mutual
/-- No stamped element anywhere in a subtree. -/
def noStampNode : SNode → Bool
  | .text _ _ => true
  | .elem ty _ _ cs => !(ty == stampedBlockType) && noStampList cs

def noStampList : List SNode → Bool
  | [] => true
  | n :: ns => noStampNode n && noStampList ns
end

mutual
/-- Number of stamped elements in a subtree. -/
def stampCountNode : SNode → Nat
  | .text _ _ => 0
  | .elem ty _ _ cs =>
    (if ty == stampedBlockType then 1 else 0) + stampCountList cs

def stampCountList : List SNode → Nat
  | [] => 0
  | n :: ns => stampCountNode n + stampCountList ns
end

/-- Every text with an unescaped newline lies under some unstamped
element ancestor — what the normalization hook needs in order to reach
every newline.  Derived from invariants 2/4 for non-root texts; root
texts must simply be newline-free. -/
def rootNLOk (doc : List SNode) : Bool :=
  doc.all fun n =>
    match n with
    | .text s _ => (findUNL s).isNone
    | _ => true

/-- The preserved state invariant: invariants 2-4, flat lines, and
newline-free root texts (invariant 5 is re-established by each
completed normalization pass). -/
def goodDoc (doc : List SNode) : Bool :=
  inv2 doc && inv34List doc && flatList doc && rootNLOk doc

/-! ## Claim C7 -/

/-- A non-stamped empty line with the caret on it and no pending
marks. -/
def c7Start : EState :=
  { doc := [.elem "paragraph" none none [.text [] []]],
    sel := some ⟨⟨[0, 0], 0⟩, ⟨[0, 0], 0⟩⟩, emarks := none }

/-- C7: typing "A" on a non-stamped empty line while `onStampInsert`
returns `{label: "1", value: 1}` yields a tree whose single line
contains exactly one StampedElement with label `"1"` and value `1`
wrapping a single Text `"A"` that carries the caret's (empty) active
marks. -/
theorem c7_insertText_stamps_empty_line :
    engineInsertText (some ⟨"1", some 1⟩) ['A'] c7Start =
      .ok { doc := [.elem "paragraph" none none
              [.elem stampedBlockType (some "1") (some 1) [.text ['A'] []]]],
            sel := some ⟨⟨[0, 0, 0], 1⟩, ⟨[0, 0, 0], 1⟩⟩, emarks := none } := by
  rfl

/-! ## Claim C9 -/

/-- A stamped line `"s"` followed by a plain line `"x"`, caret at the
start of the plain line. -/
def c9Start : EState :=
  { doc := [.elem "paragraph" none none
      [.elem stampedBlockType (some "s") (some 5) [.text ['s'] []]],
      .elem "paragraph" none none [.text ['x'] []]],
    sel := some ⟨⟨[1, 0], 0⟩, ⟨[1, 0], 0⟩⟩, emarks := none }

def c9Result : EState :=
  { doc := [.elem "paragraph" none none
      [.elem stampedBlockType (some "s") (some 5) [.text ['s'] [], .text ['x'] []]]],
    sel := some ⟨⟨[0, 0, 0], 1⟩, ⟨[0, 0, 0], 1⟩⟩, emarks := none }

/-- C9 counterexample: on a valid two-line document (stamped line
`"s"`, then plain line `"x"`) with the caret at the start of the plain
line, the completed `deleteBackward` does NOT remove the preceding
stamped block — it is still present (with the plain line's content
spliced into it) — and the selection is not at that block's former
start `([0,0,0], 0)` but at the former end of its content. -/
theorem c9_counterexample :
    invariants15 c9Start.doc = true ∧
    engineDeleteBackward c9Start = .ok c9Result ∧
    nodeAt c9Result.doc [0, 0] =
      some (.elem stampedBlockType (some "s") (some 5)
        [.text ['s'] [], .text ['x'] []]) ∧
    c9Result.sel ≠ some ⟨⟨[0, 0, 0], 0⟩, ⟨[0, 0, 0], 0⟩⟩ := by
  refine ⟨rfl, rfl, rfl, by decide⟩

/-! ## Claim C8 -/

/-! ## Claim C6 -/

/-- A malformed document — a top-level StampedElement — with an
expanded selection inside it: there is no non-Root unstamped ancestor
anywhere around the selection. -/
def c6Start : EState :=
  { doc := [.elem stampedBlockType (some "s") (some 5) [.text ['a', 'b'] []]],
    sel := some ⟨⟨[0, 0], 0⟩, ⟨[0, 0], 1⟩⟩, emarks := none }

/-- C6 counterexample: on `c6Start` the unstamped-ancestor
precondition is indeed violated and `insertBreak` does raise the
corresponding fatal error — but the expanded selection was first run
through `deleteFragment`, so at the moment the error is raised the
tree has already changed (the character "a" is gone) and so has the
selection: the mutation is not rolled back. -/
theorem c6_counterexample :
    getWrappingUnstampedAncestorAt c6Start.doc [0, 0] = none ∧
    engineInsertBreak none c6Start =
      .error (errMsgNoAncestor,
        { doc := [.elem stampedBlockType (some "s") (some 5) [.text ['b'] []]],
          sel := some ⟨⟨[0, 0], 0⟩, ⟨[0, 0], 0⟩⟩, emarks := none }) ∧
    docTexts [SNode.elem stampedBlockType (some "s") (some 5) [.text ['b'] []]] ≠
      docTexts c6Start.doc ∧
    some (SRange.mk ⟨[0, 0], 0⟩ ⟨[0, 0], 0⟩) ≠ c6Start.sel := by
  exact ⟨rfl, rfl, by decide, by decide⟩

/-- Every error the insert-break tail can raise is an internal Slate
failure, never one of the named precondition violations. -/
theorem finish_err_internal {hook : Option StampData} {ancTy : String}
    {ancPath : SPath} {content : List SNode} {st1 : EState} {m : String}
    {st' : EState}
    (h : engineInsertBreakFinish hook ancTy ancPath content st1 = .error (m, st')) :
    m = errMsgInternal := by
  unfold engineInsertBreakFinish at h
  all_goals try split at h
  all_goals try dsimp only at h
  all_goals try split at h
  all_goals try dsimp only at h
  all_goals try split at h
  all_goals try split at h
  all_goals simp_all

theorem errInternal_ne_anc : errMsgInternal ≠ errMsgNoAncestor := by decide
theorem errInternal_ne_blkbrk : errMsgInternal ≠ errMsgNoBlockBreak := by decide
theorem errInternal_ne_blktxt : errMsgInternal ≠ errMsgNoBlockText := by decide
theorem errInternal_ne_blkdel : errMsgInternal ≠ errMsgNoBlockDelete := by decide
theorem errInternal_ne_ancdel : errMsgInternal ≠ errMsgNoAncestorDelete := by decide
theorem errInternal_ne_blkbwd : errMsgInternal ≠ errMsgNoBlockBackward := by decide
theorem errSel_ne_anc : errMsgNoSelection ≠ errMsgNoAncestor := by decide
theorem errSel_ne_blkbrk : errMsgNoSelection ≠ errMsgNoBlockBreak := by decide
theorem errSel_ne_blktxt : errMsgNoSelection ≠ errMsgNoBlockText := by decide
theorem errSel_ne_blkdel : errMsgNoSelection ≠ errMsgNoBlockDelete := by decide
theorem errSel_ne_ancdel : errMsgNoSelection ≠ errMsgNoAncestorDelete := by decide
theorem errSel_ne_blkbwd : errMsgNoSelection ≠ errMsgNoBlockBackward := by decide
theorem errBlkdel_ne_ancdel : errMsgNoBlockDelete ≠ errMsgNoAncestorDelete := by decide

set_option maxHeartbeats 1000000 in
/-- C6 amended: each structural-precondition violation (missing
non-Root wrapping block or missing non-Root unstamped ancestor) raises
its fatal error with the tree and selection unchanged at the moment it
is raised — unconditionally for `deleteFragment` and `deleteBackward`,
and for `insertBreak`/`insertText` provided the selection is collapsed
(an expanded selection is first sent through `deleteFragment`, whose
committed deletion is not rolled back, as the counterexample shows). -/
theorem c6_amended :
    (∀ hook st r m st', st.sel = some r → r.isCollapsed = true →
       engineInsertBreak hook st = .error (m, st') →
       m = errMsgNoAncestor ∨ m = errMsgNoBlockBreak → st' = st) ∧
    (∀ hook txt st r m st', st.sel = some r → r.isCollapsed = true →
       engineInsertText hook txt st = .error (m, st') →
       m = errMsgNoBlockText → st' = st) ∧
    (∀ st m st', engineDeleteFragment st = .error (m, st') →
       m = errMsgNoBlockDelete ∨ m = errMsgNoAncestorDelete → st' = st) ∧
    (∀ st m st', engineDeleteBackward st = .error (m, st') →
       m = errMsgNoBlockBackward → st' = st) := by
  refine ⟨?_, ?_, ?_, ?_⟩
  · intro hook st r m st' hsel hcol herr hm
    have hexp : r.isExpanded = false := by simp [SRange.isExpanded, hcol]
    rw [engineInsertBreak, hsel] at herr
    simp only [hexp, Bool.false_eq_true, if_false] at herr
    rw [engineInsertBreakCore, hsel] at herr
    simp only [] at herr
    repeat' (first | split at herr | dsimp only at herr)
    all_goals
      simp_all [liftO, errInternal_ne_anc, errInternal_ne_blkbrk, errSel_ne_anc,
        errSel_ne_blkbrk]
    all_goals
      first
        | (rcases hm with h | h <;> subst h <;> exact absurd herr.1 (by decide))
        | (rcases hm with h | h <;> subst h <;>
            exact absurd (finish_err_internal herr) (by decide))
  · intro hook txt st r m st' hsel hcol herr hm
    have hexp : r.isExpanded = false := by simp [SRange.isExpanded, hcol]
    rw [engineInsertText, hsel] at herr
    simp only [hexp, Bool.false_eq_true, if_false] at herr
    rw [engineInsertTextCore, hsel] at herr
    simp only [] at herr
    repeat' (first | split at herr | dsimp only at herr)
    all_goals
      simp_all [liftO, errInternal_ne_blktxt, errSel_ne_blktxt]
    all_goals try split at herr
    all_goals try simp_all [errInternal_ne_blktxt]
    all_goals
      subst hm
      exact absurd herr.1 (by decide)
  · intro st m st' herr hm
    rw [engineDeleteFragment] at herr
    repeat' (first | split at herr | dsimp only at herr)
    all_goals
      simp_all [liftO, errInternal_ne_blkdel, errInternal_ne_ancdel,
        errSel_ne_blkdel, errSel_ne_ancdel]
    all_goals try split at herr
    all_goals try simp_all [errInternal_ne_blkdel, errInternal_ne_ancdel]
    all_goals
      rcases hm with h | h <;> subst h <;> exact absurd herr.1 (by decide)
  · intro st m st' herr hm
    rw [engineDeleteBackward] at herr
    repeat' (first | split at herr | dsimp only at herr)
    all_goals
      simp_all [liftO, errInternal_ne_blkbwd, errSel_ne_blkbwd]
    all_goals try split at herr
    all_goals try simp_all [errInternal_ne_blkbwd]
    all_goals
      subst hm
      exact absurd herr.1 (by decide)

def c6wStart : EState :=
  { doc := [.elem stampedBlockType (some "s") (some 5) [.text ['a'] []]],
    sel := some ⟨⟨[0, 0], 0⟩, ⟨[0, 0], 0⟩⟩, emarks := none }

theorem c6_amended_witness :
    ({ doc := [.elem stampedBlockType (some "s") (some 5) [.text ['a'] []]],
       sel := some ⟨⟨[0, 0], 0⟩, ⟨[0, 0], 0⟩⟩, emarks := none } : EState) = c6wStart :=
  c6_amended.1 none c6wStart ⟨⟨[0, 0], 0⟩, ⟨[0, 0], 0⟩⟩ errMsgNoAncestor _
    rfl (by decide) rfl (Or.inl rfl)

/-! ## Claim C5 -/

/-- C5: each intercepted entry point delegates to the host's original
default when the stamp-specific precondition does not apply, leaving
behaviour identical to the default:
  * `insertText` with a collapsed selection on a block that is already
    stamped or not empty runs exactly the captured default insertion;
  * `deleteFragment` on an expanded selection contained in its start
    block runs exactly the host's default fragment deletion
    (`Transforms.delete` at the selection);
  * `deleteBackward` away from the block start, or at a block start
    with no StampedElement context (current block unstamped and no
    stamped element above the preceding point), runs exactly the
    captured default backward deletion;
  * the normalization hook delegates every non-text entry to the
    original normalizer unchanged, and on a text without an unescaped
    newline returns with no transformation — identical to the host's
    default normalizer, which performs no text normalizations.
(`insertBreak` has no delegating branch: its stamp precondition
applies to every invocation.) -/
theorem c5_delegation :
    (∀ hook txt st r block bp, st.sel = some r → r.isCollapsed = true →
       getWrappingBlockAt st.doc r.basePath = some (block, bp) →
       (block.isStamped = true ∨ isBlockEmpty block = false) →
       engineInsertText hook txt st = liftO st (baseInsertText st txt)) ∧
    (∀ st r b bp eb ep bs be, st.sel = some r → r.isExpanded = true →
       getWrappingBlockAt st.doc r.startPt.path = some (b, bp) →
       getWrappingBlockAt st.doc r.endPt.path = some (eb, ep) →
       startOf st.doc bp = some bs → endOf st.doc bp = some be →
       ptCmp r.startPt bs ≠ .lt → ptCmp r.endPt be ≠ .gt →
       engineDeleteFragment st = liftO st (baseDeleteFragment st)) ∧
    (∀ st r block bp bstart, st.sel = some r →
       getWrappingBlockAt st.doc r.basePath = some (block, bp) →
       startOf st.doc bp = some bstart →
       (r.anchor ≠ bstart ∨
        (block.isStamped = false ∧
         ∀ pb, beforePt st.doc r.anchor = some pb →
           aboveAt st.doc pb.path (fun n => n.isElem && n.isStamped) = none)) →
       engineDeleteBackward st = liftO st (baseDeleteBackward st)) ∧
    (∀ bn st path n, nodeAt st.doc path = some n → n.isText = false →
       engineNormalizeEntry bn st path = some (bn st path)) ∧
    (∀ bn st path s m, nodeAt st.doc path = some (.text s m) → findUNL s = none →
       engineNormalizeEntry bn st path = some st) := by
  refine ⟨?_, ?_, ?_, ?_, ?_⟩
  · intro hook txt st r block bp hsel hcol hblock hcond
    have hexp : r.isExpanded = false := by simp [SRange.isExpanded, hcol]
    have hc : (!block.isStamped && isBlockEmpty block) = false := by
      rcases hcond with h | h <;> simp [h]
    simp only [engineInsertText, hsel, hexp, Bool.false_eq_true, if_false,
      engineInsertTextCore, hblock, hc]
  · intro st r b bp eb ep bs be hsel hexp hsb hend hbs hbe h1 h2
    simp only [engineDeleteFragment, hsel, hsb, hend, hbs, hbe,
      baseDeleteFragment, hexp, if_true]
    rw [if_pos ⟨h1, h2⟩]
  · intro st r block bp bstart hsel hblock hbs hcond
    simp only [engineDeleteBackward, hsel, hblock, hbs]
    rcases hcond with h | ⟨hst, habove⟩
    · rw [if_neg h]
    · by_cases hat : r.anchor = bstart
      · rw [if_pos hat]
        simp only [hst, Bool.false_eq_true, if_false]
        have hb : (beforePt st.doc r.anchor).bind
            (fun pb => (aboveAt st.doc pb.path fun n => n.isElem && n.isStamped).map
              fun _ => pb) = none := by
          cases hpb : beforePt st.doc r.anchor with
          | none => rfl
          | some pb => simp [habove pb hpb]
        simp only [hb]
      · rw [if_neg hat]
  · intro bn st path n hn ht
    rw [engineNormalizeEntry, hn]
    cases n with
    | text s m => simp [SNode.isText] at ht
    | elem ty l v cs => rfl
  · intro bn st path s m hn hu
    simp only [engineNormalizeEntry, hn, engineNormalizeAt, hu]

def c5wStart : EState :=
  { doc := [.elem "paragraph" none none [.text ['a'] []]],
    sel := some ⟨⟨[0, 0], 1⟩, ⟨[0, 0], 1⟩⟩, emarks := none }

theorem c5_delegation_witness :
    engineInsertText none ['z'] c5wStart = liftO c5wStart (baseInsertText c5wStart ['z']) :=
  c5_delegation.1 none ['z'] c5wStart ⟨⟨[0, 0], 1⟩, ⟨[0, 0], 1⟩⟩
    (.elem "paragraph" none none [.text ['a'] []]) [0]
    rfl (by decide) rfl (Or.inr (by decide))

/-! ### Structural lemmas about the editing primitives -/

theorem childListAt_cons (ns : List SNode) (i : Nat) (rest : SPath) :
    childListAt ns (i :: rest) = (ns[i]?).bind fun n => childListAt n.childrenOf rest := by
  cases rest with
  | nil =>
    cases h : ns[i]? with
    | none => simp [childListAt, nodeAt, h]
    | some n => simp [childListAt, nodeAt, h]
  | cons j t =>
    cases h : ns[i]? with
    | none => simp [childListAt, nodeAt, h]
    | some n =>
      cases hn : nodeAt n.childrenOf (j :: t) <;>
        simp [childListAt, nodeAt, h, hn]

/-- A successful `modifyChildrenO` run found the addressed child list,
applied `f` to it, and the modified document reads the new list back
at the same path. -/
theorem modifyChildrenO_inv :
    ∀ {p : SPath} {doc : List SNode} {f : List SNode → Option (List SNode)}
      {doc' : List SNode}, modifyChildrenO doc p f = some doc' →
    ∃ cs cs', childListAt doc p = some cs ∧ f cs = some cs' ∧
      childListAt doc' p = some cs' := by
  intro p
  induction p with
  | nil =>
    intro doc f doc' h
    exact ⟨doc, doc', rfl, h, rfl⟩
  | cons i rest ih =>
    intro doc f doc' h
    rw [modifyChildrenO] at h
    rcases hi : doc[i]? with _ | n
    · rw [hi] at h; cases h
    · rw [hi] at h
      cases n with
      | text s m => cases h
      | elem ty l v cs =>
        dsimp only at h
        rcases hrec : modifyChildrenO cs rest f with _ | inner
        · rw [hrec] at h; cases h
        · rw [hrec] at h
          simp only [Option.map_some'] at h
          obtain ⟨cs0, cs1, hcl, hf, hcl'⟩ := ih hrec
          refine ⟨cs0, cs1, ?_, hf, ?_⟩
          · rw [childListAt_cons, hi, Option.some_bind]
            exact hcl
          · cases h
            rw [childListAt_cons]
            have hlen : i < doc.length := by
              by_contra hlt
              rw [List.getElem?_eq_none (by omega)] at hi
              cases hi
            rw [List.getElem?_set_self hlen]
            simpa [SNode.childrenOf] using hcl'

/-- The sum of a node weight over a list. -/
def sumM {M : Type} [AddCommMonoid M] (μ : SNode → M) (ns : List SNode) : M :=
  (ns.map μ).sum

theorem sumM_nil {M : Type} [AddCommMonoid M] (μ : SNode → M) :
    sumM μ [] = 0 := rfl

theorem sumM_cons {M : Type} [AddCommMonoid M] (μ : SNode → M) (n : SNode)
    (ns : List SNode) : sumM μ (n :: ns) = μ n + sumM μ ns := by
  simp [sumM]

theorem sumM_append {M : Type} [AddCommMonoid M] (μ : SNode → M)
    (l1 l2 : List SNode) : sumM μ (l1 ++ l2) = sumM μ l1 + sumM μ l2 := by
  simp [sumM]

theorem sumM_set {M : Type} [AddCommMonoid M] (μ : SNode → M) :
    ∀ {l : List SNode} {i : Nat} (h : i < l.length) (a : SNode),
    sumM μ (l.set i a) + μ l[i] = sumM μ l + μ a := by
  intro l
  induction l with
  | nil => intro i h a; simp at h
  | cons x xs ihl =>
    intro i h a
    cases i with
    | zero =>
      simp only [List.set_cons_zero, List.getElem_cons_zero, sumM_cons]
      abel
    | succ j =>
      have hj : j < xs.length := by simpa using h
      simp only [List.set_cons_succ, List.getElem_cons_succ, sumM_cons]
      have hstep := ihl hj a
      calc μ x + sumM μ (xs.set j a) + μ xs[j]
          = μ x + (sumM μ (xs.set j a) + μ xs[j]) := by rw [add_assoc]
        _ = μ x + (sumM μ xs + μ a) := by rw [hstep]
        _ = μ x + sumM μ xs + μ a := by rw [add_assoc]

/-- A weight that decomposes as "own weight plus sum over children"
changes under `modifyChildrenO` exactly by the change of the modified
child list. -/
theorem modify_measure {M : Type} [AddCancelCommMonoid M] (μ : SNode → M)
    (hμ : ∀ ty l v cs, μ (.elem ty l v cs) = μ (.elem ty l v []) + sumM μ cs) :
    ∀ {p : SPath} {doc f doc' cs cs'}, modifyChildrenO doc p f = some doc' →
      childListAt doc p = some cs → f cs = some cs' →
      sumM μ doc + sumM μ cs' = sumM μ doc' + sumM μ cs := by
  intro p
  induction p with
  | nil =>
    intro doc f doc' cs cs' h hcl hf
    rw [childListAt] at hcl
    cases hcl
    rw [modifyChildrenO] at h
    rw [hf] at h
    cases h
    exact add_comm _ _
  | cons i rest ih =>
    intro doc f doc' cs cs' h hcl hf
    rw [modifyChildrenO] at h
    rcases hi : doc[i]? with _ | n
    · rw [hi] at h; cases h
    · rw [hi] at h
      cases n with
      | text s m => cases h
      | elem ty l v cs0 =>
        dsimp only at h
        rcases hrec : modifyChildrenO cs0 rest f with _ | inner
        · rw [hrec] at h; cases h
        · rw [hrec] at h
          simp only [Option.map_some'] at h
          rw [childListAt_cons, hi, Option.some_bind] at hcl
          have hstep := ih hrec hcl hf
          have hlen : i < doc.length := by
            by_contra hlt
            rw [List.getElem?_eq_none (by omega)] at hi
            cases hi
          cases h
          have hget : doc[i] = SNode.elem ty l v cs0 := by
            have h2 := List.getElem?_eq_getElem hlen
            rw [hi] at h2
            exact (Option.some.injEq _ _).mp h2.symm
          have hset := sumM_set μ hlen (SNode.elem ty l v inner)
          rw [hget] at hset
          apply add_right_cancel (b := μ (SNode.elem ty l v cs0))
          calc sumM μ doc + sumM μ cs' + μ (SNode.elem ty l v cs0)
              = sumM μ doc + (μ (SNode.elem ty l v []) + (sumM μ cs0 + sumM μ cs')) := by
                rw [hμ]; abel
            _ = sumM μ doc + (μ (SNode.elem ty l v []) + (sumM μ inner + sumM μ cs)) := by
                rw [hstep]
            _ = sumM μ doc + μ (SNode.elem ty l v inner) + sumM μ cs := by
                rw [hμ ty l v inner]; abel
            _ = sumM μ (doc.set i (SNode.elem ty l v inner)) +
                μ (SNode.elem ty l v cs0) + sumM μ cs := by
                  rw [← hset]
                  try abel
            _ = sumM μ (doc.set i (SNode.elem ty l v inner)) + sumM μ cs +
                μ (SNode.elem ty l v cs0) := by abel

theorem nodeAt_cons (ns : List SNode) (i : Nat) (rest : SPath) (hr : rest ≠ []) :
    nodeAt ns (i :: rest) = (ns[i]?).bind fun n => nodeAt n.childrenOf rest := by
  cases rest with
  | nil => exact absurd rfl hr
  | cons j t => cases h : ns[i]? <;> simp [nodeAt, h]

theorem nodeAt_append_child :
    ∀ {pref : SPath} {doc cs}, childListAt doc pref = some cs →
    ∀ j, nodeAt doc (pref ++ [j]) = cs[j]? := by
  intro pref
  induction pref with
  | nil =>
    intro doc cs h j
    rw [childListAt] at h
    cases h
    cases hj : doc[j]? <;> simp [nodeAt, hj]
  | cons i rest ih =>
    intro doc cs h j
    rw [childListAt_cons] at h
    cases hi : doc[i]? with
    | none => rw [hi] at h; cases h
    | some n =>
      rw [hi, Option.some_bind] at h
      rw [List.cons_append, nodeAt_cons _ _ _ (by simp), hi, Option.some_bind]
      exact ih h j

theorem splitLastP_eq {p : SPath} {pref : SPath} {j : Nat}
    (h : splitLastP p = some (pref, j)) : p = pref ++ [j] := by
  rw [splitLastP] at h
  cases hl : p.getLast? with
  | none => rw [hl] at h; cases h
  | some x =>
    rw [hl] at h
    cases h
    exact (List.dropLast_append_getLast? _ hl).symm

/-- Inserting a single node at a (nonempty) path slot makes it
readable back at that path. -/
theorem insert_singleton_readback {st : EState} {n : SNode} {p : SPath}
    {st' : EState} (h : stInsertNodesAtPath st [n] p = some st') :
    nodeAt st'.doc p = some n := by
  rw [stInsertNodesAtPath] at h
  simp only [List.isEmpty_cons, Bool.false_eq_true, if_false] at h
  rcases hin : insertAtPathD st.doc p [n] with _ | doc2
  · rw [hin] at h; cases h
  · rw [hin] at h
    simp only [Option.bind_eq_bind, Option.some_bind, Option.pure_def] at h
    cases h
    rw [insertAtPathD] at hin
    rcases hsp : splitLastP p with _ | pj
    · rw [hsp] at hin; cases hin
    · rw [hsp] at hin
      simp only [Option.some_bind] at hin
      obtain ⟨pref, j⟩ := pj
      obtain ⟨cs, cs', hcl, hf, hcl'⟩ := modifyChildrenO_inv hin
      have hle : j ≤ cs.length := by
        by_contra hgt
        simp only [if_neg hgt] at hf
        cases hf
      rw [if_pos hle] at hf
      have hcs' : cs' = cs.take j ++ [n] ++ cs.drop j := by
        exact (Option.some.injEq _ _).mp hf.symm
      subst hcs'
      rw [splitLastP_eq hsp]
      rw [nodeAt_append_child hcl' j]
      have hlen : (cs.take j).length = j := by
        simp [Nat.min_eq_left hle]
      rw [List.append_assoc, List.getElem?_append_right (by omega)]
      simp [hlen]

/-- A completed `engineInsertBreakFinish` run leaves, at the slot after the
unstamped ancestor, exactly one wrapper element of the ancestor kind; when the
hook minted stamp data the StampedElement is that wrapper's sole child. -/
theorem finish_readback (hook : Option StampData) (ancTy : String)
    (ancPath : SPath) (content : List SNode) (st1 st' : EState)
    (hf : engineInsertBreakFinish hook ancTy ancPath content st1 = .ok st') :
    ∃ kids, nodeAt st'.doc (pathNext ancPath) = some (.elem ancTy none none kids) ∧
      ∀ sd v, hook = some sd → sd.value = some v →
        ∃ c2, kids = [SNode.elem stampedBlockType (some sd.label) (some v) c2] := by
  rcases hook with _ | sd
  · rw [engineInsertBreakFinish.eq_def] at hf
    dsimp only at hf
    rcases hins : stInsertNodesAtPath st1 [SNode.elem ancTy none none content]
        (pathNext ancPath) with _ | st2
    · rw [hins] at hf; cases hf
    · rw [hins] at hf
      dsimp only at hf
      rcases hsp : startOf st2.doc (pathNext ancPath) with _ | sp
      · rw [hsp] at hf; cases hf
      · rw [hsp] at hf
        cases hf
        exact ⟨content, by simpa [stSetSel] using insert_singleton_readback hins,
          fun sd v hsd hv => by cases hsd⟩
  · obtain ⟨lb, val⟩ := sd
    rcases val with _ | v
    · rw [engineInsertBreakFinish.eq_def] at hf
      dsimp only at hf
      rcases hins : stInsertNodesAtPath st1 [SNode.elem ancTy none none content]
          (pathNext ancPath) with _ | st2
      · rw [hins] at hf; cases hf
      · rw [hins] at hf
        dsimp only at hf
        rcases hsp : startOf st2.doc (pathNext ancPath) with _ | sp
        · rw [hsp] at hf; cases hf
        · rw [hsp] at hf
          cases hf
          refine ⟨content, by simpa [stSetSel] using insert_singleton_readback hins, ?_⟩
          intro sd v hsd hv
          cases hsd
          cases hv
    · rw [engineInsertBreakFinish.eq_def] at hf
      dsimp only at hf
      rcases hins : stInsertNodesAtPath st1
          [SNode.elem ancTy none none
            [SNode.elem stampedBlockType (some lb) (some v) content]]
          (pathNext ancPath) with _ | st2
      · rw [hins] at hf; cases hf
      · rw [hins] at hf
        dsimp only at hf
        rcases hsp : startOf st2.doc (pathNext ancPath) with _ | sp
        · rw [hsp] at hf; cases hf
        · rw [hsp] at hf
          cases hf
          refine ⟨[SNode.elem stampedBlockType (some lb) (some v) content],
            by simpa [stSetSel] using insert_singleton_readback hins, ?_⟩
          intro sd v2 hsd hv
          cases hsd
          cases hv
          exact ⟨content, rfl⟩

/-! ## Claim C10 -/

/-- The shape of whatever a completed `insertBreak` core run inserts
after the unstamped ancestor. -/
theorem insertBreakCore_shape (hook : Option StampData) (st st' : EState)
    (h : engineInsertBreakCore hook st = .ok st') :
    ∃ r anc ancPath, st.sel = some r ∧
      getWrappingUnstampedAncestorAt st.doc r.basePath = some (anc, ancPath) ∧
      (anc.isStamped = false ∧ anc.isElem = true) ∧
      ∃ kids, nodeAt st'.doc (pathNext ancPath) = some (.elem anc.tyOf none none kids) ∧
        ∀ sd v, hook = some sd → sd.value = some v →
          kids = [.text [] []] ∨
          ∃ content, kids = [.elem stampedBlockType (some sd.label) (some v) content] := by
  rw [engineInsertBreakCore] at h
  rcases hsel : st.sel with _ | r
  · rw [hsel] at h; cases h
  · rw [hsel] at h
    dsimp only at h
    rcases hanc : getWrappingUnstampedAncestorAt st.doc r.basePath with _ | ancp
    · rw [hanc] at h; cases h
    · rw [hanc] at h
      obtain ⟨anc, ancPath⟩ := ancp
      have hancProps : anc.isStamped = false ∧ anc.isElem = true := by
        rw [getWrappingUnstampedAncestorAt, aboveAt] at hanc
        obtain ⟨q, hq1, hq2⟩ := List.exists_of_findSome?_eq_some hanc
        rcases hna : nodeAt st.doc q with _ | nn
        · rw [hna] at hq2; cases hq2
        · rw [hna] at hq2
          dsimp only at hq2
          by_cases hpred : (nn.isElem && !nn.isStamped) = true
          · rw [if_pos hpred] at hq2
            cases hq2
            simp only [Bool.and_eq_true, Bool.not_eq_eq_eq_not, Bool.not_true] at hpred
            exact ⟨by simpa using hpred.2, hpred.1⟩
          · rw [if_neg hpred] at hq2; cases hq2
      refine ⟨r, anc, ancPath, rfl, hanc, hancProps, ?_⟩
      dsimp only at h
      rcases hblk : getWrappingBlockAt st.doc r.basePath with _ | blkp
      · rw [hblk] at h; cases h
      · rw [hblk] at h
        obtain ⟨block, blockPath⟩ := blkp
        dsimp only at h
        rcases hbs : startOf st.doc blockPath with _ | blockStart
        · rw [hbs] at h; cases h
        · rcases hbe : endOf st.doc blockPath with _ | blockEnd
          · rw [hbs, hbe] at h; cases h
          · rw [hbs, hbe] at h
            dsimp only at h
            by_cases hend : r.focus = blockEnd
            · rw [if_pos hend] at h
              rcases hins : stInsertNodesAtPath st
                  [SNode.elem anc.tyOf none none [SNode.text [] []]]
                  (pathNext ancPath) with _ | st1
              · rw [hins] at h; cases h
              · rw [hins] at h
                dsimp only at h
                rcases hrg : rangeOf st1.doc (pathNext ancPath) with _ | rg
                · rw [hrg] at h; cases h
                · rw [hrg] at h
                  cases h
                  refine ⟨[SNode.text [] []], ?_, fun sd v _ _ => Or.inl rfl⟩
                  simpa [stSetSel] using insert_singleton_readback hins
            · rw [if_neg hend] at h
              by_cases hst : r.focus = blockStart
              · rw [if_pos hst] at h
                rcases hdel : transformsDeleteAt st ⟨blockStart, blockEnd⟩ with _ | st1
                · rw [hdel] at h; cases h
                · rw [hdel] at h
                  obtain ⟨kids, hk, hs⟩ := finish_readback hook anc.tyOf ancPath _ _ _ h
                  exact ⟨kids, hk, fun sd v hsd hv => Or.inr (hs sd v hsd hv)⟩
              · rw [if_neg hst] at h
                rcases hdel : transformsDeleteAt st ⟨r.anchor, blockEnd⟩ with _ | st1
                · rw [hdel] at h; cases h
                · rw [hdel] at h
                  obtain ⟨kids, hk, hs⟩ := finish_readback hook anc.tyOf ancPath _ _ _ h
                  exact ⟨kids, hk, fun sd v hsd hv => Or.inr (hs sd v hsd hv)⟩

/-- C10: every completed `insertBreak` inserts, immediately after the
unstamped ancestor of the (post-prelude) selection, a wrapper block of
the ancestor's own (non-stamped) kind; when stamp data is minted the
new StampedElement is not a direct sibling of the ancestor but the
sole child of that wrapper (the end-of-block branch inserts a plain
empty wrapper instead). -/
theorem c10_insertBreak_wrapper (hook : Option StampData) (st st' : EState)
    (h : engineInsertBreak hook st = .ok st') :
    ∃ st0, (st0 = st ∨ engineDeleteFragment st = .ok st0) ∧
    ∃ r anc ancPath, st0.sel = some r ∧
      getWrappingUnstampedAncestorAt st0.doc r.basePath = some (anc, ancPath) ∧
      (anc.isStamped = false ∧ anc.isElem = true) ∧
      ∃ kids, nodeAt st'.doc (pathNext ancPath) = some (.elem anc.tyOf none none kids) ∧
        ∀ sd v, hook = some sd → sd.value = some v →
          kids = [.text [] []] ∨
          ∃ content, kids = [.elem stampedBlockType (some sd.label) (some v) content] := by
  rw [engineInsertBreak] at h
  rcases hsel : st.sel with _ | r
  · rw [hsel] at h; cases h
  · rw [hsel] at h
    dsimp only at h
    by_cases hexp : r.isExpanded = true
    · rw [if_pos hexp] at h
      rcases hdf : engineDeleteFragment st with e | st0
      · rw [hdf] at h; cases h
      · rw [hdf] at h
        exact ⟨st0, Or.inr rfl, insertBreakCore_shape hook st0 st' h⟩
    · rw [if_neg hexp] at h
      exact ⟨st, Or.inl rfl, insertBreakCore_shape hook st st' h⟩

def c10wStart : EState :=
  { doc := [.elem "paragraph" none none [.text ['a'] []]],
    sel := some ⟨⟨[0, 0], 1⟩, ⟨[0, 0], 1⟩⟩, emarks := none }

def c10wRes : EState :=
  { doc := [.elem "paragraph" none none [.text ['a'] []],
      .elem "paragraph" none none [.text [] []]],
    sel := some ⟨⟨[1, 0], 0⟩, ⟨[1, 0], 0⟩⟩, emarks := none }

theorem c10_insertBreak_wrapper_witness :
    ∃ st0, (st0 = c10wStart ∨ engineDeleteFragment c10wStart = .ok st0) ∧
    ∃ r anc ancPath, st0.sel = some r ∧
      getWrappingUnstampedAncestorAt st0.doc r.basePath = some (anc, ancPath) ∧
      (anc.isStamped = false ∧ anc.isElem = true) ∧
      ∃ kids, nodeAt c10wRes.doc (pathNext ancPath) =
          some (.elem anc.tyOf none none kids) ∧
        ∀ sd v, (some (StampData.mk "2" (some 2)) : Option StampData) = some sd →
          sd.value = some v →
          kids = [.text [] []] ∨
          ∃ content, kids = [.elem stampedBlockType (some sd.label) (some v) content] :=
  c10_insertBreak_wrapper (some ⟨"2", some 2⟩) c10wStart c10wRes rfl

/-! ## Claim C3 -/

/-- The hook declined: `onStampInsert` returned the absent value or an
object whose `value` is the no-value sentinel. -/
def declinedP (hook : Option StampData) : Prop :=
  hook = none ∨ ∃ sd, hook = some sd ∧ sd.value = none

/-- C3: when `onStampInsert` declines (absent result or no-value
sentinel), the invocation creates no StampedElement and proceeds as a
plain unstamped insertion: `insertBreak` and `insertText` behave
exactly as with an absent hook; the absent-hook `insertText`, at the
point where the hook would have been consulted, is exactly the host's
plain text insertion at the caret; and the absent-hook `insertBreak`
tail inserts an unstamped wrapper holding exactly the carried-over
content — no StampedElement node is constructed. -/
theorem c3_declined_plain :
    (∀ hook st, declinedP hook →
       engineInsertBreak hook st = engineInsertBreak none st) ∧
    (∀ hook txt st, declinedP hook →
       engineInsertText hook txt st = engineInsertText none txt st) ∧
    (∀ txt st r block blockPath, st.sel = some r →
       getWrappingBlockAt st.doc r.basePath = some (block, blockPath) →
       (!block.isStamped && isBlockEmpty block) = true →
       engineInsertTextCore none txt st = liftO st (baseInsertText st txt)) ∧
    (∀ ancTy ancPath content st1 st',
       engineInsertBreakFinish none ancTy ancPath content st1 = .ok st' →
       nodeAt st'.doc (pathNext ancPath) = some (.elem ancTy none none content)) := by
  refine ⟨?_, ?_, ?_, ?_⟩
  · intro hook st hd
    rcases hd with h | ⟨sd, hsd, hv⟩
    · subst h; rfl
    · subst hsd
      obtain ⟨lb, val⟩ := sd
      have hv' : val = none := hv
      subst hv'
      rfl
  · intro hook txt st hd
    rcases hd with h | ⟨sd, hsd, hv⟩
    · subst h; rfl
    · subst hsd
      obtain ⟨lb, val⟩ := sd
      have hv' : val = none := hv
      subst hv'
      rfl
  · intro txt st r block blockPath hsel hblk hguard
    rw [engineInsertTextCore.eq_def]
    dsimp only
    rw [hsel]
    dsimp only
    rw [hblk]
    dsimp only
    rw [if_pos hguard]
  · intro ancTy ancPath content st1 st' hf
    rw [engineInsertBreakFinish.eq_def] at hf
    dsimp only at hf
    rcases hins : stInsertNodesAtPath st1 [SNode.elem ancTy none none content]
        (pathNext ancPath) with _ | st2
    · rw [hins] at hf; cases hf
    · rw [hins] at hf
      dsimp only at hf
      rcases hsp : startOf st2.doc (pathNext ancPath) with _ | sp
      · rw [hsp] at hf; cases hf
      · rw [hsp] at hf
        cases hf
        simpa [stSetSel] using insert_singleton_readback hins

def c3wStart : EState :=
  { doc := [.elem "paragraph" none none [.text [] []]],
    sel := some ⟨⟨[0, 0], 0⟩, ⟨[0, 0], 0⟩⟩, emarks := none }

theorem c3_declined_plain_witness :
    engineInsertText (some ⟨"z", (none : Option Int)⟩) ['A'] c3wStart =
      engineInsertText none ['A'] c3wStart ∧
    engineInsertTextCore none ['A'] c3wStart =
      liftO c3wStart (baseInsertText c3wStart ['A']) :=
  ⟨c3_declined_plain.2.1 (some ⟨"z", none⟩) ['A'] c3wStart
      (Or.inr ⟨⟨"z", none⟩, rfl, rfl⟩),
   c3_declined_plain.2.2.1 ['A'] c3wStart ⟨⟨[0, 0], 0⟩, ⟨[0, 0], 0⟩⟩
      (.elem "paragraph" none none [.text [] []]) [0] rfl rfl rfl⟩

/-! ## Claim C4 — stamp-freeness layer -/

theorem noStampList_mem : ∀ {l : List SNode},
    noStampList l = true ↔ ∀ n ∈ l, noStampNode n = true := by
  intro l
  induction l with
  | nil => simp [noStampList]
  | cons n ns ih =>
    rw [noStampList, Bool.and_eq_true, ih]
    simp

theorem noStampList_sub {l l' : List SNode} (hsub : l' ⊆ l)
    (h : noStampList l = true) : noStampList l' = true :=
  noStampList_mem.2 fun n hn => noStampList_mem.1 h n (hsub hn)

theorem noStampList_append {l1 l2 : List SNode} (h1 : noStampList l1 = true)
    (h2 : noStampList l2 = true) : noStampList (l1 ++ l2) = true := by
  refine noStampList_mem.2 fun n hn => ?_
  rcases List.mem_append.1 hn with h | h
  · exact noStampList_mem.1 h1 n h
  · exact noStampList_mem.1 h2 n h

theorem noStampList_cons {n : SNode} {l : List SNode}
    (h1 : noStampNode n = true) (h2 : noStampList l = true) :
    noStampList (n :: l) = true := by
  rw [noStampList, Bool.and_eq_true]
  exact ⟨h1, h2⟩

theorem noStampList_singleton {n : SNode} (h : noStampNode n = true) :
    noStampList [n] = true :=
  noStampList_cons h rfl

theorem noStampList_set {l : List SNode} {i : Nat} {a : SNode}
    (h : noStampList l = true) (ha : noStampNode a = true) :
    noStampList (l.set i a) = true := by
  refine noStampList_mem.2 fun n hn => ?_
  rcases List.mem_or_eq_of_mem_set hn with h1 | h1
  · exact noStampList_mem.1 h n h1
  · exact h1 ▸ ha

theorem noStamp_elem {ty : String} {lb : Option String} {v : Option Int}
    {cs : List SNode} (hty : (ty == stampedBlockType) = false)
    (hcs : noStampList cs = true) :
    noStampNode (.elem ty lb v cs) = true := by
  rw [noStampNode, Bool.and_eq_true]
  exact ⟨by simp [hty], hcs⟩

theorem noStamp_children {n : SNode} (h : noStampNode n = true) :
    noStampList n.childrenOf = true := by
  cases n with
  | text s m => rfl
  | elem ty lb v cs =>
    rw [noStampNode, Bool.and_eq_true] at h
    exact h.2

theorem noStamp_ty {n : SNode} (h : noStampNode n = true) :
    (n.tyOf == stampedBlockType) = false := by
  cases n with
  | text s m => simp [SNode.tyOf, stampedBlockType]
  | elem ty lb v cs =>
    rw [noStampNode, Bool.and_eq_true] at h
    simpa using h.1

theorem noStamp_isStamped {n : SNode} (h : noStampNode n = true) :
    n.isStamped = false := by
  cases n with
  | text s m => rfl
  | elem ty lb v cs =>
    rw [noStampNode, Bool.and_eq_true] at h
    simpa [SNode.isStamped] using h.1

theorem noStamp_getElem {l : List SNode} {i : Nat} {n : SNode}
    (h : noStampList l = true) (hi : l[i]? = some n) : noStampNode n = true :=
  noStampList_mem.1 h n (List.getElem?_mem hi)

/-- Subtrees of a stamp-free document are stamp-free. -/
theorem noStamp_nodeAt : ∀ {p : SPath} {doc : List SNode} {n : SNode},
    noStampList doc = true → nodeAt doc p = some n → noStampNode n = true := by
  intro p
  induction p with
  | nil => intro doc n _ h; cases h
  | cons i rest ih =>
    intro doc n hdoc h
    rw [nodeAt] at h
    rcases hi : doc[i]? with _ | m
    · rw [hi] at h; cases h
    · rw [hi] at h
      have hm : noStampNode m = true := noStamp_getElem hdoc hi
      cases rest with
      | nil => cases h; exact hm
      | cons j rest2 => exact ih (noStamp_children hm) h

theorem noStamp_childListAt {doc : List SNode} {p : SPath} {cs : List SNode}
    (hdoc : noStampList doc = true) (h : childListAt doc p = some cs) :
    noStampList cs = true := by
  cases p with
  | nil => cases h; exact hdoc
  | cons i rest =>
    have hdef : childListAt doc (i :: rest) =
        (nodeAt doc (i :: rest)).map SNode.childrenOf := rfl
    rw [hdef] at h
    rcases hn : nodeAt doc (i :: rest) with _ | n
    · rw [hn] at h; cases h
    · rw [hn] at h
      simp only [Option.map_some'] at h
      cases h
      exact noStamp_children (noStamp_nodeAt hdoc hn)

/-- `Editor.above` inversion: the returned entry is a real node of the
document satisfying the predicate. -/
theorem aboveAt_inv {doc : List SNode} {p : SPath} {pred : SNode → Bool}
    {n : SNode} {q : SPath} (h : aboveAt doc p pred = some (n, q)) :
    nodeAt doc q = some n ∧ pred n = true := by
  rw [aboveAt] at h
  obtain ⟨q0, hq1, hq2⟩ := List.exists_of_findSome?_eq_some h
  rcases hna : nodeAt doc q0 with _ | nn
  · rw [hna] at hq2; cases hq2
  · rw [hna] at hq2
    dsimp only at hq2
    by_cases hpred : pred nn = true
    · rw [if_pos hpred] at hq2
      cases hq2
      exact ⟨hna, hpred⟩
    · rw [if_neg hpred] at hq2; cases hq2

/-- In a stamp-free document there is no stamped ancestor anywhere. -/
theorem noStamp_aboveStamped {doc : List SNode} (hdoc : noStampList doc = true)
    (p : SPath) :
    aboveAt doc p (fun n => n.isElem && n.isStamped) = none := by
  rcases h : aboveAt doc p (fun n => n.isElem && n.isStamped) with _ | nq
  · rfl
  · obtain ⟨n, q⟩ := nq
    obtain ⟨hna, hpred⟩ := aboveAt_inv h
    rw [Bool.and_eq_true] at hpred
    rw [noStamp_isStamped (noStamp_nodeAt hdoc hna)] at hpred
    cases hpred.2

theorem liftO_ok {st st' : EState} {o : Option EState}
    (h : liftO st o = .ok st') : o = some st' := by
  cases o with
  | none => cases h
  | some s => cases h; rfl

/-- A stamp-free document stays stamp-free under `modifyChildrenO`
whenever the child-list transformation preserves stamp-freeness. -/
theorem modify_noStamp : ∀ {p : SPath} {doc : List SNode}
    {f : List SNode → Option (List SNode)} {doc' : List SNode},
    modifyChildrenO doc p f = some doc' → noStampList doc = true →
    (∀ cs cs', noStampList cs = true → f cs = some cs' →
      noStampList cs' = true) →
    noStampList doc' = true := by
  intro p
  induction p with
  | nil =>
    intro doc f doc' h hdoc hf
    exact hf doc doc' hdoc h
  | cons i rest ih =>
    intro doc f doc' h hdoc hf
    rw [modifyChildrenO] at h
    rcases hi : doc[i]? with _ | n
    · rw [hi] at h; cases h
    · rw [hi] at h
      cases n with
      | text s m => cases h
      | elem ty lb v cs =>
        dsimp only at h
        rcases hrec : modifyChildrenO cs rest f with _ | inner
        · rw [hrec] at h; cases h
        · rw [hrec] at h
          simp only [Option.map_some'] at h
          cases h
          have hn : noStampNode (SNode.elem ty lb v cs) = true :=
            noStamp_getElem hdoc hi
          rw [noStampNode, Bool.and_eq_true] at hn
          have hinner : noStampList inner = true :=
            ih hrec hn.2 hf
          exact noStampList_set hdoc
            (by rw [noStampNode, Bool.and_eq_true]; exact ⟨hn.1, hinner⟩)

theorem insertAtPathD_noStamp {doc : List SNode} {p : SPath} {ns doc' : List SNode}
    (h : insertAtPathD doc p ns = some doc') (hdoc : noStampList doc = true)
    (hns : noStampList ns = true) : noStampList doc' = true := by
  rw [insertAtPathD] at h
  simp only [Option.bind_eq_bind, Option.bind_eq_some] at h
  obtain ⟨⟨pref, j⟩, hsp, h⟩ := h
  refine modify_noStamp h hdoc ?_
  intro cs cs' hcs hf
  by_cases hle : j ≤ cs.length
  · rw [if_pos hle] at hf
    cases hf
    exact noStampList_append
      (noStampList_append (noStampList_sub (List.take_subset _ _) hcs) hns)
      (noStampList_sub (List.drop_subset _ _) hcs)
  · rw [if_neg hle] at hf; cases hf

theorem removeAtPathD_noStamp {doc : List SNode} {p : SPath} {doc' : List SNode}
    (h : removeAtPathD doc p = some doc') (hdoc : noStampList doc = true) :
    noStampList doc' = true := by
  rw [removeAtPathD] at h
  simp only [Option.bind_eq_bind, Option.bind_eq_some] at h
  obtain ⟨⟨pref, j⟩, hsp, h⟩ := h
  refine modify_noStamp h hdoc ?_
  intro cs cs' hcs hf
  by_cases hlt : j < cs.length
  · rw [if_pos hlt] at hf
    cases hf
    exact noStampList_sub (List.eraseIdx_subset _ _) hcs
  · rw [if_neg hlt] at hf; cases hf

theorem replaceAtPathD_noStamp {doc : List SNode} {p : SPath} {ns doc' : List SNode}
    (h : replaceAtPathD doc p ns = some doc') (hdoc : noStampList doc = true)
    (hns : noStampList ns = true) : noStampList doc' = true := by
  rw [replaceAtPathD] at h
  simp only [Option.bind_eq_bind, Option.bind_eq_some] at h
  obtain ⟨⟨pref, j⟩, hsp, h⟩ := h
  refine modify_noStamp h hdoc ?_
  intro cs cs' hcs hf
  by_cases hlt : j < cs.length
  · rw [if_pos hlt] at hf
    cases hf
    exact noStampList_append
      (noStampList_append (noStampList_sub (List.take_subset _ _) hcs) hns)
      (noStampList_sub (List.drop_subset _ _) hcs)
  · rw [if_neg hlt] at hf; cases hf

theorem modifyTextAt_noStamp {doc : List SNode} {p : SPath}
    {f : Str → Marks → SNode} {doc' : List SNode}
    (h : modifyTextAt doc p f = some doc') (hdoc : noStampList doc = true)
    (hf : ∀ s m, noStampNode (f s m) = true) : noStampList doc' = true := by
  rw [modifyTextAt] at h
  simp only [Option.bind_eq_bind, Option.bind_eq_some] at h
  obtain ⟨⟨pref, j⟩, hsp, h⟩ := h
  refine modify_noStamp h hdoc ?_
  intro cs cs' hcs hg
  rcases hj : cs[j]? with _ | n
  · rw [hj] at hg; cases hg
  · rw [hj] at hg
    cases n with
    | text s m =>
      cases hg
      exact noStampList_set hcs (hf s m)
    | elem ty lb v cs2 => cases hg

theorem stInsertTextAt_noStamp {st : EState} {p : SPath} {o : Nat} {txt : Str}
    {st' : EState} (h : stInsertTextAt st p o txt = some st')
    (hdoc : noStampList st.doc = true) : noStampList st'.doc = true := by
  rw [stInsertTextAt] at h
  by_cases he : txt.isEmpty = true
  · rw [if_pos he] at h; cases h; exact hdoc
  · rw [if_neg he] at h
    simp only [Option.bind_eq_bind, Option.bind_eq_some, Option.pure_def,
      Option.some.injEq] at h
    obtain ⟨doc2, hm, h⟩ := h
    cases h
    exact modifyTextAt_noStamp hm hdoc fun s m => rfl

theorem stRemoveTextAt_noStamp {st : EState} {p : SPath} {o len : Nat}
    {st' : EState} (h : stRemoveTextAt st p o len = some st')
    (hdoc : noStampList st.doc = true) : noStampList st'.doc = true := by
  rw [stRemoveTextAt] at h
  by_cases he : len = 0
  · rw [if_pos he] at h; cases h; exact hdoc
  · rw [if_neg he] at h
    simp only [Option.bind_eq_bind, Option.bind_eq_some, Option.pure_def,
      Option.some.injEq] at h
    obtain ⟨doc2, hm, h⟩ := h
    cases h
    exact modifyTextAt_noStamp hm hdoc fun s m => rfl

theorem stInsertNodesAtPath_noStamp {st : EState} {ns : List SNode} {p : SPath}
    {st' : EState} (h : stInsertNodesAtPath st ns p = some st')
    (hdoc : noStampList st.doc = true) (hns : noStampList ns = true) :
    noStampList st'.doc = true := by
  rw [stInsertNodesAtPath] at h
  by_cases he : ns.isEmpty = true
  · rw [if_pos he] at h; cases h; exact hdoc
  · rw [if_neg he] at h
    simp only [Option.bind_eq_bind, Option.bind_eq_some, Option.pure_def,
      Option.some.injEq] at h
    obtain ⟨doc2, hm, h⟩ := h
    cases h
    exact insertAtPathD_noStamp hm hdoc hns

theorem stRemoveNodeAtPath_noStamp {st : EState} {p : SPath} {st' : EState}
    (h : stRemoveNodeAtPath st p = some st')
    (hdoc : noStampList st.doc = true) : noStampList st'.doc = true := by
  rw [stRemoveNodeAtPath] at h
  simp only [Option.bind_eq_bind, Option.bind_eq_some, Option.pure_def,
    Option.some.injEq] at h
  obtain ⟨doc2, hm, h⟩ := h
  cases h
  exact removeAtPathD_noStamp hm hdoc

theorem stSplitTextOnly_noStamp {st : EState} {p : SPath} {off : Nat}
    {st' : EState} (h : stSplitTextOnly st p off = some st')
    (hdoc : noStampList st.doc = true) : noStampList st'.doc = true := by
  rw [stSplitTextOnly] at h
  simp only [Option.bind_eq_bind, Option.bind_eq_some] at h
  obtain ⟨s0, hs0, h⟩ := h
  by_cases he : off = 0 ∨ s0.length ≤ off
  · rw [if_pos he] at h; cases h; exact hdoc
  · rw [if_neg he] at h
    simp only [Option.bind_eq_bind, Option.bind_eq_some, Option.pure_def,
      Option.some.injEq] at h
    obtain ⟨m0, hm0, doc2, hrep, h⟩ := h
    cases h
    exact replaceAtPathD_noStamp hrep hdoc rfl

/-- Both halves of a `split_node` of a stamp-free subtree are
stamp-free. -/
theorem splitNodeRel_noStamp : ∀ {rel : SPath} {o : Nat} {n : SNode}
    {l r : SNode}, splitNodeRel rel o n = some (.parts l r) →
    noStampNode n = true → noStampNode l = true ∧ noStampNode r = true := by
  intro rel
  induction rel with
  | nil =>
    intro o n l r h hn
    cases n with
    | text s m =>
      rw [splitNodeRel] at h
      by_cases h0 : o = 0
      · rw [if_pos h0] at h; cases h
      · rw [if_neg h0] at h
        by_cases h1 : s.length ≤ o
        · rw [if_pos h1] at h; cases h
        · rw [if_neg h1] at h
          cases h
          exact ⟨rfl, rfl⟩
    | elem ty lb v cs => rw [splitNodeRel] at h; cases h
  | cons j rest ih =>
    intro o n l r h hn
    cases n with
    | text s m => rw [splitNodeRel] at h; cases h
    | elem ty lb v cs =>
      rw [splitNodeRel] at h
      rcases hj : cs[j]? with _ | c
      · rw [hj] at h; cases h
      · rw [hj] at h
        simp only [Option.map_eq_some'] at h
        obtain ⟨res, hres, h⟩ := h
        rw [noStampNode, Bool.and_eq_true] at hn
        have hc : noStampNode c = true := noStamp_getElem hn.2 hj
        cases res with
        | atStart =>
          dsimp only at h
          by_cases hz : j = 0
          · rw [if_pos hz] at h; cases h
          · rw [if_neg hz] at h
            cases h
            exact ⟨noStamp_elem (by simpa using hn.1)
                (noStampList_sub (List.take_subset _ _) hn.2),
              noStamp_elem (by simpa using hn.1)
                (noStampList_sub (List.drop_subset _ _) hn.2)⟩
        | atEnd =>
          dsimp only at h
          by_cases hz : j = cs.length - 1
          · rw [if_pos hz] at h; cases h
          · rw [if_neg hz] at h
            cases h
            exact ⟨noStamp_elem (by simpa using hn.1)
                (noStampList_sub (List.take_subset _ _) hn.2),
              noStamp_elem (by simpa using hn.1)
                (noStampList_sub (List.drop_subset _ _) hn.2)⟩
        | parts cl cr =>
          dsimp only at h
          cases h
          obtain ⟨hcl, hcr⟩ := ih hres hc
          refine ⟨noStamp_elem (by simpa using hn.1)
              (noStampList_append (noStampList_sub (List.take_subset _ _) hn.2)
                (noStampList_singleton hcl)), ?_⟩
          exact noStamp_elem (by simpa using hn.1)
            (noStampList_cons hcr (noStampList_sub (List.drop_subset _ _) hn.2))

theorem stSplitAtPoint_noStamp {st : EState} {pt : SPoint} {st' : EState}
    (h : stSplitAtPoint st pt = some st')
    (hdoc : noStampList st.doc = true) : noStampList st'.doc = true := by
  rw [stSplitAtPoint] at h
  rcases hblk : getWrappingBlockAt st.doc pt.path with _ | bq
  · rw [hblk] at h; cases h; exact hdoc
  · rw [hblk] at h
    obtain ⟨block, bp⟩ := bq
    dsimp only at h
    have hb : noStampNode block = true :=
      noStamp_nodeAt hdoc (aboveAt_inv hblk).1
    rcases hsp : splitNodeRel (pt.path.drop bp.length) pt.offset block with _ | res
    · rw [hsp] at h; cases h
    · rw [hsp] at h
      cases res with
      | atStart => cases h; exact hdoc
      | atEnd => cases h; exact hdoc
      | parts l r =>
        dsimp only at h
        simp only [Option.bind_eq_bind, Option.bind_eq_some, Option.pure_def,
          Option.some.injEq] at h
        obtain ⟨doc2, hrep, h⟩ := h
        cases h
        obtain ⟨hl, hr⟩ := splitNodeRel_noStamp hsp hb
        exact replaceAtPathD_noStamp hrep hdoc
          (noStampList_cons hl (noStampList_singleton hr))

theorem stMoveNode_noStamp {st : EState} {f t : SPath} {st' : EState}
    (h : stMoveNode st f t = some st')
    (hdoc : noStampList st.doc = true) : noStampList st'.doc = true := by
  rw [stMoveNode] at h
  by_cases hpre : isPrefixOfP f t = true
  · rw [if_pos hpre] at h; cases h
  · rw [if_neg hpre] at h
    simp only [Option.bind_eq_bind, Option.bind_eq_some, Option.pure_def,
      Option.some.injEq] at h
    obtain ⟨n, hn, doc1, hrem, t', ht', doc2, hins, h⟩ := h
    cases h
    exact insertAtPathD_noStamp hins (removeAtPathD_noStamp hrem hdoc)
      (noStampList_singleton (noStamp_nodeAt hdoc hn))

theorem stWrapNodeAt_noStamp {st : EState} {ty : String} {p : SPath}
    {st' : EState} (h : stWrapNodeAt st ty p = some st')
    (hty : (ty == stampedBlockType) = false)
    (hdoc : noStampList st.doc = true) : noStampList st'.doc = true := by
  rw [stWrapNodeAt] at h
  simp only [Option.bind_eq_bind, Option.bind_eq_some, Option.pure_def,
    Option.some.injEq] at h
  obtain ⟨n, hn, doc2, hrep, h⟩ := h
  cases h
  exact replaceAtPathD_noStamp hrep hdoc
    (noStampList_singleton (noStamp_elem hty
      (noStampList_singleton (noStamp_nodeAt hdoc hn))))

theorem stUnwrapAt_noStamp {st : EState} {p : SPath} {st' : EState}
    (h : stUnwrapAt st p = some st')
    (hdoc : noStampList st.doc = true) : noStampList st'.doc = true := by
  rw [stUnwrapAt] at h
  simp only [Option.bind_eq_bind, Option.bind_eq_some] at h
  obtain ⟨n, hn, h⟩ := h
  have hnf : noStampNode n = true := noStamp_nodeAt hdoc hn
  cases n with
  | text s m => cases h
  | elem ty lb v cs =>
    simp only [Option.bind_eq_bind, Option.bind_eq_some, Option.pure_def,
      Option.some.injEq] at h
    obtain ⟨⟨pref, j⟩, hsp, doc2, hmod, h⟩ := h
    cases h
    rw [noStampNode, Bool.and_eq_true] at hnf
    refine modify_noStamp hmod hdoc ?_
    intro l l' hl hf
    by_cases hlt : j < l.length
    · rw [if_pos hlt] at hf
      cases hf
      exact noStampList_append
        (noStampList_append (noStampList_sub (List.take_subset _ _) hl) hnf.2)
        (noStampList_sub (List.drop_subset _ _) hl)
    · rw [if_neg hlt] at hf; cases hf

theorem stMergeBlocks_noStamp {st : EState} {prevPath curPath : SPath}
    {st' : EState} (h : stMergeBlocks st prevPath curPath = some st')
    (hdoc : noStampList st.doc = true) : noStampList st'.doc = true := by
  rw [stMergeBlocks] at h
  simp only [Option.bind_eq_bind, Option.bind_eq_some] at h
  obtain ⟨cur, hcur, prev, hprev, h⟩ := h
  have hcn : noStampNode cur = true := noStamp_nodeAt hdoc hcur
  have hpn : noStampNode prev = true := noStamp_nodeAt hdoc hprev
  cases prev with
  | text s m => cases h
  | elem ty lb v pcs =>
    cases cur with
    | text s2 m2 => cases h
    | elem ty2 lb2 v2 ccs =>
      simp only [Option.bind_eq_bind, Option.bind_eq_some, Option.pure_def,
        Option.some.injEq] at h
      obtain ⟨doc1, hrep, doc2, hrem, h⟩ := h
      cases h
      rw [noStampNode, Bool.and_eq_true] at hcn hpn
      refine removeAtPathD_noStamp hrem
        (replaceAtPathD_noStamp hrep hdoc
          (noStampList_singleton ?_))
      exact noStamp_elem (by simpa using hpn.1) (noStampList_append hpn.2 hcn.2)

theorem stRemovePathsAux_noStamp : ∀ {ps : List SPath} {st : EState}
    {adj : SPath → Option SPath} {st' : EState},
    stRemovePathsAux st adj ps = some st' → noStampList st.doc = true →
    noStampList st'.doc = true := by
  intro ps
  induction ps with
  | nil =>
    intro st adj st' h hdoc
    cases h; exact hdoc
  | cons p rest ih =>
    intro st adj st' h hdoc
    rw [stRemovePathsAux] at h
    rcases ha : adj p with _ | p'
    · rw [ha] at h
      exact ih h hdoc
    · rw [ha] at h
      dsimp only at h
      rcases hrm : stRemoveNodeAtPath st p' with _ | st1
      · rw [hrm] at h; cases h
      · rw [hrm] at h
        exact ih h (stRemoveNodeAtPath_noStamp hrm hdoc)

theorem stRemoveMatchingInRange_noStamp {st : EState} {pred : SNode → Bool}
    {r : SRange} {st' : EState} (h : stRemoveMatchingInRange st pred r = some st')
    (hdoc : noStampList st.doc = true) : noStampList st'.doc = true := by
  rw [stRemoveMatchingInRange] at h
  exact stRemovePathsAux_noStamp h hdoc

theorem stRemoveBlocksAtSelection_noStamp {st : EState} {st' : EState}
    (h : stRemoveBlocksAtSelection st = some st')
    (hdoc : noStampList st.doc = true) : noStampList st'.doc = true := by
  rw [stRemoveBlocksAtSelection] at h
  rcases hsel : st.sel with _ | r
  · rw [hsel] at h; cases h; exact hdoc
  · rw [hsel] at h
    exact stRemoveMatchingInRange_noStamp h hdoc

theorem stUnwrapPathsAux_noStamp : ∀ {ps : List SPath} {st : EState}
    {adj : SPath → SPath} {st' : EState},
    stUnwrapPathsAux st adj ps = some st' → noStampList st.doc = true →
    noStampList st'.doc = true := by
  intro ps
  induction ps with
  | nil =>
    intro st adj st' h hdoc
    cases h; exact hdoc
  | cons p rest ih =>
    intro st adj st' h hdoc
    rw [stUnwrapPathsAux] at h
    rcases hu : stUnwrapAt st (adj p) with _ | st1
    · rw [hu] at h; cases h
    · rw [hu] at h
      exact ih h (stUnwrapAt_noStamp hu hdoc)

theorem stUnwrapAtSelection_noStamp {st : EState} {st' : EState}
    (h : stUnwrapAtSelection st = some st')
    (hdoc : noStampList st.doc = true) : noStampList st'.doc = true := by
  rw [stUnwrapAtSelection] at h
  rcases hsel : st.sel with _ | r
  · rw [hsel] at h; cases h; exact hdoc
  · rw [hsel] at h
    dsimp only at h
    exact stUnwrapPathsAux_noStamp h hdoc

theorem stRemovePathsTrack_noStamp : ∀ {ps : List SPath} {st : EState}
    {adj : SPath → Option SPath} {e : SPoint} {st' : EState} {e' : SPoint},
    stRemovePathsTrack st adj ps e = some (st', e') →
    noStampList st.doc = true → noStampList st'.doc = true := by
  intro ps
  induction ps with
  | nil =>
    intro st adj e st' e' h hdoc
    cases h; exact hdoc
  | cons p rest ih =>
    intro st adj e st' e' h hdoc
    rw [stRemovePathsTrack] at h
    rcases ha : adj p with _ | p'
    · rw [ha] at h
      exact ih h hdoc
    · rw [ha] at h
      dsimp only at h
      rcases hrm : stRemoveNodeAtPath st p' with _ | st1
      · rw [hrm] at h; cases h
      · rw [hrm] at h
        dsimp only at h
        rcases hsh : pathShiftRem p' e.path with _ | e2
        · rw [hsh] at h; cases h
        · rw [hsh] at h
          exact ih h (stRemoveNodeAtPath_noStamp hrm hdoc)

theorem stMergeAtPoint_noStamp {st : EState} {pt : SPoint} {st' : EState}
    (h : stMergeAtPoint st pt = some st')
    (hdoc : noStampList st.doc = true) : noStampList st'.doc = true := by
  rw [stMergeAtPoint] at h
  rcases hblk : getWrappingBlockAt st.doc pt.path with _ | bq
  · rw [hblk] at h; cases h; exact hdoc
  · rw [hblk] at h
    obtain ⟨b0, path⟩ := bq
    dsimp only at h
    rcases hprev : prevBlockEntry st.doc path with _ | pq
    · rw [hprev] at h; cases h; exact hdoc
    · rw [hprev] at h
      obtain ⟨prevPath, prevNode⟩ := pq
      by_cases hsib : pathParent path = pathParent prevPath
      · simp only [if_pos hsib, Option.pure_def, Option.some_bind] at h
        split at h
        · exact stRemoveNodeAtPath_noStamp h hdoc
        · exact stMergeBlocks_noStamp h hdoc
      · simp only [if_neg hsib] at h
        rcases hmv : stMoveNode st path (pathNext prevPath) with _ | st1
        · rw [hmv] at h
          simp only [Option.bind_eq_bind, Option.none_bind] at h
          cases h
        · rw [hmv] at h
          simp only [Option.bind_eq_bind, Option.some_bind] at h
          have hd1 : noStampList st1.doc = true := stMoveNode_noStamp hmv hdoc
          rcases hemp : emptyAncestorPath st.doc path prevPath with _ | ap
          · rw [hemp] at h
            simp only [Option.pure_def, Option.some_bind] at h
            split at h
            · exact stRemoveNodeAtPath_noStamp h hd1
            · exact stMergeBlocks_noStamp h hd1
          · rw [hemp] at h
            dsimp only at h
            rcases hrm : stRemoveNodeAtPath st1
                (pathShiftIns (pathNext prevPath) 1 ap) with _ | st2
            · rw [hrm] at h
              simp only [Option.bind_eq_bind, Option.none_bind] at h
              cases h
            · rw [hrm] at h
              simp only [Option.bind_eq_bind, Option.some_bind,
                Option.pure_def] at h
              have hd2 : noStampList st2.doc = true :=
                stRemoveNodeAtPath_noStamp hrm hd1
              rcases hc2 : pathShiftRem (pathShiftIns (pathNext prevPath) 1 ap)
                  (pathNext prevPath) with _ | cur2
              · rw [hc2] at h
                simp only [Option.none_bind] at h
                cases h
              · rw [hc2] at h
                simp only [Option.some_bind] at h
                rcases hp2 : pathShiftRem (pathShiftIns (pathNext prevPath) 1 ap)
                    prevPath with _ | prev2
                · rw [hp2] at h
                  simp only [Option.none_bind] at h
                  cases h
                · rw [hp2] at h
                  simp only [Option.some_bind] at h
                  split at h
                  · exact stRemoveNodeAtPath_noStamp h hd2
                  · exact stMergeBlocks_noStamp h hd2

theorem stDeleteRange_noStamp {st : EState} {r : SRange} {hanging : Bool}
    {st' : EState} (h : stDeleteRange st r hanging = some st')
    (hdoc : noStampList st.doc = true) : noStampList st'.doc = true := by
  rw [stDeleteRange] at h
  dsimp only at h
  generalize (if hanging then r
      else if (endOf st.doc []).any fun de => de = r.endPt then r
      else unhangRange st.doc r) = r1 at h
  by_cases hse : r1.startPt = r1.endPt
  · rw [if_pos hse] at h
    cases h; exact hdoc
  · rw [if_neg hse] at h
    by_cases hsing : r1.startPt.path = r1.endPt.path
    · simp only [if_pos hsing, Option.pure_def, Option.some_bind,
        Option.bind_eq_bind, Option.bind_eq_some, Option.some.injEq] at h
      obtain ⟨⟨st2, e2⟩, htr, st3, hst3, h⟩ := h
      have hd2 : noStampList st2.doc = true :=
        stRemovePathsTrack_noStamp htr hdoc
      have hd3 : noStampList st3.doc = true :=
        stRemoveTextAt_noStamp hst3 hd2
      cases h; exact hd3
    · simp only [if_neg hsing, Option.pure_def, Option.bind_eq_bind,
        Option.bind_eq_some] at h
      obtain ⟨st1, hst1, ⟨st2, e2⟩, htr, st3, hst3, h⟩ := h
      have hd1 : noStampList st1.doc = true :=
        stRemoveTextAt_noStamp hst1 hdoc
      have hd2 : noStampList st2.doc = true :=
        stRemovePathsTrack_noStamp htr hd1
      have hd3 : noStampList st3.doc = true :=
        stRemoveTextAt_noStamp hst3 hd2
      split at h
      · exact stMergeAtPoint_noStamp h hd3
      · cases h; exact hd3

theorem transformsDeleteSel_noStamp {st : EState} {st' : EState}
    (h : transformsDeleteSel st = some st')
    (hdoc : noStampList st.doc = true) : noStampList st'.doc = true := by
  rw [transformsDeleteSel] at h
  rcases hsel : st.sel with _ | r
  · rw [hsel] at h; cases h; exact hdoc
  · rw [hsel] at h
    dsimp only at h
    split at h
    · exact stDeleteRange_noStamp h hdoc
    · rcases hx : (afterPt st.doc r.anchor <|> endOf st.doc []) with _ | t
      · rw [hx] at h; cases h; exact hdoc
      · rw [hx] at h
        exact stDeleteRange_noStamp h hdoc

theorem transformsDeleteAt_noStamp {st : EState} {r : SRange} {st' : EState}
    (h : transformsDeleteAt st r = some st')
    (hdoc : noStampList st.doc = true) : noStampList st'.doc = true := by
  rw [transformsDeleteAt] at h
  split at h
  · rcases hx : (afterPt st.doc r.anchor <|> endOf st.doc []) with _ | t
    · rw [hx] at h; cases h; exact hdoc
    · rw [hx] at h
      exact stDeleteRange_noStamp h hdoc
  · exact stDeleteRange_noStamp h hdoc

theorem transformsDeleteReverseChar_noStamp {st : EState} {st' : EState}
    (h : transformsDeleteReverseChar st = some st')
    (hdoc : noStampList st.doc = true) : noStampList st'.doc = true := by
  rw [transformsDeleteReverseChar] at h
  rcases hsel : st.sel with _ | r
  · rw [hsel] at h; cases h; exact hdoc
  · rw [hsel] at h
    dsimp only at h
    by_cases hexp : r.isExpanded = true
    · rw [if_pos hexp] at h
      exact stDeleteRange_noStamp h hdoc
    · rw [if_neg hexp] at h
      rcases hx : (beforePt st.doc r.anchor <|> startOf st.doc []) with _ | t
      · rw [hx] at h; cases h; exact hdoc
      · rw [hx] at h
        dsimp only at h
        by_cases hta : t = r.anchor
        · rw [if_pos hta] at h; cases h; exact hdoc
        · rw [if_neg hta] at h
          exact stDeleteRange_noStamp h hdoc

theorem fragmentOf_noStamp {cs : List SNode} {a b : SPoint}
    (hcs : noStampList cs = true) : noStampList (fragmentOf cs a b) = true := by
  refine noStampList_mem.2 fun x hx => ?_
  rw [fragmentOf] at hx
  obtain ⟨i, hi, hf⟩ := List.mem_filterMap.1 hx
  split at hf
  · cases hf
  · rcases hci : cs[i]? with _ | n
    · rw [hci] at hf; cases hf
    · rw [hci] at hf
      cases n with
      | text str m =>
        dsimp only at hf
        cases hf
        rfl
      | elem ty lb v cs2 =>
        cases hf
        exact noStamp_getElem hcs hci

theorem stInsertNodesAtPoint_noStamp {st : EState} {ns : List SNode}
    {pt : SPoint} {st' : EState} (h : stInsertNodesAtPoint st ns pt = some st')
    (hdoc : noStampList st.doc = true) (hns : noStampList ns = true) :
    noStampList st'.doc = true := by
  rw [stInsertNodesAtPoint] at h
  split at h
  · cases h; exact hdoc
  · rcases hhd : (subLeaves st.doc pt.path).head? with _ | q
    · rw [hhd] at h; cases h; exact hdoc
    · rw [hhd] at h
      dsimp only at h
      simp only [Option.bind_eq_bind, Option.bind_eq_some] at h
      obtain ⟨st1, hst1, h⟩ := h
      exact stInsertNodesAtPath_noStamp h
        (stSplitTextOnly_noStamp hst1 hdoc) hns

theorem stInsertNodesAtRange_noStamp {st : EState} {ns : List SNode}
    {r : SRange} {st' : EState} (h : stInsertNodesAtRange st ns r = some st')
    (hdoc : noStampList st.doc = true) (hns : noStampList ns = true) :
    noStampList st'.doc = true := by
  rw [stInsertNodesAtRange] at h
  split at h
  · exact stInsertNodesAtPoint_noStamp h hdoc hns
  · simp only [Option.bind_eq_bind, Option.bind_eq_some] at h
    obtain ⟨stG, hstG, ePt, hePt, stR, hstR, h⟩ := h
    exact stInsertNodesAtPoint_noStamp h
      (stDeleteRange_noStamp hstR hdoc) hns

theorem transformsInsertTextSel_noStamp {st : EState} {txt : Str} {st' : EState}
    (h : transformsInsertTextSel st txt = some st')
    (hdoc : noStampList st.doc = true) : noStampList st'.doc = true := by
  rw [transformsInsertTextSel] at h
  rcases hsel : st.sel with _ | r
  · rw [hsel] at h; cases h; exact hdoc
  · rw [hsel] at h
    dsimp only at h
    split at h
    · simp only [Option.bind_eq_bind, Option.bind_eq_some] at h
      obtain ⟨st1, hst1, h⟩ := h
      have hd1 : noStampList st1.doc = true :=
        stDeleteRange_noStamp hst1 hdoc
      rcases hs1 : st1.sel with _ | r1
      · rw [hs1] at h; cases h; exact hd1
      · rw [hs1] at h
        exact stInsertTextAt_noStamp h hd1
    · exact stInsertTextAt_noStamp h hdoc

theorem baseInsertText_noStamp {st : EState} {txt : Str} {st' : EState}
    (h : baseInsertText st txt = some st')
    (hdoc : noStampList st.doc = true) : noStampList st'.doc = true := by
  rw [baseInsertText] at h
  rcases hsel : st.sel with _ | r
  · rw [hsel] at h; cases h; exact hdoc
  · rw [hsel] at h
    dsimp only at h
    rcases hem : st.emarks with _ | m
    · rw [hem] at h
      dsimp only at h
      simp only [Option.bind_eq_bind, Option.bind_eq_some, Option.pure_def,
        Option.some.injEq] at h
      obtain ⟨stM, hstM, h⟩ := h
      have hM : noStampList stM.doc = true :=
        transformsInsertTextSel_noStamp hstM hdoc
      cases h
      exact hM
    · rw [hem] at h
      dsimp only at h
      by_cases hexp : r.isExpanded = true
      · rw [if_pos hexp] at h
        rcases hdel : stDeleteRange
            { doc := st.doc, sel := some ⟨r.endPt, r.endPt⟩, emarks := some m }
            ⟨r.startPt, r.endPt⟩ false with _ | st1
        · rw [hdel] at h
          simp only [Option.bind_eq_bind, Option.none_bind] at h
          cases h
        · rw [hdel] at h
          simp only [Option.bind_eq_bind, Option.some_bind] at h
          have hd1 : noStampList st1.doc = true :=
            stDeleteRange_noStamp hdel hdoc
          rcases hs1 : st1.sel with _ | r1
          · rw [hs1] at h
            dsimp only at h
            simp only [Option.pure_def, Option.bind_eq_bind, Option.some_bind,
              Option.some.injEq] at h
            cases h
            exact hd1
          · rw [hs1] at h
            dsimp only at h
            simp only [Option.pure_def, Option.bind_eq_bind, Option.bind_eq_some,
              Option.some_bind, Option.some.injEq] at h
            obtain ⟨st2, hst2, h⟩ := h
            cases h
            show noStampList st2.doc = true
            exact stInsertNodesAtPoint_noStamp hst2 hd1 (noStampList_singleton rfl)
      · rw [if_neg hexp] at h
        simp only [Option.pure_def, Option.bind_eq_bind, Option.some_bind] at h
        rw [hsel] at h
        dsimp only at h
        simp only [Option.bind_eq_some, Option.some.injEq] at h
        obtain ⟨st2, hst2, h⟩ := h
        cases h
        show noStampList st2.doc = true
        exact stInsertNodesAtPoint_noStamp hst2 hdoc (noStampList_singleton rfl)

theorem baseDeleteBackward_noStamp {st : EState} {st' : EState}
    (h : baseDeleteBackward st = some st')
    (hdoc : noStampList st.doc = true) : noStampList st'.doc = true := by
  rw [baseDeleteBackward] at h
  rcases hsel : st.sel with _ | r
  · rw [hsel] at h; cases h; exact hdoc
  · rw [hsel] at h
    dsimp only at h
    split at h
    · exact transformsDeleteReverseChar_noStamp h hdoc
    · cases h; exact hdoc

theorem stCollapseStart_doc (st : EState) : (stCollapseStart st).doc = st.doc := by
  rw [stCollapseStart]
  rcases h : st.sel with _ | r
  · rfl
  · rfl

theorem unstamped_ty {n : SNode} (he : (n.isElem && !n.isStamped) = true) :
    (n.tyOf == stampedBlockType) = false := by
  cases n with
  | text s m => simp [SNode.isElem] at he
  | elem ty lb v cs =>
    simp only [SNode.isStamped, Bool.and_eq_true, Bool.not_eq_eq_eq_not,
      Bool.not_true] at he
    simpa [SNode.tyOf] using he.2

theorem engineDeleteFragment_noStamp {st st' : EState}
    (h : engineDeleteFragment st = .ok st')
    (hdoc : noStampList st.doc = true) : noStampList st'.doc = true := by
  rw [engineDeleteFragment] at h
  rcases hsel : st.sel with _ | selection
  · rw [hsel] at h; cases h
  · rw [hsel] at h
    dsimp only at h
    rcases hsb : getWrappingBlockAt st.doc selection.startPt.path with _ | sb
    · rw [hsb] at h; cases h
    · rw [hsb] at h
      obtain ⟨sbn, sbp⟩ := sb
      dsimp only at h
      rcases heb : getWrappingBlockAt st.doc selection.endPt.path with _ | eb
      · rw [heb] at h; cases h
      · rw [heb] at h
        obtain ⟨ebn, ebp⟩ := eb
        dsimp only at h
        rcases hbs : startOf st.doc sbp with _ | bs
        · rw [hbs] at h; cases h
        · rcases hbe : endOf st.doc sbp with _ | be
          · rw [hbs, hbe] at h; cases h
          · rw [hbs, hbe] at h
            dsimp only at h
            split at h
            · exact transformsDeleteSel_noStamp (liftO_ok h) hdoc
            · rcases hanc : getWrappingUnstampedAncestorAt st.doc
                  selection.startPt.path with _ | anc
              · rw [hanc] at h; cases h
              · rw [hanc] at h
                obtain ⟨ancN, ancPath⟩ := anc
                dsimp only at h
                rcases hrs : startOf st.doc (pathNext ancPath) with _ | rmStart
                · rw [hrs] at h; cases h
                · rw [hrs] at h
                  dsimp only at h
                  rcases hrm : stRemoveMatchingInRange st
                      (fun n => n.isElem && !n.isStamped)
                      ⟨rmStart, selection.endPt⟩ with _ | st1
                  · rw [hrm] at h; cases h
                  · rw [hrm] at h
                    dsimp only at h
                    have hd1 : noStampList st1.doc = true :=
                      stRemoveMatchingInRange_noStamp hrm hdoc
                    rcases hae : endOf st1.doc ancPath with _ | ancEnd
                    · rw [hae] at h; cases h
                    · rw [hae] at h
                      dsimp only at h
                      rcases hins : stInsertNodesAtRange st1 _
                          ⟨selection.startPt, ancEnd⟩ with _ | st2
                      · rw [hins] at h; cases h
                      · rw [hins] at h
                        cases h
                        rw [stCollapseStart_doc]
                        refine stInsertNodesAtRange_noStamp hins hd1 ?_
                        exact fragmentOf_noStamp
                          (noStamp_children (noStamp_nodeAt hdoc (aboveAt_inv heb).1))

theorem engineInsertBreakFinish_noStamp {hook : Option StampData}
    {ancTy : String} {ancPath : SPath} {content : List SNode} {st1 st' : EState}
    (h : engineInsertBreakFinish hook ancTy ancPath content st1 = .ok st')
    (hdecl : declinedP hook) (hty : (ancTy == stampedBlockType) = false)
    (hc : noStampList content = true) (hd1 : noStampList st1.doc = true) :
    noStampList st'.doc = true := by
  have he : engineInsertBreakFinish hook = engineInsertBreakFinish none := by
    rcases hdecl with h0 | ⟨sd, hsd, hv⟩
    · subst h0; rfl
    · subst hsd
      obtain ⟨lb, val⟩ := sd
      have hv' : val = none := hv
      subst hv'
      rfl
  rw [he, engineInsertBreakFinish.eq_def] at h
  dsimp only at h
  rcases hins : stInsertNodesAtPath st1 [SNode.elem ancTy none none content]
      (pathNext ancPath) with _ | st2
  · rw [hins] at h; cases h
  · rw [hins] at h
    dsimp only at h
    rcases hsp : startOf st2.doc (pathNext ancPath) with _ | sp
    · rw [hsp] at h; cases h
    · rw [hsp] at h
      cases h
      show noStampList st2.doc = true
      exact stInsertNodesAtPath_noStamp hins hd1
        (noStampList_singleton (noStamp_elem hty hc))

theorem engineInsertBreakCore_noStamp {hook : Option StampData} {st st' : EState}
    (h : engineInsertBreakCore hook st = .ok st') (hdecl : declinedP hook)
    (hdoc : noStampList st.doc = true) : noStampList st'.doc = true := by
  rw [engineInsertBreakCore] at h
  rcases hsel : st.sel with _ | r
  · rw [hsel] at h; cases h
  · rw [hsel] at h
    dsimp only at h
    rcases hanc : getWrappingUnstampedAncestorAt st.doc r.basePath with _ | ancp
    · rw [hanc] at h; cases h
    · rw [hanc] at h
      obtain ⟨anc, ancPath⟩ := ancp
      dsimp only at h
      have hty : (anc.tyOf == stampedBlockType) = false :=
        unstamped_ty (aboveAt_inv hanc).2
      rcases hblk : getWrappingBlockAt st.doc r.basePath with _ | blkp
      · rw [hblk] at h; cases h
      · rw [hblk] at h
        obtain ⟨block, blockPath⟩ := blkp
        dsimp only at h
        have hbn : noStampList block.childrenOf = true :=
          noStamp_children (noStamp_nodeAt hdoc (aboveAt_inv hblk).1)
        rcases hbs : startOf st.doc blockPath with _ | blockStart
        · rw [hbs] at h; cases h
        · rcases hbe : endOf st.doc blockPath with _ | blockEnd
          · rw [hbs, hbe] at h; cases h
          · rw [hbs, hbe] at h
            dsimp only at h
            by_cases hend : r.focus = blockEnd
            · rw [if_pos hend] at h
              rcases hins : stInsertNodesAtPath st
                  [SNode.elem anc.tyOf none none [SNode.text [] []]]
                  (pathNext ancPath) with _ | st1
              · rw [hins] at h; cases h
              · rw [hins] at h
                dsimp only at h
                rcases hrg : rangeOf st1.doc (pathNext ancPath) with _ | rg
                · rw [hrg] at h; cases h
                · rw [hrg] at h
                  cases h
                  show noStampList st1.doc = true
                  exact stInsertNodesAtPath_noStamp hins hdoc
                    (noStampList_singleton (noStamp_elem hty rfl))
            · rw [if_neg hend] at h
              by_cases hst : r.focus = blockStart
              · rw [if_pos hst] at h
                rcases hdel : transformsDeleteAt st ⟨blockStart, blockEnd⟩ with _ | st1
                · rw [hdel] at h; cases h
                · rw [hdel] at h
                  exact engineInsertBreakFinish_noStamp h hdecl hty hbn
                    (transformsDeleteAt_noStamp hdel hdoc)
              · rw [if_neg hst] at h
                rcases hdel : transformsDeleteAt st ⟨r.anchor, blockEnd⟩ with _ | st1
                · rw [hdel] at h; cases h
                · rw [hdel] at h
                  exact engineInsertBreakFinish_noStamp h hdecl hty
                    (fragmentOf_noStamp hbn)
                    (transformsDeleteAt_noStamp hdel hdoc)

theorem engineInsertBreak_noStamp {hook : Option StampData} {st st' : EState}
    (h : engineInsertBreak hook st = .ok st') (hdecl : declinedP hook)
    (hdoc : noStampList st.doc = true) : noStampList st'.doc = true := by
  rw [engineInsertBreak] at h
  rcases hsel : st.sel with _ | r
  · rw [hsel] at h; cases h
  · rw [hsel] at h
    dsimp only at h
    split at h
    · rcases hdf : engineDeleteFragment st with e | st0
      · rw [hdf] at h; cases h
      · rw [hdf] at h
        exact engineInsertBreakCore_noStamp h hdecl
          (engineDeleteFragment_noStamp hdf hdoc)
    · exact engineInsertBreakCore_noStamp h hdecl hdoc

theorem engineInsertTextCore_noStamp {hook : Option StampData} {txt : Str}
    {st st' : EState} (h : engineInsertTextCore hook txt st = .ok st')
    (hdecl : declinedP hook) (hdoc : noStampList st.doc = true) :
    noStampList st'.doc = true := by
  have he : engineInsertTextCore hook = engineInsertTextCore none := by
    rcases hdecl with h0 | ⟨sd, hsd, hv⟩
    · subst h0; rfl
    · subst hsd
      obtain ⟨lb, val⟩ := sd
      have hv' : val = none := hv
      subst hv'
      rfl
  rw [he, engineInsertTextCore.eq_def] at h
  dsimp only at h
  rcases hsel : st.sel with _ | r
  · rw [hsel] at h; cases h
  · rw [hsel] at h
    dsimp only at h
    rcases hblk : getWrappingBlockAt st.doc r.basePath with _ | blkp
    · rw [hblk] at h; cases h
    · rw [hblk] at h
      obtain ⟨block, blockPath⟩ := blkp
      dsimp only at h
      split at h
      · exact baseInsertText_noStamp (liftO_ok h) hdoc
      · exact baseInsertText_noStamp (liftO_ok h) hdoc

theorem engineInsertText_noStamp {hook : Option StampData} {txt : Str}
    {st st' : EState} (h : engineInsertText hook txt st = .ok st')
    (hdecl : declinedP hook) (hdoc : noStampList st.doc = true) :
    noStampList st'.doc = true := by
  rw [engineInsertText] at h
  rcases hsel : st.sel with _ | r
  · rw [hsel] at h; cases h
  · rw [hsel] at h
    dsimp only at h
    split at h
    · rcases hdf : engineDeleteFragment st with e | st0
      · rw [hdf] at h; cases h
      · rw [hdf] at h
        exact engineInsertTextCore_noStamp h hdecl
          (engineDeleteFragment_noStamp hdf hdoc)
    · exact engineInsertTextCore_noStamp h hdecl hdoc

theorem engineDeleteBackward_noStamp {st st' : EState}
    (h : engineDeleteBackward st = .ok st')
    (hdoc : noStampList st.doc = true) : noStampList st'.doc = true := by
  rw [engineDeleteBackward] at h
  rcases hsel : st.sel with _ | selection
  · rw [hsel] at h; cases h
  · rw [hsel] at h
    dsimp only at h
    rcases hblk : getWrappingBlockAt st.doc selection.basePath with _ | blkp
    · rw [hblk] at h; cases h
    · rw [hblk] at h
      obtain ⟨block, blockPath⟩ := blkp
      dsimp only at h
      rcases hbs : startOf st.doc blockPath with _ | blockStart
      · rw [hbs] at h; cases h
      · rw [hbs] at h
        dsimp only at h
        split at h
        · have hbst : block.isStamped = false :=
            noStamp_isStamped (noStamp_nodeAt hdoc (aboveAt_inv hblk).1)
          rw [hbst] at h
          simp only [Bool.false_eq_true, if_false] at h
          have hsab : (beforePt st.doc selection.anchor).bind
              (fun pb => (aboveAt st.doc pb.path
                fun n => n.isElem && n.isStamped).map fun _ => pb) = none := by
            rcases hpb : beforePt st.doc selection.anchor with _ | pb
            · rfl
            · rw [Option.some_bind, noStamp_aboveStamped hdoc pb.path]
              rfl
          rw [hsab] at h
          exact baseDeleteBackward_noStamp (liftO_ok h) hdoc
        · exact baseDeleteBackward_noStamp (liftO_ok h) hdoc

theorem engineNormalizeAt_noStamp {st : EState} {path : SPath} {st' : EState}
    (h : engineNormalizeAt st path = some st')
    (hdoc : noStampList st.doc = true) : noStampList st'.doc = true := by
  rw [engineNormalizeAt] at h
  rcases hn : nodeAt st.doc path with _ | n
  · rw [hn] at h; cases h; exact hdoc
  · rw [hn] at h
    cases n with
    | elem ty lb v cs => cases h; exact hdoc
    | text s m =>
      dsimp only at h
      rcases hu : findUNL s with _ | ni
      · rw [hu] at h; cases h; exact hdoc
      · rw [hu] at h
        dsimp only at h
        rcases hanc : getWrappingUnstampedAncestorAt st.doc path with _ | ancp
        · rw [hanc] at h; cases h; exact hdoc
        · rw [hanc] at h
          obtain ⟨anc, ancPath⟩ := ancp
          dsimp only at h
          simp only [Option.bind_eq_bind, Option.bind_eq_some] at h
          obtain ⟨st1, hst1, h⟩ := h
          have hd1 : noStampList st1.doc = true :=
            stSplitAtPoint_noStamp hst1 hdoc
          rcases ht : (afterPt st1.doc ⟨path, ni⟩ <|> endOf st1.doc []) with _ | t
          · rw [ht] at h
            simp only [Option.some_bind] at h
            split at h
            · cases h; exact hd1
            · rw [noStamp_aboveStamped hd1 path] at h
              cases h; exact hd1
          · rw [ht] at h
            simp only [Option.bind_eq_bind, Option.bind_eq_some] at h
            obtain ⟨st2, hst2, h⟩ := h
            have hd2 : noStampList st2.doc = true :=
              stDeleteRange_noStamp hst2 hd1
            split at h
            · cases h; exact hd2
            · rw [noStamp_aboveStamped hd2 path] at h
              cases h; exact hd2

theorem normalizeFixGo_noStamp : ∀ {fuel : Nat} {st st' : EState},
    normalizeFixGo fuel st = .ok st' → noStampList st.doc = true →
    noStampList st'.doc = true := by
  intro fuel
  induction fuel with
  | zero =>
    intro st st' h hdoc
    cases h; exact hdoc
  | succ n ih =>
    intro st st' h hdoc
    rw [normalizeFixGo] at h
    rcases hns : normalizeStep st with _ | o
    · rw [hns] at h; cases h; exact hdoc
    · rw [hns] at h
      cases o with
      | none => cases h
      | some st1 =>
        rw [normalizeStep] at hns
        rcases hf : (docLeaves st.doc).find? (normActs st.doc) with _ | q
        · rw [hf] at hns; cases hns
        · rw [hf] at hns
          injection hns with hns2
          exact ih h (engineNormalizeAt_noStamp hns2 hdoc)

theorem normalizeFix_noStamp {st st' : EState}
    (h : normalizeFix st = .ok st') (hdoc : noStampList st.doc = true) :
    noStampList st'.doc = true :=
  normalizeFixGo_noStamp h hdoc

/-! ## Claim C4 -/

/-- The hook declines on the invocations an operation makes. -/
def opDeclined : EngineOp → Prop
  | .ibreak h => declinedP h
  | .itext h _ => declinedP h
  | .dfrag => True
  | .dback => True
  | .normalize => True

/-- A one-line document `"a"` in bold, caret at the end of the line. -/
def c4Start : EState :=
  { doc := [.elem "paragraph" none none [.text ['a'] ["bold"]]],
    sel := some ⟨⟨[0, 0], 1⟩, ⟨[0, 0], 1⟩⟩, emarks := none }

/-- The engine's result on `c4Start` with a declined hook: a fresh
empty line, no marks. -/
def c4EngRes : EState :=
  { doc := [.elem "paragraph" none none [.text ['a'] ["bold"]],
      .elem "paragraph" none none [.text [] []]],
    sel := some ⟨⟨[1, 0], 0⟩, ⟨[1, 0], 0⟩⟩, emarks := none }

/-- The host default's result on `c4Start`: the split keeps the bold
mark on the new line's text. -/
def c4HostRes : EState :=
  { doc := [.elem "paragraph" none none [.text ['a'] ["bold"]],
      .elem "paragraph" none none [.text [] ["bold"]]],
    sel := some ⟨⟨[1, 0], 0⟩, ⟨[1, 0], 0⟩⟩, emarks := none }

/-- C4 counterexample: with the hook declining, `insertBreak` and the
host's unmodified default `insertBreak` both complete on `c4Start`,
but they produce observably different trees: the engine inserts a
fresh empty line whose text carries no marks, while the host default
splits the block and keeps the bold mark on the new line's text. -/
theorem c4_counterexample :
    engineInsertBreak none c4Start = .ok c4EngRes ∧
    baseInsertBreak c4Start = some c4HostRes ∧
    leafMarks c4EngRes.doc [1, 0] = some [] ∧
    leafMarks c4HostRes.doc [1, 0] = some ["bold"] ∧
    ([] : Marks) ≠ ["bold"] :=
  ⟨rfl, rfl, rfl, rfl, by decide⟩

/-! ## Claim C2 — the unescaped-newline measure -/

theorem unescAux_eq_unesc {q : Char} (hq : q ≠ '\\') :
    ∀ l : Str, unescAux q l = unesc l := by
  intro l
  cases l with
  | nil => rfl
  | cons c rest =>
    rw [unescAux, unesc]
    by_cases hc : c = '\n'
    · simp [hc, hq]
    · simp [hc]

theorem unescAux_le_unesc (q : Char) : ∀ l : Str, unescAux q l ≤ unesc l := by
  intro l
  cases l with
  | nil => exact Nat.le_refl 0
  | cons c rest =>
    rw [unescAux, unesc]
    by_cases hc : c = '\n'
    · by_cases hq : q = '\\'
      · simp [hc, hq]
      · simp [hc, hq]
    · simp [hc]

theorem findUNLAux_facts : ∀ {s : Str} {p : Char} {ni : Nat},
    findUNLAux p s = some ni →
    unescAux p (s.take ni) = 0 ∧ unescAux p (s.take (ni + 1)) = 1 ∧
    unescAux p s = 1 + unesc (s.drop (ni + 1)) ∧ ni < s.length ∧
    unescAux p (s.take ni ++ s.drop (ni + 1)) + 1 ≤ unescAux p s ∧
    findUNLAux p (s.take (ni + 1)) = some ni := by
  intro s
  induction s with
  | nil => intro p ni h; cases h
  | cons c rest ih =>
    intro p ni h
    rw [findUNLAux] at h
    by_cases hc : c = '\n' ∧ p ≠ '\\'
    · rw [if_pos hc] at h
      injection h with h0
      subst h0
      have hnb : ('\n' : Char) ≠ '\\' := by decide
      refine ⟨rfl, ?_, ?_, Nat.succ_pos _, ?_, ?_⟩
      · show unescAux p [c] = 1
        rw [unescAux, unescAux, if_pos hc]
      · show unescAux p (c :: rest) = 1 + unesc ((c :: rest).drop 1)
        rw [unescAux, if_pos hc, List.drop_one, List.tail_cons,
          unescAux_eq_unesc (hc.1 ▸ hnb)]
      · show unescAux p ([] ++ rest) + 1 ≤ unescAux p (c :: rest)
        rw [List.nil_append, unescAux, if_pos hc]
        have := unescAux_le_unesc p rest
        have h2 := unescAux_le_unesc c rest
        calc unescAux p rest + 1 ≤ unesc rest + 1 := by
              exact Nat.add_le_add_right (unescAux_le_unesc p rest) 1
          _ = 1 + unesc rest := Nat.add_comm _ _
          _ ≤ 1 + unescAux c rest := by
              rw [hc.1, unescAux_eq_unesc hnb]
      · show findUNLAux p ((c :: rest).take 1) = some 0
        rw [List.take_succ_cons, List.take_zero, findUNLAux, if_pos hc]
    · rw [if_neg hc] at h
      rcases hm : findUNLAux c rest with _ | m
      · rw [hm] at h; cases h
      · rw [hm] at h
        simp only [Option.map_some'] at h
        injection h with h0
        subst h0
        obtain ⟨ih1, ih2, ih3, ih4, ih5, ih6⟩ := ih hm
        refine ⟨?_, ?_, ?_, by simpa using ih4, ?_, ?_⟩
        · show unescAux p ((c :: rest).take (m + 1)) = 0
          rw [List.take_succ_cons, unescAux, if_neg hc, ih1]
        · show unescAux p ((c :: rest).take (m + 1 + 1)) = 1
          rw [List.take_succ_cons, unescAux, if_neg hc, ih2]
        · show unescAux p (c :: rest) = 1 + unesc ((c :: rest).drop (m + 1 + 1))
          rw [unescAux, if_neg hc, List.drop_succ_cons, ih3]
          exact Nat.zero_add _
        · show unescAux p ((c :: rest).take (m + 1) ++ (c :: rest).drop (m + 1 + 1))
              + 1 ≤ unescAux p (c :: rest)
          rw [List.take_succ_cons, List.drop_succ_cons, List.cons_append,
            unescAux, if_neg hc, unescAux, if_neg hc]
          exact Nat.add_le_add_left ih5 0
        · show findUNLAux p ((c :: rest).take (m + 1 + 1)) = some (m + 1)
          rw [List.take_succ_cons, findUNLAux, if_neg hc, ih6]
          rfl

theorem findUNL_facts {s : Str} {ni : Nat} (h : findUNL s = some ni) :
    unesc (s.take ni) = 0 ∧ unesc (s.take (ni + 1)) = 1 ∧
    unesc s = 1 + unesc (s.drop (ni + 1)) ∧ ni < s.length ∧
    unesc (s.take ni ++ s.drop (ni + 1)) + 1 ≤ unesc s ∧
    findUNL (s.take (ni + 1)) = some ni := by
  cases s with
  | nil => cases h
  | cons c rest =>
    rw [findUNL] at h
    by_cases hc : c = '\n'
    · rw [if_pos hc] at h
      injection h with h0
      subst h0
      have hnb : ('\n' : Char) ≠ '\\' := by decide
      refine ⟨rfl, ?_, ?_, Nat.succ_pos _, ?_, ?_⟩
      · show unesc [c] = 1
        rw [unesc, if_pos hc, unescAux]
      · show unesc (c :: rest) = 1 + unesc ((c :: rest).drop 1)
        rw [unesc, if_pos hc, List.drop_one, List.tail_cons,
          unescAux_eq_unesc (hc ▸ hnb)]
      · show unesc ([] ++ rest) + 1 ≤ unesc (c :: rest)
        rw [List.nil_append, unesc, if_pos hc]
        calc unesc rest + 1 = 1 + unesc rest := Nat.add_comm _ _
          _ ≤ 1 + unescAux c rest := by
              rw [hc, unescAux_eq_unesc hnb]
      · show findUNL ((c :: rest).take 1) = some 0
        rw [List.take_succ_cons, List.take_zero, findUNL, if_pos hc]
    · rw [if_neg hc] at h
      rcases hm : findUNLAux c rest with _ | m
      · rw [hm] at h; cases h
      · rw [hm] at h
        simp only [Option.map_some'] at h
        injection h with h0
        subst h0
        obtain ⟨ih1, ih2, ih3, ih4, ih5, ih6⟩ := findUNLAux_facts hm
        refine ⟨?_, ?_, ?_, by simpa using ih4, ?_, ?_⟩
        · show unesc ((c :: rest).take (m + 1)) = 0
          rw [List.take_succ_cons, unesc, if_neg hc, ih1]
        · show unesc ((c :: rest).take (m + 1 + 1)) = 1
          rw [List.take_succ_cons, unesc, if_neg hc, ih2]
        · show unesc (c :: rest) = 1 + unesc ((c :: rest).drop (m + 1 + 1))
          rw [unesc, if_neg hc, List.drop_succ_cons, ih3]
          exact Nat.zero_add _
        · show unesc ((c :: rest).take (m + 1) ++ (c :: rest).drop (m + 1 + 1))
              + 1 ≤ unesc (c :: rest)
          rw [List.take_succ_cons, List.drop_succ_cons, List.cons_append,
            unesc, if_neg hc, unesc, if_neg hc]
          exact Nat.add_le_add_left ih5 0
        · show findUNL ((c :: rest).take (m + 1 + 1)) = some (m + 1)
          rw [List.take_succ_cons, findUNL, if_neg hc, ih6]
          rfl

mutual
/-- Structural unescaped-newline count of a subtree. -/
def nlNode : SNode → Nat
  | .text s _ => unesc s
  | .elem _ _ _ cs => nlList cs

def nlList : List SNode → Nat
  | [] => 0
  | n :: ns => nlNode n + nlList ns
end

theorem nlList_eq_sumM : ∀ ns : List SNode, nlList ns = sumM nlNode ns := by
  intro ns
  induction ns with
  | nil => rfl
  | cons n rest ih => rw [nlList, sumM_cons, ih]

mutual
theorem nodeLeaves_nl : ∀ (pre : SPath) (n : SNode),
    ((nodeLeaves pre n).map fun q => unesc q.2).sum = nlNode n
  | pre, .text s m => by
    rw [nodeLeaves, nlNode]
    simp
  | pre, .elem ty l v cs => by
    rw [nodeLeaves, nlNode]
    exact listLeaves_nl pre 0 cs

theorem listLeaves_nl : ∀ (pre : SPath) (i : Nat) (ns : List SNode),
    ((listLeaves pre i ns).map fun q => unesc q.2).sum = nlList ns
  | pre, i, [] => by
    rw [listLeaves, nlList]
    rfl
  | pre, i, n :: ns => by
    rw [listLeaves, nlList, List.map_append, List.sum_append,
      nodeLeaves_nl (pre ++ [i]) n, listLeaves_nl pre (i + 1) ns]
end

theorem nlCountDoc_eq (doc : List SNode) : nlCountDoc doc = nlList doc := by
  rw [nlCountDoc, docLeaves]
  exact listLeaves_nl [] 0 doc

theorem nlNode_decomp (ty : String) (l : Option String) (v : Option Int)
    (cs : List SNode) :
    nlNode (.elem ty l v cs) = nlNode (.elem ty l v []) + sumM nlNode cs := by
  rw [nlNode, nlNode, ← nlList_eq_sumM, nlList]
  exact (Nat.zero_add _).symm

/-- Lookup of a node relative to a subtree root. -/
def relAt : SNode → SPath → Option SNode
  | n, [] => some n
  | .text _ _, _ :: _ => none
  | .elem _ _ _ cs, j :: rest =>
    match cs[j]? with
    | some c => relAt c rest
    | none => none

theorem relAt_nil (n : SNode) : relAt n [] = some n := by
  cases n with
  | text s m => rfl
  | elem ty l v cs => rfl

theorem relAt_cons (ty : String) (l : Option String) (v : Option Int)
    (cs : List SNode) (j : Nat) (rest : SPath) :
    relAt (.elem ty l v cs) (j :: rest) =
      match cs[j]? with
      | some c => relAt c rest
      | none => none := rfl

theorem relAt_text_cons (s : Str) (m : Marks) (j : Nat) (rest : SPath) :
    relAt (.text s m) (j :: rest) = none := rfl

theorem nodeAt_childrenOf_relAt : ∀ (rel : SPath) (n : SNode), rel ≠ [] →
    nodeAt n.childrenOf rel = relAt n rel
  | [], n, hne => absurd rfl hne
  | j :: rest, n, _ => by
    cases n with
    | text s m => rfl
    | elem ty l v cs =>
      show nodeAt cs (j :: rest) = relAt (SNode.elem ty l v cs) (j :: rest)
      rw [nodeAt, relAt_cons]
      rcases hj : cs[j]? with _ | c
      · rfl
      · cases rest with
        | nil =>
          dsimp only
          exact (relAt_nil c).symm
        | cons k rest2 =>
          dsimp only
          exact nodeAt_childrenOf_relAt (k :: rest2) c (by simp)

theorem nodeAt_append_relAt : ∀ (bp : SPath) (doc : List SNode) (n : SNode)
    (rel : SPath), bp ≠ [] → rel ≠ [] → nodeAt doc bp = some n →
    nodeAt doc (bp ++ rel) = relAt n rel := by
  intro bp
  induction bp with
  | nil => intro doc n rel hne; exact absurd rfl hne
  | cons i bprest ih =>
    intro doc n rel _ hrne h
    rw [nodeAt] at h
    rcases hi : doc[i]? with _ | d
    · rw [hi] at h; cases h
    · rw [hi] at h
      rw [List.cons_append, nodeAt, hi]
      cases bprest with
      | nil =>
        cases h
        rw [List.nil_append]
        cases rel with
        | nil => exact absurd rfl hrne
        | cons j rest => exact nodeAt_childrenOf_relAt (j :: rest) n (by simp)
      | cons b bprest2 =>
        have hne2 : (b :: bprest2) ++ rel ≠ [] := by simp
        rcases hx : (b :: bprest2 : SPath) ++ rel with _ | ⟨x, xs⟩
        · exact absurd hx (by simp)
        · rw [← hx]
          have hrec := ih d.childrenOf n rel (by simp) hrne h
          rw [← hrec]
          rcases hbr : (b :: bprest2 : SPath) ++ rel with _ | ⟨y, ys⟩
          · exact absurd hbr (by simp)
          · rfl

mutual
theorem nodeEntries_nodeAt : ∀ (n : SNode) (pre : SPath) (q : SPath) (m : SNode)
    (doc : List SNode), (q, m) ∈ nodeEntries pre n → nodeAt doc pre = some n →
    nodeAt doc q = some m
  | .text s mk, pre, q, m, doc, hmem, hpre => by
    rw [nodeEntries] at hmem
    simp only [List.mem_singleton, Prod.mk.injEq] at hmem
    rw [hmem.1, hmem.2]
    exact hpre
  | .elem ty l v cs, pre, q, m, doc, hmem, hpre => by
    rw [nodeEntries] at hmem
    rcases List.mem_cons.1 hmem with heq | htail
    · rw [Prod.mk.injEq] at heq
      rw [heq.1, heq.2]
      exact hpre
    · refine listEntries_nodeAt cs pre 0 q m doc htail ?_
      intro k n0 hk
      have : nodeAt doc (pre ++ [0 + k]) = relAt (SNode.elem ty l v cs) [0 + k] := by
        refine nodeAt_append_relAt pre doc _ [0 + k] ?_ (by simp) hpre
        intro hprenil
        rw [hprenil] at hpre
        cases hpre
      rw [this, relAt_cons, Nat.zero_add, hk]
      exact relAt_nil n0

theorem listEntries_nodeAt : ∀ (ns : List SNode) (pre : SPath) (i : Nat)
    (q : SPath) (m : SNode) (doc : List SNode), (q, m) ∈ listEntries pre i ns →
    (∀ k n0, ns[k]? = some n0 → nodeAt doc (pre ++ [i + k]) = some n0) →
    nodeAt doc q = some m
  | [], pre, i, q, m, doc, hmem, hacc => by
    rw [listEntries] at hmem
    cases hmem
  | n :: ns, pre, i, q, m, doc, hmem, hacc => by
    rw [listEntries] at hmem
    rcases List.mem_append.1 hmem with hl | hr
    · refine nodeEntries_nodeAt n (pre ++ [i]) q m doc hl ?_
      have := hacc 0 n (by simp)
      simpa using this
    · refine listEntries_nodeAt ns pre (i + 1) q m doc hr ?_
      intro k n0 hk
      have := hacc (k + 1) n0 (by simpa using hk)
      have harith : i + (k + 1) = i + 1 + k := by omega
      rw [harith] at this
      exact this
end

theorem docEntries_nodeAt {doc : List SNode} {q : SPath} {m : SNode}
    (hmem : (q, m) ∈ docEntries doc) : nodeAt doc q = some m := by
  rw [docEntries] at hmem
  refine listEntries_nodeAt doc [] 0 q m doc hmem ?_
  intro k n0 hk
  rw [List.nil_append, nodeAt, Nat.zero_add, hk]

mutual
theorem nodeLeaves_nodeAt : ∀ (n : SNode) (pre : SPath) (q : SPath) (s : Str)
    (doc : List SNode), (q, s) ∈ nodeLeaves pre n → nodeAt doc pre = some n →
    ∃ mk, nodeAt doc q = some (.text s mk)
  | .text s0 mk, pre, q, s, doc, hmem, hpre => by
    rw [nodeLeaves] at hmem
    simp only [List.mem_singleton, Prod.mk.injEq] at hmem
    rw [hmem.1, hmem.2]
    exact ⟨mk, hpre⟩
  | .elem ty l v cs, pre, q, s, doc, hmem, hpre => by
    rw [nodeLeaves] at hmem
    refine listLeaves_nodeAt cs pre 0 q s doc hmem ?_
    intro k n0 hk
    have : nodeAt doc (pre ++ [0 + k]) = relAt (SNode.elem ty l v cs) [0 + k] := by
      refine nodeAt_append_relAt pre doc _ [0 + k] ?_ (by simp) hpre
      intro hprenil
      rw [hprenil] at hpre
      cases hpre
    rw [this, relAt_cons, Nat.zero_add, hk]
    exact relAt_nil n0

theorem listLeaves_nodeAt : ∀ (ns : List SNode) (pre : SPath) (i : Nat)
    (q : SPath) (s : Str) (doc : List SNode), (q, s) ∈ listLeaves pre i ns →
    (∀ k n0, ns[k]? = some n0 → nodeAt doc (pre ++ [i + k]) = some n0) →
    ∃ mk, nodeAt doc q = some (.text s mk)
  | [], pre, i, q, s, doc, hmem, hacc => by
    rw [listLeaves] at hmem
    cases hmem
  | n :: ns, pre, i, q, s, doc, hmem, hacc => by
    rw [listLeaves] at hmem
    rcases List.mem_append.1 hmem with hl | hr
    · refine nodeLeaves_nodeAt n (pre ++ [i]) q s doc hl ?_
      have := hacc 0 n (by simp)
      simpa using this
    · refine listLeaves_nodeAt ns pre (i + 1) q s doc hr ?_
      intro k n0 hk
      have := hacc (k + 1) n0 (by simpa using hk)
      have harith : i + (k + 1) = i + 1 + k := by omega
      rw [harith] at this
      exact this
end

theorem docLeaves_nodeAt {doc : List SNode} {q : SPath} {s : Str}
    (hmem : (q, s) ∈ docLeaves doc) : ∃ mk, nodeAt doc q = some (.text s mk) := by
  rw [docLeaves] at hmem
  refine listLeaves_nodeAt doc [] 0 q s doc hmem ?_
  intro k n0 hk
  rw [List.nil_append, nodeAt, Nat.zero_add, hk]

theorem pathCmp_self : ∀ p : SPath, pathCmp p p = .eq := by
  intro p
  induction p with
  | nil => rfl
  | cons i rest ih =>
    rw [pathCmp]
    simp only [Nat.lt_irrefl, if_false]
    exact ih

theorem isPrefixOfP_iff : ∀ (a b : SPath),
    isPrefixOfP a b = true ↔ ∃ t, b = a ++ t := by
  intro a
  induction a with
  | nil =>
    intro b
    simp [isPrefixOfP]
  | cons x xs ih =>
    intro b
    cases b with
    | nil =>
      rw [isPrefixOfP]
      simp
    | cons y ys =>
      rw [isPrefixOfP]
      simp only [Bool.and_eq_true, beq_iff_eq, ih ys]
      constructor
      · rintro ⟨rfl, t, rfl⟩
        exact ⟨t, rfl⟩
      · rintro ⟨t, ht⟩
        rw [List.cons_append] at ht
        injection ht with h1 h2
        exact ⟨h1.symm, t, h2⟩

theorem pathCmp_eq_prefix : ∀ (a b : SPath), pathCmp a b = .eq →
    isPrefixOfP a b = true ∨ isPrefixOfP b a = true := by
  intro a
  induction a with
  | nil => intro b h; exact Or.inl rfl
  | cons x xs ih =>
    intro b h
    cases b with
    | nil => exact Or.inr rfl
    | cons y ys =>
      rw [pathCmp] at h
      by_cases h1 : x < y
      · rw [if_pos h1] at h; cases h
      · rw [if_neg h1] at h
        by_cases h2 : y < x
        · rw [if_pos h2] at h; cases h
        · rw [if_neg h2] at h
          have hxy : x = y := Nat.le_antisymm (Nat.not_lt.1 h2) (Nat.not_lt.1 h1)
          rcases ih ys h with hp | hp
          · left
            rw [isPrefixOfP, Bool.and_eq_true]
            exact ⟨by simp [hxy], hp⟩
          · right
            rw [isPrefixOfP, Bool.and_eq_true]
            exact ⟨by simp [hxy], hp⟩

theorem sumM_eraseIdx {M : Type} [AddCommMonoid M] (μ : SNode → M) :
    ∀ {l : List SNode} {i : Nat} (h : i < l.length),
    sumM μ (l.eraseIdx i) + μ l[i] = sumM μ l := by
  intro l
  induction l with
  | nil => intro i h; simp at h
  | cons x xs ihl =>
    intro i h
    cases i with
    | zero =>
      rw [List.eraseIdx_cons_zero, List.getElem_cons_zero, sumM_cons]
      exact add_comm _ _
    | succ j =>
      have hj : j < xs.length := by simpa using h
      rw [List.eraseIdx_cons_succ, List.getElem_cons_succ, sumM_cons, sumM_cons]
      rw [add_assoc]
      rw [ihl hj]

theorem sumM_take_drop {M : Type} [AddCommMonoid M] (μ : SNode → M)
    (l : List SNode) (i : Nat) :
    sumM μ (l.take i) + sumM μ (l.drop i) = sumM μ l := by
  rw [← sumM_append]
  rw [List.take_append_drop]

/-- The node a nonempty path addresses, as the indexed child of the
addressed slot's parent list. -/
theorem nodeAt_of_split {p : SPath} {pref : SPath} {j : Nat} {doc cs : List SNode}
    (hsp : splitLastP p = some (pref, j)) (hcl : childListAt doc pref = some cs) :
    nodeAt doc p = cs[j]? := by
  rw [splitLastP_eq hsp]
  exact nodeAt_append_child hcl j

theorem insertAtPathD_nl {doc : List SNode} {p : SPath} {ns doc' : List SNode}
    (h : insertAtPathD doc p ns = some doc') :
    sumM nlNode doc' = sumM nlNode doc + sumM nlNode ns := by
  rw [insertAtPathD] at h
  simp only [Option.bind_eq_bind, Option.bind_eq_some] at h
  obtain ⟨⟨pref, j⟩, hsp, h⟩ := h
  dsimp only at h
  obtain ⟨cs, cs', hcl, hf, hcl'⟩ := modifyChildrenO_inv h
  by_cases hle : j ≤ cs.length
  · have hm := modify_measure nlNode nlNode_decomp h hcl hf
    rw [if_pos hle] at hf
    injection hf with hf1
    have hsplit : sumM nlNode cs' = sumM nlNode cs + sumM nlNode ns := by
      rw [← hf1, sumM_append, sumM_append]
      have := sumM_take_drop nlNode cs j
      omega
    omega
  · rw [if_neg hle] at hf; cases hf

theorem removeAtPathD_nl {doc : List SNode} {p : SPath} {doc' : List SNode}
    (h : removeAtPathD doc p = some doc') :
    ∃ n, nodeAt doc p = some n ∧ sumM nlNode doc = sumM nlNode doc' + nlNode n := by
  rw [removeAtPathD] at h
  simp only [Option.bind_eq_bind, Option.bind_eq_some] at h
  obtain ⟨⟨pref, j⟩, hsp, h⟩ := h
  dsimp only at h
  obtain ⟨cs, cs', hcl, hf, hcl'⟩ := modifyChildrenO_inv h
  by_cases hlt : j < cs.length
  · have hm := modify_measure nlNode nlNode_decomp h hcl hf
    rw [if_pos hlt] at hf
    injection hf with hf1
    refine ⟨cs[j], ?_, ?_⟩
    · rw [nodeAt_of_split hsp hcl]
      exact (List.getElem?_eq_getElem hlt)
    · have herase := sumM_eraseIdx nlNode hlt
      rw [hf1] at herase
      omega
  · rw [if_neg hlt] at hf; cases hf

theorem replaceAtPathD_nl {doc : List SNode} {p : SPath} {ns doc' : List SNode}
    (h : replaceAtPathD doc p ns = some doc') :
    ∃ n, nodeAt doc p = some n ∧
      sumM nlNode doc' + nlNode n = sumM nlNode doc + sumM nlNode ns := by
  rw [replaceAtPathD] at h
  simp only [Option.bind_eq_bind, Option.bind_eq_some] at h
  obtain ⟨⟨pref, j⟩, hsp, h⟩ := h
  dsimp only at h
  obtain ⟨cs, cs', hcl, hf, hcl'⟩ := modifyChildrenO_inv h
  by_cases hlt : j < cs.length
  · have hm := modify_measure nlNode nlNode_decomp h hcl hf
    rw [if_pos hlt] at hf
    injection hf with hf1
    refine ⟨cs[j], ?_, ?_⟩
    · rw [nodeAt_of_split hsp hcl]
      exact (List.getElem?_eq_getElem hlt)
    · have hcs' : sumM nlNode cs' = sumM nlNode (cs.take j) + sumM nlNode ns +
          sumM nlNode (cs.drop (j + 1)) := by
        rw [← hf1, sumM_append, sumM_append]
      have hcs : sumM nlNode (cs.take j) + nlNode cs[j] +
          sumM nlNode (cs.drop (j + 1)) = sumM nlNode cs := by
        have he := sumM_eraseIdx nlNode hlt
        have ht : sumM nlNode (cs.eraseIdx j) =
            sumM nlNode (cs.take j) + sumM nlNode (cs.drop (j + 1)) := by
          rw [List.eraseIdx_eq_take_drop_succ]
          try exact sumM_append nlNode _ _
        omega
      omega
  · rw [if_neg hlt] at hf; cases hf

theorem modifyTextAt_nl {doc : List SNode} {p : SPath}
    {f : Str → Marks → SNode} {doc' : List SNode}
    (h : modifyTextAt doc p f = some doc') :
    ∃ s m, nodeAt doc p = some (.text s m) ∧
      sumM nlNode doc' + unesc s = sumM nlNode doc + nlNode (f s m) := by
  rw [modifyTextAt] at h
  simp only [Option.bind_eq_bind, Option.bind_eq_some] at h
  obtain ⟨⟨pref, j⟩, hsp, h⟩ := h
  dsimp only at h
  obtain ⟨cs, cs', hcl, hf, hcl'⟩ := modifyChildrenO_inv h
  rcases hj : cs[j]? with _ | n
  · rw [hj] at hf; cases hf
  · rw [hj] at hf
    cases n with
    | elem ty lb v cs2 => cases hf
    | text s m =>
      have hm := modify_measure nlNode nlNode_decomp h hcl (by rw [hj])
      have hlt : j < cs.length := by
        by_contra hge
        rw [List.getElem?_eq_none (by omega)] at hj
        cases hj
      refine ⟨s, m, ?_, ?_⟩
      · rw [nodeAt_of_split hsp hcl, hj]
      · have hset := sumM_set nlNode hlt (f s m)
        have hgj : cs[j] = SNode.text s m := by
          have h2 := List.getElem?_eq_getElem hlt
          rw [hj] at h2
          exact (Option.some.injEq _ _).mp h2.symm
        rw [hgj] at hset
        have hnl : nlNode (SNode.text s m) = unesc s := rfl
        rw [hnl] at hset
        omega

theorem split_atStart_zero : ∀ (rel : SPath) (o : Nat) (n : SNode),
    splitNodeRel rel o n = some .atStart →
    ∀ s mk, relAt n rel = some (.text s mk) → o = 0
  | [], o, n, h, s, mk, hrel => by
    cases n with
    | text s0 m0 =>
      rw [splitNodeRel] at h
      by_cases h0 : o = 0
      · exact h0
      · rw [if_neg h0] at h
        by_cases h1 : s0.length ≤ o
        · rw [if_pos h1] at h; cases h
        · rw [if_neg h1] at h; cases h
    | elem ty l v cs => rw [splitNodeRel] at h; cases h
  | j :: rest, o, n, h, s, mk, hrel => by
    cases n with
    | text s0 m0 => rw [splitNodeRel] at h; cases h
    | elem ty l v cs =>
      rw [splitNodeRel] at h
      rw [relAt_cons] at hrel
      rcases hj : cs[j]? with _ | c
      · rw [hj] at h; cases h
      · rw [hj] at h
        rw [hj] at hrel
        simp only [Option.map_eq_some'] at h
        obtain ⟨res, hres, h⟩ := h
        cases res with
        | atStart => exact split_atStart_zero rest o c hres s mk hrel
        | atEnd =>
          dsimp only at h
          by_cases hz : j = cs.length - 1
          · rw [if_pos hz] at h; cases h
          · rw [if_neg hz] at h; cases h
        | parts cl cr => cases h

theorem split_atEnd_len : ∀ (rel : SPath) (o : Nat) (n : SNode),
    splitNodeRel rel o n = some .atEnd →
    ∀ s mk, relAt n rel = some (.text s mk) → s.length ≤ o
  | [], o, n, h, s, mk, hrel => by
    cases n with
    | text s0 m0 =>
      rw [splitNodeRel] at h
      rw [relAt_nil] at hrel
      injection hrel with hrel1
      by_cases h0 : o = 0
      · rw [if_pos h0] at h; cases h
      · rw [if_neg h0] at h
        by_cases h1 : s0.length ≤ o
        · cases hrel1
          exact h1
        · rw [if_neg h1] at h; cases h
    | elem ty l v cs => rw [splitNodeRel] at h; cases h
  | j :: rest, o, n, h, s, mk, hrel => by
    cases n with
    | text s0 m0 => rw [splitNodeRel] at h; cases h
    | elem ty l v cs =>
      rw [splitNodeRel] at h
      rw [relAt_cons] at hrel
      rcases hj : cs[j]? with _ | c
      · rw [hj] at h; cases h
      · rw [hj] at h
        rw [hj] at hrel
        simp only [Option.map_eq_some'] at h
        obtain ⟨res, hres, h⟩ := h
        cases res with
        | atStart =>
          dsimp only at h
          by_cases hz : j = 0
          · rw [if_pos hz] at h; cases h
          · rw [if_neg hz] at h; cases h
        | atEnd => exact split_atEnd_len rest o c hres s mk hrel
        | parts cl cr => cases h

theorem splitNodeRel_parts_nl : ∀ (rel : SPath) (o : Nat) (n : SNode)
    (l r : SNode), splitNodeRel rel o n = some (.parts l r) → 1 ≤ o →
    ∀ s mk, relAt n rel = some (.text s mk) →
    unesc (s.take o) + unesc (s.drop o) = unesc s →
    nlNode l + nlNode r = nlNode n ∧ relAt l rel = some (.text (s.take o) mk)
  | [], o, n, l, r, h, ho, s, mk, hrel, hdec => by
    cases n with
    | text s0 m0 =>
      rw [splitNodeRel] at h
      rw [relAt_nil] at hrel
      injection hrel with hrel1
      cases hrel1
      by_cases h0 : o = 0
      · rw [if_pos h0] at h; cases h
      · rw [if_neg h0] at h
        by_cases h1 : s.length ≤ o
        · rw [if_pos h1] at h; cases h
        · rw [if_neg h1] at h
          injection h with h2
          injection h2 with h3 h4
          subst h3
          subst h4
          refine ⟨?_, by rw [relAt_nil]⟩
          show unesc (s.take o) + unesc (s.drop o) = nlNode (SNode.text s mk)
          exact hdec
    | elem ty lb v cs => rw [splitNodeRel] at h; cases h
  | j :: rest, o, n, l, r, h, ho, s, mk, hrel, hdec => by
    cases n with
    | text s0 m0 => rw [splitNodeRel] at h; cases h
    | elem ty lb v cs =>
      rw [splitNodeRel] at h
      rw [relAt_cons] at hrel
      rcases hj : cs[j]? with _ | c
      · rw [hj] at h; cases h
      · rw [hj] at h
        rw [hj] at hrel
        have hjlt : j < cs.length := by
          by_contra hge
          rw [List.getElem?_eq_none (by omega)] at hj
          cases hj
        have hgj : cs[j] = c := by
          have h2 := List.getElem?_eq_getElem hjlt
          rw [hj] at h2
          exact (Option.some.injEq _ _).mp h2.symm
        simp only [Option.map_eq_some'] at h
        obtain ⟨res, hres, h⟩ := h
        cases res with
        | atStart =>
          have := split_atStart_zero rest o c hres s mk hrel
          omega
        | atEnd =>
          dsimp only at h
          by_cases hz : j = cs.length - 1
          · rw [if_pos hz] at h; cases h
          · rw [if_neg hz] at h
            injection h with h3 h4
            subst h3
            subst h4
            have hlen : s.length ≤ o := split_atEnd_len rest o c hres s mk hrel
            have htdj : s.take o = s := List.take_of_length_le hlen
            constructor
            · show nlList (cs.take (j + 1)) + nlList (cs.drop (j + 1)) =
                nlNode (SNode.elem ty lb v cs)
              rw [nlNode, nlList_eq_sumM, nlList_eq_sumM, nlList_eq_sumM]
              exact sumM_take_drop nlNode cs (j + 1)
            · rw [htdj, relAt_cons]
              have : (cs.take (j + 1))[j]? = some c := by
                rw [List.getElem?_take_of_succ, hj]
              rw [this]
              exact hrel
        | parts cl cr =>
          dsimp only at h
          injection h with h3 h4
          subst h3
          subst h4
          obtain ⟨ihc, ihrel⟩ := splitNodeRel_parts_nl rest o c cl cr hres ho s mk hrel hdec
          constructor
          · show nlList (cs.take j ++ [cl]) + nlList (cr :: cs.drop (j + 1)) =
              nlNode (SNode.elem ty lb v cs)
            rw [nlNode, nlList_eq_sumM, nlList_eq_sumM, nlList_eq_sumM]
            rw [sumM_append]
            have h1 : sumM nlNode [cl] = nlNode cl := by
              rw [sumM_cons, sumM_nil]
              exact Nat.add_zero _
            rw [h1, sumM_cons]
            have h2 := sumM_eraseIdx nlNode hjlt
            have h3 : sumM nlNode (cs.eraseIdx j) =
                sumM nlNode (cs.take j) + sumM nlNode (cs.drop (j + 1)) := by
              rw [List.eraseIdx_eq_take_drop_succ]
              try exact sumM_append nlNode _ _
            rw [hgj] at h2
            have hcc : nlNode cl + nlNode cr = nlNode c := ihc
            omega
          · rw [relAt_cons]
            have : (cs.take j ++ [cl])[j]? = some cl := by
              rw [List.getElem?_append_right (by simp [Nat.min_eq_left (Nat.le_of_lt hjlt)])]
              simp [Nat.min_eq_left (Nat.le_of_lt hjlt)]
            rw [this]
            exact ihrel

theorem ancestorPaths_mem {p q : SPath} (h : q ∈ ancestorPaths p) :
    ∃ k, 1 ≤ k ∧ k < p.length ∧ q = p.take k := by
  rw [ancestorPaths] at h
  obtain ⟨k, hk, rfl⟩ := List.mem_map.1 h
  rw [List.mem_reverse] at hk
  have hb : 1 ≤ k ∧ k < p.length := by
    rcases hn : p.length with _ | m
    · rw [hn] at hk
      simp [List.range_zero] at hk
    · rw [hn] at hk
      rw [List.range_succ_eq_map, List.drop_succ_cons, List.drop_zero] at hk
      obtain ⟨j, hj, rfl⟩ := List.mem_map.1 hk
      exact ⟨Nat.succ_le_succ (Nat.zero_le j),
        Nat.succ_lt_succ (List.mem_range.1 hj)⟩
  exact ⟨k, hb.1, hb.2, rfl⟩

theorem aboveAt_mem {doc : List SNode} {p : SPath} {pred : SNode → Bool}
    {n : SNode} {q : SPath} (h : aboveAt doc p pred = some (n, q)) :
    ∃ k, 1 ≤ k ∧ k < p.length ∧ q = p.take k := by
  rw [aboveAt] at h
  obtain ⟨q0, hq1, hq2⟩ := List.exists_of_findSome?_eq_some h
  rcases hna : nodeAt doc q0 with _ | nn
  · rw [hna] at hq2; cases hq2
  · rw [hna] at hq2
    dsimp only at hq2
    by_cases hpred : pred nn = true
    · rw [if_pos hpred] at hq2
      injection hq2 with hq3
      injection hq3 with hq4 hq5
      subst hq5
      exact ancestorPaths_mem hq1
    · rw [if_neg hpred] at hq2; cases hq2

theorem replaceAtPathD_readback {doc : List SNode} {p : SPath}
    {ns doc' : List SNode} (h : replaceAtPathD doc p ns = some doc')
    {n0 : SNode} (hns : ns[0]? = some n0) : nodeAt doc' p = some n0 := by
  rw [replaceAtPathD] at h
  simp only [Option.bind_eq_bind, Option.bind_eq_some] at h
  obtain ⟨⟨pref, j⟩, hsp, h⟩ := h
  dsimp only at h
  obtain ⟨cs, cs', hcl, hf, hcl'⟩ := modifyChildrenO_inv h
  by_cases hlt : j < cs.length
  · rw [if_pos hlt] at hf
    injection hf with hf1
    rw [splitLastP_eq hsp, nodeAt_append_child hcl' j, ← hf1]
    have hlen : (cs.take j).length = j := by
      rw [List.length_take]
      omega
    have hnsne : ns ≠ [] := by
      intro hz
      rw [hz] at hns
      simp at hns
    have hlen2 : j < ((cs.take j) ++ ns).length := by
      rw [List.length_append, hlen]
      rcases ns with _ | ⟨a, b⟩
      · exact absurd rfl hnsne
      · simp
    rw [List.getElem?_append, if_pos hlen2, List.getElem?_append,
      if_neg (by rw [hlen]; omega), hlen, Nat.sub_self]
    exact hns
  · rw [if_neg hlt] at hf; cases hf

theorem nodeAt_nil (doc : List SNode) : nodeAt doc [] = none := rfl

theorem stSplitAtPoint_nl {st : EState} {pt : SPoint} {st' : EState}
    {s : Str} {mk : Marks} {ni : Nat}
    (h : stSplitAtPoint st pt = some st')
    (hleaf : nodeAt st.doc pt.path = some (.text s mk))
    (hfound : findUNL s = some ni) (hoff : pt.offset = ni + 1) :
    sumM nlNode st'.doc = sumM nlNode st.doc ∧
    ∃ s1 mk1, nodeAt st'.doc pt.path = some (.text s1 mk1) ∧
      findUNL s1 = some ni := by
  rw [stSplitAtPoint] at h
  rcases hblk : getWrappingBlockAt st.doc pt.path with _ | bq
  · rw [hblk] at h
    cases h
    exact ⟨rfl, s, mk, hleaf, hfound⟩
  · rw [hblk] at h
    obtain ⟨block, bp⟩ := bq
    dsimp only at h
    obtain ⟨hnb, hpredb⟩ := aboveAt_inv hblk
    obtain ⟨k, hk1, hk2, hkq⟩ := aboveAt_mem hblk
    have hbpne : bp ≠ [] := by
      rw [hkq]
      intro hx
      have : (pt.path.take k).length = 0 := by rw [hx]; rfl
      rw [List.length_take] at this
      omega
    have hrelne : pt.path.drop bp.length ≠ [] := by
      intro hx
      have : (pt.path.drop bp.length).length = 0 := by rw [hx]; rfl
      rw [List.length_drop] at this
      have hlenbp : bp.length = k := by
        rw [hkq, List.length_take]
        omega
      omega
    have hpathsplit : bp ++ pt.path.drop bp.length = pt.path := by
      rw [hkq]
      have hlenbp : (pt.path.take k).length = k := by
        rw [List.length_take]
        omega
      rw [hlenbp]
      exact List.take_append_drop k pt.path
    have hrel : relAt block (pt.path.drop bp.length) = some (.text s mk) := by
      rw [← nodeAt_append_relAt bp st.doc block _ hbpne hrelne hnb, hpathsplit]
      exact hleaf
    rcases hsp : splitNodeRel (pt.path.drop bp.length) pt.offset block with _ | res
    · rw [hsp] at h; cases h
    · rw [hsp] at h
      cases res with
      | atStart =>
        have h0 := split_atStart_zero _ _ _ hsp s mk hrel
        omega
      | atEnd =>
        cases h
        exact ⟨rfl, s, mk, hleaf, hfound⟩
      | parts l r =>
        dsimp only at h
        simp only [Option.bind_eq_bind, Option.bind_eq_some, Option.pure_def,
          Option.some.injEq] at h
        obtain ⟨doc2, hrep, h⟩ := h
        obtain ⟨hfx1, hfx2, hfx3, hfx4, hfx5, hfx6⟩ := findUNL_facts hfound
        have hdec : unesc (s.take pt.offset) + unesc (s.drop pt.offset) = unesc s := by
          rw [hoff, hfx2, hfx3]
        obtain ⟨hcount, hlrel⟩ := splitNodeRel_parts_nl _ _ _ _ _ hsp
          (by omega) s mk hrel hdec
        cases h
        constructor
        · show sumM nlNode doc2 = sumM nlNode st.doc
          obtain ⟨n0, hn0, hrepnl⟩ := replaceAtPathD_nl hrep
          rw [hnb] at hn0
          injection hn0 with hn0e
          subst hn0e
          have hsum2 : sumM nlNode [l, r] = nlNode l + nlNode r := by
            rw [sumM_cons, sumM_cons, sumM_nil]
            omega
          omega
        · refine ⟨s.take pt.offset, mk, ?_, ?_⟩
          · show nodeAt doc2 pt.path = some (.text (s.take pt.offset) mk)
            have hrb : nodeAt doc2 bp = some l :=
              replaceAtPathD_readback hrep rfl
            rw [← hpathsplit, nodeAt_append_relAt bp doc2 l _ hbpne hrelne hrb]
            exact hlrel
          · rw [hoff]
            exact hfx6

theorem stMoveNode_nl {st : EState} {f t : SPath} {st' : EState}
    (h : stMoveNode st f t = some st') :
    sumM nlNode st'.doc = sumM nlNode st.doc := by
  rw [stMoveNode] at h
  by_cases hpre : isPrefixOfP f t = true
  · rw [if_pos hpre] at h; cases h
  · rw [if_neg hpre] at h
    simp only [Option.bind_eq_bind, Option.bind_eq_some, Option.pure_def,
      Option.some.injEq] at h
    obtain ⟨n, hn, doc1, hrem, t', ht', doc2, hins, h⟩ := h
    cases h
    show sumM nlNode doc2 = sumM nlNode st.doc
    obtain ⟨n0, hn0, hremnl⟩ := removeAtPathD_nl hrem
    rw [hn] at hn0
    injection hn0 with hn0e
    subst hn0e
    have hinsnl := insertAtPathD_nl hins
    have hsingle : sumM nlNode [n] = nlNode n := by
      rw [sumM_cons, sumM_nil]
      exact Nat.add_zero _
    omega

theorem stWrapNodeAt_nl {st : EState} {ty : String} {p : SPath} {st' : EState}
    (h : stWrapNodeAt st ty p = some st') :
    sumM nlNode st'.doc = sumM nlNode st.doc := by
  rw [stWrapNodeAt] at h
  simp only [Option.bind_eq_bind, Option.bind_eq_some, Option.pure_def,
    Option.some.injEq] at h
  obtain ⟨n, hn, doc2, hrep, h⟩ := h
  cases h
  show sumM nlNode doc2 = sumM nlNode st.doc
  obtain ⟨n0, hn0, hrepnl⟩ := replaceAtPathD_nl hrep
  rw [hn] at hn0
  injection hn0 with hn0e
  subst hn0e
  have hw : sumM nlNode [SNode.elem ty none none [n]] = nlNode n := by
    rw [sumM_cons, sumM_nil]
    show nlNode (SNode.elem ty none none [n]) + 0 = nlNode n
    rw [nlNode, nlList, nlList]
    omega
  omega

theorem coveredAux_nil {sp ep : SPath} : ∀ (entries : List (SPath × SNode))
    (last : Option SPath), (∀ e ∈ entries, isPrefixOfP e.1 sp = true) →
    coveredAux sp ep entries last = [] := by
  intro entries
  induction entries with
  | nil => intro last hall; rfl
  | cons e rest ih =>
    intro last hall
    obtain ⟨p, n⟩ := e
    rw [coveredAux.eq_def]
    dsimp only
    split
    · exact ih last fun e he => hall e (List.mem_cons_of_mem _ he)
    · have hp : isPrefixOfP p sp = true := hall (p, n) (List.mem_cons_self _ _)
      rw [if_neg (by
        intro hcon
        rw [hp] at hcon
        simp at hcon)]
      exact ih last fun e he => hall e (List.mem_cons_of_mem _ he)

theorem ord_ne_ne_eq {o : Ordering} (h1 : o ≠ .lt) (h2 : o ≠ .gt) : o = .eq := by
  cases o with
  | lt => exact absurd rfl h1
  | eq => rfl
  | gt => exact absurd rfl h2

/-- A range collapsed onto a single text leaf covers no whole node: the
entries in the span are exactly the leaf and its ancestors. -/
theorem covered_single_leaf {doc : List SNode} {path : SPath} {s : Str}
    {mk : Marks} (hleaf : nodeAt doc path = some (.text s mk)) :
    coveredTargets (entriesInSpan doc path path) path path = [] := by
  rw [coveredTargets]
  refine coveredAux_nil _ none ?_
  intro e he
  obtain ⟨q, n⟩ := e
  show isPrefixOfP q path = true
  rw [entriesInSpan] at he
  have hmem := (List.mem_filter.1 he).1
  have hcnd := (List.mem_filter.1 he).2
  dsimp only at hcnd
  simp only [decide_eq_true_eq] at hcnd
  have heq : pathCmp q path = .eq := ord_ne_ne_eq hcnd.1 hcnd.2
  rcases pathCmp_eq_prefix _ _ heq with hp | hp
  · exact hp
  · obtain ⟨t, ht⟩ := (isPrefixOfP_iff _ _).1 hp
    rcases htl : t with _ | ⟨j, rest⟩
    · rw [htl, List.append_nil] at ht
      rw [← ht]
      rw [isPrefixOfP_iff]
      exact ⟨[], by rw [List.append_nil]⟩
    · have hq : nodeAt doc q = some n := docEntries_nodeAt hmem
      have hpathne : path ≠ [] := by
        intro hz
        rw [hz, nodeAt_nil] at hleaf
        cases hleaf
      have hnone : nodeAt doc q = none := by
        rw [ht, htl]
        rw [nodeAt_append_relAt path doc _ (j :: rest) hpathne (by simp) hleaf]
        exact relAt_text_cons s mk j rest
      rw [hnone] at hq
      cases hq

theorem afterPt_next {doc : List SNode} {path : SPath} {s : Str} {mk : Marks}
    {ni : Nat} (hleaf : nodeAt doc path = some (.text s mk))
    (hni : ni < s.length) :
    afterPt doc ⟨path, ni⟩ = some ⟨path, ni + 1⟩ := by
  rw [afterPt]
  have hls : leafStr doc path = some s := by
    rw [leafStr, hleaf]
  rw [show (⟨path, ni⟩ : SPoint).path = path from rfl, hls]
  dsimp only
  rw [if_pos hni]

theorem stRemovePathsTrack_nil (st : EState) (adj : SPath → Option SPath)
    (e : SPoint) : stRemovePathsTrack st adj [] e = some (st, e) := rfl

theorem stDeleteRange_newline_nl {st : EState} {path : SPath} {ni : Nat}
    {st' : EState} {s1 : Str} {mk1 : Marks}
    (hleaf : nodeAt st.doc path = some (.text s1 mk1))
    (hni : findUNL s1 = some ni)
    (h : stDeleteRange st ⟨⟨path, ni⟩, ⟨path, ni + 1⟩⟩ true = some st') :
    sumM nlNode st'.doc + 1 ≤ sumM nlNode st.doc := by
  have hcmp : ptCmp ⟨path, ni⟩ ⟨path, ni + 1⟩ = .lt := by
    rw [ptCmp]
    dsimp only
    rw [pathCmp_self]
    have : compare ni (ni + 1) = .lt := by
      rw [Nat.compare_eq_lt]
      omega
    exact this
  have hsp : SRange.startPt ⟨⟨path, ni⟩, ⟨path, ni + 1⟩⟩ = ⟨path, ni⟩ := by
    rw [SRange.startPt, SRange.edges]
    rw [if_pos (by rw [ptLe, hcmp]; decide)]
  have hep : SRange.endPt ⟨⟨path, ni⟩, ⟨path, ni + 1⟩⟩ = ⟨path, ni + 1⟩ := by
    rw [SRange.endPt, SRange.edges]
    rw [if_pos (by rw [ptLe, hcmp]; decide)]
  rw [stDeleteRange] at h
  rw [if_pos rfl] at h
  rw [hsp, hep] at h
  rw [if_neg (by
    intro hx
    have := congrArg SPoint.offset hx
    simp at this)] at h
  rw [if_pos rfl] at h
  rw [covered_single_leaf hleaf] at h
  simp only [Option.pure_def, Option.some_bind, Option.bind_eq_bind] at h
  rw [stRemovePathsTrack_nil] at h
  simp only [Option.some_bind, if_true] at h
  rcases hrm : stRemoveTextAt st path ni (ni + 1 - ni) with _ | st3
  · rw [hrm] at h
    simp only [Option.none_bind] at h
    cases h
  · rw [hrm] at h
    simp only [Option.some_bind] at h
    injection h with h1
    subst h1
    rw [stRemoveTextAt] at hrm
    rw [if_neg (by omega)] at hrm
    simp only [Option.bind_eq_bind, Option.bind_eq_some, Option.pure_def,
      Option.some.injEq] at hrm
    obtain ⟨doc2, hmt, hrm2⟩ := hrm
    obtain ⟨s0, m0, hn0, hcount⟩ := modifyTextAt_nl hmt
    rw [hleaf] at hn0
    injection hn0 with hn0e
    injection hn0e with he1 he2
    subst he1
    subst he2
    have hidx : ni + (ni + 1 - ni) = ni + 1 := by omega
    rw [hidx] at hcount
    have hfacts := findUNL_facts hni
    have hdel := hfacts.2.2.2.2.1
    have hnl : nlNode (SNode.text (s1.take ni ++ s1.drop (ni + 1)) mk1) =
        unesc (s1.take ni ++ s1.drop (ni + 1)) := rfl
    rw [hnl] at hcount
    subst hrm2
    show sumM nlNode doc2 + 1 ≤ sumM nlNode st.doc
    omega

theorem engineNormalizeAt_decreases {st : EState} {path : SPath} {st' : EState}
    {s : Str} {mk : Marks} {ni : Nat}
    (h : engineNormalizeAt st path = some st')
    (hn : nodeAt st.doc path = some (.text s mk))
    (hni : findUNL s = some ni)
    (hanc : (getWrappingUnstampedAncestorAt st.doc path).isSome = true) :
    sumM nlNode st'.doc + 1 ≤ sumM nlNode st.doc := by
  rw [engineNormalizeAt] at h
  rw [hn] at h
  dsimp only at h
  rw [hni] at h
  dsimp only at h
  rcases hga : getWrappingUnstampedAncestorAt st.doc path with _ | ancp
  · rw [hga] at hanc; cases hanc
  · rw [hga] at h
    obtain ⟨anc, ancPath⟩ := ancp
    dsimp only at h
    simp only [Option.bind_eq_bind, Option.bind_eq_some] at h
    obtain ⟨st1, hst1, h⟩ := h
    obtain ⟨hnl1, s1, mk1, hleaf1, hni1⟩ := stSplitAtPoint_nl hst1 hn hni rfl
    have hlen1 : ni < s1.length := (findUNL_facts hni1).2.2.2.1
    have haft : afterPt st1.doc ⟨path, ni⟩ = some ⟨path, ni + 1⟩ :=
      afterPt_next hleaf1 hlen1
    rw [show (afterPt st1.doc ⟨path, ni⟩ <|> endOf st1.doc []) =
        some ⟨path, ni + 1⟩ from by rw [haft]; rfl] at h
    dsimp only at h
    simp only [Option.bind_eq_bind, Option.bind_eq_some] at h
    obtain ⟨st2, hst2, h⟩ := h
    have hnl2 : sumM nlNode st2.doc + 1 ≤ sumM nlNode st1.doc :=
      stDeleteRange_newline_nl hleaf1 hni1 hst2
    have htail : sumM nlNode st'.doc ≤ sumM nlNode st2.doc := by
      split at h
      · injection h with h1
        subst h1
        exact Nat.le_refl _
      · rcases hab : aboveAt st2.doc path (fun n => n.isElem && n.isStamped)
            with _ | pq
        · rw [hab] at h
          injection h with h1
          subst h1
          exact Nat.le_refl _
        · rw [hab] at h
          obtain ⟨n0, pathOfLeftBlock⟩ := pq
          dsimp only at h
          simp only [Option.bind_eq_bind, Option.bind_eq_some] at h
          obtain ⟨st3, hst3, h⟩ := h
          rw [stWrapNodeAt_nl h, stMoveNode_nl hst3]
    omega

theorem nlCountDoc_eq_sumM (doc : List SNode) :
    nlCountDoc doc = sumM nlNode doc := by
  rw [nlCountDoc_eq, nlList_eq_sumM]

theorem normalizeStep_pos {st : EState} {o : Option EState}
    (h : normalizeStep st = some o) : 1 ≤ nlCountDoc st.doc := by
  rw [normalizeStep] at h
  rcases hf : (docLeaves st.doc).find? (normActs st.doc) with _ | q
  · rw [hf] at h; cases h
  · have hacts : normActs st.doc q = true := List.find?_some hf
    have hmem : q ∈ docLeaves st.doc := List.mem_of_find?_eq_some hf
    rw [normActs, Bool.and_eq_true] at hacts
    obtain ⟨ni, hni⟩ := Option.isSome_iff_exists.1 hacts.1
    have hpos : 1 ≤ unesc q.2 := by
      have := (findUNL_facts hni).2.2.1
      omega
    rw [nlCountDoc]
    have hmem2 : unesc q.2 ∈ (docLeaves st.doc).map fun p => unesc p.2 :=
      List.mem_map.2 ⟨q, hmem, rfl⟩
    calc 1 ≤ unesc q.2 := hpos
      _ ≤ ((docLeaves st.doc).map fun p => unesc p.2).sum :=
        List.single_le_sum (fun x _ => Nat.zero_le x) _ hmem2

theorem normalizeStep_decrease {st st1 : EState}
    (h : normalizeStep st = some (some st1)) :
    nlCountDoc st1.doc + 1 ≤ nlCountDoc st.doc := by
  rw [normalizeStep] at h
  rcases hf : (docLeaves st.doc).find? (normActs st.doc) with _ | q
  · rw [hf] at h; cases h
  · rw [hf] at h
    injection h with h1
    have hacts : normActs st.doc q = true := List.find?_some hf
    have hmem : q ∈ docLeaves st.doc := List.mem_of_find?_eq_some hf
    rw [normActs, Bool.and_eq_true] at hacts
    obtain ⟨ni, hni⟩ := Option.isSome_iff_exists.1 hacts.1
    obtain ⟨mk, hnode⟩ := docLeaves_nodeAt hmem
    rw [nlCountDoc_eq_sumM, nlCountDoc_eq_sumM]
    exact engineNormalizeAt_decreases h1 hnode hni hacts.2

theorem normalizeFixGo_fix : ∀ (fuel : Nat) (st st' : EState),
    normalizeFixGo fuel st = .ok st' → nlCountDoc st.doc ≤ fuel →
    normalizeStep st' = none := by
  intro fuel
  induction fuel with
  | zero =>
    intro st st' h hle
    cases h
    rcases hns : normalizeStep st with _ | o
    · rfl
    · have := normalizeStep_pos hns
      omega
  | succ n ih =>
    intro st st' h hle
    rw [normalizeFixGo] at h
    rcases hns : normalizeStep st with _ | o
    · rw [hns] at h
      cases h
      exact hns
    · rw [hns] at h
      cases o with
      | none => cases h
      | some st1 =>
        have hdec := normalizeStep_decrease hns
        exact ih st1 st' h (by omega)

/-- C2: the normalization pass is idempotent — after a completed run,
an immediately following second run changes nothing: it returns the
same document and selection (the whole editor state) unchanged. -/
theorem c2_normalize_idempotent (st st1 : EState)
    (h : normalizeFix st = .ok st1) : normalizeFix st1 = .ok st1 := by
  have hstep : normalizeStep st1 = none :=
    normalizeFixGo_fix (nlCountDoc st.doc) st st1 h (Nat.le_refl _)
  rw [normalizeFix]
  rcases hn : nlCountDoc st1.doc with _ | m
  · rfl
  · rw [normalizeFixGo, hstep]

/-- A one-line document whose text holds an unescaped newline. -/
def c2wStart : EState :=
  { doc := [.elem "paragraph" none none [.text ['a', '\n', 'b'] []]],
    sel := none, emarks := none }

/-- Its normal form: one paragraph per line. -/
def c2wRes : EState :=
  { doc := [.elem "paragraph" none none [.text ['a'] []],
      .elem "paragraph" none none [.text ['b'] []]],
    sel := none, emarks := none }

theorem c2_normalize_idempotent_witness :
    normalizeFix c2wStart = .ok c2wRes ∧ normalizeFix c2wRes = .ok c2wRes :=
  ⟨rfl, c2_normalize_idempotent c2wStart c2wRes rfl⟩

/-! ## Claim C1 — structural well-formedness layer -/

theorem goodDoc_iff {doc : List SNode} : goodDoc doc = true ↔
    inv2 doc = true ∧ inv34List doc = true ∧ flatList doc = true ∧
    rootNLOk doc = true := by
  rw [goodDoc]
  simp [Bool.and_eq_true, and_assoc]

theorem inv34List_mem : ∀ {l : List SNode},
    inv34List l = true ↔ ∀ n ∈ l, inv34Node n = true := by
  intro l
  induction l with
  | nil => simp [inv34List]
  | cons n ns ih =>
    rw [inv34List, Bool.and_eq_true, ih]
    simp

theorem flatList_mem : ∀ {l : List SNode},
    flatList l = true ↔ ∀ n ∈ l, flatNode n = true := by
  intro l
  induction l with
  | nil => simp [flatList]
  | cons n ns ih =>
    rw [flatList, Bool.and_eq_true, ih]
    simp

theorem inv34List_sub {l l' : List SNode} (hsub : l' ⊆ l)
    (h : inv34List l = true) : inv34List l' = true :=
  inv34List_mem.2 fun n hn => inv34List_mem.1 h n (hsub hn)

theorem flatList_sub {l l' : List SNode} (hsub : l' ⊆ l)
    (h : flatList l = true) : flatList l' = true :=
  flatList_mem.2 fun n hn => flatList_mem.1 h n (hsub hn)

theorem inv34List_append {l1 l2 : List SNode} (h1 : inv34List l1 = true)
    (h2 : inv34List l2 = true) : inv34List (l1 ++ l2) = true := by
  refine inv34List_mem.2 fun n hn => ?_
  rcases List.mem_append.1 hn with h | h
  · exact inv34List_mem.1 h1 n h
  · exact inv34List_mem.1 h2 n h

theorem flatList_append {l1 l2 : List SNode} (h1 : flatList l1 = true)
    (h2 : flatList l2 = true) : flatList (l1 ++ l2) = true := by
  refine flatList_mem.2 fun n hn => ?_
  rcases List.mem_append.1 hn with h | h
  · exact flatList_mem.1 h1 n h
  · exact flatList_mem.1 h2 n h

theorem inv34List_set {l : List SNode} {i : Nat} {a : SNode}
    (h : inv34List l = true) (ha : inv34Node a = true) :
    inv34List (l.set i a) = true := by
  refine inv34List_mem.2 fun n hn => ?_
  rcases List.mem_or_eq_of_mem_set hn with h1 | h1
  · exact inv34List_mem.1 h n h1
  · exact h1 ▸ ha

theorem flatList_set {l : List SNode} {i : Nat} {a : SNode}
    (h : flatList l = true) (ha : flatNode a = true) :
    flatList (l.set i a) = true := by
  refine flatList_mem.2 fun n hn => ?_
  rcases List.mem_or_eq_of_mem_set hn with h1 | h1
  · exact flatList_mem.1 h n h1
  · exact h1 ▸ ha

theorem inv34Node_elem_iff {ty : String} {lb : Option String} {v : Option Int}
    {cs : List SNode} : inv34Node (.elem ty lb v cs) = true ↔
    ((ty == stampedBlockType) = true → cs.all SNode.isText = true) ∧
    soleOk cs = true ∧ inv34List cs = true := by
  rw [inv34Node]
  simp only [Bool.and_eq_true, Bool.or_eq_true, Bool.not_eq_true']
  constructor
  · rintro ⟨⟨h1, h2⟩, h3⟩
    refine ⟨fun hty => ?_, h2, h3⟩
    rcases h1 with h | h
    · rw [hty] at h; cases h
    · exact h
  · rintro ⟨h1, h2, h3⟩
    refine ⟨⟨?_, h2⟩, h3⟩
    by_cases hty : (ty == stampedBlockType) = true
    · exact Or.inr (h1 hty)
    · exact Or.inl (by simpa using hty)

theorem flatNode_elem_iff {ty : String} {lb : Option String} {v : Option Int}
    {cs : List SNode} : flatNode (.elem ty lb v cs) = true ↔
    homogOk cs = true ∧ flatList cs = true := by
  rw [flatNode]
  simp [Bool.and_eq_true]

theorem stampfree_of_sole_mem {cs : List SNode} {n : SNode}
    (hs : soleOk cs = true) (hm : n ∈ cs) (hn : n.isStamped = false) :
    cs.any SNode.isStamped = false := by
  rw [soleOk, Bool.or_eq_true, Bool.not_eq_true'] at hs
  rcases hs with h | h
  · exact h
  · have hlen : cs.length = 1 := by simpa using h
    rcases cs with _ | ⟨x, rest⟩
    · cases hm
    · rcases rest with _ | ⟨y, rest2⟩
      · have : n = x := by simpa using hm
        subst this
        simp [List.any_cons, hn]
      · simp at hlen
  
theorem alltext_of_homog_mem_text {cs : List SNode} {n : SNode}
    (hh : homogOk cs = true) (hm : n ∈ cs) (hn : n.isText = true) :
    cs.all SNode.isText = true := by
  rw [homogOk, Bool.or_eq_true] at hh
  rcases hh with h | h
  · exact h
  · rw [List.all_eq_true] at h
    have := h n hm
    rw [hn] at this
    cases this

theorem allelem_of_homog_mem_elem {cs : List SNode} {n : SNode}
    (hh : homogOk cs = true) (hm : n ∈ cs) (hn : n.isText = false) :
    (cs.all fun m => !m.isText) = true := by
  rw [homogOk, Bool.or_eq_true] at hh
  rcases hh with h | h
  · rw [List.all_eq_true] at h
    have := h n hm
    rw [hn] at this
    cases this
  · exact h

theorem homog_of_alltext {cs : List SNode} (h : cs.all SNode.isText = true) :
    homogOk cs = true := by
  rw [homogOk, Bool.or_eq_true]
  exact Or.inl h

theorem homog_of_allelem {cs : List SNode}
    (h : (cs.all fun m => !m.isText) = true) : homogOk cs = true := by
  rw [homogOk, Bool.or_eq_true]
  exact Or.inr h

theorem stampfree_any_append {l1 l2 : List SNode}
    (h1 : l1.any SNode.isStamped = false) (h2 : l2.any SNode.isStamped = false) :
    (l1 ++ l2).any SNode.isStamped = false := by
  rw [List.any_append, h1, h2]
  rfl

theorem stampfree_any_sub {l l' : List SNode} (hsub : l' ⊆ l)
    (h : l.any SNode.isStamped = false) : l'.any SNode.isStamped = false := by
  rw [Bool.eq_false_iff]
  intro hcon
  rw [List.any_eq_true] at hcon
  obtain ⟨x, hx, hxs⟩ := hcon
  rw [Bool.eq_false_iff] at h
  exact h (List.any_eq_true.2 ⟨x, hsub hx, hxs⟩)

theorem soleOk_of_stampfree {cs : List SNode}
    (h : cs.any SNode.isStamped = false) : soleOk cs = true := by
  rw [soleOk, Bool.or_eq_true, Bool.not_eq_true']
  exact Or.inl h

theorem alltext_sub {l l' : List SNode} (hsub : l' ⊆ l)
    (h : l.all SNode.isText = true) : l'.all SNode.isText = true := by
  rw [List.all_eq_true] at h ⊢
  exact fun x hx => h x (hsub hx)

theorem alltext_append {l1 l2 : List SNode} (h1 : l1.all SNode.isText = true)
    (h2 : l2.all SNode.isText = true) : (l1 ++ l2).all SNode.isText = true := by
  rw [List.all_append, h1, h2]
  rfl

theorem allelem_sub {l l' : List SNode} (hsub : l' ⊆ l)
    (h : (l.all fun m => !m.isText) = true) :
    (l'.all fun m => !m.isText) = true := by
  rw [List.all_eq_true] at h ⊢
  exact fun x hx => h x (hsub hx)

theorem allelem_append {l1 l2 : List SNode}
    (h1 : (l1.all fun m => !m.isText) = true)
    (h2 : (l2.all fun m => !m.isText) = true) :
    ((l1 ++ l2).all fun m => !m.isText) = true := by
  rw [List.all_append, h1, h2]
  rfl

theorem homog_set_same_kind {cs : List SNode} {j : Nat} {a : SNode}
    (hh : homogOk cs = true) (hk : ∀ b, cs[j]? = some b → a.isText = b.isText) :
    homogOk (cs.set j a) = true := by
  rcases hj : cs[j]? with _ | b
  · rw [List.set_eq_of_length_le]
    · exact hh
    · by_contra hlt
      rw [List.getElem?_eq_none_iff] at hj
      omega
  · have hmem : b ∈ cs := List.getElem?_mem hj
    have hkind := hk b hj
    rw [homogOk, Bool.or_eq_true] at hh
    rcases hh with h | h
    · refine homog_of_alltext ?_
      rw [List.all_eq_true] at h ⊢
      intro x hx
      rcases List.mem_or_eq_of_mem_set hx with h1 | h1
      · exact h x h1
      · rw [h1, hkind]
        exact h b hmem
    · refine homog_of_allelem ?_
      rw [List.all_eq_true] at h ⊢
      intro x hx
      rcases List.mem_or_eq_of_mem_set hx with h1 | h1
      · exact h x h1
      · rw [h1]
        have := h b hmem
        simp only [Bool.not_eq_true'] at this ⊢
        rw [hkind, this]

theorem soleOk_set_same_stamp {cs : List SNode} {j : Nat} {a : SNode}
    (hs : soleOk cs = true) (hk : ∀ b, cs[j]? = some b → a.isStamped = b.isStamped) :
    soleOk (cs.set j a) = true := by
  rcases hj : cs[j]? with _ | b
  · rw [List.set_eq_of_length_le]
    · exact hs
    · by_contra hlt
      rw [List.getElem?_eq_none_iff] at hj
      omega
  · have hmem : b ∈ cs := List.getElem?_mem hj
    have hkind := hk b hj
    rw [soleOk, Bool.or_eq_true, Bool.not_eq_true'] at hs ⊢
    rcases hs with h | h
    · left
      rw [Bool.eq_false_iff]
      intro hcon
      rw [List.any_eq_true] at hcon
      obtain ⟨x, hx, hxs⟩ := hcon
      rcases List.mem_or_eq_of_mem_set hx with h1 | h1
      · rw [Bool.eq_false_iff] at h
        exact h (List.any_eq_true.2 ⟨x, h1, hxs⟩)
      · rw [h1, hkind] at hxs
        rw [Bool.eq_false_iff] at h
        exact h (List.any_eq_true.2 ⟨b, hmem, hxs⟩)
    · right
      simpa using h

theorem alltext_set_same_kind {cs : List SNode} {j : Nat} {a : SNode}
    (h : cs.all SNode.isText = true)
    (hk : ∀ b, cs[j]? = some b → a.isText = b.isText) :
    (cs.set j a).all SNode.isText = true := by
  rcases hj : cs[j]? with _ | b
  · rw [List.set_eq_of_length_le]
    · exact h
    · by_contra hlt
      rw [List.getElem?_eq_none_iff] at hj
      omega
  · rw [List.all_eq_true] at h ⊢
    intro x hx
    rcases List.mem_or_eq_of_mem_set hx with h1 | h1
    · exact h x h1
    · rw [h1, hk b hj]
      exact h b (List.getElem?_mem hj)

/-- The workhorse: a child-list edit that preserves the local
conditions preserves invariants 3-4 and flatness of the whole tree;
the local conditions transfer to the root list, and for a non-root
edit invariant 2 and newline-free root texts carry over for free. -/
theorem inv34_nodeAt : ∀ {p : SPath} {doc : List SNode} {n : SNode},
    nodeAt doc p = some n → inv34List doc = true → inv34Node n = true := by
  intro p
  induction p with
  | nil => intro doc n h hd; cases h
  | cons i rest ih =>
    intro doc n h hd
    rw [nodeAt] at h
    rcases hi : doc[i]? with _ | m
    · rw [hi] at h; cases h
    · rw [hi] at h
      have hm : inv34Node m = true := inv34List_mem.1 hd m (List.getElem?_mem hi)
      rcases rest with _ | ⟨r1, r2⟩
      · cases h; exact hm
      · dsimp only at h
        cases m with
        | text s mk =>
          rw [show (SNode.text s mk).childrenOf = [] from rfl] at h
          simp [nodeAt] at h
        | elem ty lb v cs =>
          refine ih h ?_
          exact (inv34Node_elem_iff.1 hm).2.2

theorem flat_nodeAt : ∀ {p : SPath} {doc : List SNode} {n : SNode},
    nodeAt doc p = some n → flatList doc = true → flatNode n = true := by
  intro p
  induction p with
  | nil => intro doc n h hd; cases h
  | cons i rest ih =>
    intro doc n h hd
    rw [nodeAt] at h
    rcases hi : doc[i]? with _ | m
    · rw [hi] at h; cases h
    · rw [hi] at h
      have hm : flatNode m = true := flatList_mem.1 hd m (List.getElem?_mem hi)
      rcases rest with _ | ⟨r1, r2⟩
      · cases h; exact hm
      · dsimp only at h
        cases m with
        | text s mk =>
          rw [show (SNode.text s mk).childrenOf = [] from rfl] at h
          simp [nodeAt] at h
        | elem ty lb v cs =>
          refine ih h ?_
          exact (flatNode_elem_iff.1 hm).2

theorem childListAt_ne_nil (doc : List SNode) {p : SPath} (h : p ≠ []) :
    childListAt doc p = (nodeAt doc p).map SNode.childrenOf := by
  rcases p with _ | ⟨i, rest⟩
  · exact absurd rfl h
  · rfl

theorem stamped_target_text {doc : List SNode} {pref : SPath} {b : SNode}
    {cs : List SNode} (hb : nodeAt doc pref = some b)
    (hcl : childListAt doc pref = some cs) (hbs : b.isStamped = true)
    (h34d : inv34List doc = true) : cs.all SNode.isText = true := by
  have hne : pref ≠ [] := by
    intro hz
    rw [hz, nodeAt_nil] at hb
    cases hb
  rw [childListAt_ne_nil _ hne, hb] at hcl
  simp only [Option.map_some', Option.some.injEq] at hcl
  have h34b := inv34_nodeAt hb h34d
  cases b with
  | text str m => cases hbs
  | elem ty lb v ccs =>
    have := (inv34Node_elem_iff.1 h34b).1 (by
      have : SNode.isStamped (SNode.elem ty lb v ccs) = (ty == stampedBlockType) := rfl
      rw [← this]
      exact hbs)
    rw [← hcl]
    exact this

theorem modify_wf : ∀ {pref : SPath} {doc : List SNode}
    {f : List SNode → Option (List SNode)} {doc' : List SNode},
    modifyChildrenO doc pref f = some doc' →
    inv34List doc = true → flatList doc = true →
    (∀ cs cs', childListAt doc pref = some cs →
      inv34List cs = true → flatList cs = true → f cs = some cs' →
      inv34List cs' = true ∧ flatList cs' = true ∧
      (soleOk cs = true → soleOk cs' = true) ∧
      (homogOk cs = true → homogOk cs' = true) ∧
      (∀ b, nodeAt doc pref = some b → b.isStamped = true →
        cs'.all SNode.isText = true)) →
    inv34List doc' = true ∧ flatList doc' = true ∧
    (soleOk doc = true → soleOk doc' = true) ∧
    (homogOk doc = true → homogOk doc' = true) ∧
    (pref = [] → f doc = some doc') ∧
    (pref ≠ [] → (inv2 doc = true → inv2 doc' = true) ∧
      (rootNLOk doc = true → rootNLOk doc' = true)) := by
  intro pref
  induction pref with
  | nil =>
    intro doc f doc' h h34 hfl hf
    rw [modifyChildrenO] at h
    obtain ⟨h1, h2, h3, h4, _⟩ := hf doc doc' rfl h34 hfl h
    exact ⟨h1, h2, h3, h4, fun _ => h, fun hne => absurd rfl hne⟩
  | cons i rest ih =>
    intro doc f doc' h h34 hfl hf
    rw [modifyChildrenO] at h
    rcases hi : doc[i]? with _ | n
    · rw [hi] at h; cases h
    · rw [hi] at h
      cases n with
      | text s m => cases h
      | elem ty lb v cs =>
        dsimp only at h
        rcases hrec : modifyChildrenO cs rest f with _ | inner
        · rw [hrec] at h; cases h
        · rw [hrec] at h
          simp only [Option.map_some'] at h
          cases h
          have hmemi : SNode.elem ty lb v cs ∈ doc := List.getElem?_mem hi
          have hn34 : inv34Node (SNode.elem ty lb v cs) = true :=
            inv34List_mem.1 h34 _ hmemi
          have hnfl : flatNode (SNode.elem ty lb v cs) = true :=
            flatList_mem.1 hfl _ hmemi
          obtain ⟨ht34, hsole, hcs34⟩ := inv34Node_elem_iff.1 hn34
          obtain ⟨hhomog, hcsfl⟩ := flatNode_elem_iff.1 hnfl
          have hf' : ∀ cs0 cs0', childListAt cs rest = some cs0 →
              inv34List cs0 = true → flatList cs0 = true → f cs0 = some cs0' →
              inv34List cs0' = true ∧ flatList cs0' = true ∧
              (soleOk cs0 = true → soleOk cs0' = true) ∧
              (homogOk cs0 = true → homogOk cs0' = true) ∧
              (∀ b, nodeAt cs rest = some b → b.isStamped = true →
                cs0'.all SNode.isText = true) := by
            intro cs0 cs0' hcl0 a b c
            have hcl1 : childListAt doc (i :: rest) = some cs0 := by
              rw [childListAt_cons, hi, Option.some_bind]
              exact hcl0
            obtain ⟨r1, r2, r3, r4, r5⟩ := hf cs0 cs0' hcl1 a b c
            refine ⟨r1, r2, r3, r4, ?_⟩
            intro bb hbb hbs
            rcases rest with _ | ⟨j, t⟩
            · rw [nodeAt_nil] at hbb
              cases hbb
            · refine r5 bb ?_ hbs
              rw [nodeAt_cons _ _ _ (List.cons_ne_nil _ _), hi, Option.some_bind]
              exact hbb
          obtain ⟨hi34, hifl, hisole, hihomog, _, _⟩ :=
            ih hrec hcs34 hcsfl hf'
          have htext_inner : (ty == stampedBlockType) = true →
              inner.all SNode.isText = true := by
            intro hty
            rcases rest with _ | ⟨j, t⟩
            · rw [modifyChildrenO] at hrec
              have hclA : childListAt doc [i] = some cs := by
                rw [childListAt_cons, hi, Option.some_bind]
                rfl
              obtain ⟨_, _, _, _, r5⟩ := hf cs inner hclA hcs34 hcsfl hrec
              refine r5 (SNode.elem ty lb v cs) ?_
                (by simpa [SNode.isStamped] using hty)
              simp [nodeAt, hi]
            · exfalso
              have hcst : cs.all SNode.isText = true := ht34 hty
              rw [modifyChildrenO] at hrec
              rcases hj : cs[j]? with _ | mm
              · rw [hj] at hrec; cases hrec
              · rw [hj] at hrec
                cases mm with
                | text s2 m2 => cases hrec
                | elem ty2 lb2 v2 ccs2 =>
                  have hmem : SNode.elem ty2 lb2 v2 ccs2 ∈ cs :=
                    List.getElem?_mem hj
                  rw [List.all_eq_true] at hcst
                  have := hcst _ hmem
                  simp [SNode.isText] at this
          have hnew34 : inv34Node (SNode.elem ty lb v inner) = true :=
            inv34Node_elem_iff.2 ⟨htext_inner, hisole hsole, hi34⟩
          have hnewfl : flatNode (SNode.elem ty lb v inner) = true :=
            flatNode_elem_iff.2 ⟨hihomog hhomog, hifl⟩
          refine ⟨inv34List_set h34 hnew34, flatList_set hfl hnewfl,
            ?_, ?_, ?_, ?_⟩
          · intro hs
            refine soleOk_set_same_stamp hs ?_
            intro b hb
            rw [hi] at hb
            cases hb
            rfl
          · intro hh
            refine homog_set_same_kind hh ?_
            intro b hb
            rw [hi] at hb
            cases hb
            rfl
          · intro h0
            exact absurd h0 (List.cons_ne_nil _ _)
          · intro _
            constructor
            · intro h2v
              rw [inv2, List.all_eq_true] at h2v ⊢
              intro x hx
              rcases List.mem_or_eq_of_mem_set hx with h1 | h1
              · exact h2v x h1
              · rw [h1]
                have := h2v _ hmemi
                simpa [SNode.isStamped] using this
            · intro hnl
              rw [rootNLOk, List.all_eq_true] at hnl ⊢
              intro x hx
              rcases List.mem_or_eq_of_mem_set hx with h1 | h1
              · exact hnl x h1
              · rw [h1]

/-- The root-list condition on one node (`rootNLOk` pointwise). -/
def rootTextOk : SNode → Bool
  | .text s _ => (findUNL s).isNone
  | _ => true

theorem rootNLOk_eq_all (doc : List SNode) :
    rootNLOk doc = doc.all rootTextOk := by
  rw [rootNLOk]
  refine congrArg _ ?_
  funext n
  cases n <;> rfl

theorem rootNLOk_mem {doc : List SNode} :
    rootNLOk doc = true ↔ ∀ n ∈ doc, rootTextOk n = true := by
  rw [rootNLOk_eq_all, List.all_eq_true]

theorem rootTextOk_elem (ty : String) (lb : Option String) (v : Option Int)
    (cs : List SNode) : rootTextOk (.elem ty lb v cs) = true := rfl

theorem inv2_mem {doc : List SNode} :
    inv2 doc = true ↔ ∀ n ∈ doc, n.isStamped = false := by
  rw [inv2, List.all_eq_true]
  constructor
  · intro h n hn
    have := h n hn
    simpa using this
  · intro h n hn
    simpa using h n hn

theorem inv2_sub {doc doc' : List SNode} (hsub : doc' ⊆ doc)
    (h : inv2 doc = true) : inv2 doc' = true :=
  inv2_mem.2 fun n hn => inv2_mem.1 h n (hsub hn)

theorem rootNLOk_sub {doc doc' : List SNode} (hsub : doc' ⊆ doc)
    (h : rootNLOk doc = true) : rootNLOk doc' = true :=
  rootNLOk_mem.2 fun n hn => rootNLOk_mem.1 h n (hsub hn)

theorem inv2_append {l1 l2 : List SNode} (h1 : inv2 l1 = true)
    (h2 : inv2 l2 = true) : inv2 (l1 ++ l2) = true := by
  refine inv2_mem.2 fun n hn => ?_
  rcases List.mem_append.1 hn with h | h
  · exact inv2_mem.1 h1 n h
  · exact inv2_mem.1 h2 n h

theorem rootNLOk_append {l1 l2 : List SNode} (h1 : rootNLOk l1 = true)
    (h2 : rootNLOk l2 = true) : rootNLOk (l1 ++ l2) = true := by
  refine rootNLOk_mem.2 fun n hn => ?_
  rcases List.mem_append.1 hn with h | h
  · exact rootNLOk_mem.1 h1 n h
  · exact rootNLOk_mem.1 h2 n h

theorem homogOk_sub {l l' : List SNode} (hsub : l' ⊆ l)
    (h : homogOk l = true) : homogOk l' = true := by
  rw [homogOk, Bool.or_eq_true] at h
  rcases h with h | h
  · exact homog_of_alltext (alltext_sub hsub h)
  · exact homog_of_allelem (allelem_sub hsub h)

theorem soleOk_eraseIdx {cs : List SNode} (j : Nat) (hs : soleOk cs = true) :
    soleOk (cs.eraseIdx j) = true := by
  rw [soleOk, Bool.or_eq_true, Bool.not_eq_true'] at hs
  rcases hs with h | h
  · exact soleOk_of_stampfree (stampfree_any_sub (List.eraseIdx_subset _ _) h)
  · have hlen : cs.length = 1 := by simpa using h
    rcases cs with _ | ⟨x, rest⟩
    · simp at hlen
    · rcases rest with _ | ⟨y, rest2⟩
      · rcases j with _ | j
        · rw [List.eraseIdx_cons_zero]
          decide
        · rw [List.eraseIdx_cons_succ, List.eraseIdx_nil, soleOk,
            Bool.or_eq_true]
          right
          simp
      · simp at hlen

theorem alltext_stampfree {cs : List SNode} (h : cs.all SNode.isText = true) :
    cs.any SNode.isStamped = false := by
  rw [Bool.eq_false_iff]
  intro hcon
  rw [List.any_eq_true] at hcon
  obtain ⟨x, hx, hxs⟩ := hcon
  rw [List.all_eq_true] at h
  have := h x hx
  cases x with
  | text s m => cases hxs
  | elem ty lb v ccs => cases this

theorem allunst_stampfree {cs : List SNode}
    (h : (cs.all fun n => !n.isStamped) = true) :
    cs.any SNode.isStamped = false := by
  rw [Bool.eq_false_iff]
  intro hcon
  rw [List.any_eq_true] at hcon
  obtain ⟨x, hx, hxs⟩ := hcon
  rw [List.all_eq_true] at h
  have := h x hx
  rw [hxs] at this
  cases this

theorem stampfree_allunst {cs : List SNode}
    (h : cs.any SNode.isStamped = false) :
    (cs.all fun n => !n.isStamped) = true := by
  rw [List.all_eq_true]
  intro x hx
  rw [Bool.eq_false_iff] at h
  by_contra hc
  simp only [Bool.not_eq_true'] at hc
  exact h (List.any_eq_true.2 ⟨x, hx, by simpa using hc⟩)

/-- Removing the node at a path preserves the structural
well-formedness. -/
theorem removeAtPathD_good {doc doc' : List SNode} {p : SPath}
    (h : removeAtPathD doc p = some doc') (hg : goodDoc doc = true) :
    goodDoc doc' = true := by
  obtain ⟨h2, h34, hfl, hnl⟩ := goodDoc_iff.1 hg
  rw [removeAtPathD] at h
  simp only [Option.bind_eq_bind, Option.bind_eq_some] at h
  obtain ⟨⟨pref, j⟩, hsp, h⟩ := h
  dsimp only at h
  have hm := modify_wf h h34 hfl ?_
  · obtain ⟨h34', hfl', _, _, hroot0, hrootne⟩ := hm
    by_cases hpe : pref = []
    · subst hpe
      have hfd := hroot0 rfl
      rw [if_pos (by
        by_contra hge
        rw [if_neg hge] at hfd
        cases hfd)] at hfd
      injection hfd with hfd
      subst hfd
      exact goodDoc_iff.2 ⟨inv2_sub (List.eraseIdx_subset _ _) h2, h34', hfl',
        rootNLOk_sub (List.eraseIdx_subset _ _) hnl⟩
    · obtain ⟨hi2, hinl⟩ := hrootne hpe
      exact goodDoc_iff.2 ⟨hi2 h2, h34', hfl', hinl hnl⟩
  · intro cs cs' hcl hcs34 hcsfl hf
    split at hf
    · injection hf with hf
      subst hf
      exact ⟨inv34List_sub (List.eraseIdx_subset _ _) hcs34,
        flatList_sub (List.eraseIdx_subset _ _) hcsfl,
        fun hs => soleOk_eraseIdx j hs,
        fun hh => homogOk_sub (List.eraseIdx_subset _ _) hh,
        fun b hb hbs => alltext_sub (List.eraseIdx_subset _ _)
          (stamped_target_text hb hcl hbs h34)⟩
    · cases hf

/-- Inserting nodes at a sibling slot preserves well-formedness, given
the inserted nodes are well-formed, unstamped, kind-compatible with
the target list, and (at the root) `rootTextOk`. -/
theorem insertAtPathD_good {doc doc' ns : List SNode} {p : SPath}
    (h : insertAtPathD doc p ns = some doc') (hg : goodDoc doc = true)
    (h34 : inv34List ns = true) (hfl : flatList ns = true)
    (hhom : homogOk ns = true)
    (hunst : (ns.all fun n => !n.isStamped) = true)
    (hkind : ∀ cs, childListAt doc p.dropLast = some cs →
      (cs.all SNode.isText = true → cs ≠ [] → ns.all SNode.isText = true) ∧
      ((cs.all fun m => !m.isText) = true → cs ≠ [] →
        (ns.all fun m => !m.isText) = true) ∧
      cs.any SNode.isStamped = false)
    (hstp : ∀ b, nodeAt doc p.dropLast = some b → b.isStamped = true →
      ns.all SNode.isText = true)
    (hroot : p.dropLast = [] → ns.all rootTextOk = true) :
    goodDoc doc' = true := by
  obtain ⟨h2, hd34, hdfl, hnl⟩ := goodDoc_iff.1 hg
  rw [insertAtPathD] at h
  simp only [Option.bind_eq_bind, Option.bind_eq_some] at h
  obtain ⟨⟨pref, j⟩, hsp, h⟩ := h
  dsimp only at h
  have hpref : pref = p.dropLast := by
    have := splitLastP_eq hsp
    rw [this]
    simp
  have hm := modify_wf h hd34 hdfl ?_
  · obtain ⟨h34', hfl', _, _, hroot0, hrootne⟩ := hm
    by_cases hpe : pref = []
    · subst hpe
      have hfd := hroot0 rfl
      rw [if_pos (by
        by_contra hge
        rw [if_neg hge] at hfd
        cases hfd)] at hfd
      injection hfd with hfd
      subst hfd
      refine goodDoc_iff.2 ⟨?_, h34', hfl', ?_⟩
      · refine inv2_append (inv2_append (inv2_sub (List.take_subset _ _) h2) ?_)
          (inv2_sub (List.drop_subset _ _) h2)
        exact inv2_mem.2 fun n hn => by
          have := List.all_eq_true.1 hunst n hn
          simpa using this
      · refine rootNLOk_append
          (rootNLOk_append (rootNLOk_sub (List.take_subset _ _) hnl) ?_)
          (rootNLOk_sub (List.drop_subset _ _) hnl)
        rw [rootNLOk_eq_all]
        exact hroot (by rw [← hpref])
    · obtain ⟨hi2, hinl⟩ := hrootne hpe
      exact goodDoc_iff.2 ⟨hi2 h2, h34', hfl', hinl hnl⟩
  · intro cs cs' hcl hcs34 hcsfl hf
    split at hf
    · injection hf with hf
      subst hf
      obtain ⟨hk1, hk2, hsf⟩ := hkind cs (by rw [← hpref]; exact hcl)
      have hns_sf : ns.any SNode.isStamped = false := allunst_stampfree hunst
      refine ⟨?_, ?_, ?_, ?_, ?_⟩
      · exact inv34List_append
          (inv34List_append (inv34List_sub (List.take_subset _ _) hcs34) h34)
          (inv34List_sub (List.drop_subset _ _) hcs34)
      · exact flatList_append
          (flatList_append (flatList_sub (List.take_subset _ _) hcsfl) hfl)
          (flatList_sub (List.drop_subset _ _) hcsfl)
      · intro _
        exact soleOk_of_stampfree (stampfree_any_append
          (stampfree_any_append
            (stampfree_any_sub (List.take_subset _ _) hsf) hns_sf)
          (stampfree_any_sub (List.drop_subset _ _) hsf))
      · intro hh
        by_cases hce : cs = []
        · subst hce
          simp only [List.take_nil, List.drop_nil, List.nil_append,
            List.append_nil]
          exact hhom
        · rw [homogOk, Bool.or_eq_true] at hh
          rcases hh with hh | hh
          · exact homog_of_alltext (alltext_append
              (alltext_append (alltext_sub (List.take_subset _ _) hh)
                (hk1 hh hce))
              (alltext_sub (List.drop_subset _ _) hh))
          · exact homog_of_allelem (allelem_append
              (allelem_append (allelem_sub (List.take_subset _ _) hh)
                (hk2 hh hce))
              (allelem_sub (List.drop_subset _ _) hh))
      · intro b hb hbs
        have hct : cs.all SNode.isText = true :=
          stamped_target_text hb hcl hbs hd34
        have hnst : ns.all SNode.isText = true :=
          hstp b (by rw [← hpref]; exact hb) hbs
        exact alltext_append
          (alltext_append (alltext_sub (List.take_subset _ _) hct) hnst)
          (alltext_sub (List.drop_subset _ _) hct)
    · cases hf

/-- Replacing the node at a path by nodes of the same kind and stamp
status (a lone node when the replaced one is stamped) preserves
well-formedness. -/
theorem replaceAtPathD_good {doc doc' ns : List SNode} {p : SPath} {b : SNode}
    (h : replaceAtPathD doc p ns = some doc') (hg : goodDoc doc = true)
    (hb : nodeAt doc p = some b)
    (h34 : inv34List ns = true) (hfl : flatList ns = true)
    (hstamp : ∀ n ∈ ns, n.isStamped = b.isStamped)
    (hlen1 : b.isStamped = true → ns.length = 1)
    (hkind : ∀ n ∈ ns, n.isText = b.isText)
    (hroot : p.dropLast = [] → ns.all rootTextOk = true) :
    goodDoc doc' = true := by
  obtain ⟨h2, hd34, hdfl, hnl⟩ := goodDoc_iff.1 hg
  rw [replaceAtPathD] at h
  simp only [Option.bind_eq_bind, Option.bind_eq_some] at h
  obtain ⟨⟨pref, j⟩, hsp, h⟩ := h
  dsimp only at h
  have hpref : pref = p.dropLast := by
    have := splitLastP_eq hsp
    rw [this]
    simp
  have hm := modify_wf h hd34 hdfl ?_
  · obtain ⟨h34', hfl', _, _, hroot0, hrootne⟩ := hm
    by_cases hpe : pref = []
    · subst hpe
      have hfd := hroot0 rfl
      rw [if_pos (by
        by_contra hge
        rw [if_neg hge] at hfd
        cases hfd)] at hfd
      injection hfd with hfd
      subst hfd
      have hbj : doc[j]? = some b := by
        rw [← nodeAt_of_split hsp rfl]
        exact hb
      have hbmem : b ∈ doc := List.getElem?_mem hbj
      refine goodDoc_iff.2 ⟨?_, h34', hfl', ?_⟩
      · refine inv2_append (inv2_append (inv2_sub (List.take_subset _ _) h2) ?_)
          (inv2_sub (List.drop_subset _ _) h2)
        refine inv2_mem.2 fun n hn => ?_
        rw [hstamp n hn]
        exact inv2_mem.1 h2 b hbmem
      · refine rootNLOk_append
          (rootNLOk_append (rootNLOk_sub (List.take_subset _ _) hnl) ?_)
          (rootNLOk_sub (List.drop_subset _ _) hnl)
        rw [rootNLOk_eq_all]
        exact hroot (by rw [← hpref])
    · obtain ⟨hi2, hinl⟩ := hrootne hpe
      exact goodDoc_iff.2 ⟨hi2 h2, h34', hfl', hinl hnl⟩
  · intro cs cs' hcl hcs34 hcsfl hf
    split at hf
    · injection hf with hf
      subst hf
      have hbj : cs[j]? = some b := by
        rw [← nodeAt_of_split hsp hcl]
        exact hb
      have hbmem : b ∈ cs := List.getElem?_mem hbj
      refine ⟨?_, ?_, ?_, ?_, ?_⟩
      · exact inv34List_append
          (inv34List_append (inv34List_sub (List.take_subset _ _) hcs34) h34)
          (inv34List_sub (List.drop_subset _ _) hcs34)
      · exact flatList_append
          (flatList_append (flatList_sub (List.take_subset _ _) hcsfl) hfl)
          (flatList_sub (List.drop_subset _ _) hcsfl)
      · intro hs
        rcases hbs : b.isStamped with _ | _
        · have hssf : cs.any SNode.isStamped = false :=
            stampfree_of_sole_mem hs hbmem hbs
          refine soleOk_of_stampfree (stampfree_any_append
            (stampfree_any_append
              (stampfree_any_sub (List.take_subset _ _) hssf) ?_)
            (stampfree_any_sub (List.drop_subset _ _) hssf))
          rw [Bool.eq_false_iff]
          intro hcon
          rw [List.any_eq_true] at hcon
          obtain ⟨x, hx, hxs⟩ := hcon
          rw [hstamp x hx, hbs] at hxs
          cases hxs
        · rw [soleOk, Bool.or_eq_true, Bool.not_eq_true'] at hs
          rcases hs with hs | hs
          · rw [Bool.eq_false_iff] at hs
            exact absurd (List.any_eq_true.2 ⟨b, hbmem, hbs⟩) hs
          · have hlen : cs.length = 1 := by simpa using hs
            have hj0 : j = 0 := by
              by_contra hj
              rw [List.getElem?_eq_some_iff] at hbj
              omega
            subst hj0
            rcases cs with _ | ⟨x, rest⟩
            · simp at hlen
            · rcases rest with _ | ⟨y, rest2⟩
              · rw [soleOk, Bool.or_eq_true]
                right
                simp [hlen1 hbs]
              · simp at hlen
      · intro hh
        rw [homogOk, Bool.or_eq_true] at hh
        rcases hh with hh | hh
        · refine homog_of_alltext (alltext_append
            (alltext_append (alltext_sub (List.take_subset _ _) hh) ?_)
            (alltext_sub (List.drop_subset _ _) hh))
          rw [List.all_eq_true] at hh ⊢
          intro x hx
          rw [hkind x hx]
          exact hh b hbmem
        · refine homog_of_allelem (allelem_append
            (allelem_append (allelem_sub (List.take_subset _ _) hh) ?_)
            (allelem_sub (List.drop_subset _ _) hh))
          rw [List.all_eq_true] at hh ⊢
          intro x hx
          have := hh b hbmem
          simp only [Bool.not_eq_true'] at this ⊢
          rw [hkind x hx, this]
      · intro bp hbp hbs
        have hct : cs.all SNode.isText = true :=
          stamped_target_text hbp hcl hbs hd34
        refine alltext_append
          (alltext_append (alltext_sub (List.take_subset _ _) hct) ?_)
          (alltext_sub (List.drop_subset _ _) hct)
        rw [List.all_eq_true] at hct ⊢
        intro x hx
        rw [hkind x hx]
        exact hct b hbmem
    · cases hf

/-- Rewriting a text leaf in place (the new node again a text)
preserves well-formedness, provided a root-level text stays
newline-free. -/
theorem modifyTextAt_good {doc doc' : List SNode} {p : SPath}
    {f : Str → Marks → SNode}
    (h : modifyTextAt doc p f = some doc') (hg : goodDoc doc = true)
    (hf : ∀ s m, ∃ s2 m2, f s m = .text s2 m2)
    (hroot : p.dropLast = [] → ∀ s m, nodeAt doc p = some (.text s m) →
      (findUNL s).isNone = true → rootTextOk (f s m) = true) :
    goodDoc doc' = true := by
  obtain ⟨h2, hd34, hdfl, hnl⟩ := goodDoc_iff.1 hg
  rw [modifyTextAt] at h
  simp only [Option.bind_eq_bind, Option.bind_eq_some] at h
  obtain ⟨⟨pref, j⟩, hsp, h⟩ := h
  dsimp only at h
  have hpref : pref = p.dropLast := by
    have := splitLastP_eq hsp
    rw [this]
    simp
  have hm := modify_wf h hd34 hdfl ?_
  · obtain ⟨h34', hfl', _, _, hroot0, hrootne⟩ := hm
    by_cases hpe : pref = []
    · subst hpe
      have hfd := hroot0 rfl
      rcases hj : doc[j]? with _ | b
      · rw [hj] at hfd; cases hfd
      · rw [hj] at hfd
        cases b with
        | elem ty lb v cs => cases hfd
        | text s m =>
          injection hfd with hfd
          subst hfd
          obtain ⟨s2, m2, hfv⟩ := hf s m
          have hmem : SNode.text s m ∈ doc := List.getElem?_mem hj
          refine goodDoc_iff.2 ⟨?_, h34', hfl', ?_⟩
          · refine inv2_mem.2 fun n hn => ?_
            rcases List.mem_or_eq_of_mem_set hn with h1 | h1
            · exact inv2_mem.1 h2 n h1
            · rw [h1, hfv]
              rfl
          · refine rootNLOk_mem.2 fun n hn => ?_
            rcases List.mem_or_eq_of_mem_set hn with h1 | h1
            · exact rootNLOk_mem.1 hnl n h1
            · rw [h1]
              refine hroot (by rw [← hpref]) s m ?_ ?_
              · rw [nodeAt_of_split hsp rfl]
                exact hj
              · have := rootNLOk_mem.1 hnl _ hmem
                simpa [rootTextOk] using this
    · obtain ⟨hi2, hinl⟩ := hrootne hpe
      exact goodDoc_iff.2 ⟨hi2 h2, h34', hfl', hinl hnl⟩
  · intro cs cs' hcl hcs34 hcsfl hfc
    rcases hj : cs[j]? with _ | b
    · rw [hj] at hfc; cases hfc
    · rw [hj] at hfc
      cases b with
      | elem ty lb v ccs => cases hfc
      | text s m =>
        injection hfc with hfc
        subst hfc
        obtain ⟨s2, m2, hfv⟩ := hf s m
        have hkt : ∀ b2, cs[j]? = some b2 → (f s m).isText = b2.isText := by
          intro b2 hb2
          rw [hj] at hb2
          cases hb2
          rw [hfv]
          rfl
        refine ⟨?_, ?_, ?_, ?_, ?_⟩
        · refine inv34List_set hcs34 ?_
          rw [hfv]
          rw [inv34Node]
        · refine flatList_set hcsfl ?_
          rw [hfv]
          rw [flatNode]
        · intro hs
          refine soleOk_set_same_stamp hs ?_
          intro b2 hb2
          rw [hj] at hb2
          cases hb2
          rw [hfv]
          rfl
        · intro hh
          exact homog_set_same_kind hh hkt
        · intro bp hbp hbs
          have hct : cs.all SNode.isText = true :=
            stamped_target_text hbp hcl hbs hd34
          exact alltext_set_same_kind hct hkt

theorem findUNLAux_take_none {c : Char} : ∀ {l : Str} {o : Nat},
    findUNLAux c l = none → findUNLAux c (l.take o) = none := by
  intro l
  induction l generalizing c with
  | nil => intro o h; simp [List.take_nil, findUNLAux]
  | cons x rest ih =>
    intro o h
    rcases o with _ | o
    · rw [List.take_zero]; rfl
    · rw [List.take_succ_cons]
      rw [findUNLAux] at h ⊢
      by_cases hc : x = '\n' ∧ c ≠ '\\'
      · rw [if_pos hc] at h; cases h
      · rw [if_neg hc] at h ⊢
        rw [Option.map_eq_none'] at h ⊢
        exact ih h

theorem findUNL_take_none {l : Str} {o : Nat} (h : findUNL l = none) :
    findUNL (l.take o) = none := by
  rcases l with _ | ⟨x, rest⟩
  · simp [List.take_nil, findUNL]
  · rcases o with _ | o
    · rw [List.take_zero]; rfl
    · rw [List.take_succ_cons]
      rw [findUNL] at h ⊢
      by_cases hc : x = '\n'
      · rw [if_pos hc] at h; cases h
      · rw [if_neg hc] at h ⊢
        rw [Option.map_eq_none'] at h ⊢
        exact findUNLAux_take_none h

theorem stRemoveNodeAtPath_good {st : EState} {p : SPath} {st' : EState}
    (h : stRemoveNodeAtPath st p = some st')
    (hg : goodDoc st.doc = true) : goodDoc st'.doc = true := by
  rw [stRemoveNodeAtPath] at h
  simp only [Option.bind_eq_bind, Option.bind_eq_some, Option.pure_def,
    Option.some.injEq] at h
  obtain ⟨doc2, hm, h⟩ := h
  cases h
  exact removeAtPathD_good hm hg

theorem stInsertNodesAtPath_good {st : EState} {ns : List SNode} {p : SPath}
    {st' : EState} (h : stInsertNodesAtPath st ns p = some st')
    (hg : goodDoc st.doc = true)
    (h34 : inv34List ns = true) (hfl : flatList ns = true)
    (hhom : homogOk ns = true)
    (hunst : (ns.all fun n => !n.isStamped) = true)
    (hkind : ∀ cs, childListAt st.doc p.dropLast = some cs →
      (cs.all SNode.isText = true → cs ≠ [] → ns.all SNode.isText = true) ∧
      ((cs.all fun m => !m.isText) = true → cs ≠ [] →
        (ns.all fun m => !m.isText) = true) ∧
      cs.any SNode.isStamped = false)
    (hstp : ∀ b, nodeAt st.doc p.dropLast = some b → b.isStamped = true →
      ns.all SNode.isText = true)
    (hroot : p.dropLast = [] → ns.all rootTextOk = true) :
    goodDoc st'.doc = true := by
  rw [stInsertNodesAtPath] at h
  by_cases he : ns.isEmpty = true
  · rw [if_pos he] at h; cases h; exact hg
  · rw [if_neg he] at h
    simp only [Option.bind_eq_bind, Option.bind_eq_some, Option.pure_def,
      Option.some.injEq] at h
    obtain ⟨doc2, hm, h⟩ := h
    cases h
    exact insertAtPathD_good hm hg h34 hfl hhom hunst hkind hstp hroot

theorem stInsertTextAt_good {st : EState} {p : SPath} {o : Nat} {txt : Str}
    {st' : EState} (h : stInsertTextAt st p o txt = some st')
    (hg : goodDoc st.doc = true) (hlen : 2 ≤ p.length) :
    goodDoc st'.doc = true := by
  rw [stInsertTextAt] at h
  by_cases he : txt.isEmpty = true
  · rw [if_pos he] at h; cases h; exact hg
  · rw [if_neg he] at h
    simp only [Option.bind_eq_bind, Option.bind_eq_some, Option.pure_def,
      Option.some.injEq] at h
    obtain ⟨doc2, hm, h⟩ := h
    cases h
    refine modifyTextAt_good hm hg (fun s m => ⟨_, _, rfl⟩) ?_
    intro hd
    have : p.dropLast.length = 0 := by rw [hd]; rfl
    rw [List.length_dropLast] at this
    omega

theorem stRemoveTextAt_good {st : EState} {p : SPath} {o len : Nat}
    {st' : EState} (h : stRemoveTextAt st p o len = some st')
    (hg : goodDoc st.doc = true)
    (hsafe : 2 ≤ p.length ∨
      ∀ s m, nodeAt st.doc p = some (.text s m) → s.length ≤ o + len) :
    goodDoc st'.doc = true := by
  rw [stRemoveTextAt] at h
  by_cases he : len = 0
  · rw [if_pos he] at h; cases h; exact hg
  · rw [if_neg he] at h
    simp only [Option.bind_eq_bind, Option.bind_eq_some, Option.pure_def,
      Option.some.injEq] at h
    obtain ⟨doc2, hm, h⟩ := h
    cases h
    refine modifyTextAt_good hm hg (fun s m => ⟨_, _, rfl⟩) ?_
    intro hd s m hleaf hfn
    rcases hsafe with h2 | hpre
    · exfalso
      have : p.dropLast.length = 0 := by rw [hd]; rfl
      rw [List.length_dropLast] at this
      omega
    · have hsl : s.length ≤ o + len := hpre s m hleaf
      have hdrop : s.drop (o + len) = [] := List.drop_eq_nil_of_le hsl
      rw [rootTextOk]
      rw [hdrop, List.append_nil]
      rw [Option.isNone_iff_eq_none] at hfn ⊢
      exact findUNL_take_none hfn

theorem stSplitTextOnly_good {st : EState} {p : SPath} {off : Nat}
    {st' : EState} (h : stSplitTextOnly st p off = some st')
    (hg : goodDoc st.doc = true) (hlen : 2 ≤ p.length) :
    goodDoc st'.doc = true := by
  rw [stSplitTextOnly] at h
  simp only [Option.bind_eq_bind, Option.bind_eq_some] at h
  obtain ⟨s0, hs0, h⟩ := h
  by_cases he : off = 0 ∨ s0.length ≤ off
  · rw [if_pos he] at h; cases h; exact hg
  · rw [if_neg he] at h
    simp only [Option.bind_eq_bind, Option.bind_eq_some, Option.pure_def,
      Option.some.injEq] at h
    obtain ⟨m0, hm0, doc2, hrep, h⟩ := h
    cases h
    have hb : nodeAt st.doc p = some (.text s0 m0) := by
      rw [leafStr] at hs0
      rw [leafMarks] at hm0
      rcases hn : nodeAt st.doc p with _ | b
      · rw [hn] at hs0; cases hs0
      · rw [hn] at hs0 hm0
        cases b with
        | text s m =>
          injection hs0 with h1
          injection hm0 with h2
          rw [h1, h2]
        | elem ty lb v cs => cases hs0
    refine replaceAtPathD_good hrep hg hb ?_ ?_ ?_ ?_ ?_ ?_
    · rw [inv34List, inv34List, inv34List, inv34Node, inv34Node]
      rfl
    · rw [flatList, flatList, flatList, flatNode, flatNode]
      rfl
    · intro n hn
      rcases List.mem_cons.1 hn with h1 | h1
      · rw [h1]; rfl
      · rcases List.mem_cons.1 h1 with h2 | h2
        · rw [h2]; rfl
        · cases h2
    · intro hs; cases hs
    · intro n hn
      rcases List.mem_cons.1 hn with h1 | h1
      · rw [h1]; rfl
      · rcases List.mem_cons.1 h1 with h2 | h2
        · rw [h2]; rfl
        · cases h2
    · intro hd
      exfalso
      have : p.dropLast.length = 0 := by rw [hd]; rfl
      rw [List.length_dropLast] at this
      omega

theorem stRemovePathsAux_good : ∀ {ps : List SPath} {st : EState}
    {adj : SPath → Option SPath} {st' : EState},
    stRemovePathsAux st adj ps = some st' →
    goodDoc st.doc = true → goodDoc st'.doc = true := by
  intro ps
  induction ps with
  | nil =>
    intro st adj st' h hg
    rw [stRemovePathsAux] at h
    cases h
    exact hg
  | cons p rest ih =>
    intro st adj st' h hg
    rw [stRemovePathsAux] at h
    rcases ha : adj p with _ | p'
    · rw [ha] at h
      exact ih h hg
    · rw [ha] at h
      dsimp only at h
      rcases hr : stRemoveNodeAtPath st p' with _ | st1
      · rw [hr] at h; cases h
      · rw [hr] at h
        exact ih h (stRemoveNodeAtPath_good hr hg)

theorem stRemovePathsTrack_good : ∀ {ps : List SPath} {st : EState}
    {adj : SPath → Option SPath} {e : SPoint} {st' : EState} {e' : SPoint},
    stRemovePathsTrack st adj ps e = some (st', e') →
    goodDoc st.doc = true → goodDoc st'.doc = true := by
  intro ps
  induction ps with
  | nil =>
    intro st adj e st' e' h hg
    rw [stRemovePathsTrack] at h
    cases h
    exact hg
  | cons p rest ih =>
    intro st adj e st' e' h hg
    rw [stRemovePathsTrack] at h
    rcases ha : adj p with _ | p'
    · rw [ha] at h
      exact ih h hg
    · rw [ha] at h
      dsimp only at h
      rcases hr : stRemoveNodeAtPath st p' with _ | st1
      · rw [hr] at h; cases h
      · rw [hr] at h
        dsimp only at h
        rcases hsh : pathShiftRem p' e.path with _ | e2
        · rw [hsh] at h; cases h
        · rw [hsh] at h
          exact ih h (stRemoveNodeAtPath_good hr hg)

theorem stRemoveMatchingInRange_good {st : EState} {pred : SNode → Bool}
    {r : SRange} {st' : EState} (h : stRemoveMatchingInRange st pred r = some st')
    (hg : goodDoc st.doc = true) : goodDoc st'.doc = true := by
  rw [stRemoveMatchingInRange] at h
  exact stRemovePathsAux_good h hg

theorem stRemoveBlocksAtSelection_good {st : EState} {st' : EState}
    (h : stRemoveBlocksAtSelection st = some st')
    (hg : goodDoc st.doc = true) : goodDoc st'.doc = true := by
  rw [stRemoveBlocksAtSelection] at h
  rcases hs : st.sel with _ | r
  · rw [hs] at h; cases h; exact hg
  · rw [hs] at h
    exact stRemoveMatchingInRange_good h hg

theorem stampfree_mem {cs : List SNode} {c : SNode}
    (h : cs.any SNode.isStamped = false) (hm : c ∈ cs) :
    c.isStamped = false := by
  rw [Bool.eq_false_iff] at h
  by_contra hc
  simp only [Bool.not_eq_false] at hc
  exact h (List.any_eq_true.2 ⟨c, hm, hc⟩)

theorem soleOk_singleton (n : SNode) : soleOk [n] = true := by
  rw [soleOk, Bool.or_eq_true]
  right
  simp

theorem soleOk_take {cs : List SNode} (k : Nat) (hs : soleOk cs = true) :
    soleOk (cs.take k) = true := by
  rw [soleOk, Bool.or_eq_true, Bool.not_eq_true'] at hs
  rcases hs with h | h
  · exact soleOk_of_stampfree (stampfree_any_sub (List.take_subset _ _) h)
  · have hlen : cs.length = 1 := by simpa using h
    rcases cs with _ | ⟨x, rest⟩
    · simp at hlen
    · rcases rest with _ | ⟨y, rest2⟩
      · rcases k with _ | k
        · rw [List.take_zero]; decide
        · rw [List.take_succ_cons, List.take_nil]
          exact soleOk_singleton x
      · simp at hlen

theorem soleOk_drop {cs : List SNode} (k : Nat) (hs : soleOk cs = true) :
    soleOk (cs.drop k) = true := by
  rw [soleOk, Bool.or_eq_true, Bool.not_eq_true'] at hs
  rcases hs with h | h
  · exact soleOk_of_stampfree (stampfree_any_sub (List.drop_subset _ _) h)
  · have hlen : cs.length = 1 := by simpa using h
    rcases cs with _ | ⟨x, rest⟩
    · simp at hlen
    · rcases rest with _ | ⟨y, rest2⟩
      · rcases k with _ | k
        · rw [List.drop_zero]
          exact soleOk_singleton x
        · rw [List.drop_succ_cons, List.drop_nil]; decide
      · simp at hlen

theorem inv34List_singleton {n : SNode} (h : inv34Node n = true) :
    inv34List [n] = true := by
  rw [inv34List, inv34List, h]
  rfl

theorem flatList_singleton {n : SNode} (h : flatNode n = true) :
    flatList [n] = true := by
  rw [flatList, flatList, h]
  rfl

theorem rootTextOk_of_not_text {n : SNode} (h : n.isText = false) :
    rootTextOk n = true := by
  cases n with
  | text s m => cases h
  | elem ty lb v cs => rfl

theorem homog_singleton (n : SNode) : homogOk [n] = true := by
  rw [homogOk, Bool.or_eq_true]
  rcases ht : n.isText with _ | _
  · right; simp [ht]
  · left; simp [ht]

/-- Both halves of an interior split keep the node's well-formedness,
its kind and its stamp status. -/
theorem splitNodeRel_parts_good : ∀ {rel : SPath} {o : Nat} {n l r : SNode},
    splitNodeRel rel o n = some (.parts l r) →
    inv34Node n = true → flatNode n = true →
    inv34Node l = true ∧ inv34Node r = true ∧
    flatNode l = true ∧ flatNode r = true ∧
    l.isText = n.isText ∧ r.isText = n.isText ∧
    l.isStamped = n.isStamped ∧ r.isStamped = n.isStamped := by
  intro rel
  induction rel with
  | nil =>
    intro o n l r h h34 hfl
    cases n with
    | text s m =>
      rw [splitNodeRel] at h
      by_cases h0 : o = 0
      · rw [if_pos h0] at h; cases h
      · rw [if_neg h0] at h
        by_cases h1 : s.length ≤ o
        · rw [if_pos h1] at h; cases h
        · rw [if_neg h1] at h
          injection h with h2
          injection h2 with hl hr
          subst hl; subst hr
          exact ⟨rfl, rfl, rfl, rfl, rfl, rfl, rfl, rfl⟩
    | elem ty lb v cs => rw [splitNodeRel] at h; cases h
  | cons j rest ih =>
    intro o n l r h h34 hfl
    cases n with
    | text s m => rw [splitNodeRel] at h; cases h
    | elem ty lb v cs =>
      rw [splitNodeRel] at h
      rcases hj : cs[j]? with _ | c
      · rw [hj] at h; cases h
      · rw [hj] at h
        dsimp only at h
        rcases hres : splitNodeRel rest o c with _ | res
        · rw [hres] at h; cases h
        · rw [hres] at h
          simp only [Option.map_some'] at h
          obtain ⟨ht34, hsole, h34l⟩ := inv34Node_elem_iff.1 h34
          obtain ⟨hhom, hfll⟩ := flatNode_elem_iff.1 hfl
          have hcm : c ∈ cs := List.getElem?_mem hj
          cases res with
          | atStart =>
            dsimp only at h
            by_cases hjz : j = 0
            · rw [if_pos hjz] at h; cases h
            · rw [if_neg hjz] at h
              injection h with h2
              injection h2 with hl hr
              subst hl; subst hr
              refine ⟨?_, ?_, ?_, ?_, rfl, rfl, rfl, rfl⟩
              · exact inv34Node_elem_iff.2
                  ⟨fun hty => alltext_sub (List.take_subset _ _) (ht34 hty),
                   soleOk_take j hsole,
                   inv34List_sub (List.take_subset _ _) h34l⟩
              · exact inv34Node_elem_iff.2
                  ⟨fun hty => alltext_sub (List.drop_subset _ _) (ht34 hty),
                   soleOk_drop j hsole,
                   inv34List_sub (List.drop_subset _ _) h34l⟩
              · exact flatNode_elem_iff.2
                  ⟨homogOk_sub (List.take_subset _ _) hhom,
                   flatList_sub (List.take_subset _ _) hfll⟩
              · exact flatNode_elem_iff.2
                  ⟨homogOk_sub (List.drop_subset _ _) hhom,
                   flatList_sub (List.drop_subset _ _) hfll⟩
          | atEnd =>
            dsimp only at h
            by_cases hjz : j = cs.length - 1
            · rw [if_pos hjz] at h; cases h
            · rw [if_neg hjz] at h
              injection h with h2
              injection h2 with hl hr
              subst hl; subst hr
              refine ⟨?_, ?_, ?_, ?_, rfl, rfl, rfl, rfl⟩
              · exact inv34Node_elem_iff.2
                  ⟨fun hty => alltext_sub (List.take_subset _ _) (ht34 hty),
                   soleOk_take (j + 1) hsole,
                   inv34List_sub (List.take_subset _ _) h34l⟩
              · exact inv34Node_elem_iff.2
                  ⟨fun hty => alltext_sub (List.drop_subset _ _) (ht34 hty),
                   soleOk_drop (j + 1) hsole,
                   inv34List_sub (List.drop_subset _ _) h34l⟩
              · exact flatNode_elem_iff.2
                  ⟨homogOk_sub (List.take_subset _ _) hhom,
                   flatList_sub (List.take_subset _ _) hfll⟩
              · exact flatNode_elem_iff.2
                  ⟨homogOk_sub (List.drop_subset _ _) hhom,
                   flatList_sub (List.drop_subset _ _) hfll⟩
          | parts cl cr =>
            dsimp only at h
            injection h with h2
            injection h2 with hl hr
            subst hl; subst hr
            have hc34 : inv34Node c = true := inv34List_mem.1 h34l c hcm
            have hcfl : flatNode c = true := flatList_mem.1 hfll c hcm
            obtain ⟨hcl34, hcr34, hclfl, hcrfl, hclt, hcrt, hcls, hcrs⟩ :=
              ih hres hc34 hcfl
            have hsole_l : soleOk (cs.take j ++ [cl]) = true := by
              rw [soleOk, Bool.or_eq_true, Bool.not_eq_true'] at hsole
              rcases hsole with hsf | hone
              · refine soleOk_of_stampfree (stampfree_any_append
                  (stampfree_any_sub (List.take_subset _ _) hsf) ?_)
                rw [List.any_cons, List.any_nil, Bool.or_false, hcls]
                exact stampfree_mem hsf hcm
              · have hlen : cs.length = 1 := by simpa using hone
                have hjlt : j < cs.length := by
                  by_contra hge
                  rw [List.getElem?_eq_none (by omega)] at hj
                  cases hj
                have hj0 : j = 0 := by omega
                subst hj0
                rw [List.take_zero, List.nil_append]
                exact soleOk_singleton cl
            have hsole_r : soleOk (cr :: cs.drop (j + 1)) = true := by
              rw [soleOk, Bool.or_eq_true, Bool.not_eq_true'] at hsole
              rcases hsole with hsf | hone
              · refine soleOk_of_stampfree ?_
                rw [List.any_cons, Bool.or_eq_false_iff]
                refine ⟨by rw [hcrs]; exact stampfree_mem hsf hcm,
                  stampfree_any_sub (List.drop_subset _ _) hsf⟩
              · have hlen : cs.length = 1 := by simpa using hone
                have hjlt : j < cs.length := by
                  by_contra hge
                  rw [List.getElem?_eq_none (by omega)] at hj
                  cases hj
                have hj0 : j = 0 := by omega
                subst hj0
                rw [show (0 + 1) = 1 from rfl]
                rcases cs with _ | ⟨x, rest⟩
                · simp at hlen
                · rcases rest with _ | ⟨y, rest2⟩
                  · rw [List.drop_succ_cons, List.drop_nil]
                    exact soleOk_singleton cr
                  · simp at hlen
            have hhom_l : homogOk (cs.take j ++ [cl]) = true := by
              rw [homogOk, Bool.or_eq_true] at hhom
              rcases hhom with hh | hh
              · refine homog_of_alltext (alltext_append
                  (alltext_sub (List.take_subset _ _) hh) ?_)
                rw [List.all_cons, List.all_nil, Bool.and_true, hclt]
                exact List.all_eq_true.1 hh c hcm
              · refine homog_of_allelem (allelem_append
                  (allelem_sub (List.take_subset _ _) hh) ?_)
                rw [List.all_cons, List.all_nil, Bool.and_true, Bool.not_eq_true',
                  hclt]
                have := List.all_eq_true.1 hh c hcm
                simpa using this
            have hhom_r : homogOk (cr :: cs.drop (j + 1)) = true := by
              rw [homogOk, Bool.or_eq_true] at hhom
              rcases hhom with hh | hh
              · refine homog_of_alltext ?_
                rw [List.all_cons, hcrt, Bool.and_eq_true]
                exact ⟨List.all_eq_true.1 hh c hcm,
                  alltext_sub (List.drop_subset _ _) hh⟩
              · refine homog_of_allelem ?_
                rw [List.all_cons, Bool.and_eq_true, Bool.not_eq_true', hcrt]
                refine ⟨by
                  have := List.all_eq_true.1 hh c hcm
                  simpa using this,
                  allelem_sub (List.drop_subset _ _) hh⟩
            refine ⟨?_, ?_, ?_, ?_, rfl, rfl, rfl, rfl⟩
            · refine inv34Node_elem_iff.2 ⟨?_, hsole_l, ?_⟩
              · intro hty
                refine alltext_append
                  (alltext_sub (List.take_subset _ _) (ht34 hty)) ?_
                rw [List.all_cons, List.all_nil, Bool.and_true, hclt]
                exact List.all_eq_true.1 (ht34 hty) c hcm
              · refine inv34List_append
                  (inv34List_sub (List.take_subset _ _) h34l)
                  (inv34List_singleton hcl34)
            · refine inv34Node_elem_iff.2 ⟨?_, hsole_r, ?_⟩
              · intro hty
                rw [List.all_cons, hcrt, Bool.and_eq_true]
                exact ⟨List.all_eq_true.1 (ht34 hty) c hcm,
                  alltext_sub (List.drop_subset _ _) (ht34 hty)⟩
              · rw [inv34List, Bool.and_eq_true]
                exact ⟨hcr34, inv34List_sub (List.drop_subset _ _) h34l⟩
            · exact flatNode_elem_iff.2 ⟨hhom_l,
                flatList_append (flatList_sub (List.take_subset _ _) hfll)
                  (flatList_singleton hclfl)⟩
            · refine flatNode_elem_iff.2 ⟨hhom_r, ?_⟩
              rw [flatList, Bool.and_eq_true]
              exact ⟨hcrfl, flatList_sub (List.drop_subset _ _) hfll⟩

/-- Replacing the node at a path by a single node of the same kind
that introduces no new stamp preserves well-formedness. -/
theorem replaceAtPathD_good_single {doc doc' : List SNode} {p : SPath}
    {b n2 : SNode}
    (h : replaceAtPathD doc p [n2] = some doc') (hg : goodDoc doc = true)
    (hb : nodeAt doc p = some b)
    (h34 : inv34Node n2 = true) (hfl : flatNode n2 = true)
    (hstamp : n2.isStamped = true → b.isStamped = true)
    (hkind : n2.isText = b.isText)
    (hroot : p.dropLast = [] → rootTextOk n2 = true) :
    goodDoc doc' = true := by
  obtain ⟨h2, hd34, hdfl, hnl⟩ := goodDoc_iff.1 hg
  rw [replaceAtPathD] at h
  simp only [Option.bind_eq_bind, Option.bind_eq_some] at h
  obtain ⟨⟨pref, j⟩, hsp, h⟩ := h
  dsimp only at h
  have hpref : pref = p.dropLast := by
    have := splitLastP_eq hsp
    rw [this]
    simp
  have hm := modify_wf h hd34 hdfl ?_
  · obtain ⟨h34', hfl', _, _, hroot0, hrootne⟩ := hm
    by_cases hpe : pref = []
    · subst hpe
      have hfd := hroot0 rfl
      rw [if_pos (by
        by_contra hge
        rw [if_neg hge] at hfd
        cases hfd)] at hfd
      injection hfd with hfd
      subst hfd
      have hbj : doc[j]? = some b := by
        rw [← nodeAt_of_split hsp rfl]
        exact hb
      have hbmem : b ∈ doc := List.getElem?_mem hbj
      refine goodDoc_iff.2 ⟨?_, h34', hfl', ?_⟩
      · refine inv2_append (inv2_append (inv2_sub (List.take_subset _ _) h2) ?_)
          (inv2_sub (List.drop_subset _ _) h2)
        refine inv2_mem.2 fun n hn => ?_
        rcases List.mem_singleton.1 hn with rfl
        rw [Bool.eq_false_iff]
        intro hc
        have := hstamp hc
        rw [inv2_mem.1 h2 b hbmem] at this
        cases this
      · refine rootNLOk_append
          (rootNLOk_append (rootNLOk_sub (List.take_subset _ _) hnl) ?_)
          (rootNLOk_sub (List.drop_subset _ _) hnl)
        refine rootNLOk_mem.2 fun n hn => ?_
        rcases List.mem_singleton.1 hn with rfl
        exact hroot (by rw [← hpref])
    · obtain ⟨hi2, hinl⟩ := hrootne hpe
      exact goodDoc_iff.2 ⟨hi2 h2, h34', hfl', hinl hnl⟩
  · intro cs cs' hcl hcs34 hcsfl hf
    split at hf
    · injection hf with hf
      subst hf
      have hbj : cs[j]? = some b := by
        rw [← nodeAt_of_split hsp hcl]
        exact hb
      have hbmem : b ∈ cs := List.getElem?_mem hbj
      refine ⟨?_, ?_, ?_, ?_, ?_⟩
      · exact inv34List_append
          (inv34List_append (inv34List_sub (List.take_subset _ _) hcs34)
            (inv34List_singleton h34))
          (inv34List_sub (List.drop_subset _ _) hcs34)
      · exact flatList_append
          (flatList_append (flatList_sub (List.take_subset _ _) hcsfl)
            (flatList_singleton hfl))
          (flatList_sub (List.drop_subset _ _) hcsfl)
      · intro hs
        rw [soleOk, Bool.or_eq_true, Bool.not_eq_true'] at hs
        rcases hs with hsf | hone
        · refine soleOk_of_stampfree (stampfree_any_append
            (stampfree_any_append
              (stampfree_any_sub (List.take_subset _ _) hsf) ?_)
            (stampfree_any_sub (List.drop_subset _ _) hsf))
          rw [List.any_cons, List.any_nil, Bool.or_false, Bool.eq_false_iff]
          intro hc
          have := hstamp hc
          rw [stampfree_mem hsf hbmem] at this
          cases this
        · have hlen : cs.length = 1 := by simpa using hone
          have hj0 : j = 0 := by
            rw [List.getElem?_eq_some_iff] at hbj
            omega
          subst hj0
          rcases cs with _ | ⟨x, rest⟩
          · simp at hlen
          · rcases rest with _ | ⟨y, rest2⟩
            · rw [List.take_zero, List.nil_append, List.drop_succ_cons,
                List.drop_nil, List.append_nil]
              exact soleOk_singleton n2
            · simp at hlen
      · intro hh
        rw [homogOk, Bool.or_eq_true] at hh
        rcases hh with hh | hh
        · refine homog_of_alltext (alltext_append
            (alltext_append (alltext_sub (List.take_subset _ _) hh) ?_)
            (alltext_sub (List.drop_subset _ _) hh))
          rw [List.all_cons, List.all_nil, Bool.and_true, hkind]
          exact List.all_eq_true.1 hh b hbmem
        · refine homog_of_allelem (allelem_append
            (allelem_append (allelem_sub (List.take_subset _ _) hh) ?_)
            (allelem_sub (List.drop_subset _ _) hh))
          rw [List.all_cons, List.all_nil, Bool.and_true, Bool.not_eq_true',
            hkind]
          have := List.all_eq_true.1 hh b hbmem
          simpa using this
      · intro bp hbp hbs
        have hct : cs.all SNode.isText = true :=
          stamped_target_text hbp hcl hbs hd34
        refine alltext_append
          (alltext_append (alltext_sub (List.take_subset _ _) hct) ?_)
          (alltext_sub (List.drop_subset _ _) hct)
        rw [List.all_cons, List.all_nil, Bool.and_true, hkind]
        exact List.all_eq_true.1 hct b hbmem
    · cases hf



theorem nodeAt_parent : ∀ {pref : SPath} {doc : List SNode} {j : Nat} {n : SNode},
    nodeAt doc (pref ++ [j]) = some n → pref ≠ [] →
    ∃ ty lb v cs, nodeAt doc pref = some (.elem ty lb v cs) ∧ cs[j]? = some n := by
  intro pref
  induction pref with
  | nil => intro doc j n h hne; exact absurd rfl hne
  | cons i rest ih =>
    intro doc j n h hne
    rcases rest with _ | ⟨r1, r2⟩
    · simp only [List.cons_append, List.nil_append] at h
      rw [nodeAt] at h
      rcases hi : doc[i]? with _ | m
      · rw [hi] at h; cases h
      · rw [hi] at h
        dsimp only at h
        cases m with
        | text s mk =>
          rw [show (SNode.text s mk).childrenOf = [] from rfl] at h
          simp [nodeAt] at h
        | elem ty lb v cs =>
          rw [show (SNode.elem ty lb v cs).childrenOf = cs from rfl, nodeAt] at h
          rcases hj : cs[j]? with _ | c
          · rw [hj] at h; cases h
          · rw [hj] at h
            cases h
            refine ⟨ty, lb, v, cs, ?_, hj⟩
            rw [nodeAt, hi]
    · rw [List.cons_append, nodeAt] at h
      rcases hi : doc[i]? with _ | m
      · rw [hi] at h; cases h
      · rw [hi] at h
        dsimp only at h
        obtain ⟨ty, lb, v, cs, hp, hc⟩ := ih h (by simp)
        refine ⟨ty, lb, v, cs, ?_, hc⟩
        rw [nodeAt, hi]
        exact hp

theorem ancestorPaths_cons {p : SPath} (h : 2 ≤ p.length) :
    ∃ rest, ancestorPaths p = p.dropLast :: rest := by
  rw [ancestorPaths]
  rcases hl : p.length with _ | m
  · omega
  · rcases m with _ | m2
    · omega
    · rw [List.range_succ, List.drop_append_of_le_length (by
        rw [List.length_range]; omega), List.reverse_append,
        List.reverse_singleton, List.singleton_append, List.map_cons]
      have hhead : p.dropLast = p.take (m2 + 1) := by
        rw [List.dropLast_eq_take, hl]
        have harith : m2 + 1 + 1 - 1 = m2 + 1 := by omega
        rw [harith]
      rw [hhead]
      exact ⟨_, rfl⟩

theorem aboveAt_first {doc : List SNode} {p : SPath} {pred : SNode → Bool}
    {n : SNode} (h : nodeAt doc p.dropLast = some n) (hlen : 2 ≤ p.length)
    (hp : pred n = true) : aboveAt doc p pred = some (n, p.dropLast) := by
  rw [aboveAt]
  obtain ⟨rest, hap⟩ := ancestorPaths_cons hlen
  rw [hap, List.findSome?_cons, h]
  dsimp only
  rw [if_pos hp]

/-- The wrapping block of any node deeper than the root level is its
direct parent. -/
theorem wrappingBlock_parent {doc : List SNode} {p : SPath} {n : SNode}
    (h : nodeAt doc p = some n) (hlen : 2 ≤ p.length) :
    ∃ ty lb v cs j, p = p.dropLast ++ [j] ∧
      nodeAt doc p.dropLast = some (.elem ty lb v cs) ∧ cs[j]? = some n ∧
      getWrappingBlockAt doc p = some (.elem ty lb v cs, p.dropLast) := by
  have hpne : p ≠ [] := by
    intro hz
    rw [hz] at hlen
    simp at hlen
  rcases hgl : p.getLast? with _ | j
  · rw [List.getLast?_eq_none_iff] at hgl
    exact absurd hgl hpne
  · have hsplit : p = p.dropLast ++ [j] :=
      (List.dropLast_append_getLast? _ hgl).symm
    have hdne : p.dropLast ≠ [] := by
      intro hz
      have : p.dropLast.length = 0 := by rw [hz]; rfl
      rw [List.length_dropLast] at this
      omega
    rw [hsplit] at h
    obtain ⟨ty, lb, v, cs, hpar, hc⟩ := nodeAt_parent h hdne
    refine ⟨ty, lb, v, cs, j, hsplit, hpar, hc, ?_⟩
    rw [getWrappingBlockAt]
    exact aboveAt_first hpar hlen rfl

/-- Splitting at a point whose wrapping block is not stamped preserves
well-formedness. -/
theorem stSplitAtPoint_good {st : EState} {pt : SPoint} {st' : EState}
    (h : stSplitAtPoint st pt = some st')
    (hg : goodDoc st.doc = true)
    (hbs : ∀ b bp, getWrappingBlockAt st.doc pt.path = some (b, bp) →
      b.isStamped = false) :
    goodDoc st'.doc = true := by
  rw [stSplitAtPoint] at h
  rcases hblk : getWrappingBlockAt st.doc pt.path with _ | bq
  · rw [hblk] at h; cases h; exact hg
  · rw [hblk] at h
    obtain ⟨block, bp⟩ := bq
    dsimp only at h
    obtain ⟨_, h34d, hfld, _⟩ := goodDoc_iff.1 hg
    have hbn : nodeAt st.doc bp = some block := (aboveAt_inv hblk).1
    have hb34 : inv34Node block = true := inv34_nodeAt hbn h34d
    have hbfl : flatNode block = true := flat_nodeAt hbn hfld
    have hbst : block.isStamped = false := hbs block bp hblk
    rcases hsp : splitNodeRel (pt.path.drop bp.length) pt.offset block with _ | res
    · rw [hsp] at h; cases h
    · rw [hsp] at h
      cases res with
      | atStart => cases h; exact hg
      | atEnd => cases h; exact hg
      | parts l r =>
        dsimp only at h
        simp only [Option.bind_eq_bind, Option.bind_eq_some, Option.pure_def,
          Option.some.injEq] at h
        obtain ⟨doc2, hrep, h⟩ := h
        cases h
        obtain ⟨hl34, hr34, hlfl, hrfl, hlt, hrt, hls, hrs⟩ :=
          splitNodeRel_parts_good hsp hb34 hbfl
        have hbt : block.isText = false := by
          have hbe := (aboveAt_inv hblk).2
          cases block with
          | text s m => cases hbe
          | elem ty lb v cs => rfl
        refine replaceAtPathD_good hrep hg hbn ?_ ?_ ?_ ?_ ?_ ?_
        · rw [inv34List, inv34List, inv34List, hl34, hr34]
          rfl
        · rw [flatList, flatList, flatList, hlfl, hrfl]
          rfl
        · intro n hn
          rcases List.mem_cons.1 hn with rfl | hn2
          · exact hls
          · rcases List.mem_cons.1 hn2 with rfl | hn3
            · exact hrs
            · cases hn3
        · intro hbs2
          rw [hbs2] at hbst
          cases hbst
        · intro n hn
          rcases List.mem_cons.1 hn with rfl | hn2
          · exact hlt
          · rcases List.mem_cons.1 hn2 with rfl | hn3
            · exact hrt
            · cases hn3
        · intro _
          rw [List.all_cons, List.all_cons, List.all_nil]
          rw [rootTextOk_of_not_text (by rw [hlt, hbt]),
            rootTextOk_of_not_text (by rw [hrt, hbt])]
          rfl

/-- Unwrapping an element that is its parent's only child and whose
children are all texts preserves well-formedness (the engine's unwrap
of a sole stamped block). -/
theorem stUnwrapAt_good {st : EState} {p : SPath} {st' : EState}
    (h : stUnwrapAt st p = some st')
    (hg : goodDoc st.doc = true)
    (hctx : ∀ n pref j, nodeAt st.doc p = some n → splitLastP p = some (pref, j) →
      childListAt st.doc pref = some [n] ∧
      n.childrenOf.all SNode.isText = true ∧ pref ≠ []) :
    goodDoc st'.doc = true := by
  rw [stUnwrapAt] at h
  simp only [Option.bind_eq_bind, Option.bind_eq_some] at h
  obtain ⟨n, hn, h⟩ := h
  obtain ⟨h2d, h34d, hfld, hnld⟩ := goodDoc_iff.1 hg
  have hn34 : inv34Node n = true := inv34_nodeAt hn h34d
  have hnfl : flatNode n = true := flat_nodeAt hn hfld
  cases n with
  | text s m => cases h
  | elem ty lb v cs =>
    simp only [Option.bind_eq_bind, Option.bind_eq_some, Option.pure_def,
      Option.some.injEq] at h
    obtain ⟨⟨pref, j⟩, hsp, doc2, hmod, h⟩ := h
    cases h
    obtain ⟨hsingle, hct, hprefne⟩ := hctx _ pref j hn hsp
    obtain ⟨_, hsole, h34cs⟩ := inv34Node_elem_iff.1 hn34
    obtain ⟨hhomcs, hflcs⟩ := flatNode_elem_iff.1 hnfl
    rw [show (SNode.elem ty lb v cs).childrenOf = cs from rfl] at hct
    have hm := modify_wf hmod h34d hfld ?_
    · obtain ⟨h34', hfl', _, _, _, hrootne⟩ := hm
      obtain ⟨hi2, hinl⟩ := hrootne hprefne
      exact goodDoc_iff.2 ⟨hi2 h2d, h34', hfl', hinl hnld⟩
    · intro cs0 cs0' hcl0 _ _ hf
      rw [hsingle] at hcl0
      injection hcl0 with hcl0
      subst hcl0
      by_cases hlt : j < ([SNode.elem ty lb v cs].length)
      · rw [if_pos hlt] at hf
        have hj0 : j = 0 := by
          simp only [List.length_singleton] at hlt
          omega
        subst hj0
        rw [List.take_zero, List.nil_append, List.drop_succ_cons,
          List.drop_nil, List.append_nil] at hf
        injection hf with hf
        subst hf
        refine ⟨h34cs, hflcs, fun _ => hsole, fun _ => hhomcs, fun _ _ _ => hct⟩
      · rw [if_neg hlt] at hf; cases hf

theorem alltext_inv34List {cs : List SNode} (h : cs.all SNode.isText = true) :
    inv34List cs = true := by
  refine inv34List_mem.2 fun n hn => ?_
  have := List.all_eq_true.1 h n hn
  cases n with
  | text s m => rw [inv34Node]
  | elem ty lb v ccs => cases this

theorem alltext_flatList {cs : List SNode} (h : cs.all SNode.isText = true) :
    flatList cs = true := by
  refine flatList_mem.2 fun n hn => ?_
  have := List.all_eq_true.1 h n hn
  cases n with
  | text s m => rw [flatNode]
  | elem ty lb v ccs => cases this

theorem alltext_allunst {cs : List SNode} (h : cs.all SNode.isText = true) :
    (cs.all fun n => !n.isStamped) = true := by
  rw [List.all_eq_true] at h ⊢
  intro n hn
  have := h n hn
  cases n with
  | text s m => rfl
  | elem ty lb v ccs => cases this

theorem pathNext_dropLast (p : SPath) : (pathNext p).dropLast = p.dropLast := by
  rw [pathNext]
  exact List.dropLast_concat


theorem subLeaves_head_nodeAt {doc : List SNode} {p : SPath}
    {q : SPath × Str} (h : (subLeaves doc p).head? = some q) :
    ∃ mk, nodeAt doc q.1 = some (.text q.2 mk) := by
  have hmem : q ∈ subLeaves doc p := List.mem_of_mem_head? h
  obtain ⟨q1, q2⟩ := q
  rcases p with _ | ⟨i, rest⟩
  · rw [subLeaves.eq_def] at hmem
    dsimp only at hmem
    exact docLeaves_nodeAt hmem
  · rw [subLeaves.eq_def] at hmem
    dsimp only at hmem
    rcases hn : nodeAt doc (i :: rest) with _ | n
    · rw [hn] at hmem; cases hmem
    · rw [hn] at hmem
      exact nodeLeaves_nodeAt n (i :: rest) q1 q2 doc hmem hn

theorem stSplitTextOnly_leaf {st : EState} {p : SPath} {off : Nat}
    {st1 : EState} {s : Str} {mk : Marks}
    (h : stSplitTextOnly st p off = some st1)
    (hleaf : nodeAt st.doc p = some (.text s mk)) :
    ∃ s1, nodeAt st1.doc p = some (.text s1 mk) := by
  rw [stSplitTextOnly] at h
  simp only [Option.bind_eq_bind, Option.bind_eq_some] at h
  obtain ⟨s0, hs0, h⟩ := h
  have hs0v : s0 = s := by
    rw [leafStr, hleaf] at hs0
    injection hs0 with h1
    rw [h1]
  subst hs0v
  by_cases he : off = 0 ∨ s0.length ≤ off
  · rw [if_pos he] at h
    cases h
    exact ⟨s0, hleaf⟩
  · rw [if_neg he] at h
    simp only [Option.bind_eq_bind, Option.bind_eq_some, Option.pure_def,
      Option.some.injEq] at h
    obtain ⟨m0, hm0, doc2, hrep, h⟩ := h
    have hm0v : m0 = mk := by
      rw [leafMarks, hleaf] at hm0
      injection hm0 with h1
      rw [h1]
    subst hm0v
    cases h
    exact ⟨s0.take off, replaceAtPathD_readback hrep rfl⟩

/-- Inserting text nodes at a point below the root level preserves
well-formedness. -/
theorem stInsertNodesAtPoint_good {st : EState} {ns : List SNode} {pt : SPoint}
    {st' : EState} (h : stInsertNodesAtPoint st ns pt = some st')
    (hg : goodDoc st.doc = true) (hns : ns.all SNode.isText = true)
    (hdeep : ∀ q, (subLeaves st.doc pt.path).head? = some q → 2 ≤ q.1.length) :
    goodDoc st'.doc = true := by
  rw [stInsertNodesAtPoint] at h
  by_cases he : ns.isEmpty = true
  · rw [if_pos he] at h; cases h; exact hg
  · rw [if_neg he] at h
    rcases hq : (subLeaves st.doc pt.path).head? with _ | q
    · rw [hq] at h; cases h; exact hg
    · rw [hq] at h
      dsimp only at h
      simp only [Option.bind_eq_bind, Option.bind_eq_some] at h
      obtain ⟨st1, hsplit, hins⟩ := h
      obtain ⟨mk, hleaf⟩ := subLeaves_head_nodeAt hq
      have hqd : 2 ≤ q.1.length := hdeep q hq
      have hg1 : goodDoc st1.doc = true := stSplitTextOnly_good hsplit hg hqd
      obtain ⟨s1, hleaf1⟩ := stSplitTextOnly_leaf hsplit hleaf
      have hslotd : (if pt = SPoint.mk q.1 q.2.length ∨
          (q.1 = pt.path ∧ 0 < pt.offset ∧ pt.offset < q.2.length)
          then pathNext q.1 else q.1).dropLast = q.1.dropLast := by
        split
        · exact pathNext_dropLast q.1
        · rfl
      refine stInsertNodesAtPath_good hins hg1 (alltext_inv34List hns)
        (alltext_flatList hns) (homog_of_alltext hns) (alltext_allunst hns)
        ?_ (fun _ _ _ => hns) ?_
      · intro cs hcl
        rw [hslotd] at hcl
        have hdne : q.1.dropLast ≠ [] := by
          intro hz
          have : q.1.dropLast.length = 0 := by rw [hz]; rfl
          rw [List.length_dropLast] at this
          omega
        rw [childListAt_ne_nil _ hdne] at hcl
        rcases hpar : nodeAt st1.doc q.1.dropLast with _ | parent
        · rw [hpar] at hcl; cases hcl
        · rw [hpar] at hcl
          injection hcl with hcl
          obtain ⟨ty, lb, v, cs2, j, hpsplit, hpar2, hcj, _⟩ :=
            wrappingBlock_parent hleaf1 hqd
          rw [hpar] at hpar2
          injection hpar2 with hpar2
          subst hpar2
          have hcsv : cs = cs2 := by rw [← hcl]; rfl
          subst hcsv
          obtain ⟨_, _, hfl1, _⟩ := goodDoc_iff.1 hg1
          have hpfl : flatNode (SNode.elem ty lb v cs) = true :=
            flat_nodeAt hpar hfl1
          have hhom : homogOk cs = true := (flatNode_elem_iff.1 hpfl).1
          have hct : cs.all SNode.isText = true :=
            alltext_of_homog_mem_text hhom (List.getElem?_mem hcj) rfl
          refine ⟨fun _ _ => hns, ?_, alltext_stampfree hct⟩
          · intro hae _
            have := List.all_eq_true.1 hae _ (List.getElem?_mem hcj)
            cases this
      · intro hd
        rw [hslotd] at hd
        have : q.1.dropLast.length = 0 := by rw [hd]; rfl
        rw [List.length_dropLast] at this
        omega

theorem isPrefixOfP_append_same : ∀ (pre x y : SPath),
    isPrefixOfP (pre ++ x) (pre ++ y) = isPrefixOfP x y := by
  intro pre
  induction pre with
  | nil => intro x y; rfl
  | cons a rest ih =>
    intro x y
    rw [List.cons_append, List.cons_append, isPrefixOfP]
    rw [ih]
    simp

theorem isPrefixOfP_length {a b : SPath} (h : isPrefixOfP a b = true) :
    a.length ≤ b.length := by
  obtain ⟨t, rfl⟩ := (isPrefixOfP_iff _ _).1 h
  rw [List.length_append]
  omega

theorem prefix_pathCmp_eq : ∀ (a b : SPath), isPrefixOfP a b = true →
    pathCmp a b = .eq := by
  intro a
  induction a with
  | nil => intro b h; rfl
  | cons x xs ih =>
    intro b h
    cases b with
    | nil => cases h
    | cons y ys =>
      rw [isPrefixOfP, Bool.and_eq_true, beq_iff_eq] at h
      obtain ⟨rfl, h2⟩ := h
      rw [pathCmp]
      simp only [Nat.lt_irrefl, if_false]
      exact ih ys h2

mutual
theorem nodeEntries_paths : ∀ (n : SNode) (pre : SPath) (e : SPath × SNode),
    e ∈ nodeEntries pre n → e.1 = pre ∨ ∃ k rest, e.1 = pre ++ k :: rest
  | .text s m, pre, e, he => by
    rw [nodeEntries] at he
    rw [List.mem_singleton] at he
    rw [he]
    exact Or.inl rfl
  | .elem ty lb v cs, pre, e, he => by
    rw [nodeEntries] at he
    rcases List.mem_cons.1 he with h1 | h1
    · rw [h1]
      exact Or.inl rfl
    · obtain ⟨k, rest, hk, he2⟩ := listEntries_paths cs pre 0 e h1
      exact Or.inr ⟨k, rest, he2⟩

theorem listEntries_paths : ∀ (ns : List SNode) (pre : SPath) (i : Nat)
    (e : SPath × SNode), e ∈ listEntries pre i ns →
    ∃ k rest, i ≤ k ∧ e.1 = pre ++ k :: rest
  | [], pre, i, e, he => by rw [listEntries] at he; cases he
  | n :: ns, pre, i, e, he => by
    rw [listEntries] at he
    rcases List.mem_append.1 he with h1 | h1
    · rcases nodeEntries_paths n (pre ++ [i]) e h1 with h2 | h2
      · exact ⟨i, [], Nat.le_refl i, by rw [h2]⟩
      · obtain ⟨k, rest, h3⟩ := h2
        refine ⟨i, k :: rest, Nat.le_refl i, ?_⟩
        rw [h3, List.append_assoc]
        rfl
    · obtain ⟨k, rest, hk, h2⟩ := listEntries_paths ns pre (i + 1) e h1
      exact ⟨k, rest, by omega, h2⟩
end

theorem listEntries_split : ∀ (cs : List SNode) (j : Nat) (c : SNode)
    (pre : SPath) (i : Nat), cs[j]? = some c →
    ∃ L1 L2, listEntries pre i cs =
      L1 ++ nodeEntries (pre ++ [i + j]) c ++ L2 ∧
      (∀ e ∈ L1, ∃ k rest, k < i + j ∧ e.1 = pre ++ k :: rest) ∧
      (∀ e ∈ L2, ∃ k rest, i + j < k ∧ e.1 = pre ++ k :: rest) := by
  intro cs
  induction cs with
  | nil => intro j c pre i h; rw [List.getElem?_nil] at h; cases h
  | cons x xs ih =>
    intro j c pre i h
    rcases j with _ | j'
    · rw [List.getElem?_cons_zero] at h
      injection h with h
      subst h
      refine ⟨[], listEntries pre (i + 1) xs, ?_, ?_, ?_⟩
      · rw [listEntries]
        simp
      · intro e he; cases he
      · intro e he
        obtain ⟨k, rest, hk, he2⟩ := listEntries_paths xs pre (i + 1) e he
        exact ⟨k, rest, by omega, he2⟩
    · rw [List.getElem?_cons_succ] at h
      obtain ⟨L1, L2, heq, hL1, hL2⟩ := ih j' c pre (i + 1) h
      refine ⟨nodeEntries (pre ++ [i]) x ++ L1, L2, ?_, ?_, ?_⟩
      · rw [listEntries, heq]
        have harith : i + 1 + j' = i + (j' + 1) := by omega
        rw [harith]
        simp only [List.append_assoc]
      · intro e he
        rcases List.mem_append.1 he with h1 | h1
        · rcases nodeEntries_paths x (pre ++ [i]) e h1 with h2 | h2
          · exact ⟨i, [], by omega, by rw [h2]⟩
          · obtain ⟨k, rest, h3⟩ := h2
            refine ⟨i, k :: rest, by omega, ?_⟩
            rw [h3, List.append_assoc]
            rfl
        · obtain ⟨k, rest, hk, he2⟩ := hL1 e h1
          exact ⟨k, rest, by omega, he2⟩
      · intro e he
        obtain ⟨k, rest, hk, he2⟩ := hL2 e he
        exact ⟨k, rest, by omega, he2⟩

/-- Pre-order contiguity: the entries of the subtree at `rel` sit as a
contiguous block inside the entries of the host subtree, and no other
entry path lies inside that subtree. -/
theorem nodeEntries_decomp : ∀ (rel : SPath) (n m : SNode) (pre : SPath),
    relAt n rel = some m →
    ∃ A B, nodeEntries pre n = A ++ nodeEntries (pre ++ rel) m ++ B ∧
      (∀ e ∈ A, isPrefixOfP (pre ++ rel) e.1 = false) ∧
      (∀ e ∈ B, isPrefixOfP (pre ++ rel) e.1 = false) := by
  intro rel
  induction rel with
  | nil =>
    intro n m pre h
    rw [relAt_nil] at h
    injection h with h
    subst h
    refine ⟨[], [], ?_, ?_, ?_⟩
    · simp
    · intro e he; cases he
    · intro e he; cases he
  | cons j rest ih =>
    intro n m pre h
    cases n with
    | text s mk => rw [relAt_text_cons] at h; cases h
    | elem ty lb v cs =>
      rw [relAt_cons] at h
      rcases hj : cs[j]? with _ | c
      · rw [hj] at h; cases h
      · rw [hj] at h
        obtain ⟨A2, B2, heq2, hA2, hB2⟩ := ih c m (pre ++ [j]) h
        obtain ⟨L1, L2, heq1, hL1, hL2⟩ := listEntries_split cs j c pre 0 hj
        rw [Nat.zero_add] at heq1
        have htgt : (pre ++ [j]) ++ rest = pre ++ j :: rest := by
          rw [List.append_assoc]
          rfl
        refine ⟨(pre, .elem ty lb v cs) :: (L1 ++ A2), B2 ++ L2, ?_, ?_, ?_⟩
        · rw [nodeEntries, heq1, heq2, htgt]
          simp only [List.cons_append, List.append_assoc]
        · intro e he
          rcases List.mem_cons.1 he with h1 | h1
          · rw [h1]
            show isPrefixOfP (pre ++ j :: rest) pre = false
            rw [Bool.eq_false_iff]
            intro hc
            have := isPrefixOfP_length hc
            rw [List.length_append] at this
            simp at this
          · rcases List.mem_append.1 h1 with h2 | h2
            · obtain ⟨k, r2, hk, he2⟩ := hL1 e h2
              rw [he2, isPrefixOfP_append_same]
              rw [isPrefixOfP]
              simp only [Bool.and_eq_false_iff]
              left
              simp
              omega
            · have := hA2 e h2
              rw [htgt] at this
              exact this
        · intro e he
          rcases List.mem_append.1 he with h2 | h2
          · have := hB2 e h2
            rw [htgt] at this
            exact this
          · obtain ⟨k, r2, hk, he2⟩ := hL2 e h2
            rw [he2, isPrefixOfP_append_same]
            rw [isPrefixOfP]
            simp only [Bool.and_eq_false_iff]
            left
            simp
            omega

/-- Document-level pre-order contiguity. -/
theorem docEntries_decomp {doc : List SNode} {q : SPath} {m : SNode}
    (h : nodeAt doc q = some m) :
    ∃ A B, docEntries doc = A ++ nodeEntries q m ++ B ∧
      (∀ e ∈ A, isPrefixOfP q e.1 = false) ∧
      (∀ e ∈ B, isPrefixOfP q e.1 = false) := by
  rcases q with _ | ⟨j, rest⟩
  · rw [nodeAt_nil] at h; cases h
  · rw [nodeAt] at h
    rcases hj : doc[j]? with _ | c
    · rw [hj] at h; cases h
    · rw [hj] at h
      have hrel : relAt c rest = some m := by
        rcases rest with _ | ⟨r1, r2⟩
        · dsimp only at h
          injection h with h
          rw [h, relAt_nil]
        · dsimp only at h
          rw [← nodeAt_childrenOf_relAt (r1 :: r2) c (by simp)]
          exact h
      obtain ⟨A2, B2, heq2, hA2, hB2⟩ := nodeEntries_decomp rest c m [j] hrel
      obtain ⟨L1, L2, heq1, hL1, hL2⟩ := listEntries_split doc j c [] 0 hj
      rw [Nat.zero_add, List.nil_append] at heq1
      have htgt : ([j] : SPath) ++ rest = j :: rest := rfl
      rw [htgt] at heq2 hA2 hB2
      refine ⟨L1 ++ A2, B2 ++ L2, ?_, ?_, ?_⟩
      · rw [docEntries, heq1, heq2]
        simp only [List.nil_append, List.append_assoc]
      · intro e he
        rcases List.mem_append.1 he with h2 | h2
        · obtain ⟨k, r2, hk, he2⟩ := hL1 e h2
          rw [he2, List.nil_append]
          rw [isPrefixOfP]
          simp only [Bool.and_eq_false_iff]
          left
          simp
          omega
        · exact hA2 e h2
      · intro e he
        rcases List.mem_append.1 he with h2 | h2
        · exact hB2 e h2
        · obtain ⟨k, r2, hk, he2⟩ := hL2 e h2
          rw [he2, List.nil_append]
          rw [isPrefixOfP]
          simp only [Bool.and_eq_false_iff]
          left
          simp
          omega

theorem isPrefixOfP_refl (p : SPath) : isPrefixOfP p p = true :=
  (isPrefixOfP_iff _ _).2 ⟨[], (List.append_nil p).symm⟩

theorem pathCmp_append_lt : ∀ {a b : SPath} (c : SPath),
    pathCmp a b = .lt → pathCmp (a ++ c) b = .lt := by
  intro a
  induction a with
  | nil => intro b c h; cases h
  | cons x xs ih =>
    intro b c h
    cases b with
    | nil => rw [pathCmp.eq_def] at h; dsimp only at h; rcases xs <;> cases h
    | cons y ys =>
      rw [pathCmp] at h
      rw [List.cons_append, pathCmp]
      by_cases h1 : x < y
      · rw [if_pos h1] at h ⊢
      · rw [if_neg h1] at h ⊢
        by_cases h2 : y < x
        · rw [if_pos h2] at h; cases h
        · rw [if_neg h2] at h ⊢
          exact ih c h

theorem nodeEntries_head_mem (pre : SPath) (n : SNode) :
    (pre, n) ∈ nodeEntries pre n := by
  cases n with
  | text s m => rw [nodeEntries]; exact List.mem_singleton.2 rfl
  | elem ty lb v cs => rw [nodeEntries]; exact List.mem_cons_self _ _

/-- The children of the previous lowest block (the last element entry
strictly before a path) are all texts: an element child would itself
be a later entry still strictly before the path. -/
theorem prevBlockEntry_children_text {doc : List SNode} {p prevPath : SPath}
    {prevNode : SNode}
    (h : prevBlockEntry doc p = some (prevPath, prevNode)) :
    prevNode.childrenOf.all SNode.isText = true := by
  by_contra hcon
  rw [List.all_eq_true] at hcon
  push_neg at hcon
  obtain ⟨c, hcmem, hct⟩ := hcon
  simp only [ne_eq, Bool.not_eq_true] at hct
  rw [prevBlockEntry] at h
  obtain ⟨init, hinit⟩ := List.getLast?_eq_some_iff.mp h
  have hprevmem : (prevPath, prevNode) ∈
      (docEntries doc).filter fun q => q.2.isElem ∧ pathCmp q.1 p = .lt := by
    rw [hinit]
    exact List.mem_append.2 (Or.inr (List.mem_singleton.2 rfl))
  have hprev_filter := List.mem_filter.1 hprevmem
  have hprev_entries : (prevPath, prevNode) ∈ docEntries doc := hprev_filter.1
  have hprev_cond := hprev_filter.2
  simp only [decide_eq_true_eq] at hprev_cond
  obtain ⟨hprev_elem, hprev_lt⟩ := hprev_cond
  have hprev_node : nodeAt doc prevPath = some prevNode :=
    docEntries_nodeAt hprev_entries
  cases prevNode with
  | text s m =>
    rw [show (SNode.text s m).childrenOf = [] from rfl] at hcmem
    cases hcmem
  | elem ty lb v cs =>
    rw [show (SNode.elem ty lb v cs).childrenOf = cs from rfl] at hcmem
    obtain ⟨i, hi⟩ := List.getElem?_of_mem hcmem
    have hc_elem : c.isElem = true := by
      cases c with
      | text s2 m2 => cases hct
      | elem ty2 lb2 v2 cs2 => rfl
    obtain ⟨L1, L2, heqL, _, _⟩ := listEntries_split cs i c prevPath 0 hi
    rw [Nat.zero_add] at heqL
    have hcentry : (prevPath ++ [i], c) ∈ listEntries prevPath 0 cs := by
      rw [heqL]
      refine List.mem_append.2 (Or.inl (List.mem_append.2 (Or.inr ?_)))
      exact nodeEntries_head_mem _ _
    have hc_lt : pathCmp (prevPath ++ [i]) p = .lt :=
      pathCmp_append_lt [i] hprev_lt
    obtain ⟨A, B, heqD, hA, hB⟩ := docEntries_decomp hprev_node
    rw [nodeEntries] at heqD
    -- the filtered list
    have hself : ∀ e : SPath × SNode, e.1 = prevPath →
        isPrefixOfP prevPath e.1 = true := by
      intro e he
      rw [he]
      exact isPrefixOfP_refl prevPath
    have hFc : (decide (c.isElem = true ∧ pathCmp (prevPath ++ [i]) p = .lt)) = true := by
      simp [hc_elem, hc_lt]
    have hrestne : (listEntries prevPath 0 cs).filter
        (fun q => q.2.isElem ∧ pathCmp q.1 p = .lt) ≠ [] := by
      refine List.ne_nil_of_mem (a := (prevPath ++ [i], c)) ?_
      refine List.mem_filter.2 ⟨hcentry, ?_⟩
      simp only [decide_eq_true_eq]
      exact ⟨hc_elem, hc_lt⟩
    have hfilterD : (docEntries doc).filter
        (fun q => q.2.isElem ∧ pathCmp q.1 p = .lt) =
        A.filter (fun q => q.2.isElem ∧ pathCmp q.1 p = .lt) ++
        ((prevPath, SNode.elem ty lb v cs) ::
          (listEntries prevPath 0 cs).filter
            (fun q => q.2.isElem ∧ pathCmp q.1 p = .lt)) ++
        B.filter (fun q => q.2.isElem ∧ pathCmp q.1 p = .lt) := by
      rw [heqD]
      rw [List.filter_append, List.filter_append]
      congr 1
      congr 1
      rw [List.filter_cons]
      rw [if_pos (by
        simp only [decide_eq_true_eq]
        exact ⟨hprev_elem, hprev_lt⟩)]
    have hlast := h
    rw [hfilterD] at hlast
    by_cases hBne : B.filter (fun q => q.2.isElem ∧ pathCmp q.1 p = .lt) = []
    · rw [hBne, List.append_nil] at hlast
      rw [List.getLast?_append_of_ne_nil _ (by
        intro hz
        cases hz)] at hlast
      have hlast2 : ((prevPath, SNode.elem ty lb v cs) ::
          (listEntries prevPath 0 cs).filter
            (fun q => q.2.isElem ∧ pathCmp q.1 p = .lt)).getLast? =
          ((listEntries prevPath 0 cs).filter
            (fun q => q.2.isElem ∧ pathCmp q.1 p = .lt)).getLast? := by
        rcases hX : (listEntries prevPath 0 cs).filter
            (fun q => q.2.isElem ∧ pathCmp q.1 p = .lt) with _ | ⟨x, xs⟩
        · exact absurd hX hrestne
        · rw [hX]
          rw [show ((prevPath, SNode.elem ty lb v cs) :: x :: xs) =
            [(prevPath, SNode.elem ty lb v cs)] ++ (x :: xs) from rfl]
          exact List.getLast?_append_of_ne_nil _ (by simp)
      rw [hlast2] at hlast
      have hmem2 := List.mem_of_mem_getLast? hlast
      have hmem3 := (List.mem_filter.1 hmem2).1
      obtain ⟨k, rest, _, hpath⟩ := listEntries_paths cs prevPath 0 _ hmem3
      have : prevPath.length = (prevPath ++ k :: rest).length := by
        rw [show (prevPath, SNode.elem ty lb v cs).1 = prevPath from rfl] at hpath
        rw [← hpath]
      rw [List.length_append] at this
      simp at this
    · rw [List.getLast?_append_of_ne_nil _ hBne] at hlast
      have hmem2 := List.mem_of_mem_getLast? hlast
      have hmem3 := (List.mem_filter.1 hmem2).1
      have := hB _ hmem3
      rw [show (prevPath, SNode.elem ty lb v cs).1 = prevPath from rfl] at this
      rw [isPrefixOfP_refl] at this
      cases this

/-! ### Reading nodes back through structural edits -/

theorem isPrefixOfP_trans {a b c : SPath} (h1 : isPrefixOfP a b = true)
    (h2 : isPrefixOfP b c = true) : isPrefixOfP a c = true := by
  obtain ⟨t1, rfl⟩ := (isPrefixOfP_iff _ _).1 h1
  obtain ⟨t2, rfl⟩ := (isPrefixOfP_iff _ _).1 h2
  exact (isPrefixOfP_iff _ _).2 ⟨t1 ++ t2, by rw [List.append_assoc]⟩

theorem take_append_exact (l1 l2 : List Nat) : (l1 ++ l2).take l1.length = l1 := by
  induction l1 with
  | nil => rfl
  | cons x xs ih =>
    rw [List.cons_append, List.length_cons, List.take_succ_cons, ih]

theorem getElem?_append_exact {α : Type} (l1 : List α) (a : α) (l2 : List α) :
    (l1 ++ a :: l2)[l1.length]? = some a := by
  rw [List.getElem?_append, if_neg (by omega)]
  rw [Nat.sub_self]
  exact List.getElem?_cons_zero

theorem getElem?_append_shift {α : Type} (l1 : List α) (l2 : List α) (k : Nat) :
    (l1 ++ l2)[l1.length + k]? = l2[k]? := by
  rw [List.getElem?_append, if_neg (by omega)]
  congr 1
  omega

theorem set_append_cons {α : Type} (l1 : List α) (a b : α) (l2 : List α) :
    (l1 ++ a :: l2).set l1.length b = l1 ++ b :: l2 := by
  induction l1 with
  | nil => rfl
  | cons x xs ih =>
    rw [List.cons_append, List.length_cons, List.set_cons_succ, ih]
    rfl

theorem ins_getElem_lt {l ns : List SNode} {j i : Nat} (h : i < j)
    (hj : j ≤ l.length) : (l.take j ++ ns ++ l.drop j)[i]? = l[i]? := by
  rw [List.append_assoc, List.getElem?_append, if_pos (by
    rw [List.length_take]; omega), List.getElem?_take, if_pos h]

theorem ins_getElem_ge {l ns : List SNode} {j i : Nat} (h : j ≤ i)
    (hj : j ≤ l.length) :
    (l.take j ++ ns ++ l.drop j)[i + ns.length]? = l[i]? := by
  rw [List.append_assoc]
  have hlt : (l.take j).length = j := by rw [List.length_take]; omega
  have hidx : i + ns.length = (l.take j).length + (ns.length + (i - j)) := by
    omega
  rw [hidx, getElem?_append_shift]
  have hidx2 : ns.length + (i - j) = ns.length + (i - j) := rfl
  rw [show ns.length + (i - j) = ns.length + (i - j) from rfl]
  have : (ns ++ l.drop j)[ns.length + (i - j)]? = (l.drop j)[i - j]? :=
    getElem?_append_shift ns (l.drop j) (i - j)
  rw [this, List.getElem?_drop]
  congr 1
  omega

theorem nodeAt_extend_none : ∀ {a : SPath} {doc : List SNode}, a ≠ [] →
    nodeAt doc a = none → ∀ b, nodeAt doc (a ++ b) = none := by
  intro a
  induction a with
  | nil => intro doc h; exact absurd rfl h
  | cons i rest ih =>
    intro doc _ h b
    rcases hi : doc[i]? with _ | n
    · rw [List.cons_append, nodeAt, hi]
    · rw [nodeAt, hi] at h
      rw [List.cons_append, nodeAt, hi]
      dsimp only at h ⊢
      rcases rest with _ | ⟨r1, r2⟩
      · cases h
      · dsimp only at h
        have hg : (r1 :: r2 : List Nat) ++ b = r1 :: (r2 ++ b) := rfl
        rw [hg]
        dsimp only
        exact ih (by simp) h b

/-- Reading below a known child list. -/
theorem nodeAt_under {doc : List SNode} {pref : SPath} {cs : List SNode}
    (hcl : childListAt doc pref = some cs) (i : Nat) (rest : SPath) :
    nodeAt doc (pref ++ i :: rest) =
      match cs[i]? with
      | some c => relAt c rest
      | none => none := by
  have h1 : nodeAt doc (pref ++ [i]) = cs[i]? := nodeAt_append_child hcl i
  rcases hrest : rest with _ | ⟨r1, r2⟩
  · rw [show pref ++ i :: ([] : List Nat) = pref ++ [i] from rfl, h1]
    rcases cs[i]? with _ | c
    · rfl
    · dsimp only
      rw [relAt_nil]
  · rcases hi : cs[i]? with _ | c
    · rw [hi] at h1
      have := nodeAt_extend_none (a := pref ++ [i]) (by simp) h1 (r1 :: r2)
      rw [List.append_assoc] at this
      rw [show ([i] : List Nat) ++ r1 :: r2 = i :: r1 :: r2 from rfl] at this
      rw [this]
    · rw [hi] at h1
      have := nodeAt_append_relAt (pref ++ [i]) doc c (r1 :: r2) (by simp)
        (by simp) h1
      rw [List.append_assoc] at this
      rw [show ([i] : List Nat) ++ r1 :: r2 = i :: r1 :: r2 from rfl] at this
      rw [this]

/-- A child-list edit leaves every node outside the edited branch
untouched. -/
theorem modifyChildrenO_nodeAt_out :
    ∀ {pref : SPath} {doc : List SNode} {f : List SNode → Option (List SNode)}
    {doc' : List SNode}, modifyChildrenO doc pref f = some doc' →
    ∀ q, isPrefixOfP pref q = false → isPrefixOfP q pref = false →
    nodeAt doc' q = nodeAt doc q := by
  intro pref
  induction pref with
  | nil =>
    intro doc f doc' h q h1 h2
    cases h1
  | cons i rest ih =>
    intro doc f doc' h q h1 h2
    rw [modifyChildrenO] at h
    rcases hi : doc[i]? with _ | n
    · rw [hi] at h; cases h
    · rw [hi] at h
      cases n with
      | text s m => cases h
      | elem ty lb v cs =>
        dsimp only at h
        rcases hrec : modifyChildrenO cs rest f with _ | inner
        · rw [hrec] at h; cases h
        · rw [hrec] at h
          simp only [Option.map_some'] at h
          cases h
          rcases q with _ | ⟨a, qrest⟩
          · rw [nodeAt_nil, nodeAt_nil]
          · by_cases hai : a = i
            · subst hai
              rw [isPrefixOfP] at h1 h2
              simp only [beq_self_eq_true, Bool.true_and] at h1 h2
              rcases qrest with _ | ⟨b, brest⟩
              · cases h2
              · rw [nodeAt, nodeAt, List.getElem?_set_self (by
                  by_contra hge
                  rw [List.getElem?_eq_none (by omega)] at hi
                  cases hi), hi]
                dsimp only
                rw [show (SNode.elem ty lb v inner).childrenOf = inner from rfl,
                  show (SNode.elem ty lb v cs).childrenOf = cs from rfl]
                exact ih hrec (b :: brest) h1 h2
            · rw [nodeAt, nodeAt, List.getElem?_set_ne (fun hx => hai hx.symm)]

/-- Reading a surviving node back through a node removal. -/
theorem removeAtPathD_nodeAt {doc doc' : List SNode} {rp q q' : SPath}
    (h : removeAtPathD doc rp = some doc')
    (hsh : pathShiftRem rp q = some q')
    (hanc : isPrefixOfP q rp = false) :
    nodeAt doc' q' = nodeAt doc q := by
  rw [removeAtPathD] at h
  simp only [Option.bind_eq_bind, Option.bind_eq_some] at h
  obtain ⟨⟨pref, j⟩, hsp, h⟩ := h
  dsimp only at h
  obtain ⟨L, L', hclL, hf, hclL'⟩ := modifyChildrenO_inv h
  have hjlt : j < L.length := by
    by_contra hge
    rw [if_neg hge] at hf
    cases hf
  rw [if_pos hjlt] at hf
  injection hf with hf
  subst hf
  rw [pathShiftRem] at hsh
  by_cases hpre : isPrefixOfP rp q = true
  · rw [if_pos hpre] at hsh; cases hsh
  · rw [if_neg hpre] at hsh
    rw [hsp] at hsh
    dsimp only at hsh
    have hrp : rp = pref ++ [j] := splitLastP_eq hsp
    by_cases hq : isPrefixOfP pref q = true
    · obtain ⟨t, rfl⟩ := (isPrefixOfP_iff _ _).1 hq
      rcases t with _ | ⟨i, ts⟩
      · rw [List.append_nil] at hanc hsh ⊢
        exfalso
        rw [hrp] at hanc
        rw [(isPrefixOfP_iff _ _).2 ⟨[j], rfl⟩] at hanc
        cases hanc
      · have hji : j ≠ i := by
          intro hx
          subst hx
          rw [hrp, isPrefixOfP_append_same] at hpre
          rw [isPrefixOfP] at hpre
          simp only [beq_self_eq_true, Bool.true_and] at hpre
          rw [show isPrefixOfP ([] : SPath) ts = true from rfl] at hpre
          exact hpre rfl
        have htake : (pref ++ i :: ts).take pref.length = pref :=
          take_append_exact pref (i :: ts)
        have hlen : pref.length < (pref ++ i :: ts).length := by
          rw [List.length_append]
          simp
        have hgd : (pref ++ i :: ts).getD pref.length 0 = i := by
          rw [List.getD_eq_getElem?_getD, getElem?_append_exact]
          rfl
        by_cases hji2 : j < i
        · rw [if_pos ⟨htake, hlen, by rw [hgd]; exact hji2⟩] at hsh
          injection hsh with hsh
          subst hsh
          rw [hgd, set_append_cons]
          rw [nodeAt_under hclL' (i - 1) ts, nodeAt_under hclL i ts]
          rw [List.getElem?_eraseIdx_of_ge _ _ _ (by omega)]
          have : i - 1 + 1 = i := by omega
          rw [this]
        · rw [if_neg (by
            intro hC
            rw [hgd] at hC
            exact hji2 hC.2.2)] at hsh
          injection hsh with hsh
          subst hsh
          rw [nodeAt_under hclL' i ts, nodeAt_under hclL i ts]
          rw [List.getElem?_eraseIdx_of_lt _ _ _ (by omega)]
    · have hq' : isPrefixOfP pref q = false := by
        rw [Bool.eq_false_iff]
        exact hq
      have hqp : isPrefixOfP q pref = false := by
        rw [Bool.eq_false_iff]
        intro hc
        rw [Bool.eq_false_iff] at hanc
        refine hanc (isPrefixOfP_trans hc ?_)
        rw [hrp]
        exact (isPrefixOfP_iff _ _).2 ⟨[j], rfl⟩
      rw [if_neg (by
        rintro ⟨hC1, hC2, _⟩
        refine hq ?_
        refine (isPrefixOfP_iff _ _).2 ⟨q.drop pref.length, ?_⟩
        conv_lhs => rw [← List.take_append_drop pref.length q]
        rw [hC1])] at hsh
      injection hsh with hsh
      subst hsh
      exact modifyChildrenO_nodeAt_out h q hq' hqp

/-- Reading a node back through a sibling insertion. -/
theorem insertAtPathD_nodeAt {doc doc' ns : List SNode} {ip q : SPath}
    (h : insertAtPathD doc ip ns = some doc')
    (hanc : isPrefixOfP q ip.dropLast = false) :
    nodeAt doc' (pathShiftIns ip ns.length q) = nodeAt doc q := by
  rw [insertAtPathD] at h
  simp only [Option.bind_eq_bind, Option.bind_eq_some] at h
  obtain ⟨⟨pref, j⟩, hsp, h⟩ := h
  dsimp only at h
  obtain ⟨L, L', hclL, hf, hclL'⟩ := modifyChildrenO_inv h
  have hjle : j ≤ L.length := by
    by_contra hge
    rw [if_neg hge] at hf
    cases hf
  rw [if_pos hjle] at hf
  injection hf with hf
  subst hf
  have hpref : pref = ip.dropLast := by
    have := splitLastP_eq hsp
    rw [this]
    simp
  subst hpref
  rw [pathShiftIns, hsp]
  dsimp only
  by_cases hq : isPrefixOfP ip.dropLast q = true
  · obtain ⟨t, rfl⟩ := (isPrefixOfP_iff _ _).1 hq
    rcases t with _ | ⟨i, ts⟩
    · exfalso
      rw [List.append_nil] at hanc
      rw [isPrefixOfP_refl] at hanc
      cases hanc
    · have htake : (ip.dropLast ++ i :: ts).take ip.dropLast.length =
          ip.dropLast := take_append_exact _ (i :: ts)
      have hlen : ip.dropLast.length < (ip.dropLast ++ i :: ts).length := by
        rw [List.length_append]
        simp
      have hgd : (ip.dropLast ++ i :: ts).getD ip.dropLast.length 0 = i := by
        rw [List.getD_eq_getElem?_getD, getElem?_append_exact]
        rfl
      by_cases hji : j ≤ i
      · rw [if_pos ⟨htake, hlen, by rw [hgd]; exact hji⟩]
        rw [hgd, set_append_cons]
        rw [nodeAt_under hclL' (i + ns.length) ts, nodeAt_under hclL i ts]
        rw [ins_getElem_ge hji hjle]
      · rw [if_neg (by
          rintro ⟨_, _, hC3⟩
          rw [hgd] at hC3
          exact hji hC3)]
        rw [nodeAt_under hclL' i ts, nodeAt_under hclL i ts]
        rw [ins_getElem_lt (by omega) hjle]
  · have hq' : isPrefixOfP ip.dropLast q = false := by
      rw [Bool.eq_false_iff]
      exact hq
    rw [if_neg (by
      rintro ⟨hC1, hC2, _⟩
      refine hq ?_
      refine (isPrefixOfP_iff _ _).2 ⟨q.drop ip.dropLast.length, ?_⟩
      conv_lhs => rw [← List.take_append_drop ip.dropLast.length q]
      rw [hC1])]
    exact modifyChildrenO_nodeAt_out h q hq' hanc

/-- Two child-list edits at the same path compose. -/
theorem modifyChildrenO_comp : ∀ {pref : SPath} {doc d1 d2 : List SNode}
    {f g : List SNode → Option (List SNode)},
    modifyChildrenO doc pref f = some d1 →
    modifyChildrenO d1 pref g = some d2 →
    modifyChildrenO doc pref (fun cs => (f cs).bind g) = some d2 := by
  intro pref
  induction pref with
  | nil =>
    intro doc d1 d2 f g h1 h2
    rw [modifyChildrenO] at h1 h2 ⊢
    rw [h1, Option.some_bind]
    exact h2
  | cons i rest ih =>
    intro doc d1 d2 f g h1 h2
    rw [modifyChildrenO] at h1 h2 ⊢
    rcases hi : doc[i]? with _ | n
    · rw [hi] at h1; cases h1
    · rw [hi] at h1
      cases n with
      | text s m => cases h1
      | elem ty lb v cs =>
        dsimp only at h1
        rcases hrec : modifyChildrenO cs rest f with _ | inner
        · rw [hrec] at h1; cases h1
        · rw [hrec] at h1
          simp only [Option.map_some'] at h1
          cases h1
          have hlen : i < doc.length := by
            by_contra hge
            rw [List.getElem?_eq_none (by omega)] at hi
            cases hi
          rw [List.getElem?_set_self hlen] at h2
          dsimp only at h2
          rcases hrec2 : modifyChildrenO inner rest g with _ | inner2
          · rw [hrec2] at h2; cases h2
          · rw [hrec2] at h2
            simp only [Option.map_some'] at h2
            cases h2
            dsimp only
            rw [ih hrec hrec2]
            simp only [Option.map_some']
            rw [List.set_set]

/-- Merging a block whose children are texts into a previous block
whose children are texts preserves well-formedness. -/
theorem stMergeBlocks_good {st : EState} {prevPath curPath : SPath}
    {st' : EState} (h : stMergeBlocks st prevPath curPath = some st')
    (hg : goodDoc st.doc = true)
    (hptext : ∀ pn, nodeAt st.doc prevPath = some pn →
      pn.childrenOf.all SNode.isText = true)
    (hctext : ∀ cn, nodeAt st.doc curPath = some cn →
      cn.childrenOf.all SNode.isText = true) :
    goodDoc st'.doc = true := by
  rw [stMergeBlocks] at h
  simp only [Option.bind_eq_bind, Option.bind_eq_some] at h
  obtain ⟨cur, hcur, prev, hprev, h⟩ := h
  cases prev with
  | text s m => cases h
  | elem ty lb v pcs =>
    cases cur with
    | text s2 m2 => cases h
    | elem ty2 lb2 v2 ccs =>
      dsimp only at h
      simp only [Option.bind_eq_bind, Option.bind_eq_some, Option.pure_def,
        Option.some.injEq] at h
      obtain ⟨doc1, hrep, doc2, hrem, h⟩ := h
      cases h
      have hpt : pcs.all SNode.isText = true := by
        have := hptext _ hprev
        simpa using this
      have hct : ccs.all SNode.isText = true := by
        have := hctext _ hcur
        simpa using this
      have hmt : (pcs ++ ccs).all SNode.isText = true := alltext_append hpt hct
      have hg1 : goodDoc doc1 = true := by
        refine replaceAtPathD_good_single hrep hg hprev ?_ ?_ ?_ ?_ ?_
        · exact inv34Node_elem_iff.2 ⟨fun _ => hmt,
            soleOk_of_stampfree (alltext_stampfree hmt), alltext_inv34List hmt⟩
        · exact flatNode_elem_iff.2 ⟨homog_of_alltext hmt, alltext_flatList hmt⟩
        · intro hst
          exact hst
        · rfl
        · intro _
          rfl
      show goodDoc doc2 = true
      exact removeAtPathD_good hrem hg1

/-! ### Divergent-path arithmetic -/

theorem pathCmp_lt_exists : ∀ {a b : SPath}, pathCmp a b = .lt →
    ∃ P x y xs ys, a = P ++ x :: xs ∧ b = P ++ y :: ys ∧ x < y := by
  intro a
  induction a with
  | nil => intro b h; cases h
  | cons x xs ih =>
    intro b h
    cases b with
    | nil => cases h
    | cons y ys =>
      rw [pathCmp] at h
      by_cases h1 : x < y
      · exact ⟨[], x, y, xs, ys, rfl, rfl, h1⟩
      · rw [if_neg h1] at h
        by_cases h2 : y < x
        · rw [if_pos h2] at h; cases h
        · rw [if_neg h2] at h
          have hxy : x = y := by omega
          subst hxy
          obtain ⟨P, u, v, us, vs, ha, hb, huv⟩ := ih h
          exact ⟨x :: P, u, v, us, vs, by rw [ha]; rfl, by rw [hb]; rfl, huv⟩

theorem pathCmp_div_lt : ∀ (P : SPath) {x y : Nat} (xs ys : SPath),
    x < y → pathCmp (P ++ x :: xs) (P ++ y :: ys) = .lt := by
  intro P
  induction P with
  | nil =>
    intro x y xs ys h
    rw [List.nil_append, List.nil_append, pathCmp, if_pos h]
  | cons a P' ih =>
    intro x y xs ys h
    rw [List.cons_append, List.cons_append, pathCmp]
    simp only [Nat.lt_irrefl, if_false]
    exact ih xs ys h

theorem isPrefixOfP_div_false : ∀ (P : SPath) {x y : Nat} (xs ys : SPath),
    x ≠ y → isPrefixOfP (P ++ x :: xs) (P ++ y :: ys) = false := by
  intro P
  induction P with
  | nil =>
    intro x y xs ys h
    rw [List.nil_append, List.nil_append, isPrefixOfP]
    simp [h]
  | cons a P' ih =>
    intro x y xs ys h
    rw [List.cons_append, List.cons_append, isPrefixOfP]
    rw [beq_self_eq_true, Bool.true_and]
    exact ih xs ys h

theorem commonPath_append_div : ∀ (P : SPath) {x y : Nat} (xs ys : SPath),
    x ≠ y → commonPath (P ++ x :: xs) (P ++ y :: ys) = P := by
  intro P
  induction P with
  | nil =>
    intro x y xs ys h
    rw [List.nil_append, List.nil_append, commonPath, if_neg h]
  | cons a P' ih =>
    intro x y xs ys h
    rw [List.cons_append, List.cons_append, commonPath, if_pos rfl]
    rw [ih xs ys h]

theorem getElem?_append_cons (P : SPath) (x : Nat) (xs : SPath) :
    (P ++ x :: xs)[P.length]? = some x := by
  rw [List.getElem?_append_right (Nat.le_refl _)]
  simp

theorem take_append_cons_ne {x y : Nat} (P zs : SPath) {ws : SPath} (h : x ≠ y)
    (n : Nat) : (P ++ y :: zs).take n ≠ P ++ x :: ws := by
  intro hc
  by_cases hn : n ≤ P.length
  · have hlen : ((P ++ y :: zs).take n).length ≤ P.length := by
      rw [List.length_take]
      omega
    rw [hc] at hlen
    rw [List.length_append, List.length_cons] at hlen
    omega
  · have h1 : ((P ++ y :: zs).take n)[P.length]? = some y := by
      rw [List.getElem?_take]
      rw [if_pos (by omega)]
      exact getElem?_append_cons P y zs
    rw [hc, getElem?_append_cons] at h1
    injection h1 with h1
    exact h h1

theorem splitLastP_concat (P : SPath) (j : Nat) :
    splitLastP (P ++ [j]) = some (P, j) := by
  rw [splitLastP]
  rw [List.getLast?_concat]
  rw [List.dropLast_concat]

/-- A path strictly before the removal site is untouched by the
removal's path transform. -/
theorem pathShiftRem_of_lt {R p : SPath} (h : pathCmp p R = .lt)
    (hR : R ≠ []) : pathShiftRem R p = some p := by
  obtain ⟨P, x, y, xs, ys, hp, hr, hxy⟩ := pathCmp_lt_exists h
  subst hp hr
  rw [pathShiftRem]
  rw [isPrefixOfP_div_false P ys xs (by omega)]
  rw [if_neg Bool.false_ne_true]
  rcases hys : ys.reverse with _ | ⟨yl, yf⟩
  · have hys0 : ys = [] := by
      have := congrArg List.reverse hys
      simpa using this
    subst hys0
    rw [splitLastP_concat]
    dsimp only
    rw [if_neg]
    rintro ⟨h1, h2, h3⟩
    have hget : (P ++ x :: xs).getD P.length 0 = x := by
      rw [List.getD_eq_getElem?_getD, getElem?_append_cons]
      rfl
    rw [hget] at h3
    omega
  · have hys1 : ys = yf.reverse ++ [yl] := by
      have := congrArg List.reverse hys
      simpa using this
    subst hys1
    have hsh : P ++ y :: (yf.reverse ++ [yl]) = (P ++ y :: yf.reverse) ++ [yl] := by
      simp
    rw [hsh, splitLastP_concat]
    dsimp only
    rw [if_neg]
    rintro ⟨h1, h2, h3⟩
    exact @take_append_cons_ne y x P xs yf.reverse (by omega) _ h1

/-- Inserting at the slot just after a path leaves that path itself
untouched by the insertion's path transform. -/
theorem pathShiftIns_next_self {a : SPath} (ha : a ≠ []) (cnt : Nat) :
    pathShiftIns (pathNext a) cnt a = a := by
  rcases hra : a.reverse with _ | ⟨l, f⟩
  · exact absurd (by simpa using congrArg List.reverse hra) ha
  · have ha1 : a = f.reverse ++ [l] := by simpa using congrArg List.reverse hra
    subst ha1
    rw [pathShiftIns, pathNext]
    rw [List.dropLast_concat]
    have hgl : (f.reverse ++ [l]).getLastD 0 = l := by
      rw [List.getLastD_eq_getLast?, List.getLast?_concat]
      rfl
    rw [hgl, splitLastP_concat]
    dsimp only
    rw [if_neg]
    rintro ⟨h1, h2, h3⟩
    have hget : (f.reverse ++ [l]).getD f.reverse.length 0 = l := by
      rw [List.getD_eq_getElem?_getD, getElem?_append_cons]
      rfl
    rw [hget] at h3
    omega

theorem dropLast_append_cons_ne_nil {P : SPath} {y : Nat} {ys : SPath}
    (h : ys ≠ []) : (P ++ y :: ys).dropLast = P ++ y :: ys.dropLast := by
  rcases hys : ys.reverse with _ | ⟨yl, yf⟩
  · exact absurd (by simpa using congrArg List.reverse hys) h
  · have hys1 : ys = yf.reverse ++ [yl] := by
      simpa using congrArg List.reverse hys
    subst hys1
    have hsh : P ++ y :: (yf.reverse ++ [yl]) = (P ++ y :: yf.reverse) ++ [yl] := by
      simp
    rw [hsh, List.dropLast_concat, List.dropLast_concat]

theorem getLastD_append_cons_last {P : SPath} {y yl : Nat} {yf : SPath} :
    (P ++ y :: (yf ++ [yl])).getLastD 0 = yl := by
  have hsh : P ++ y :: (yf ++ [yl]) = (P ++ y :: yf) ++ [yl] := by simp
  rw [hsh, List.getLastD_eq_getLast?, List.getLast?_concat]
  rfl

theorem splitLastP_ne_nil {p : SPath} (h : p ≠ []) :
    splitLastP p = some (p.dropLast, p.getLastD 0) := by
  rw [splitLastP]
  rcases hl : p.getLast? with _ | j
  · rw [List.getLast?_eq_none_iff] at hl
    exact absurd hl h
  · rw [List.getLastD_eq_getLast?, hl]
    rfl

/-- `Path.next` of a strictly earlier non-sibling path is untouched by
removal of the later path. -/
theorem pathShiftRem_next_of_lt {prev path : SPath}
    (h : pathCmp prev path = .lt) (hsib : prev.dropLast ≠ path.dropLast) :
    pathShiftRem path (pathNext prev) = some (pathNext prev) := by
  obtain ⟨P, y, x, ys, xs, hprev, hpath, hxy⟩ := pathCmp_lt_exists h
  subst hprev hpath
  rcases hys : ys.reverse with _ | ⟨yl, yf⟩
  · have hys0 : ys = [] := by simpa using congrArg List.reverse hys
    subst hys0
    have hnext : pathNext (P ++ [y]) = P ++ [y + 1] := by
      rw [pathNext, List.dropLast_concat, List.getLastD_eq_getLast?,
        List.getLast?_concat]
      rfl
    rw [hnext]
    by_cases hx1 : y + 1 < x
    · exact pathShiftRem_of_lt (pathCmp_div_lt P [] xs hx1) (by simp)
    · have hxv : x = y + 1 := by omega
      subst hxv
      rcases hxs : xs with _ | ⟨x2, xs2⟩
      · subst hxs
        exfalso
        refine hsib ?_
        show (P ++ [y]).dropLast = (P ++ [y + 1]).dropLast
        rw [List.dropLast_concat, List.dropLast_concat]
      · subst hxs
        rw [pathShiftRem]
        have hpre : isPrefixOfP (P ++ (y + 1) :: x2 :: xs2) (P ++ [y + 1]) = false := by
          rw [isPrefixOfP_append_same]
          rw [isPrefixOfP, beq_self_eq_true, Bool.true_and]
          rfl
        rw [hpre, if_neg Bool.false_ne_true]
        rw [splitLastP_ne_nil (by simp)]
        dsimp only
        rw [if_neg]
        rintro ⟨h1, h2, h3⟩
        simp only [List.length_append, List.length_cons, List.length_dropLast,
          List.length_singleton, List.length_nil] at h2
        omega
  · have hys1 : ys = yf.reverse ++ [yl] := by
      simpa using congrArg List.reverse hys
    subst hys1
    have hnext : pathNext (P ++ y :: (yf.reverse ++ [yl])) =
        P ++ y :: (yf.reverse ++ [yl + 1]) := by
      rw [pathNext, dropLast_append_cons_ne_nil (by simp),
        getLastD_append_cons_last]
      rw [List.dropLast_concat]
      simp
    rw [hnext]
    exact pathShiftRem_of_lt (pathCmp_div_lt P _ xs hxy) (by simp)

/-- Inserting just after `prev` shifts a path that diverges later and
larger at `prev`'s divergence point only at that index (never turning
it into something smaller than it was). -/
theorem pathShiftIns_div_ge {prev P : SPath} {x y : Nat} {ys : SPath}
    (ts : SPath) (hprev : prev = P ++ y :: ys) (hxy : y < x) (cnt : Nat) :
    ∃ z, x ≤ z ∧ (ys = [] → z = x + cnt) ∧
      pathShiftIns (pathNext prev) cnt (P ++ x :: ts) = P ++ z :: ts := by
  subst hprev
  rcases hys : ys.reverse with _ | ⟨yl, yf⟩
  · have hys0 : ys = [] := by simpa using congrArg List.reverse hys
    subst hys0
    have hnext : pathNext (P ++ [y]) = P ++ [y + 1] := by
      rw [pathNext, List.dropLast_concat, List.getLastD_eq_getLast?,
        List.getLast?_concat]
      rfl
    have hget : (P ++ x :: ts).getD P.length 0 = x := by
      rw [List.getD_eq_getElem?_getD, getElem?_append_cons]
      rfl
    rw [hnext, pathShiftIns, splitLastP_concat]
    dsimp only
    rw [if_pos ⟨List.take_left P (x :: ts), by
        rw [List.length_append, List.length_cons]
        omega, by
        rw [hget]
        omega⟩]
    refine ⟨x + cnt, Nat.le_add_right _ _, fun _ => rfl, ?_⟩
    rw [hget]
    exact set_append_cons P x (x + cnt) ts
  · have hys1 : ys = yf.reverse ++ [yl] := by
      simpa using congrArg List.reverse hys
    subst hys1
    have hnext : pathNext (P ++ y :: (yf.reverse ++ [yl])) =
        (P ++ y :: yf.reverse) ++ [yl + 1] := by
      rw [pathNext, dropLast_append_cons_ne_nil (by simp),
        getLastD_append_cons_last]
      simp
    rw [hnext, pathShiftIns, splitLastP_concat]
    dsimp only
    rw [if_neg]
    · exact ⟨x, Nat.le_refl x, fun hc => by simp at hc, rfl⟩
    · rintro ⟨h1, h2, h3⟩
      exact @take_append_cons_ne y x P ts yf.reverse (by omega) _ h1

/-! ### Commuting child-list edits -/

theorem set_eraseIdx_comm {α : Type} : ∀ (l : List α) (i j : Nat) (x : α),
    i < j → (l.set i x).eraseIdx j = (l.eraseIdx j).set i x := by
  intro l
  induction l with
  | nil => intro i j x h; rfl
  | cons a t ih =>
    intro i j x h
    rcases i with _ | i'
    · rcases j with _ | j'
      · omega
      · rfl
    · rcases j with _ | j'
      · omega
      · rw [List.set_cons_succ, List.eraseIdx_cons_succ, List.eraseIdx_cons_succ,
          List.set_cons_succ, ih i' j' x (by omega)]

/-- Child-list edits at divergent paths commute. -/
theorem modifyChildrenO_comm_div : ∀ {p1 p2 : SPath} {d0 d1 d2 : List SNode}
    {f g : List SNode → Option (List SNode)},
    isPrefixOfP p1 p2 = false → isPrefixOfP p2 p1 = false →
    modifyChildrenO d0 p1 f = some d1 → modifyChildrenO d1 p2 g = some d2 →
    ∃ e, modifyChildrenO d0 p2 g = some e ∧ modifyChildrenO e p1 f = some d2 := by
  intro p1
  induction p1 with
  | nil => intro p2 d0 d1 d2 f g h12 h21 hm1 hm2; cases h12
  | cons i r1 ih =>
    intro p2 d0 d1 d2 f g h12 h21 hm1 hm2
    cases p2 with
    | nil => cases h21
    | cons j r2 =>
      rw [modifyChildrenO] at hm1 hm2
      rcases hi : d0[i]? with _ | n
      · rw [hi] at hm1; cases hm1
      · rw [hi] at hm1
        cases n with
        | text s m => cases hm1
        | elem ty lb v cs =>
          dsimp only at hm1
          rcases hrec1 : modifyChildrenO cs r1 f with _ | inner1
          · rw [hrec1] at hm1; cases hm1
          · rw [hrec1] at hm1
            simp only [Option.map_some'] at hm1
            cases hm1
            have hilen : i < d0.length := by
              by_contra hge
              rw [List.getElem?_eq_none (by omega)] at hi
              cases hi
            by_cases hij : i = j
            · subst hij
              rw [isPrefixOfP, beq_self_eq_true, Bool.true_and] at h12 h21
              rw [List.getElem?_set_self hilen] at hm2
              dsimp only at hm2
              rcases hrec2 : modifyChildrenO inner1 r2 g with _ | inner2
              · rw [hrec2] at hm2; cases hm2
              · rw [hrec2] at hm2
                simp only [Option.map_some'] at hm2
                cases hm2
                obtain ⟨e', he1, he2⟩ := ih h12 h21 hrec1 hrec2
                refine ⟨d0.set i (.elem ty lb v e'), ?_, ?_⟩
                · rw [modifyChildrenO, hi]
                  dsimp only
                  rw [he1]
                  rfl
                · rw [modifyChildrenO, List.getElem?_set_self hilen]
                  dsimp only
                  rw [he2]
                  simp only [Option.map_some']
                  rw [List.set_set, List.set_set]
            · rw [List.getElem?_set_ne (by omega)] at hm2
              rcases hj : d0[j]? with _ | nj
              · rw [hj] at hm2; cases hm2
              · rw [hj] at hm2
                cases nj with
                | text s2 m2 => cases hm2
                | elem ty2 lb2 v2 cs2 =>
                  dsimp only at hm2
                  rcases hrec2 : modifyChildrenO cs2 r2 g with _ | inner2
                  · rw [hrec2] at hm2; cases hm2
                  · rw [hrec2] at hm2
                    simp only [Option.map_some'] at hm2
                    cases hm2
                    refine ⟨d0.set j (.elem ty2 lb2 v2 inner2), ?_, ?_⟩
                    · rw [modifyChildrenO, hj]
                      dsimp only
                      rw [hrec2]
                      rfl
                    · rw [modifyChildrenO, List.getElem?_set_ne (by omega), hi]
                      dsimp only
                      rw [hrec1]
                      simp only [Option.map_some']
                      rw [List.set_comm _ _ _ (by omega)]

/-- An erasure in an ancestor child list at a later index commutes with
a deep edit through an earlier sibling. -/
theorem modifyChildrenO_erase_deep_comm : ∀ {A : SPath} {p0 : Nat} {T : SPath}
    {r : Nat} {d0 d1 d2 : List SNode} {g : List SNode → Option (List SNode)},
    p0 < r →
    modifyChildrenO d0 (A ++ p0 :: T) g = some d1 →
    modifyChildrenO d1 A
      (fun cs => if r < cs.length then some (cs.eraseIdx r) else none) = some d2 →
    ∃ e, modifyChildrenO d0 A
        (fun cs => if r < cs.length then some (cs.eraseIdx r) else none) = some e ∧
      modifyChildrenO e (A ++ p0 :: T) g = some d2 := by
  intro A
  induction A with
  | nil =>
    intro p0 T r d0 d1 d2 g hp0 hm1 hm2
    rw [List.nil_append] at hm1
    rw [modifyChildrenO] at hm1
    rw [modifyChildrenO] at hm2
    rcases hi : d0[p0]? with _ | n
    · rw [hi] at hm1; cases hm1
    · rw [hi] at hm1
      cases n with
      | text s m => cases hm1
      | elem ty lb v cs =>
        dsimp only at hm1
        rcases hrec1 : modifyChildrenO cs T g with _ | inner1
        · rw [hrec1] at hm1; cases hm1
        · rw [hrec1] at hm1
          simp only [Option.map_some'] at hm1
          cases hm1
          rw [List.length_set] at hm2
          by_cases hr : r < d0.length
          · rw [if_pos hr] at hm2
            injection hm2 with hm2
            subst hm2
            refine ⟨d0.eraseIdx r, by rw [modifyChildrenO, if_pos hr], ?_⟩
            rw [List.nil_append, modifyChildrenO]
            rw [List.getElem?_eraseIdx_of_lt _ _ _ hp0, hi]
            dsimp only
            rw [hrec1]
            simp only [Option.map_some']
            rw [set_eraseIdx_comm _ _ _ _ hp0]
          · rw [if_neg hr] at hm2; cases hm2
  | cons a A' ih =>
    intro p0 T r d0 d1 d2 g hp0 hm1 hm2
    rw [List.cons_append] at hm1
    rw [modifyChildrenO] at hm1 hm2
    rcases hi : d0[a]? with _ | n
    · rw [hi] at hm1; cases hm1
    · rw [hi] at hm1
      cases n with
      | text s m => cases hm1
      | elem ty lb v cs =>
        dsimp only at hm1
        rcases hrec1 : modifyChildrenO cs (A' ++ p0 :: T) g with _ | inner1
        · rw [hrec1] at hm1; cases hm1
        · rw [hrec1] at hm1
          simp only [Option.map_some'] at hm1
          cases hm1
          have halen : a < d0.length := by
            by_contra hge
            rw [List.getElem?_eq_none (by omega)] at hi
            cases hi
          rw [List.getElem?_set_self halen] at hm2
          dsimp only at hm2
          rcases hrec2 : modifyChildrenO inner1 A'
              (fun cs => if r < cs.length then some (cs.eraseIdx r) else none)
              with _ | inner2
          · rw [hrec2] at hm2; cases hm2
          · rw [hrec2] at hm2
            simp only [Option.map_some'] at hm2
            cases hm2
            obtain ⟨e', he1, he2⟩ := ih hp0 hrec1 hrec2
            refine ⟨d0.set a (.elem ty lb v e'), ?_, ?_⟩
            · rw [modifyChildrenO, hi]
              dsimp only
              rw [he1]
              rfl
            · rw [List.cons_append, modifyChildrenO,
                List.getElem?_set_self halen]
              dsimp only
              rw [he2]
              simp only [Option.map_some']
              rw [List.set_set, List.set_set]

/-! ### Child-list views of the primitive edits -/

theorem modifyChildrenO_spec : ∀ {pref : SPath} {doc : List SNode}
    {f : List SNode → Option (List SNode)} {doc' : List SNode},
    modifyChildrenO doc pref f = some doc' →
    ∃ cs cs', childListAt doc pref = some cs ∧ f cs = some cs' ∧
      childListAt doc' pref = some cs' := by
  intro pref
  induction pref with
  | nil =>
    intro doc f doc' h
    rw [modifyChildrenO] at h
    exact ⟨doc, doc', rfl, h, rfl⟩
  | cons i rest ih =>
    intro doc f doc' h
    rw [modifyChildrenO] at h
    rcases hi : doc[i]? with _ | n
    · rw [hi] at h; cases h
    · rw [hi] at h
      cases n with
      | text s m => cases h
      | elem ty lb v cs =>
        dsimp only at h
        rcases hrec : modifyChildrenO cs rest f with _ | inner
        · rw [hrec] at h; cases h
        · rw [hrec] at h
          simp only [Option.map_some'] at h
          cases h
          have hilen : i < doc.length := by
            by_contra hge
            rw [List.getElem?_eq_none (by omega)] at hi
            cases hi
          obtain ⟨cs0, cs0', h1, h2, h3⟩ := ih hrec
          refine ⟨cs0, cs0', ?_, h2, ?_⟩
          · rw [childListAt_cons, hi, Option.some_bind]
            exact h1
          · rw [childListAt_cons, List.getElem?_set_self hilen, Option.some_bind]
            exact h3

/-- The nodes inserted by `insertAtPathD` read back at their slots. -/
theorem insertAtPathD_readback {doc doc' ns cs : List SNode} {pref : SPath}
    {j : Nat} (h : insertAtPathD doc (pref ++ [j]) ns = some doc')
    (hcl : childListAt doc pref = some cs) (hj : j ≤ cs.length)
    {k : Nat} {n : SNode} (hk : ns[k]? = some n) :
    nodeAt doc' (pref ++ [j + k]) = some n := by
  rw [insertAtPathD] at h
  rw [splitLastP_concat] at h
  simp only [Option.bind_eq_bind, Option.some_bind] at h
  obtain ⟨cs1, cs1', hcl1, hf, hcl'⟩ := modifyChildrenO_spec h
  rw [hcl] at hcl1
  injection hcl1 with hcl1
  subst hcl1
  rw [if_pos hj] at hf
  injection hf with hf
  subst hf
  rw [nodeAt_append_child hcl' (j + k)]
  rw [List.append_assoc]
  rw [List.getElem?_append_right (by
    rw [List.length_take]
    omega)]
  rw [List.length_take, Nat.min_eq_left hj]
  rw [show j + k - j = k from by omega]
  have hklen : k < ns.length := by
    by_contra hge
    rw [List.getElem?_eq_none (by omega)] at hk
    cases hk
  rw [List.getElem?_append, if_pos hklen]
  exact hk

/-- A stamped member of a `soleOk` list is the whole list. -/
theorem sole_stamped_mem {cs : List SNode} {x : SNode}
    (hs : soleOk cs = true) (hx : x ∈ cs) (hst : x.isStamped = true) :
    cs = [x] := by
  rw [soleOk, Bool.or_eq_true, Bool.not_eq_true'] at hs
  rcases hs with hs | hs
  · exfalso
    rw [Bool.eq_false_iff] at hs
    exact hs (List.any_eq_true.2 ⟨x, hx, hst⟩)
  · rw [beq_iff_eq] at hs
    rcases cs with _ | ⟨a, t⟩
    · cases hx
    · rcases t with _ | ⟨b, t2⟩
      · rw [List.mem_singleton] at hx
        rw [hx]
      · simp at hs

/-- An unstamped member of a `soleOk` singleton-or-stampfree list makes
the whole list stampfree. -/
theorem sole_mem_unstamped_stampfree {cs : List SNode} {x : SNode}
    (hs : soleOk cs = true) (hx : x ∈ cs) (hst : x.isStamped = false) :
    cs.any SNode.isStamped = false := by
  rw [soleOk, Bool.or_eq_true, Bool.not_eq_true'] at hs
  rcases hs with hs | hs
  · exact hs
  · rw [beq_iff_eq] at hs
    rcases cs with _ | ⟨a, t⟩
    · rfl
    · rcases t with _ | ⟨b, t2⟩
      · rw [List.mem_singleton] at hx
        subst hx
        rw [List.any_cons, List.any_nil, hst]
        rfl
      · simp at hs

/-- What a successful `prevBlockEntry` lookup guarantees. -/
theorem prevBlockEntry_facts {doc : List SNode} {p pp : SPath} {pn : SNode}
    (h : prevBlockEntry doc p = some (pp, pn)) :
    pn.isElem = true ∧ pathCmp pp p = .lt ∧ nodeAt doc pp = some pn := by
  rw [prevBlockEntry] at h
  have hmem := List.mem_of_mem_getLast? h
  rw [List.mem_filter] at hmem
  obtain ⟨hent, hcond⟩ := hmem
  have hc := of_decide_eq_true hcond
  exact ⟨hc.1, hc.2, docEntries_nodeAt hent⟩

/-- What a successful `emptyAncestorPath` lookup guarantees. -/
theorem emptyAncestorPath_shape {doc : List SNode} {path prevPath ap : SPath}
    (h : emptyAncestorPath doc path prevPath = some ap) :
    ∃ k, (commonPath path prevPath).length < k ∧ k < path.length ∧
      ap = path.take k ∧
      ∃ ty lb v n1, nodeAt doc (path.take k) = some (.elem ty lb v [n1]) := by
  rw [emptyAncestorPath] at h
  have hmem := List.mem_of_mem_head? h
  rw [List.mem_filterMap] at hmem
  obtain ⟨k, hk, hf⟩ := hmem
  by_cases hcond : (commonPath path prevPath).length < k ∧ k < path.length
  · rw [if_pos hcond] at hf
    rcases hn : nodeAt doc (path.take k) with _ | n
    · rw [hn] at hf; cases hf
    · rw [hn] at hf
      cases n with
      | text s m => cases hf
      | elem ty lb v cs =>
        rcases cs with _ | ⟨n1, t⟩
        · cases hf
        · rcases t with _ | ⟨n2, t2⟩
          · injection hf with hf
            subst hf
            exact ⟨k, hcond.1, hcond.2, rfl, ty, lb, v, n1, hn⟩
          · cases hf
  · rw [if_neg hcond] at hf
    cases hf

theorem dropLast_concat_getLastD {p : SPath} (h : p ≠ []) :
    p.dropLast ++ [p.getLastD 0] = p := by
  rcases hp : p.reverse with _ | ⟨l, f⟩
  · exact absurd (by simpa using congrArg List.reverse hp) h
  · have hp1 : p = f.reverse ++ [l] := by simpa using congrArg List.reverse hp
    subst hp1
    rw [List.dropLast_concat, List.getLastD_eq_getLast?, List.getLast?_concat]
    rfl

theorem nodeAt_singleton_root (doc : List SNode) (j : Nat) :
    nodeAt doc [j] = doc[j]? := by
  rw [nodeAt]
  rcases hj : doc[j]? with _ | n
  · rfl
  · rfl

theorem nodeAt_parent_full {doc : List SNode} {pref : SPath} {j : Nat}
    {n : SNode} (h : nodeAt doc (pref ++ [j]) = some n) :
    ∃ cs, childListAt doc pref = some cs ∧ cs[j]? = some n := by
  by_cases hpe : pref = []
  · subst hpe
    rw [List.nil_append] at h
    rw [nodeAt_singleton_root] at h
    exact ⟨doc, rfl, h⟩
  · obtain ⟨ty, lb, v, cs, hel, hcj⟩ := nodeAt_parent h hpe
    refine ⟨cs, ?_, hcj⟩
    rw [childListAt_ne_nil _ hpe, hel]
    rfl

theorem removeAtPathD_as_modify {d : List SNode} {R : SPath} (hR : R ≠ []) :
    removeAtPathD d R = modifyChildrenO d R.dropLast
      (fun cs => if R.getLastD 0 < cs.length
        then some (cs.eraseIdx (R.getLastD 0)) else none) := by
  rw [removeAtPathD, splitLastP_ne_nil hR]
  simp only [Option.bind_eq_bind, Option.some_bind]

theorem insertAtPathD_as_modify (d : List SNode) (pref : SPath) (j : Nat)
    (ns : List SNode) :
    insertAtPathD d (pref ++ [j]) ns = modifyChildrenO d pref
      (fun cs => if j ≤ cs.length
        then some (cs.take j ++ ns ++ cs.drop j) else none) := by
  rw [insertAtPathD, splitLastP_concat]
  simp only [Option.bind_eq_bind, Option.some_bind]

theorem replaceAtPathD_as_modify (d : List SNode) (pref : SPath) (j : Nat)
    (ns : List SNode) :
    replaceAtPathD d (pref ++ [j]) ns = modifyChildrenO d pref
      (fun cs => if j < cs.length
        then some (cs.take j ++ ns ++ cs.drop (j + 1)) else none) := by
  rw [replaceAtPathD, splitLastP_concat]
  simp only [Option.bind_eq_bind, Option.some_bind]

theorem isPrefixOfP_dropLast_self {p : SPath} (h : p ≠ []) :
    isPrefixOfP p p.dropLast = false := by
  rw [Bool.eq_false_iff]
  intro hc
  have hlen := isPrefixOfP_length hc
  rw [List.length_dropLast] at hlen
  have : 0 < p.length := List.length_pos.2 h
  omega

theorem elem_not_isText {n : SNode} (h : n.isElem = true) :
    n.isText = false := by
  cases n with
  | text s m => cases h
  | elem ty lb v cs => rfl

/-- A move-node success decomposed into its primitive steps. -/
theorem stMoveNode_parts {st : EState} {f t : SPath} {st1 : EState}
    (h : stMoveNode st f t = some st1) :
    ∃ n doc1 t', nodeAt st.doc f = some n ∧
      removeAtPathD st.doc f = some doc1 ∧
      pathShiftRem f t = some t' ∧
      insertAtPathD doc1 t' [n] = some st1.doc := by
  rw [stMoveNode] at h
  by_cases hpre : isPrefixOfP f t = true
  · rw [if_pos hpre] at h
    cases h
  · rw [if_neg hpre] at h
    simp only [Option.bind_eq_bind, Option.bind_eq_some, Option.pure_def,
      Option.some.injEq] at h
    obtain ⟨n, hn, doc1, hrem, t', hsh, doc2, hins, hst⟩ := h
    refine ⟨n, doc1, t', hn, hrem, hsh, ?_⟩
    rw [← hst]
    exact hins

theorem removeAtPathD_as_modify_concat (d : List SNode) (pref : SPath)
    (j : Nat) :
    removeAtPathD d (pref ++ [j]) = modifyChildrenO d pref
      (fun cs => if j < cs.length then some (cs.eraseIdx j) else none) := by
  rw [removeAtPathD, splitLastP_concat]
  simp only [Option.bind_eq_bind, Option.some_bind]

theorem take_append_plus {α : Type} : ∀ (P : List α) (q : List α) (i : Nat),
    (P ++ q).take (P.length + i) = P ++ q.take i := by
  intro P
  induction P with
  | nil => intro q i; simp
  | cons a t ih =>
    intro q i
    rw [List.cons_append, List.length_cons]
    rw [show t.length + 1 + i = (t.length + i) + 1 from by omega]
    rw [List.take_succ_cons, ih, List.cons_append]

theorem getLastD_concat (P : SPath) (j : Nat) : (P ++ [j]).getLastD 0 = j := by
  rw [List.getLastD_eq_getLast?, List.getLast?_concat]
  rfl

/-- The final stage of a merge from a clean (well-formed) pre-state with
both blocks readable and text-only. -/
theorem merge_tail_clean_good {stX : EState} {st' : EState}
    {prevP curP : SPath} {prevNode curNode : SNode}
    (hg : goodDoc stX.doc = true)
    (hp : nodeAt stX.doc prevP = some prevNode)
    (hc : nodeAt stX.doc curP = some curNode)
    (hpt : prevNode.childrenOf.all SNode.isText = true)
    (hct : curNode.childrenOf.all SNode.isText = true)
    (h : (if isEmptyBlock prevNode then stRemoveNodeAtPath stX prevP
          else stMergeBlocks stX prevP curP) = some st') :
    goodDoc st'.doc = true := by
  split at h
  · exact stRemoveNodeAtPath_good h hg
  · refine stMergeBlocks_good h hg ?_ ?_
    · intro pn hpn
      rw [hp] at hpn
      injection hpn with hpn
      subst hpn
      exact hpt
    · intro cn hcn
      rw [hc] at hcn
      injection hcn with hcn
      subst hcn
      exact hct

theorem pathShiftIns_concat_lt {pref : SPath} {i j cnt : Nat} (h : i < j) :
    pathShiftIns (pref ++ [j]) cnt (pref ++ [i]) = pref ++ [i] := by
  rw [pathShiftIns, splitLastP_concat]
  dsimp only
  rw [if_neg]
  rintro ⟨h1, h2, h3⟩
  rw [List.getD_eq_getElem?_getD, getElem?_append_cons] at h3
  have : j ≤ i := h3
  omega

theorem isPrefixOfP_concat_parent (pref : SPath) (j : Nat) :
    isPrefixOfP (pref ++ [j]) pref = false := by
  rw [Bool.eq_false_iff]
  intro hc
  have := isPrefixOfP_length hc
  rw [List.length_append, List.length_singleton] at this
  omega

/-- The final stage of a cross-parent merge when the previous block is
the sole child of its parent: the insertion of the moved block and the
merge (or removal) compose into a single child-list edit that restores
well-formedness even though the intermediate list may violate it. -/
theorem merge_tail_stamped_good {E : List SNode} {stX : EState} {st' : EState}
    {pref : SPath} {prevNode : SNode}
    {bty : String} {blb : Option String} {bv : Option Int} {bcs : List SNode}
    (hgE : goodDoc E = true) (hpref : pref ≠ [])
    (hclE : childListAt E pref = some [prevNode])
    (hptext : prevNode.childrenOf.all SNode.isText = true)
    (hbtext : bcs.all SNode.isText = true)
    (hins : insertAtPathD E (pref ++ [1]) [SNode.elem bty blb bv bcs] = some stX.doc)
    (h : (if isEmptyBlock prevNode then stRemoveNodeAtPath stX (pref ++ [0])
          else stMergeBlocks stX (pref ++ [0]) (pref ++ [1])) = some st') :
    goodDoc st'.doc = true := by
  obtain ⟨h2E, h34E, hflE, hnlE⟩ := goodDoc_iff.1 hgE
  split at h
  · rename_i hemp
    cases prevNode with
    | text s0 m0 => simp [isEmptyBlock] at hemp
    | elem pty plb pv pcs =>
      rw [stRemoveNodeAtPath] at h
      simp only [Option.bind_eq_bind, Option.bind_eq_some, Option.pure_def,
        Option.some.injEq] at h
      obtain ⟨docF, hrm, hst'⟩ := h
      have hinsM := hins
      rw [insertAtPathD_as_modify] at hinsM
      rw [removeAtPathD_as_modify_concat] at hrm
      have hcomp := modifyChildrenO_comp hinsM hrm
      have hwf := modify_wf hcomp h34E hflE ?_
      · obtain ⟨h34', hfl', _, _, _, hne⟩ := hwf
        obtain ⟨hi2, hinl⟩ := hne hpref
        have hgf : goodDoc docF = true :=
          goodDoc_iff.2 ⟨hi2 h2E, h34', hfl', hinl hnlE⟩
        rw [← hst']
        exact hgf
      · intro cs cs' hcl hcs34 hcsfl hF
        rw [hclE] at hcl
        injection hcl with hcl
        subst hcl
        have hFv : some [SNode.elem bty blb bv bcs] = some cs' := by
          rw [← hF]
          rfl
        injection hFv with hFv
        subst hFv
        refine ⟨inv34List_singleton (inv34Node_elem_iff.2 ⟨fun _ => hbtext,
            soleOk_of_stampfree (alltext_stampfree hbtext),
            alltext_inv34List hbtext⟩),
          flatList_singleton (flatNode_elem_iff.2 ⟨homog_of_alltext hbtext,
            alltext_flatList hbtext⟩),
          fun _ => soleOk_singleton _, fun _ => homog_singleton _, ?_⟩
        intro b hb hbs
        exfalso
        have hct := stamped_target_text hb hclE hbs h34E
        have := List.all_eq_true.1 hct _ (List.mem_singleton.2 rfl)
        simp [SNode.isText] at this
  · have hprevE : nodeAt E (pref ++ [0]) = some prevNode := by
      rw [nodeAt_append_child hclE 0]
      rfl
    have hshift : pathShiftIns (pref ++ [1]) 1 (pref ++ [0]) = pref ++ [0] :=
      pathShiftIns_concat_lt (by omega)
    have hanc0 : isPrefixOfP (pref ++ [0]) (pref ++ [1]).dropLast = false := by
      rw [List.dropLast_concat]
      exact isPrefixOfP_concat_parent pref 0
    have hprevX : nodeAt stX.doc (pref ++ [0]) = some prevNode := by
      have hh := insertAtPathD_nodeAt hins hanc0
      rw [List.length_singleton, hshift] at hh
      rw [hh]
      exact hprevE
    have hcurX : nodeAt stX.doc (pref ++ [1]) = some (.elem bty blb bv bcs) := by
      have hk : ([SNode.elem bty blb bv bcs] : List SNode)[0]? =
          some (.elem bty blb bv bcs) := rfl
      have hh := insertAtPathD_readback hins hclE (by simp) hk
      rw [show (1 : Nat) + 0 = 1 from rfl] at hh
      exact hh
    rw [stMergeBlocks] at h
    simp only [Option.bind_eq_bind, Option.bind_eq_some] at h
    obtain ⟨cur, hcur, prev, hprev, h⟩ := h
    rw [hprevX] at hprev
    injection hprev with hprev
    subst hprev
    rw [hcurX] at hcur
    injection hcur with hcur
    subst hcur
    cases prevNode with
    | text s0 m0 => cases h
    | elem pty plb pv pcs =>
      dsimp only at h
      simp only [Option.bind_eq_bind, Option.bind_eq_some, Option.pure_def,
        Option.some.injEq] at h
      obtain ⟨docA, hrep, docF, hrm, hst'⟩ := h
      have hinsM := hins
      rw [insertAtPathD_as_modify] at hinsM
      rw [replaceAtPathD_as_modify] at hrep
      rw [removeAtPathD_as_modify_concat] at hrm
      have hcomp1 := modifyChildrenO_comp hinsM hrep
      have hcomp := modifyChildrenO_comp hcomp1 hrm
      have hwf := modify_wf hcomp h34E hflE ?_
      · obtain ⟨h34', hfl', _, _, _, hne⟩ := hwf
        obtain ⟨hi2, hinl⟩ := hne hpref
        have hgf : goodDoc docF = true :=
          goodDoc_iff.2 ⟨hi2 h2E, h34', hfl', hinl hnlE⟩
        rw [← hst']
        exact hgf
      · intro cs cs' hcl hcs34 hcsfl hF
        rw [hclE] at hcl
        injection hcl with hcl
        subst hcl
        have hFv : some [SNode.elem pty plb pv (pcs ++ bcs)] = some cs' := by
          rw [← hF]
          rfl
        injection hFv with hFv
        subst hFv
        have hpcst : pcs.all SNode.isText = true := by simpa using hptext
        have hmt := alltext_append hpcst hbtext
        refine ⟨inv34List_singleton (inv34Node_elem_iff.2 ⟨fun _ => hmt,
            soleOk_of_stampfree (alltext_stampfree hmt), alltext_inv34List hmt⟩),
          flatList_singleton (flatNode_elem_iff.2 ⟨homog_of_alltext hmt,
            alltext_flatList hmt⟩),
          fun _ => soleOk_singleton _, fun _ => homog_singleton _, ?_⟩
        intro b hb hbs
        exfalso
        have hct := stamped_target_text hb hclE hbs h34E
        have := List.all_eq_true.1 hct _ (List.mem_singleton.2 rfl)
        simp [SNode.isText] at this

/-- The parent child-list of any addressed node, with its `soleOk`
obligation (at the root, stampfreeness comes from invariant 2). -/
theorem prev_parent_digest {doc : List SNode} {prevPath : SPath}
    {prevNode : SNode} (h2 : inv2 doc = true) (hg34 : inv34List doc = true)
    (hpnd : nodeAt doc prevPath = some prevNode) (hpne : prevPath ≠ []) :
    ∃ cs, childListAt doc prevPath.dropLast = some cs ∧
      cs[prevPath.getLastD 0]? = some prevNode ∧ soleOk cs = true := by
  have hdec := dropLast_concat_getLastD hpne
  rw [← hdec] at hpnd
  obtain ⟨cs, hcl, hmem⟩ := nodeAt_parent_full hpnd
  refine ⟨cs, hcl, hmem, ?_⟩
  by_cases hpe : prevPath.dropLast = []
  · rw [hpe] at hcl
    injection hcl with hcl
    subst hcl
    refine soleOk_of_stampfree ?_
    rw [inv2] at h2
    exact allunst_stampfree h2
  · rw [childListAt_ne_nil _ hpe] at hcl
    rcases hpar : nodeAt doc prevPath.dropLast with _ | par
    · rw [hpar] at hcl; cases hcl
    · rw [hpar] at hcl
      injection hcl with hcl
      cases par with
      | text s0 m0 =>
        exfalso
        rw [show SNode.childrenOf (.text s0 m0) = [] from rfl] at hcl
        rw [← hcl] at hmem
        rw [List.getElem?_nil] at hmem
        cases hmem
      | elem ty lb v ccs =>
        have h34p := inv34_nodeAt hpar hg34
        have hsole := (inv34Node_elem_iff.1 h34p).2.1
        rw [show SNode.childrenOf (.elem ty lb v ccs) = ccs from rfl] at hcl
        rw [← hcl]
        exact hsole

/-- A stamped node is the sole child of a non-root parent. -/
theorem stamped_prev_digest {doc : List SNode} {prevPath : SPath}
    {prevNode : SNode} (hg : goodDoc doc = true)
    (hpnd : nodeAt doc prevPath = some prevNode) (hpne : prevPath ≠ [])
    (hpst : prevNode.isStamped = true) :
    childListAt doc prevPath.dropLast = some [prevNode] ∧
      prevPath.getLastD 0 = 0 ∧ prevPath.dropLast ≠ [] := by
  obtain ⟨h2, h34, _, _⟩ := goodDoc_iff.1 hg
  obtain ⟨cs, hcl, hmem, hsole⟩ := prev_parent_digest h2 h34 hpnd hpne
  have hcsv : cs = [prevNode] :=
    sole_stamped_mem hsole (List.getElem?_mem hmem) hpst
  subst hcsv
  have hpl0 : prevPath.getLastD 0 = 0 := by
    by_contra hne
    rw [List.getElem?_eq_some_iff] at hmem
    obtain ⟨hlt, _⟩ := hmem
    rw [List.length_singleton] at hlt
    omega
  refine ⟨hcl, hpl0, ?_⟩
  intro hpe
  rw [hpe] at hcl
  injection hcl with hcl
  have hpm : prevNode ∈ doc := by
    rw [hcl]
    exact List.mem_singleton.2 rfl
  have := inv2_mem.1 h2 prevNode hpm
  rw [hpst] at this
  cases this

theorem getLastD_append_cons {P : SPath} {y : Nat} {ys : SPath}
    (h : ys ≠ []) : (P ++ y :: ys).getLastD 0 = ys.getLastD 0 := by
  rw [show P ++ y :: ys = (P ++ [y]) ++ ys from by simp]
  rw [List.getLastD_eq_getLast?, List.getLast?_append_of_ne_nil _ h,
    ← List.getLastD_eq_getLast?]

/-- After moving the block next to an unstamped previous block, the
document is well-formed again and both blocks read back. -/
theorem cross_insert_digest {doc : List SNode} {doc1 : List SNode} {st1 : EState}
    {path prevPath : SPath} {prevNode : SNode}
    {bty : String} {blb : Option String} {bv : Option Int} {bcs : List SNode}
    (h34d : inv34List doc = true) (hfld : flatList doc = true)
    (hblk : nodeAt doc path = some (.elem bty blb bv bcs))
    (hbunst : SNode.isStamped (.elem bty blb bv bcs) = false)
    (hpel : prevNode.isElem = true)
    (hpst : prevNode.isStamped = false)
    (hgood1 : goodDoc doc1 = true)
    (hprev1 : nodeAt doc1 prevPath = some prevNode)
    (hprevne : prevPath ≠ [])
    (hins0 : insertAtPathD doc1 (pathNext prevPath) [.elem bty blb bv bcs] =
      some st1.doc) :
    goodDoc st1.doc = true ∧ nodeAt st1.doc prevPath = some prevNode ∧
      nodeAt st1.doc (pathNext prevPath) = some (.elem bty blb bv bcs) := by
  obtain ⟨h2d1, h34d1, hfld1, hnld1⟩ := goodDoc_iff.1 hgood1
  obtain ⟨cs1, hcl1, hcs1pl, hsole1⟩ := prev_parent_digest h2d1 h34d1 hprev1 hprevne
  have hmem1 : prevNode ∈ cs1 := List.getElem?_mem hcs1pl
  have hplv : prevPath.getLastD 0 < cs1.length := by
    rw [List.getElem?_eq_some_iff] at hcs1pl
    obtain ⟨hlt, _⟩ := hcs1pl
    exact hlt
  have hptf : prevNode.isText = false := elem_not_isText hpel
  have hnext1 : pathNext prevPath =
      prevPath.dropLast ++ [prevPath.getLastD 0 + 1] := rfl
  refine ⟨?_, ?_, ?_⟩
  · refine insertAtPathD_good hins0 hgood1
      (inv34List_singleton (inv34_nodeAt hblk h34d))
      (flatList_singleton (flat_nodeAt hblk hfld))
      (homog_singleton _) ?_ ?_ ?_ ?_
    · rw [List.all_cons, List.all_nil, hbunst]
      rfl
    · intro cs hcl
      rw [pathNext_dropLast] at hcl
      rw [hcl1] at hcl
      injection hcl with hcl
      subst hcl
      refine ⟨?_, ?_, ?_⟩
      · intro hat _
        exfalso
        have := List.all_eq_true.1 hat _ hmem1
        rw [hptf] at this
        cases this
      · intro _ _
        rfl
      · exact sole_mem_unstamped_stampfree hsole1 hmem1 hpst
    · intro b hb hbs
      exfalso
      rw [pathNext_dropLast] at hb
      have hct := stamped_target_text hb hcl1 hbs h34d1
      have := List.all_eq_true.1 hct _ hmem1
      rw [hptf] at this
      cases this
    · intro _
      rfl
  · have hanc : isPrefixOfP prevPath (pathNext prevPath).dropLast = false := by
      rw [pathNext_dropLast]
      exact isPrefixOfP_dropLast_self hprevne
    have hh := insertAtPathD_nodeAt hins0 hanc
    rw [List.length_singleton, pathShiftIns_next_self hprevne] at hh
    rw [hh]
    exact hprev1
  · have hins1 := hins0
    rw [hnext1] at hins1
    have hk0 : ([SNode.elem bty blb bv bcs] : List SNode)[0]? =
        some (.elem bty blb bv bcs) := rfl
    have hh := insertAtPathD_readback hins1 hcl1 (by omega) hk0
    rw [show prevPath.getLastD 0 + 1 + 0 = prevPath.getLastD 0 + 1 from rfl] at hh
    rw [hnext1]
    exact hh

/-- A stamped previous block in a cross-parent merge: its parent list
is the singleton, still readable after the current block's removal. -/
theorem cross_stamped_digest {doc doc1 : List SNode} {path prevPath : SPath}
    {prevNode : SNode} {P : SPath} {y x : Nat} {ys xs : SPath}
    {bty : String} {blb : Option String} {bv : Option Int} {bcs : List SNode}
    (hg : goodDoc doc = true)
    (hblk : nodeAt doc path = some (.elem bty blb bv bcs))
    (hpnd : nodeAt doc prevPath = some prevNode)
    (hprevne : prevPath ≠ []) (hpathne : path ≠ [])
    (hprevEq : prevPath = P ++ y :: ys) (hpathEq : path = P ++ x :: xs)
    (hyx : y < x)
    (hpst : prevNode.isStamped = true)
    (hrm : removeAtPathD doc path = some doc1) :
    ∃ pref, prevPath = pref ++ [0] ∧ pathNext prevPath = pref ++ [1] ∧
      pref ≠ [] ∧ pref = P ++ y :: ys.dropLast ∧ ys ≠ [] ∧
      childListAt doc1 pref = some [prevNode] := by
  obtain ⟨hclP0, hpl0, hprefne⟩ := stamped_prev_digest hg hpnd hprevne hpst
  have hysne : ys ≠ [] := by
    intro hz
    subst hz
    have hpd : prevPath.dropLast = P := by rw [hprevEq, List.dropLast_concat]
    have hy0 : y = 0 := by
      have hh := hpl0
      rw [hprevEq, getLastD_concat] at hh
      exact hh
    rw [hpd] at hclP0
    have hx1 : ([prevNode] : List SNode)[x]? = none := by
      rw [List.getElem?_eq_none]
      rw [List.length_singleton]
      omega
    rw [hpathEq, nodeAt_under hclP0 x xs, hx1] at hblk
    cases hblk
  have hprefd : prevPath.dropLast = P ++ y :: ys.dropLast := by
    rw [hprevEq]
    exact dropLast_append_cons_ne_nil hysne
  have hshpr : pathShiftRem path prevPath.dropLast = some prevPath.dropLast := by
    refine pathShiftRem_of_lt ?_ hpathne
    rw [hprefd, hpathEq]
    exact pathCmp_div_lt P _ xs hyx
  have hancpr : isPrefixOfP prevPath.dropLast path = false := by
    rw [hprefd, hpathEq]
    exact isPrefixOfP_div_false P _ xs (by omega)
  have hpar1 : nodeAt doc1 prevPath.dropLast = nodeAt doc prevPath.dropLast :=
    removeAtPathD_nodeAt hrm hshpr hancpr
  have hclP1 : childListAt doc1 prevPath.dropLast = some [prevNode] := by
    rw [childListAt_ne_nil _ hprefne, hpar1]
    rw [childListAt_ne_nil _ hprefne] at hclP0
    exact hclP0
  refine ⟨prevPath.dropLast, ?_, ?_, hprefne, hprefd, hysne, hclP1⟩
  · conv_lhs => rw [← dropLast_concat_getLastD hprevne]
    rw [hpl0]
  · rw [show pathNext prevPath =
      prevPath.dropLast ++ [prevPath.getLastD 0 + 1] from rfl, hpl0]

/-- Cross-parent merge with no empty-ancestor cleanup: the moved block
is inserted right after the previous block and merged into it (or the
empty previous block is removed). -/
theorem cross_end_none {st st1 st' : EState} {path prevPath : SPath}
    {prevNode : SNode} {bty : String} {blb : Option String} {bv : Option Int}
    {bcs : List SNode}
    (hg : goodDoc st.doc = true)
    (hblk : nodeAt st.doc path = some (.elem bty blb bv bcs))
    (hbcs : bcs.all SNode.isText = true)
    (hbunst : SNode.isStamped (.elem bty blb bv bcs) = false)
    (hpel : prevNode.isElem = true)
    (hpnd : nodeAt st.doc prevPath = some prevNode)
    (hptext : prevNode.childrenOf.all SNode.isText = true)
    (hplt : pathCmp prevPath path = .lt)
    (hsib : prevPath.dropLast ≠ path.dropLast)
    (hmv : stMoveNode st path (pathNext prevPath) = some st1)
    (h : (if isEmptyBlock prevNode then stRemoveNodeAtPath st1 prevPath
          else stMergeBlocks st1 prevPath (pathNext prevPath)) = some st') :
    goodDoc st'.doc = true := by
  obtain ⟨h2d, h34d, hfld, hnld⟩ := goodDoc_iff.1 hg
  obtain ⟨P, y, x, ys, xs, hprevEq, hpathEq, hyx⟩ := pathCmp_lt_exists hplt
  have hpathne : path ≠ [] := by rw [hpathEq]; simp
  have hprevne : prevPath ≠ [] := by rw [hprevEq]; simp
  obtain ⟨n0, doc1, t'0, hn0, hrm, hsh, hins0⟩ := stMoveNode_parts hmv
  rw [hblk] at hn0
  injection hn0 with hn0
  subst hn0
  have ht' : t'0 = pathNext prevPath := by
    rw [pathShiftRem_next_of_lt hplt hsib] at hsh
    injection hsh with hsh
    exact hsh.symm
  subst ht'
  have hgood1 : goodDoc doc1 = true := removeAtPathD_good hrm hg
  obtain ⟨h2d1, h34d1, hfld1, hnld1⟩ := goodDoc_iff.1 hgood1
  have hancp : isPrefixOfP prevPath path = false := by
    rw [hprevEq, hpathEq]
    exact isPrefixOfP_div_false P ys xs (by omega)
  have hshp : pathShiftRem path prevPath = some prevPath := by
    refine pathShiftRem_of_lt ?_ hpathne
    rw [hprevEq, hpathEq]
    exact pathCmp_div_lt P ys xs hyx
  have hprev1 : nodeAt doc1 prevPath = some prevNode := by
    rw [removeAtPathD_nodeAt hrm hshp hancp]
    exact hpnd
  have hnext1 : pathNext prevPath = prevPath.dropLast ++ [prevPath.getLastD 0 + 1] := rfl
  by_cases hpst : prevNode.isStamped = true
  · -- stamped previous block: compose the insertion with the merge
    obtain ⟨pref, hdec0, hnext0, hprefne, hprefd, hysne, hclP1⟩ :=
      cross_stamped_digest hg hblk hpnd hprevne hpathne hprevEq hpathEq hyx
        hpst hrm
    rw [hnext0] at hins0
    rw [hnext0, hdec0] at h
    exact merge_tail_stamped_good hgood1 hprefne hclP1 hptext hbcs hins0 h
  · -- unstamped previous block: every intermediate state is well-formed
    rw [Bool.not_eq_true] at hpst
    obtain ⟨hgood2, hprevX, hcurX⟩ := cross_insert_digest h34d hfld hblk hbunst
      hpel hpst hgood1 hprev1 hprevne hins0
    exact merge_tail_clean_good hgood2 hprevX hcurX hptext (by simpa using hbcs) h

theorem pathNext_concat (P : SPath) (y : Nat) :
    pathNext (P ++ [y]) = P ++ [y + 1] := by
  rw [pathNext, List.dropLast_concat, getLastD_concat]

theorem pathNext_deep {P : SPath} {y : Nat} {ys : SPath} (h : ys ≠ []) :
    pathNext (P ++ y :: ys) = P ++ y :: (ys.dropLast ++ [ys.getLastD 0 + 1]) := by
  rw [pathNext, dropLast_append_cons_ne_nil h, getLastD_append_cons h]
  simp

/-- Cross-parent merge with an empty-ancestor cleanup between the move
and the merge. -/
theorem cross_end_some {st st1 st2 st' : EState} {path prevPath ap : SPath}
    {cur2 prev2 : SPath} {prevNode : SNode}
    {bty : String} {blb : Option String} {bv : Option Int} {bcs : List SNode}
    (hg : goodDoc st.doc = true)
    (hblk : nodeAt st.doc path = some (.elem bty blb bv bcs))
    (hbcs : bcs.all SNode.isText = true)
    (hbunst : SNode.isStamped (.elem bty blb bv bcs) = false)
    (hpel : prevNode.isElem = true)
    (hpnd : nodeAt st.doc prevPath = some prevNode)
    (hptext : prevNode.childrenOf.all SNode.isText = true)
    (hplt : pathCmp prevPath path = .lt)
    (hsib : prevPath.dropLast ≠ path.dropLast)
    (hmv : stMoveNode st path (pathNext prevPath) = some st1)
    (hap : emptyAncestorPath st.doc path prevPath = some ap)
    (hrm2 : stRemoveNodeAtPath st1 (pathShiftIns (pathNext prevPath) 1 ap) =
      some st2)
    (hc2 : pathShiftRem (pathShiftIns (pathNext prevPath) 1 ap)
      (pathNext prevPath) = some cur2)
    (hp2 : pathShiftRem (pathShiftIns (pathNext prevPath) 1 ap) prevPath =
      some prev2)
    (h : (if isEmptyBlock prevNode then stRemoveNodeAtPath st2 prev2
          else stMergeBlocks st2 prev2 cur2) = some st') :
    goodDoc st'.doc = true := by
  obtain ⟨h2d, h34d, hfld, hnld⟩ := goodDoc_iff.1 hg
  obtain ⟨P, y, x, ys, xs, hprevEq, hpathEq, hyx⟩ := pathCmp_lt_exists hplt
  have hpathne : path ≠ [] := by rw [hpathEq]; simp
  have hprevne : prevPath ≠ [] := by rw [hprevEq]; simp
  obtain ⟨n0, doc1, t'0, hn0, hrm, hsh, hins0⟩ := stMoveNode_parts hmv
  rw [hblk] at hn0
  injection hn0 with hn0
  subst hn0
  have ht' : t'0 = pathNext prevPath := by
    rw [pathShiftRem_next_of_lt hplt hsib] at hsh
    injection hsh with hsh
    exact hsh.symm
  subst ht'
  have hgood1 : goodDoc doc1 = true := removeAtPathD_good hrm hg
  have hancp : isPrefixOfP prevPath path = false := by
    rw [hprevEq, hpathEq]
    exact isPrefixOfP_div_false P ys xs (by omega)
  have hshp : pathShiftRem path prevPath = some prevPath := by
    refine pathShiftRem_of_lt ?_ hpathne
    rw [hprevEq, hpathEq]
    exact pathCmp_div_lt P ys xs hyx
  have hprev1 : nodeAt doc1 prevPath = some prevNode := by
    rw [removeAtPathD_nodeAt hrm hshp hancp]
    exact hpnd
  -- shape of the removed empty ancestor
  obtain ⟨k, hc0k, hkl, hapv, ty0, lb0, v0, n1, hapn⟩ := emptyAncestorPath_shape hap
  have hc0 : (commonPath path prevPath).length = P.length := by
    rw [hpathEq, hprevEq, commonPath_append_div P xs ys (by omega)]
  have hkP : P.length < k := by
    rw [hc0] at hc0k
    exact hc0k
  obtain ⟨m, hm⟩ : ∃ m, k - P.length = m + 1 := ⟨k - P.length - 1, by omega⟩
  have hapv2 : ap = P ++ x :: xs.take m := by
    rw [hapv, hpathEq]
    rw [show k = P.length + (k - P.length) from by omega, take_append_plus, hm]
    rw [List.take_succ_cons]
  obtain ⟨z, hxz, hzys, hap1v⟩ := pathShiftIns_div_ge (xs.take m) hprevEq hyx 1
  rw [← hapv2] at hap1v
  have hyz : y < z := by omega
  have hap1ne : (P ++ z :: xs.take m : SPath) ≠ [] := by simp
  have hprevlt : pathCmp prevPath (P ++ z :: xs.take m) = .lt := by
    rw [hprevEq]
    exact pathCmp_div_lt P ys _ hyz
  have hp2v : prev2 = prevPath := by
    rw [hap1v, pathShiftRem_of_lt hprevlt hap1ne] at hp2
    injection hp2 with hp2
    exact hp2.symm
  rw [hp2v] at h
  have hcurlt : pathCmp (pathNext prevPath) (P ++ z :: xs.take m) = .lt := by
    by_cases hys0 : ys = []
    · rw [hprevEq, hys0, pathNext_concat]
      refine pathCmp_div_lt P [] _ ?_
      have := hzys hys0
      omega
    · rw [hprevEq, pathNext_deep hys0]
      exact pathCmp_div_lt P _ _ hyz
  have hc2v : cur2 = pathNext prevPath := by
    rw [hap1v, pathShiftRem_of_lt hcurlt hap1ne] at hc2
    injection hc2 with hc2
    exact hc2.symm
  rw [hc2v] at h
  rw [stRemoveNodeAtPath] at hrm2
  simp only [Option.bind_eq_bind, Option.bind_eq_some, Option.pure_def,
    Option.some.injEq] at hrm2
  obtain ⟨doc2r, hrm2d, hst2⟩ := hrm2
  have hst2doc : st2.doc = doc2r := by rw [← hst2]
  rw [hap1v] at hrm2d
  by_cases hpst : prevNode.isStamped = true
  · -- stamped previous block: commute the cleanup removal, then compose
    obtain ⟨pref, hdec0, hnext0, hprefne2, hprefd, hysne, hclP1⟩ :=
      cross_stamped_digest hg hblk hpnd hprevne hpathne hprevEq hpathEq hyx
        hpst hrm
    rw [hnext0] at hins0
    have hinsM := hins0
    rw [insertAtPathD_as_modify] at hinsM
    rw [hprefd] at hinsM
    rcases htk : xs.take m with _ | ⟨t0, ts2⟩
    · rw [htk] at hrm2d
      rw [removeAtPathD_as_modify_concat] at hrm2d
      obtain ⟨e, herase, hins2⟩ := modifyChildrenO_erase_deep_comm hyz hinsM hrm2d
      have heR : removeAtPathD doc1 (P ++ [z]) = some e := by
        rw [removeAtPathD_as_modify_concat]
        exact herase
      have hgoodE : goodDoc e = true := removeAtPathD_good heR hgood1
      have hclE : childListAt e pref = some [prevNode] := by
        have hsh3 : pathShiftRem (P ++ [z]) pref = some pref := by
          refine pathShiftRem_of_lt ?_ (by simp)
          rw [hprefd]
          exact pathCmp_div_lt P _ [] hyz
        have hanc3 : isPrefixOfP pref (P ++ [z]) = false := by
          rw [hprefd]
          exact isPrefixOfP_div_false P _ [] (by omega)
        rw [childListAt_ne_nil _ hprefne2,
          removeAtPathD_nodeAt heR hsh3 hanc3,
          ← childListAt_ne_nil _ hprefne2]
        exact hclP1
      have hins2' : insertAtPathD e (pref ++ [1]) [SNode.elem bty blb bv bcs] =
          some st2.doc := by
        rw [insertAtPathD_as_modify, hst2doc]
        rw [← hprefd] at hins2
        exact hins2
      rw [hnext0, hdec0] at h
      exact merge_tail_stamped_good hgoodE hprefne2 hclE hptext hbcs hins2' h
    · obtain ⟨tf, tl, htl⟩ : ∃ tf tl, (t0 :: ts2 : SPath) = tf ++ [tl] :=
        ⟨(t0 :: ts2).dropLast, (t0 :: ts2).getLastD 0,
          (dropLast_concat_getLastD (by simp)).symm⟩
      rw [htk, htl] at hrm2d
      rw [show P ++ z :: (tf ++ [tl]) = (P ++ z :: tf) ++ [tl] from by simp]
        at hrm2d
      rw [removeAtPathD_as_modify_concat] at hrm2d
      obtain ⟨e, herase, hins2⟩ := modifyChildrenO_comm_div
        (isPrefixOfP_div_false P _ tf (by omega))
        (isPrefixOfP_div_false P tf _ (by omega)) hinsM hrm2d
      have heR : removeAtPathD doc1 ((P ++ z :: tf) ++ [tl]) = some e := by
        rw [removeAtPathD_as_modify_concat]
        exact herase
      have hgoodE : goodDoc e = true := removeAtPathD_good heR hgood1
      have hclE : childListAt e pref = some [prevNode] := by
        have hsh3 : pathShiftRem ((P ++ z :: tf) ++ [tl]) pref = some pref := by
          refine pathShiftRem_of_lt ?_ (by simp)
          rw [hprefd, show (P ++ z :: tf) ++ [tl] = P ++ z :: (tf ++ [tl]) from
            by simp]
          exact pathCmp_div_lt P _ _ hyz
        have hanc3 : isPrefixOfP pref ((P ++ z :: tf) ++ [tl]) = false := by
          rw [hprefd, show (P ++ z :: tf) ++ [tl] = P ++ z :: (tf ++ [tl]) from
            by simp]
          exact isPrefixOfP_div_false P _ _ (by omega)
        rw [childListAt_ne_nil _ hprefne2,
          removeAtPathD_nodeAt heR hsh3 hanc3,
          ← childListAt_ne_nil _ hprefne2]
        exact hclP1
      have hins2' : insertAtPathD e (pref ++ [1]) [SNode.elem bty blb bv bcs] =
          some st2.doc := by
        rw [insertAtPathD_as_modify, hst2doc]
        rw [← hprefd] at hins2
        exact hins2
      rw [hnext0, hdec0] at h
      exact merge_tail_stamped_good hgoodE hprefne2 hclE hptext hbcs hins2' h
  · -- unstamped previous block: all states stay well-formed
    rw [Bool.not_eq_true] at hpst
    obtain ⟨hgood2, hprevX, hcurX⟩ := cross_insert_digest h34d hfld hblk hbunst
      hpel hpst hgood1 hprev1 hprevne hins0
    have hgood3 : goodDoc st2.doc = true := by
      rw [hst2doc]
      exact removeAtPathD_good hrm2d hgood2
    have hshpr2 : pathShiftRem (P ++ z :: xs.take m) prevPath = some prevPath :=
      pathShiftRem_of_lt hprevlt hap1ne
    have hancpr2 : isPrefixOfP prevPath (P ++ z :: xs.take m) = false := by
      rw [hprevEq]
      exact isPrefixOfP_div_false P ys _ (by omega)
    have hprevY : nodeAt st2.doc prevPath = some prevNode := by
      rw [hst2doc, removeAtPathD_nodeAt hrm2d hshpr2 hancpr2]
      exact hprevX
    have hshc2 : pathShiftRem (P ++ z :: xs.take m) (pathNext prevPath) =
        some (pathNext prevPath) :=
      pathShiftRem_of_lt hcurlt hap1ne
    have hancc2 : isPrefixOfP (pathNext prevPath) (P ++ z :: xs.take m) =
        false := by
      by_cases hys0 : ys = []
      · rw [hprevEq, hys0, pathNext_concat]
        refine isPrefixOfP_div_false P [] _ ?_
        have := hzys hys0
        omega
      · rw [hprevEq, pathNext_deep hys0]
        exact isPrefixOfP_div_false P _ _ (by omega)
    have hcurY : nodeAt st2.doc (pathNext prevPath) =
        some (.elem bty blb bv bcs) := by
      rw [hst2doc, removeAtPathD_nodeAt hrm2d hshc2 hancc2]
      exact hcurX
    exact merge_tail_clean_good hgood3 hprevY hcurY hptext (by simpa using hbcs) h


/-! ## Span-of-a-leaf traversal facts (shared by C8 and C9) -/

/-- The reversed companion of `prefix_pathCmp_eq`: a path compares
equal to any of its prefixes. -/
theorem prefix_pathCmp_eq_rev : ∀ (a b : SPath), isPrefixOfP a b = true →
    pathCmp b a = .eq := by
  intro a
  induction a with
  | nil =>
    intro b _
    cases b with
    | nil => rfl
    | cons y ys => rfl
  | cons x xs ih =>
    intro b h
    cases b with
    | nil => cases h
    | cons y ys =>
      rw [isPrefixOfP, Bool.and_eq_true, beq_iff_eq] at h
      obtain ⟨rfl, h2⟩ := h
      rw [pathCmp]
      simp only [Nat.lt_irrefl, if_false]
      exact ih ys h2

theorem take_isPrefixOfP (l : SPath) (k : Nat) :
    isPrefixOfP (l.take k) l = true := by
  rw [isPrefixOfP_iff]
  exact ⟨l.drop k, (List.take_append_drop k l).symm⟩

/-- Two prefixes of the same path are prefix-related. -/
theorem prefix_total {a b p : SPath} (ha : isPrefixOfP a p = true)
    (hb : isPrefixOfP b p = true) :
    isPrefixOfP a b = true ∨ isPrefixOfP b a = true := by
  obtain ⟨ta, hta⟩ := (isPrefixOfP_iff _ _).1 ha
  obtain ⟨tb, htb⟩ := (isPrefixOfP_iff _ _).1 hb
  have hav : p.take a.length = a := by
    rw [hta, take_append_exact]
  have hbv : p.take b.length = b := by
    rw [htb, take_append_exact]
  rcases Nat.le_total a.length b.length with hle | hle
  · left
    have : b.take a.length = a := by
      rw [← hbv, List.take_take, Nat.min_eq_left hle, hav]
    rw [← this]
    exact take_isPrefixOfP b a.length
  · right
    have : a.take b.length = b := by
      rw [← hav, List.take_take, Nat.min_eq_left hle, hbv]
    rw [← this]
    exact take_isPrefixOfP a b.length

theorem pathCmp_div_gt : ∀ (P : SPath) {x y : Nat} (xs ys : SPath),
    x < y → pathCmp (P ++ y :: ys) (P ++ x :: xs) = .gt := by
  intro P
  induction P with
  | nil =>
    intro x y xs ys h
    rw [List.nil_append, List.nil_append, pathCmp]
    rw [if_neg (by omega), if_pos h]
  | cons a P' ih =>
    intro x y xs ys h
    rw [List.cons_append, List.cons_append, pathCmp]
    simp only [Nat.lt_irrefl, if_false]
    exact ih xs ys h

/-- Nothing lies strictly below a text leaf. -/
theorem nodeAt_text_ext_none : ∀ {p : SPath} {doc : List SNode} {s : Str}
    {mk : Marks}, nodeAt doc p = some (.text s mk) →
    ∀ c rest, nodeAt doc (p ++ c :: rest) = none := by
  intro p
  induction p with
  | nil =>
    intro doc s mk h
    rw [nodeAt_nil] at h
    cases h
  | cons i p' ih =>
    intro doc s mk h c rest
    rw [nodeAt] at h
    rw [List.cons_append, nodeAt]
    rcases hi : doc[i]? with _ | n
    · rfl
    · rw [hi] at h
      rcases p' with _ | ⟨q1, q2⟩
      · dsimp only at h
        injection h with h
        subst h
        rfl
      · dsimp only at h ⊢
        exact ih h c rest

/-- A prefix of `q ++ [j]` is a prefix of `q` or the whole path. -/
theorem prefix_concat_cases {e q : SPath} {j : Nat}
    (h : isPrefixOfP e (q ++ [j]) = true) :
    isPrefixOfP e q = true ∨ e = q ++ [j] := by
  obtain ⟨t, ht⟩ := (isPrefixOfP_iff _ _).1 h
  rcases t with _ | ⟨c, t'⟩
  · right
    rw [ht, List.append_nil]
  · left
    have hlen : e.length ≤ q.length := by
      have := congrArg List.length ht
      simp only [List.length_append, List.length_cons,
        List.length_nil] at this
      omega
    have h1 : (q ++ [j]).take e.length = e := by
      rw [ht, take_append_exact]
    rw [List.take_append_of_le_length hlen] at h1
    rw [isPrefixOfP_iff]
    have h2 := (List.take_append_drop e.length q).symm
    rw [h1] at h2
    exact ⟨q.drop e.length, h2⟩

/-- `pathCmp p R = .lt` rules `R` out as a prefix of `p`. -/
theorem pathCmp_lt_not_prefix {p R : SPath} (h : pathCmp p R = .lt) :
    isPrefixOfP R p = false := by
  rw [Bool.eq_false_iff]
  intro hc
  rw [prefix_pathCmp_eq_rev R p hc] at h
  cases h

/-- On a chain of pairwise-equal paths `Editor.nodes`' lowest mode
keeps only the deepest match: the running hit is overwritten without
ever being emitted. -/
theorem lowestHits_alleq : ∀ (L : List (SPath × SNode)) (pred : SNode → Bool)
    (h0 : Option SPath),
    (∀ e1 ∈ L, ∀ e2 ∈ L, pathCmp e1.1 e2.1 = .eq) →
    (∀ e ∈ L, ∀ hh, h0 = some hh → pathCmp e.1 hh = .eq) →
    lowestHits pred L h0 =
      match (L.filter fun e => pred e.2).getLast? with
      | some e => [e.1]
      | none => h0.toList := by
  intro L
  induction L with
  | nil =>
    intro pred h0 _ _
    rw [List.filter_nil]
    rfl
  | cons pn rest ih =>
    intro pred h0 hall hhit
    obtain ⟨p, n⟩ := pn
    rw [lowestHits.eq_def]
    dsimp only
    by_cases hp : pred n = true
    · rw [if_pos hp]
      have hrec := ih pred (some p)
        (fun e1 he1 e2 he2 =>
          hall e1 (List.mem_cons_of_mem _ he1) e2 (List.mem_cons_of_mem _ he2))
        (fun e he hh hhh => by
          injection hhh with hhh
          subst hhh
          exact hall e (List.mem_cons_of_mem _ he) (p, n)
            (List.mem_cons_self _ _))
      have hfil : (((p, n) :: rest).filter fun e => pred e.2) =
          (p, n) :: (rest.filter fun e => pred e.2) := by
        rw [List.filter_cons, if_pos hp]
      rcases h0 with _ | hh
      · dsimp only
        rw [hrec, hfil]
        rcases hrf : rest.filter (fun e => pred e.2) with _ | ⟨f1, frest⟩
        · rw [hrf]
          rfl
        · rw [hrf, List.getLast?_cons_cons]
          rcases hgl : (f1 :: frest).getLast? with _ | e
          · rw [List.getLast?_eq_none_iff] at hgl
            cases hgl
          · rfl
      · dsimp only
        rw [if_pos (hhit (p, n) (List.mem_cons_self _ _) hh rfl)]
        rw [hrec, hfil]
        rcases hrf : rest.filter (fun e => pred e.2) with _ | ⟨f1, frest⟩
        · rw [hrf]
          rfl
        · rw [hrf, List.getLast?_cons_cons]
          rcases hgl : (f1 :: frest).getLast? with _ | e
          · rw [List.getLast?_eq_none_iff] at hgl
            cases hgl
          · rfl
    · rw [if_neg hp]
      have hrec := ih pred h0
        (fun e1 he1 e2 he2 =>
          hall e1 (List.mem_cons_of_mem _ he1) e2 (List.mem_cons_of_mem _ he2))
        (fun e he hh hhh =>
          hhit e (List.mem_cons_of_mem _ he) hh hhh)
      rw [hrec]
      rw [List.filter_cons, if_neg hp]

/-- `nodeEntries_decomp` with the stronger tail condition: every entry
after the subtree's block compares strictly greater (pre-order). -/
theorem nodeEntries_decomp_lt : ∀ (rel : SPath) (n m : SNode) (pre : SPath),
    relAt n rel = some m →
    ∃ A B, nodeEntries pre n = A ++ nodeEntries (pre ++ rel) m ++ B ∧
      (∀ e ∈ B, pathCmp (pre ++ rel) e.1 = .lt) := by
  intro rel
  induction rel with
  | nil =>
    intro n m pre h
    rw [relAt_nil] at h
    injection h with h
    subst h
    refine ⟨[], [], ?_, ?_⟩
    · simp
    · intro e he; cases he
  | cons j rest ih =>
    intro n m pre h
    cases n with
    | text s mk => rw [relAt_text_cons] at h; cases h
    | elem ty lb v cs =>
      rw [relAt_cons] at h
      rcases hj : cs[j]? with _ | c
      · rw [hj] at h; cases h
      · rw [hj] at h
        obtain ⟨A2, B2, heq2, hB2⟩ := ih c m (pre ++ [j]) h
        obtain ⟨L1, L2, heq1, hL1, hL2⟩ := listEntries_split cs j c pre 0 hj
        rw [Nat.zero_add] at heq1
        have htgt : (pre ++ [j]) ++ rest = pre ++ j :: rest := by
          rw [List.append_assoc]
          rfl
        refine ⟨(pre, .elem ty lb v cs) :: (L1 ++ A2), B2 ++ L2, ?_, ?_⟩
        · rw [nodeEntries, heq1, heq2, htgt]
          simp only [List.cons_append, List.append_assoc]
        · intro e he
          rcases List.mem_append.1 he with h2 | h2
          · have := hB2 e h2
            rw [htgt] at this
            exact this
          · obtain ⟨k, r2, hk, he2⟩ := hL2 e h2
            rw [he2]
            exact pathCmp_div_lt pre rest r2 (by omega)

/-- Document-level version of `nodeEntries_decomp_lt`. -/
theorem docEntries_decomp_lt {doc : List SNode} {q : SPath} {m : SNode}
    (h : nodeAt doc q = some m) :
    ∃ A B, docEntries doc = A ++ nodeEntries q m ++ B ∧
      (∀ e ∈ B, pathCmp q e.1 = .lt) := by
  rcases q with _ | ⟨j, rest⟩
  · rw [nodeAt_nil] at h; cases h
  · rw [nodeAt] at h
    rcases hj : doc[j]? with _ | c
    · rw [hj] at h; cases h
    · rw [hj] at h
      have hrel : relAt c rest = some m := by
        rcases rest with _ | ⟨r1, r2⟩
        · dsimp only at h
          injection h with h
          rw [h, relAt_nil]
        · dsimp only at h
          rw [← nodeAt_childrenOf_relAt (r1 :: r2) c (by simp)]
          exact h
      obtain ⟨A2, B2, heq2, hB2⟩ := nodeEntries_decomp_lt rest c m [j] hrel
      obtain ⟨L1, L2, heq1, hL1, hL2⟩ := listEntries_split doc j c [] 0 hj
      rw [Nat.zero_add, List.nil_append] at heq1
      have htgt : ([j] : SPath) ++ rest = j :: rest := rfl
      rw [htgt] at heq2 hB2
      refine ⟨L1 ++ A2, B2 ++ L2, ?_, ?_⟩
      · rw [docEntries, heq1, heq2]
        simp only [List.nil_append, List.append_assoc]
      · intro e he
        rcases List.mem_append.1 he with h2 | h2
        · exact hB2 e h2
        · obtain ⟨k, r2, hk, he2⟩ := hL2 e h2
          rw [he2, List.nil_append]
          exact pathCmp_div_lt [] rest r2 (by omega)


/-- For a collapsed caret on a text leaf below the root level, the
lowest element hit of `Editor.nodes` over the collapsed span is
exactly the leaf's parent. -/
theorem lowestHits_span_leaf {doc : List SNode} {p : SPath} {s : Str}
    {mk : Marks} {ty : String} {lb : Option String} {v : Option Int}
    {pcs : List SNode}
    (hleaf : nodeAt doc p = some (.text s mk))
    (hpar : nodeAt doc p.dropLast = some (.elem ty lb v pcs)) :
    lowestHits SNode.isElem (entriesInSpan doc p p) none = [p.dropLast] := by
  have hpne : p ≠ [] := by
    intro hz
    rw [hz, nodeAt_nil] at hleaf
    cases hleaf
  obtain ⟨q, hq⟩ : ∃ q, p.dropLast = q := ⟨_, rfl⟩
  obtain ⟨g, hg⟩ : ∃ g, p.getLastD 0 = g := ⟨_, rfl⟩
  rw [hq] at hpar ⊢
  have hqne : q ≠ [] := by
    intro hz
    rw [hz, nodeAt_nil] at hpar
    cases hpar
  have hsplit : q ++ [g] = p := by
    rw [← hq, ← hg]
    exact dropLast_concat_getLastD hpne
  have hqpref : isPrefixOfP q p = true :=
    (isPrefixOfP_iff _ _).2 ⟨[g], hsplit.symm⟩
  have hleaf' : nodeAt doc (q ++ [g]) = some (.text s mk) := by
    rw [hsplit]
    exact hleaf
  obtain ⟨cs0, hcl0, hjl0⟩ := nodeAt_parent_full hleaf'
  have hcsv : cs0 = pcs := by
    rw [childListAt_ne_nil _ hqne, hpar] at hcl0
    injection hcl0 with h
    exact h.symm
  have hjl : pcs[g]? = some (SNode.text s mk) := by
    rw [← hcsv]
    exact hjl0
  have hpref2 : ∀ e : SPath × SNode, e ∈ entriesInSpan doc p p →
      isPrefixOfP e.1 p = true := by
    intro e he
    rw [entriesInSpan, List.mem_filter] at he
    obtain ⟨hmem, hcnd⟩ := he
    simp only [decide_eq_true_eq, ne_eq] at hcnd
    have heq : pathCmp e.1 p = .eq := ord_ne_ne_eq hcnd.1 hcnd.2
    rcases pathCmp_eq_prefix _ _ heq with hp1 | hp1
    · exact hp1
    · obtain ⟨t, ht⟩ := (isPrefixOfP_iff _ _).1 hp1
      rcases t with _ | ⟨c, t'⟩
      · rw [ht, List.append_nil]
        exact isPrefixOfP_refl p
      · exfalso
        obtain ⟨q0, m0⟩ := e
        have hsome : nodeAt doc q0 = some m0 := docEntries_nodeAt hmem
        dsimp only at ht
        rw [ht, nodeAt_text_ext_none hleaf c t'] at hsome
        cases hsome
  have hpw : ∀ e1 ∈ entriesInSpan doc p p, ∀ e2 ∈ entriesInSpan doc p p,
      pathCmp e1.1 e2.1 = .eq := by
    intro e1 h1 e2 h2
    rcases prefix_total (hpref2 e1 h1) (hpref2 e2 h2) with hp | hp
    · exact prefix_pathCmp_eq _ _ hp
    · exact prefix_pathCmp_eq_rev _ _ hp
  rw [lowestHits_alleq _ _ _ hpw (fun e _ hh hcon => by cases hcon)]
  obtain ⟨A, B, hAB, hB⟩ := docEntries_decomp_lt hpar
  obtain ⟨L1, L2, hsp, hL1, hL2⟩ := listEntries_split pcs g
    (.text s mk) q 0 hjl
  rw [Nat.zero_add] at hsp
  have hS : entriesInSpan doc p p =
      (A.filter fun e => pathCmp e.1 p ≠ .lt ∧ pathCmp e.1 p ≠ .gt) ++
      ((q, SNode.elem ty lb v pcs) :: (p, SNode.text s mk) :: []) := by
    rw [entriesInSpan, hAB, List.filter_append, List.filter_append]
    have hBnil : B.filter
        (fun e => pathCmp e.1 p ≠ .lt ∧ pathCmp e.1 p ≠ .gt) = [] := by
      rw [List.filter_eq_nil]
      intro e heB
      have hlt := hB e heB
      simp only [decide_eq_true_eq, ne_eq, not_and, not_not]
      intro hnlt
      by_contra hngt
      have heq : pathCmp e.1 p = .eq := ord_ne_ne_eq hnlt hngt
      rcases pathCmp_eq_prefix _ _ heq with hp1 | hp1
      · rw [← hsplit] at hp1
        rcases prefix_concat_cases hp1 with hp2 | hp2
        · rw [prefix_pathCmp_eq_rev _ _ hp2] at hlt
          cases hlt
        · rw [hp2, prefix_pathCmp_eq _ _ ((isPrefixOfP_iff _ _).2
            ⟨[g], rfl⟩)] at hlt
          cases hlt
      · rw [prefix_pathCmp_eq _ _ (isPrefixOfP_trans hqpref hp1)] at hlt
        cases hlt
    have hMid : (nodeEntries q (SNode.elem ty lb v pcs)).filter
        (fun e => pathCmp e.1 p ≠ .lt ∧ pathCmp e.1 p ≠ .gt) =
        (q, SNode.elem ty lb v pcs) :: (p, SNode.text s mk) :: [] := by
      rw [nodeEntries, List.filter_cons]
      have hcq : pathCmp q p = .eq := prefix_pathCmp_eq _ _ hqpref
      rw [if_pos (by simp [hcq])]
      rw [hsp, List.filter_append, List.filter_append]
      have hL1nil : L1.filter
          (fun e => pathCmp e.1 p ≠ .lt ∧ pathCmp e.1 p ≠ .gt) = [] := by
        rw [List.filter_eq_nil]
        intro e heL
        obtain ⟨k, r2, hk, he2⟩ := hL1 e heL
        simp only [decide_eq_true_eq, ne_eq, not_and, not_not]
        intro hnlt
        exfalso
        rw [he2, ← hsplit] at hnlt
        exact hnlt (pathCmp_div_lt q r2 [] (by omega))
      have hL2nil : L2.filter
          (fun e => pathCmp e.1 p ≠ .lt ∧ pathCmp e.1 p ≠ .gt) = [] := by
        rw [List.filter_eq_nil]
        intro e heL
        obtain ⟨k, r2, hk, he2⟩ := hL2 e heL
        simp only [decide_eq_true_eq, ne_eq, not_and, not_not]
        intro hnlt
        rw [he2, ← hsplit]
        exact pathCmp_div_gt q [] r2 (by omega)
      rw [hL1nil, hL2nil, hsplit, nodeEntries, List.filter_cons]
      rw [if_pos (by simp [pathCmp_self])]
      rw [List.filter_nil, List.nil_append, List.append_nil]
    rw [hBnil, hMid, List.append_nil]
  rw [hS, List.filter_append, List.filter_cons, List.filter_cons,
    List.filter_nil]
  rw [if_pos (show SNode.isElem (SNode.elem ty lb v pcs) = true from rfl)]
  rw [if_neg (show ¬SNode.isElem (SNode.text s mk) = true by
    intro hc
    cases hc)]
  rw [List.getLast?_concat]

/-- `modifyChildrenO` succeeds whenever the path leads to a real child
slot and the edit succeeds on any list holding that child at that
slot. -/
theorem modifyChildrenO_total : ∀ {pref : SPath} {j : Nat} {doc : List SNode}
    {n : SNode} {f : List SNode → Option (List SNode)},
    nodeAt doc (pref ++ [j]) = some n →
    (∀ cs, cs[j]? = some n → (f cs).isSome = true) →
    (modifyChildrenO doc pref f).isSome = true := by
  intro pref
  induction pref with
  | nil =>
    intro j doc n f h hf
    rw [List.nil_append, nodeAt_singleton_root] at h
    rw [modifyChildrenO]
    exact hf doc h
  | cons i rest ih =>
    intro j doc n f h hf
    have hcc : ∃ c cr, rest ++ [j] = c :: cr := by
      rcases rest with _ | ⟨a, b⟩
      · exact ⟨j, [], rfl⟩
      · exact ⟨a, b ++ [j], rfl⟩
    obtain ⟨c, cr, hcc⟩ := hcc
    rw [List.cons_append, nodeAt] at h
    rcases hi : doc[i]? with _ | nn
    · rw [hi] at h
      cases h
    · rw [hi] at h
      dsimp only at h
      rw [hcc] at h
      dsimp only at h
      rw [← hcc] at h
      rw [modifyChildrenO, hi]
      cases nn with
      | text s0 m0 =>
        exfalso
        rw [show (SNode.text s0 m0).childrenOf = [] from rfl, hcc] at h
        rw [show nodeAt ([] : List SNode) (c :: cr) = none from rfl] at h
        cases h
      | elem ty0 lb0 v0 cs0 =>
        rw [show (SNode.elem ty0 lb0 v0 cs0).childrenOf = cs0 from rfl] at h
        dsimp only
        have hrec := ih h hf
        rcases hrecv : modifyChildrenO cs0 rest f with _ | inner
        · rw [hrecv] at hrec
          cases hrec
        · rfl

theorem listTexts_append : ∀ (l1 l2 : List SNode),
    listTexts (l1 ++ l2) = listTexts l1 ++ listTexts l2 := by
  intro l1 l2
  induction l1 with
  | nil => rw [List.nil_append, listTexts, List.nil_append]
  | cons n ns ih =>
    rw [List.cons_append, listTexts, listTexts, ih, List.append_assoc]

theorem listTexts_set : ∀ {l : List SNode} {i : Nat} {a b : SNode},
    l[i]? = some a → nodeTexts b = nodeTexts a →
    listTexts (l.set i b) = listTexts l := by
  intro l
  induction l with
  | nil =>
    intro i a b h _
    rw [List.getElem?_nil] at h
    cases h
  | cons x xs ih =>
    intro i a b h hn
    rcases i with _ | i'
    · rw [List.getElem?_cons_zero] at h
      injection h with h
      subst h
      rw [List.set_cons_zero, listTexts, listTexts, hn]
    · rw [List.getElem?_cons_succ] at h
      rw [List.set_cons_succ, listTexts, listTexts, ih h hn]

/-- A child-list edit that keeps the list's texts keeps the document's
texts. -/
theorem modify_texts : ∀ {pref : SPath} {doc : List SNode}
    {f : List SNode → Option (List SNode)} {doc' : List SNode},
    modifyChildrenO doc pref f = some doc' →
    (∀ cs cs', childListAt doc pref = some cs → f cs = some cs' →
      listTexts cs' = listTexts cs) →
    docTexts doc' = docTexts doc := by
  intro pref
  induction pref with
  | nil =>
    intro doc f doc' h hf
    rw [modifyChildrenO] at h
    exact hf doc doc' rfl h
  | cons i rest ih =>
    intro doc f doc' h hf
    rw [modifyChildrenO] at h
    rcases hi : doc[i]? with _ | n
    · rw [hi] at h
      cases h
    · rw [hi] at h
      cases n with
      | text s0 m0 => cases h
      | elem ty0 lb0 v0 cs0 =>
        dsimp only at h
        rcases hrec : modifyChildrenO cs0 rest f with _ | inner
        · rw [hrec] at h
          cases h
        · rw [hrec] at h
          simp only [Option.map_some'] at h
          cases h
          have hf' : ∀ cs cs', childListAt cs0 rest = some cs → f cs = some cs' →
              listTexts cs' = listTexts cs := by
            intro cs cs' hcl hfc
            refine hf cs cs' ?_ hfc
            rw [childListAt_cons, hi, Option.some_bind]
            exact hcl
          have hinner : docTexts inner = docTexts cs0 := ih hrec hf'
          rw [docTexts, docTexts]
          refine listTexts_set hi ?_
          rw [nodeTexts, nodeTexts]
          exact hinner

/-- Splicing an element's children into its place keeps the texts. -/
theorem listTexts_splice : ∀ {cs : List SNode} {j : Nat} {ty : String}
    {lb : Option String} {v : Option Int} {pcs : List SNode},
    cs[j]? = some (.elem ty lb v pcs) →
    listTexts (cs.take j ++ pcs ++ cs.drop (j + 1)) = listTexts cs := by
  intro cs
  induction cs with
  | nil =>
    intro j ty lb v pcs h
    rw [List.getElem?_nil] at h
    cases h
  | cons x xs ih =>
    intro j ty lb v pcs h
    rcases j with _ | j'
    · rw [List.getElem?_cons_zero] at h
      injection h with h
      subst h
      rw [List.take_zero, List.drop_succ_cons, List.drop_zero,
        List.nil_append, listTexts_append, listTexts]
      rw [show nodeTexts (SNode.elem ty lb v pcs) = listTexts pcs from rfl]
    · rw [List.getElem?_cons_succ] at h
      rw [List.take_succ_cons, List.drop_succ_cons]
      rw [List.cons_append, List.cons_append, listTexts, listTexts,
        ih h]

theorem commonPath_self : ∀ p : SPath, commonPath p p = p := by
  intro p
  induction p with
  | nil => rfl
  | cons a rest ih => rw [commonPath, if_pos rfl, ih]

theorem edges_self (pt : SPoint) : SRange.edges ⟨pt, pt⟩ = (pt, pt) := by
  rw [SRange.edges]
  split <;> rfl

theorem startPt_self (pt : SPoint) : SRange.startPt ⟨pt, pt⟩ = pt := by
  rw [SRange.startPt, edges_self]

theorem endPt_self (pt : SPoint) : SRange.endPt ⟨pt, pt⟩ = pt := by
  rw [SRange.endPt, edges_self]

/-- `unhangRange` leaves a collapsed range alone (the `start = end`
early exit). -/
theorem unhangRange_self (doc : List SNode) (pt : SPoint) :
    unhangRange doc ⟨pt, pt⟩ = ⟨pt, pt⟩ := by
  rw [unhangRange, startPt_self, endPt_self]
  dsimp only
  rw [if_pos (Or.inr (Or.inr (Or.inl rfl)))]

/-- `Editor.above` only answers for paths at depth two or more. -/
theorem aboveAt_some_len {doc : List SNode} {p : SPath} {pred : SNode → Bool}
    {n : SNode} {q : SPath} (h : aboveAt doc p pred = some (n, q)) :
    2 ≤ p.length := by
  obtain ⟨k, hk1, hk2, _⟩ := aboveAt_mem h
  omega

/-- Unwrapping an element splices its children into the parent list in
its place and keeps every text of the document. -/
theorem stUnwrapAt_spec {st : EState} {bp : SPath} {ty : String}
    {lb : Option String} {v : Option Int} {cs : List SNode}
    (hn : nodeAt st.doc bp = some (.elem ty lb v cs)) :
    ∃ st' csPar,
      stUnwrapAt st bp = some st' ∧
      childListAt st.doc bp.dropLast = some csPar ∧
      csPar[bp.getLastD 0]? = some (.elem ty lb v cs) ∧
      childListAt st'.doc bp.dropLast =
        some (csPar.take (bp.getLastD 0) ++ cs ++
          csPar.drop (bp.getLastD 0 + 1)) ∧
      docTexts st'.doc = docTexts st.doc := by
  have hbne : bp ≠ [] := by
    intro hz
    rw [hz, nodeAt_nil] at hn
    cases hn
  obtain ⟨q, hq⟩ : ∃ q, bp.dropLast = q := ⟨_, rfl⟩
  obtain ⟨g, hg⟩ : ∃ g, bp.getLastD 0 = g := ⟨_, rfl⟩
  have hsplit : q ++ [g] = bp := by
    rw [← hq, ← hg]
    exact dropLast_concat_getLastD hbne
  rw [hq, hg]
  have hsp : splitLastP bp = some (q, g) := by
    rw [splitLastP_ne_nil hbne, hq, hg]
  have hn' : nodeAt st.doc (q ++ [g]) = some (.elem ty lb v cs) := by
    rw [hsplit]
    exact hn
  obtain ⟨csPar, hcl, hjg⟩ := nodeAt_parent_full hn'
  have hclq : childListAt st.doc q = some csPar := hcl
  have hglt : g < csPar.length := by
    by_contra hge
    rw [List.getElem?_eq_none (by omega)] at hjg
    cases hjg
  have htot : (modifyChildrenO st.doc q
      (fun l => if g < l.length then some (l.take g ++ cs ++ l.drop (g + 1))
        else none)).isSome = true := by
    refine modifyChildrenO_total hn' ?_
    intro cs2 hcs2
    have hlt : g < cs2.length := by
      by_contra hge
      rw [List.getElem?_eq_none (by omega)] at hcs2
      cases hcs2
    show (if g < cs2.length then some (cs2.take g ++ cs ++ cs2.drop (g + 1))
      else none).isSome = true
    rw [if_pos hlt]
    rfl
  rcases hmod : modifyChildrenO st.doc q
      (fun l => if g < l.length then some (l.take g ++ cs ++ l.drop (g + 1))
        else none) with _ | doc2
  · rw [hmod] at htot
    cases htot
  · obtain ⟨cs1, cs1', hcl1, hf1, hcl1'⟩ := modifyChildrenO_spec hmod
    rw [hclq] at hcl1
    injection hcl1 with hcl1
    subst hcl1
    rw [if_pos hglt] at hf1
    injection hf1 with hf1
    subst hf1
    have htexts : docTexts doc2 = docTexts st.doc := by
      refine modify_texts hmod ?_
      intro cs2 cs2' hcl2 hf2
      rw [hclq] at hcl2
      injection hcl2 with hcl2
      subst hcl2
      rw [if_pos hglt] at hf2
      injection hf2 with hf2
      subst hf2
      exact listTexts_splice hjg
    have hrun : ∃ st', stUnwrapAt st bp = some st' ∧ st'.doc = doc2 := by
      rw [stUnwrapAt, hn]
      simp only [Option.bind_eq_bind, Option.some_bind]
      rw [hsp]
      simp only [Option.some_bind]
      rw [hmod]
      simp only [Option.some_bind, Option.pure_def]
      exact ⟨_, rfl, rfl⟩
    obtain ⟨st', hst', hst'doc⟩ := hrun
    refine ⟨st', csPar, hst', hclq, hjg, ?_, ?_⟩
    · rw [hst'doc]
      exact hcl1'
    · rw [hst'doc]
      exact htexts

/-- C8 (general): whenever `deleteBackward` fires with the caret
exactly at the start of its wrapping block and that block is a
StampedElement — over every document and every caret in that position
— the stamp is dissolved in place: the operation succeeds, the
StampedElement (the caret leaf's parent) is replaced by its children,
spliced into its own parent's child list exactly where it stood, and
no character of text is deleted (the document's leaf texts are
unchanged, in order). -/
theorem c8_general {st : EState} {bs : SPoint}
    {block : SNode} {blockPath : SPath}
    (hsel : st.sel = some ⟨bs, bs⟩)
    (hwb : getWrappingBlockAt st.doc bs.path = some (block, blockPath))
    (hstart : startOf st.doc blockPath = some bs)
    (hst : block.isStamped = true) :
    ∃ st' csPar,
      engineDeleteBackward st = .ok st' ∧
      blockPath = bs.path.dropLast ∧
      childListAt st.doc blockPath.dropLast = some csPar ∧
      csPar[blockPath.getLastD 0]? = some block ∧
      childListAt st'.doc blockPath.dropLast =
        some (csPar.take (blockPath.getLastD 0) ++ block.childrenOf ++
          csPar.drop (blockPath.getLastD 0 + 1)) ∧
      docTexts st'.doc = docTexts st.doc := by
  have hlen2 : 2 ≤ bs.path.length :=
    aboveAt_some_len
      (show aboveAt st.doc bs.path SNode.isElem = some (block, blockPath)
        from hwb)
  obtain ⟨lq, hhead, hbsv⟩ : ∃ lq, (subLeaves st.doc blockPath).head? = some lq ∧
      bs = ⟨lq.1, 0⟩ := by
    rw [startOf] at hstart
    rcases hh : (subLeaves st.doc blockPath).head? with _ | lq
    · rw [hh] at hstart
      cases hstart
    · rw [hh] at hstart
      simp only [Option.map_some'] at hstart
      injection hstart with hstart
      exact ⟨lq, rfl, hstart.symm⟩
  obtain ⟨mk0, hleaf0⟩ := subLeaves_head_nodeAt hhead
  have hbspath : bs.path = lq.1 := by rw [hbsv]
  have hleaf : nodeAt st.doc bs.path = some (.text lq.2 mk0) := by
    rw [hbspath]
    exact hleaf0
  obtain ⟨ty, lb, v, cs, j, hsplitP, hparent, hcj, hwb2⟩ :=
    wrappingBlock_parent hleaf hlen2
  rw [hwb] at hwb2
  injection hwb2 with hwb2
  injection hwb2 with hblockv hbpv
  subst hblockv
  subst hbpv
  obtain ⟨stU, csPar, hUw, hclP, hjP, hclP', htexts⟩ := stUnwrapAt_spec hparent
  have htargets := lowestHits_span_leaf hleaf hparent
  have hselw : stUnwrapAtSelection st = some stU := by
    rw [stUnwrapAtSelection, hsel]
    dsimp only
    rw [unhangRange_self, startPt_self, endPt_self, htargets]
    rw [stUnwrapPathsAux]
    dsimp only [id]
    rw [hUw]
    rfl
  have heng : engineDeleteBackward st = liftO st (stUnwrapAtSelection st) := by
    rw [engineDeleteBackward, hsel]
    dsimp only
    rw [show SRange.basePath ⟨bs, bs⟩ = bs.path from commonPath_self bs.path]
    rw [hwb]
    dsimp only
    rw [hstart]
    dsimp only
    rw [if_pos (show bs = bs from rfl), if_pos hst]
  refine ⟨stU, csPar, ?_, rfl, hclP, hjP, ?_, htexts⟩
  · rw [heng, hselw]
    rfl
  · exact hclP'

/-- The concrete start state witnessing `c8_general`: a two-line
document whose first line wraps a two-text StampedElement, caret at
its start. -/
def c8wStart : EState :=
  { doc := [.elem "paragraph" none none
      [.elem stampedBlockType (some "s") (some 5)
        [.text ['a'] [], .text ['b'] []]],
      .elem "paragraph" none none [.text ['u'] []]],
    sel := some ⟨⟨[0, 0, 0], 0⟩, ⟨[0, 0, 0], 0⟩⟩, emarks := none }

def c8wStamp : SNode :=
  .elem stampedBlockType (some "s") (some 5) [.text ['a'] [], .text ['b'] []]

/-- Closed witness for `c8_general` on `c8wStart`. -/
theorem c8_general_witness :
    ∃ st' csPar,
      engineDeleteBackward c8wStart = .ok st' ∧
      ([0, 0] : SPath) = (⟨[0, 0, 0], 0⟩ : SPoint).path.dropLast ∧
      childListAt c8wStart.doc ([0, 0] : SPath).dropLast = some csPar ∧
      csPar[([0, 0] : SPath).getLastD 0]? = some c8wStamp ∧
      childListAt st'.doc ([0, 0] : SPath).dropLast =
        some (csPar.take (([0, 0] : SPath).getLastD 0) ++ c8wStamp.childrenOf ++
          csPar.drop (([0, 0] : SPath).getLastD 0 + 1)) ∧
      docTexts st'.doc = docTexts c8wStart.doc :=
  @c8_general c8wStart ⟨[0, 0, 0], 0⟩ c8wStamp [0, 0] rfl rfl rfl rfl

theorem pathCmp_append_same : ∀ (P a b : SPath),
    pathCmp (P ++ a) (P ++ b) = pathCmp a b := by
  intro P
  induction P with
  | nil => intro a b; rfl
  | cons x xs ih =>
    intro a b
    rw [List.cons_append, List.cons_append, pathCmp]
    simp only [Nat.lt_irrefl, if_false]
    exact ih a b

/-- A path strictly before `B ++ [g]` that does not start with `B` is
strictly before `B` as well. -/
theorem pathCmp_lt_concat_drop {p B : SPath} {g : Nat}
    (h : pathCmp p (B ++ [g]) = .lt) (hnp : isPrefixOfP B p = false) :
    pathCmp p B = .lt := by
  obtain ⟨P, x, y, xs, ys, hp, hb, hxy⟩ := pathCmp_lt_exists h
  rcases hys : ys.reverse with _ | ⟨yl, yf⟩
  · have hys0 : ys = [] := by simpa using congrArg List.reverse hys
    subst hys0
    have hlen : B.length = P.length := by
      have := congrArg List.length hb
      simp only [List.length_append, List.length_cons, List.length_nil] at this
      omega
    obtain ⟨hBP, _⟩ := List.append_inj hb hlen
    rw [hp, hBP, (isPrefixOfP_iff P (P ++ x :: xs)).2 ⟨x :: xs, rfl⟩] at hnp
    cases hnp
  · have hys1 : ys = yf.reverse ++ [yl] := by
      simpa using congrArg List.reverse hys
    subst hys1
    have hb' : B ++ [g] = (P ++ y :: yf.reverse) ++ [yl] := by
      rw [hb]
      simp
    have hlen : B.length = (P ++ y :: yf.reverse).length := by
      have := congrArg List.length hb'
      simp only [List.length_append, List.length_cons, List.length_nil]
        at this ⊢
      omega
    obtain ⟨hBv, _⟩ := List.append_inj hb' hlen
    rw [hp, hBv]
    exact pathCmp_div_lt P xs yf.reverse hxy

/-- A text-leaf path is never a prefix of the path of a non-text
node. -/
theorem text_not_prefix_of_valid {doc : List SNode} {a b : SPath}
    {s : Str} {mk : Marks} {n : SNode}
    (ha : nodeAt doc a = some (.text s mk)) (hb : nodeAt doc b = some n)
    (hnt : n.isText = false) : isPrefixOfP a b = false := by
  rw [Bool.eq_false_iff]
  intro hc
  obtain ⟨t, rfl⟩ := (isPrefixOfP_iff _ _).1 hc
  rcases t with _ | ⟨c, t'⟩
  · rw [List.append_nil, ha] at hb
    injection hb with hb
    rw [← hb] at hnt
    cases hnt
  · rw [nodeAt_text_ext_none ha c t'] at hb
    cases hb

/-- What `Editor.before` returns at an offset-0 point: the end of the
last text leaf strictly before it in document order. -/
theorem beforePt_zero_facts {doc : List SNode} {pt pb : SPoint}
    (hoff : pt.offset = 0) (h : beforePt doc pt = some pb) :
    ∃ s mk, nodeAt doc pb.path = some (.text s mk) ∧ pb.offset = s.length ∧
      pathCmp pb.path pt.path = .lt := by
  rw [beforePt, hoff] at h
  rw [if_neg (by omega)] at h
  rcases hgl : ((docLeaves doc).filter fun q => pathCmp q.1 pt.path = .lt).getLast?
    with _ | q
  · rw [hgl] at h
    cases h
  · rw [hgl] at h
    simp only [Option.map_some'] at h
    injection h with h
    subst h
    have hmem := List.mem_of_mem_getLast? hgl
    rw [List.mem_filter] at hmem
    obtain ⟨hent, hcond⟩ := hmem
    obtain ⟨q1, q2⟩ := q
    obtain ⟨mk, hnq⟩ := docLeaves_nodeAt hent
    exact ⟨q2, mk, hnq, rfl, of_decide_eq_true hcond⟩

/-- Removing an addressed node erases exactly its slot in the parent
list. -/
theorem removeAtPathD_spec {doc : List SNode} {bp : SPath} {n : SNode}
    (hn : nodeAt doc bp = some n) :
    ∃ doc' csPar, removeAtPathD doc bp = some doc' ∧
      childListAt doc bp.dropLast = some csPar ∧
      csPar[bp.getLastD 0]? = some n ∧
      childListAt doc' bp.dropLast = some (csPar.eraseIdx (bp.getLastD 0)) := by
  have hbne : bp ≠ [] := by
    intro hz
    rw [hz, nodeAt_nil] at hn
    cases hn
  obtain ⟨q, hq⟩ : ∃ q, bp.dropLast = q := ⟨_, rfl⟩
  obtain ⟨g, hg⟩ : ∃ g, bp.getLastD 0 = g := ⟨_, rfl⟩
  have hsplit : q ++ [g] = bp := by
    rw [← hq, ← hg]
    exact dropLast_concat_getLastD hbne
  rw [hq, hg]
  have hsp : splitLastP bp = some (q, g) := by
    rw [splitLastP_ne_nil hbne, hq, hg]
  have hn' : nodeAt doc (q ++ [g]) = some n := by
    rw [hsplit]
    exact hn
  obtain ⟨csPar, hclq, hjg⟩ := nodeAt_parent_full hn'
  have hglt : g < csPar.length := by
    by_contra hge
    rw [List.getElem?_eq_none (by omega)] at hjg
    cases hjg
  have htot : (modifyChildrenO doc q
      (fun cs => if g < cs.length then some (cs.eraseIdx g)
        else none)).isSome = true := by
    refine modifyChildrenO_total hn' ?_
    intro cs2 hcs2
    have hlt : g < cs2.length := by
      by_contra hge
      rw [List.getElem?_eq_none (by omega)] at hcs2
      cases hcs2
    show (if g < cs2.length then some (cs2.eraseIdx g) else none).isSome = true
    rw [if_pos hlt]
    rfl
  rcases hmod : modifyChildrenO doc q
      (fun cs => if g < cs.length then some (cs.eraseIdx g) else none)
    with _ | doc2
  · rw [hmod] at htot
    cases htot
  · obtain ⟨cs1, cs1', hcl1, hf1, hcl1'⟩ := modifyChildrenO_spec hmod
    rw [hclq] at hcl1
    injection hcl1 with hcl1
    subst hcl1
    rw [if_pos hglt] at hf1
    injection hf1 with hf1
    subst hf1
    refine ⟨doc2, csPar, ?_, hclq, hjg, hcl1'⟩
    rw [removeAtPathD, hsp]
    simp only [Option.bind_eq_bind, Option.some_bind]
    exact hmod

/-- The first leaf of an all-text child list is the first child. -/
theorem listLeaves_head_alltext {cs : List SNode} {pre : SPath}
    (hat : cs.all SNode.isText = true) (hne : cs ≠ []) :
    ∃ s0, (listLeaves pre 0 cs).head? = some (pre ++ [0], s0) := by
  rcases cs with _ | ⟨c0, cs'⟩
  · exact absurd rfl hne
  · rw [List.all_cons, Bool.and_eq_true] at hat
    cases c0 with
    | text s0 m0 =>
      refine ⟨s0, ?_⟩
      rw [listLeaves, nodeLeaves, List.cons_append]
      rfl
    | elem ty0 lb0 v0 cs0 => cases hat.1

/-- `subLeaves` at a nonempty path reads the node there. -/
theorem subLeaves_ne_nil (doc : List SNode) {p : SPath} (h : p ≠ []) :
    subLeaves doc p =
      match nodeAt doc p with
      | some n => nodeLeaves p n
      | none => [] := by
  rcases p with _ | ⟨i, r⟩
  · exact absurd rfl h
  · rfl

/-- C9 (amended, general): over every well-formed state in which
`deleteBackward` fires with the caret at the start of a non-stamped
wrapping block and the point immediately before the caret lies inside
a preceding StampedElement, the engine removes the CURRENT block (the
preceding stamped block and its texts stay), moves the selection to
that preceding point — the former end of the preceding content, not
the stamped block's start — and, unless the current block's content
is merely one empty Text leaf, splices that content in right after
the preceding point's leaf, inside the preceding stamped ancestor's
subtree. -/
theorem c9_remove_current_and_splice {st : EState} {bs pb : SPoint}
    {block stampNode : SNode} {blockPath stampPath : SPath}
    (hg : goodDoc st.doc = true)
    (hsel : st.sel = some ⟨bs, bs⟩)
    (hwb : getWrappingBlockAt st.doc bs.path = some (block, blockPath))
    (hstart : startOf st.doc blockPath = some bs)
    (hnst : block.isStamped = false)
    (hbef : beforePt st.doc bs = some pb)
    (hstamp : aboveAt st.doc pb.path
      (fun n => n.isElem && n.isStamped) = some (stampNode, stampPath)) :
    ∃ st1 csPar s2 mk2,
      stRemoveBlocksAtSelection st = some st1 ∧
      blockPath = bs.path.dropLast ∧
      childListAt st.doc blockPath.dropLast = some csPar ∧
      csPar[blockPath.getLastD 0]? = some block ∧
      childListAt st1.doc blockPath.dropLast =
        some (csPar.eraseIdx (blockPath.getLastD 0)) ∧
      nodeAt st.doc pb.path = some (.text s2 mk2) ∧
      pb.offset = s2.length ∧
      pathCmp pb.path bs.path = .lt ∧
      isPrefixOfP stampPath pb.path.dropLast = true ∧
      nodeAt st1.doc pb.path = some (.text s2 mk2) ∧
      (if isBlockEmpty block then
        engineDeleteBackward st = .ok (stSetSel st1 ⟨pb, pb⟩)
      else
        ∃ st' scs,
          engineDeleteBackward st = .ok st' ∧
          childListAt st1.doc pb.path.dropLast = some scs ∧
          scs[pb.path.getLastD 0]? = some (.text s2 mk2) ∧
          childListAt st'.doc pb.path.dropLast =
            some (scs.take (pb.path.getLastD 0 + 1) ++ block.childrenOf ++
              scs.drop (pb.path.getLastD 0 + 1)) ∧
          st'.sel = some ⟨pb, pb⟩) := by
  have hlen2 : 2 ≤ bs.path.length :=
    aboveAt_some_len
      (show aboveAt st.doc bs.path SNode.isElem = some (block, blockPath)
        from hwb)
  obtain ⟨lq, hhead, hbsv⟩ : ∃ lq, (subLeaves st.doc blockPath).head? = some lq ∧
      bs = ⟨lq.1, 0⟩ := by
    rw [startOf] at hstart
    rcases hh : (subLeaves st.doc blockPath).head? with _ | lq
    · rw [hh] at hstart
      cases hstart
    · rw [hh] at hstart
      simp only [Option.map_some'] at hstart
      injection hstart with hstart
      exact ⟨lq, rfl, hstart.symm⟩
  obtain ⟨mk0, hleaf0⟩ := subLeaves_head_nodeAt hhead
  have hbspath : bs.path = lq.1 := by rw [hbsv]
  have hbsoff : bs.offset = 0 := by rw [hbsv]
  have hleaf : nodeAt st.doc bs.path = some (.text lq.2 mk0) := by
    rw [hbspath]
    exact hleaf0
  obtain ⟨ty, lb, v, cs, j, hsplitP, hparent, hcj, hwb2⟩ :=
    wrappingBlock_parent hleaf hlen2
  rw [hwb] at hwb2
  injection hwb2 with hwb2
  injection hwb2 with hblockv hbpv
  subst hblockv
  subst hbpv
  obtain ⟨B, hB⟩ : ∃ B, bs.path.dropLast = B := ⟨_, rfl⟩
  rw [hB] at hparent hsplitP hstart hwb hhead ⊢
  have hBne : B ≠ [] := by
    intro hz
    rw [hz, nodeAt_nil] at hparent
    cases hparent
  obtain ⟨h2d, h34d, hfld, hnld⟩ := goodDoc_iff.1 hg
  have hflatb := flat_nodeAt hparent hfld
  have hhomog : homogOk cs = true := (flatNode_elem_iff.1 hflatb).1
  have hmemc : (SNode.text lq.2 mk0) ∈ cs := List.getElem?_mem hcj
  have hat : cs.all SNode.isText = true :=
    alltext_of_homog_mem_text hhomog hmemc rfl
  have hcne : cs ≠ [] := by
    intro hz
    rw [hz] at hmemc
    cases hmemc
  obtain ⟨s0, hhead0⟩ := listLeaves_head_alltext hat hcne
  have hsub : subLeaves st.doc B = listLeaves B 0 cs := by
    rw [subLeaves_ne_nil _ hBne, hparent]
    rfl
  rw [hsub, hhead0] at hhead
  injection hhead with hlqv
  have hj0 : j = 0 := by
    have h1 : B ++ [j] = B ++ [0] := by
      rw [← hsplitP, hbspath, ← hlqv]
    have h2 := List.append_cancel_left h1
    simpa using h2
  subst hj0
  obtain ⟨s2, mk2, hpbleaf, hpboff, hpblt⟩ := beforePt_zero_facts hbsoff hbef
  have hpblt2 : pathCmp pb.path (B ++ [0]) = .lt := by
    rw [← hsplitP]
    exact hpblt
  have hprefB : isPrefixOfP B pb.path = false := by
    rw [Bool.eq_false_iff]
    intro hc
    obtain ⟨t, ht⟩ := (isPrefixOfP_iff _ _).1 hc
    rcases t with _ | ⟨k, rest⟩
    · have hpbB : pb.path = B := by rw [ht, List.append_nil]
      rw [hpbB, hparent] at hpbleaf
      injection hpbleaf with hpbleaf
      cases hpbleaf
    · have hcopy := hpblt2
      rw [ht, pathCmp_append_same] at hcopy
      rw [pathCmp] at hcopy
      rw [if_neg (by omega)] at hcopy
      by_cases h0k : 0 < k
      · rw [if_pos h0k] at hcopy
        cases hcopy
      · rw [if_neg h0k] at hcopy
        have hrest : pathCmp rest [] = Ordering.eq := by
          rcases rest with _ | ⟨a, b⟩ <;> rfl
        rw [hrest] at hcopy
        cases hcopy
  have hcmpB : pathCmp pb.path B = .lt := pathCmp_lt_concat_drop hpblt2 hprefB
  have hshiftB : pathShiftRem B pb.path = some pb.path :=
    pathShiftRem_of_lt hcmpB hBne
  have hancB : isPrefixOfP pb.path B = false :=
    text_not_prefix_of_valid hpbleaf hparent rfl
  obtain ⟨doc1, csPar, hrm, hclB, hjB, hclB'⟩ := removeAtPathD_spec hparent
  obtain ⟨st1, hrn, hst1doc⟩ : ∃ st1, stRemoveNodeAtPath st B = some st1 ∧
      st1.doc = doc1 := by
    rw [stRemoveNodeAtPath, hrm]
    simp only [Option.bind_eq_bind, Option.some_bind, Option.pure_def]
    exact ⟨_, rfl, rfl⟩
  have hparent' : nodeAt st.doc bs.path.dropLast =
      some (.elem ty lb v cs) := by
    rw [hB]
    exact hparent
  have htargets : lowestHits SNode.isElem
      (entriesInSpan st.doc bs.path bs.path) none = [B] := by
    have h0 := lowestHits_span_leaf hleaf hparent'
    rw [hB] at h0
    exact h0
  have hremove : stRemoveBlocksAtSelection st = some st1 := by
    rw [stRemoveBlocksAtSelection, hsel]
    dsimp only
    rw [stRemoveMatchingInRange, unhangRange_self, startPt_self, endPt_self,
      htargets]
    rw [stRemovePathsAux]
    dsimp only
    rw [hrn]
    rfl
  have hpbleaf1 : nodeAt st1.doc pb.path = some (.text s2 mk2) := by
    rw [hst1doc, removeAtPathD_nodeAt hrm hshiftB hancB]
    exact hpbleaf
  have hstampPref : isPrefixOfP stampPath pb.path.dropLast = true := by
    obtain ⟨k, hk1, hk2, hkv⟩ := aboveAt_mem hstamp
    have hdl : pb.path.dropLast = pb.path.take (pb.path.length - 1) :=
      List.dropLast_eq_take _
    have htk : (pb.path.take (pb.path.length - 1)).take k = pb.path.take k := by
      rw [List.take_take, Nat.min_eq_left (by omega)]
    rw [hkv, hdl, ← htk]
    exact take_isPrefixOfP _ _
  have hclB1 : childListAt st1.doc B.dropLast =
      some (csPar.eraseIdx (B.getLastD 0)) := by
    rw [hst1doc]
    exact hclB'
  refine ⟨st1, csPar, s2, mk2, hremove, rfl, hclB, hjB, hclB1, hpbleaf,
    hpboff, hpblt, hstampPref, hpbleaf1, ?_⟩
  have heng0 : engineDeleteBackward st =
      (if !isBlockEmpty (SNode.elem ty lb v cs) then
        liftO (stSetSel st1 ⟨pb, pb⟩)
          (stInsertNodesAtPoint (stSetSel st1 ⟨pb, pb⟩) cs pb)
      else .ok (stSetSel st1 ⟨pb, pb⟩)) := by
    rw [engineDeleteBackward, hsel]
    try dsimp only
    rw [show SRange.basePath ⟨bs, bs⟩ = bs.path from commonPath_self bs.path]
    rw [hwb]
    try dsimp only
    rw [hstart]
    try dsimp only
    rw [if_pos (show bs = bs from rfl)]
    rw [if_neg (show ¬(SNode.elem ty lb v cs).isStamped = true from by
      rw [hnst]
      exact Bool.false_ne_true)]
    try dsimp only
    rw [hbef]
    simp only [Option.some_bind]
    rw [hstamp]
    simp only [Option.map_some']
    rw [hremove]
    dsimp only [SNode.childrenOf]
  by_cases hemp : isBlockEmpty (SNode.elem ty lb v cs) = true
  · rw [if_pos hemp]
    rw [heng0, if_neg (by rw [hemp]; exact Bool.false_ne_true)]
  · rw [if_neg hemp]
    have hempF : isBlockEmpty (SNode.elem ty lb v cs) = false :=
      Bool.eq_false_iff.2 hemp
    have hpbne : pb.path ≠ [] := by
      intro hz
      rw [hz, nodeAt_nil] at hpbleaf
      cases hpbleaf
    obtain ⟨sp, hsp2⟩ : ∃ sp, pb.path.dropLast = sp := ⟨_, rfl⟩
    obtain ⟨k2, hk2⟩ : ∃ k2, pb.path.getLastD 0 = k2 := ⟨_, rfl⟩
    have hpbsplit : sp ++ [k2] = pb.path := by
      rw [← hsp2, ← hk2]
      exact dropLast_concat_getLastD hpbne
    rw [hsp2, hk2]
    have hpbleaf1' : nodeAt st1.doc (sp ++ [k2]) = some (.text s2 mk2) := by
      rw [hpbsplit]
      exact hpbleaf1
    obtain ⟨scs, hclsp, hksp⟩ := nodeAt_parent_full hpbleaf1'
    have hk2lt : k2 < scs.length := by
      by_contra hge
      rw [List.getElem?_eq_none (by omega)] at hksp
      cases hksp
    have hcsE : cs.isEmpty = false := by
      rcases cs with _ | ⟨a, b⟩
      · exact absurd rfl hcne
      · rfl
    have htot2 : (modifyChildrenO st1.doc sp
        (fun l => if k2 + 1 ≤ l.length
          then some (l.take (k2 + 1) ++ cs ++ l.drop (k2 + 1))
          else none)).isSome = true := by
      refine modifyChildrenO_total hpbleaf1' ?_
      intro cs2 hcs2
      have hlt : k2 < cs2.length := by
        by_contra hge
        rw [List.getElem?_eq_none (by omega)] at hcs2
        cases hcs2
      show (if k2 + 1 ≤ cs2.length
        then some (cs2.take (k2 + 1) ++ cs ++ cs2.drop (k2 + 1))
        else none).isSome = true
      rw [if_pos (by omega)]
      rfl
    rcases hmod2 : modifyChildrenO st1.doc sp
        (fun l => if k2 + 1 ≤ l.length
          then some (l.take (k2 + 1) ++ cs ++ l.drop (k2 + 1))
          else none) with _ | doc2
    · rw [hmod2] at htot2
      cases htot2
    · obtain ⟨cs1, cs1', hcl1, hf1, hcl1'⟩ := modifyChildrenO_spec hmod2
      rw [hclsp] at hcl1
      injection hcl1 with hcl1
      subst hcl1
      rw [if_pos (by omega)] at hf1
      injection hf1 with hf1
      subst hf1
      have hnext : pathNext pb.path = sp ++ [k2 + 1] := by
        rw [pathNext, hsp2, hk2]
      have hselF : mapSelTotal (ptShiftIns (sp ++ [k2 + 1]) cs.length)
          (some ⟨pb, pb⟩) = some ⟨pb, pb⟩ := by
        rw [mapSelTotal]
        have hshift : ptShiftIns (sp ++ [k2 + 1]) cs.length pb = pb := by
          rw [ptShiftIns]
          have h1 : pathShiftIns (sp ++ [k2 + 1]) cs.length pb.path =
              pb.path := by
            rw [← hnext]
            exact pathShiftIns_next_self hpbne cs.length
          rw [h1]
        rw [hshift]
      have hend : pb = (⟨pb.path, s2.length⟩ : SPoint) := by
        rw [← hpboff]
      have hst2doc : (stSetSel st1 ⟨pb, pb⟩).doc = st1.doc := rfl
      have hst2sel : (stSetSel st1 ⟨pb, pb⟩).sel = some ⟨pb, pb⟩ := rfl
      have hsplit0 : stSplitTextOnly (stSetSel st1 ⟨pb, pb⟩)
          pb.path pb.offset = some (stSetSel st1 ⟨pb, pb⟩) := by
        rw [stSplitTextOnly, hst2doc]
        rw [show leafStr st1.doc pb.path = some s2 from by
          rw [leafStr, hpbleaf1]]
        simp only [Option.bind_eq_bind, Option.some_bind]
        rw [if_pos (Or.inr (by rw [hpboff]))]
      obtain ⟨stF, hins, hFdoc, hFsel⟩ :
          ∃ stF, stInsertNodesAtPoint (stSetSel st1 ⟨pb, pb⟩) cs pb =
            some stF ∧ stF.doc = doc2 ∧ stF.sel = some ⟨pb, pb⟩ := by
        rw [stInsertNodesAtPoint]
        rw [if_neg (show ¬cs.isEmpty = true from by
          rw [hcsE]
          exact Bool.false_ne_true)]
        rw [hst2doc]
        rw [show (subLeaves st1.doc pb.path).head? = some (pb.path, s2) from by
          rw [subLeaves_ne_nil _ hpbne, hpbleaf1]
          rfl]
        dsimp only
        rw [hsplit0]
        simp only [Option.bind_eq_bind, Option.some_bind]
        rw [if_pos (Or.inl hend)]
        rw [stInsertNodesAtPath.eq_def]
        rw [if_neg (show ¬cs.isEmpty = true from by
          rw [hcsE]
          exact Bool.false_ne_true)]
        rw [hst2doc, hnext, insertAtPathD_as_modify, hmod2]
        simp only [Option.bind_eq_bind, Option.some_bind, Option.pure_def]
        rw [hst2sel, hselF]
        exact ⟨_, rfl, rfl, rfl⟩
      refine ⟨stF, scs, ?_, ?_, hksp, ?_, hFsel⟩
      · rw [heng0, if_pos (show (!isBlockEmpty (SNode.elem ty lb v cs)) = true
          from by rw [hempF]; rfl)]
        rw [hins]
        rfl
      · exact hclsp
      · rw [hFdoc]
        exact hcl1'

/-- The concrete start state witnessing the amended C9 behaviour: a
stamped first line and a plain second line, caret at the second
line's start. -/
def c9wStart : EState :=
  { doc := [.elem "paragraph" none none
      [.elem stampedBlockType (some "s") (some 5) [.text ['s'] []]],
      .elem "paragraph" none none [.text ['x'] []]],
    sel := some ⟨⟨[1, 0], 0⟩, ⟨[1, 0], 0⟩⟩, emarks := none }

def c9wBlock : SNode := .elem "paragraph" none none [.text ['x'] []]

/-- Closed witness for `c9_remove_current_and_splice` on `c9wStart`. -/
theorem c9_remove_current_and_splice_witness :
    ∃ st1 csPar s2 mk2,
      stRemoveBlocksAtSelection c9wStart = some st1 ∧
      ([1] : SPath) = (⟨[1, 0], 0⟩ : SPoint).path.dropLast ∧
      childListAt c9wStart.doc ([1] : SPath).dropLast = some csPar ∧
      csPar[([1] : SPath).getLastD 0]? = some c9wBlock ∧
      childListAt st1.doc ([1] : SPath).dropLast =
        some (csPar.eraseIdx (([1] : SPath).getLastD 0)) ∧
      nodeAt c9wStart.doc (⟨[0, 0, 0], 1⟩ : SPoint).path =
        some (.text s2 mk2) ∧
      (⟨[0, 0, 0], 1⟩ : SPoint).offset = s2.length ∧
      pathCmp (⟨[0, 0, 0], 1⟩ : SPoint).path (⟨[1, 0], 0⟩ : SPoint).path =
        .lt ∧
      isPrefixOfP ([0, 0] : SPath)
        (⟨[0, 0, 0], 1⟩ : SPoint).path.dropLast = true ∧
      nodeAt st1.doc (⟨[0, 0, 0], 1⟩ : SPoint).path = some (.text s2 mk2) ∧
      (if isBlockEmpty c9wBlock then
        engineDeleteBackward c9wStart =
          .ok (stSetSel st1 ⟨⟨[0, 0, 0], 1⟩, ⟨[0, 0, 0], 1⟩⟩)
      else
        ∃ st' scs,
          engineDeleteBackward c9wStart = .ok st' ∧
          childListAt st1.doc (⟨[0, 0, 0], 1⟩ : SPoint).path.dropLast =
            some scs ∧
          scs[(⟨[0, 0, 0], 1⟩ : SPoint).path.getLastD 0]? =
            some (.text s2 mk2) ∧
          childListAt st'.doc (⟨[0, 0, 0], 1⟩ : SPoint).path.dropLast =
            some (scs.take ((⟨[0, 0, 0], 1⟩ : SPoint).path.getLastD 0 + 1) ++
              c9wBlock.childrenOf ++
              scs.drop ((⟨[0, 0, 0], 1⟩ : SPoint).path.getLastD 0 + 1)) ∧
          st'.sel = some ⟨⟨[0, 0, 0], 1⟩, ⟨[0, 0, 0], 1⟩⟩) :=
  @c9_remove_current_and_splice c9wStart ⟨[1, 0], 0⟩ ⟨[0, 0, 0], 1⟩
    c9wBlock (.elem stampedBlockType (some "s") (some 5) [.text ['s'] []])
    [1] [0, 0] rfl rfl rfl rfl rfl rfl rfl

/-! ## Stamp-signature containment: "no StampedElement is ever created"
over arbitrary starting trees.  A signature is the `type`/`label`/`value`
triple of a stamped element; a declined-hook run never produces a
stamped element whose signature was not already present. -/

abbrev StampSig := String × Option String × Option Int

mutual
/-- Signatures of the stamped elements of a subtree. -/
def stampSigsNode : SNode → List StampSig
  | .text _ _ => []
  | .elem ty lb v cs =>
    (if ty == stampedBlockType then [(ty, lb, v)] else []) ++ stampSigsList cs

def stampSigsList : List SNode → List StampSig
  | [] => []
  | n :: ns => stampSigsNode n ++ stampSigsList ns
end

mutual
/-- Every stamped element of the subtree carries a signature from `T`. -/
def sigsFromNode (T : List StampSig) : SNode → Bool
  | .text _ _ => true
  | .elem ty lb v cs =>
    (!(ty == stampedBlockType) || decide ((ty, lb, v) ∈ T)) && sigsFromList T cs

def sigsFromList (T : List StampSig) : List SNode → Bool
  | [] => true
  | n :: ns => sigsFromNode T n && sigsFromList T ns
end

theorem sigsFromList_mem {T : List StampSig} : ∀ {l : List SNode},
    sigsFromList T l = true ↔ ∀ n ∈ l, sigsFromNode T n = true := by
  intro l
  induction l with
  | nil => simp [sigsFromList]
  | cons n ns ih =>
    rw [sigsFromList, Bool.and_eq_true, ih]
    simp

theorem sigsFromList_sub {T : List StampSig} {l l' : List SNode}
    (hsub : l' ⊆ l) (h : sigsFromList T l = true) :
    sigsFromList T l' = true :=
  sigsFromList_mem.2 fun n hn => sigsFromList_mem.1 h n (hsub hn)

theorem sigsFromList_append {T : List StampSig} {l1 l2 : List SNode}
    (h1 : sigsFromList T l1 = true) (h2 : sigsFromList T l2 = true) :
    sigsFromList T (l1 ++ l2) = true := by
  refine sigsFromList_mem.2 fun n hn => ?_
  rcases List.mem_append.1 hn with h | h
  · exact sigsFromList_mem.1 h1 n h
  · exact sigsFromList_mem.1 h2 n h

theorem sigsFromList_cons {T : List StampSig} {n : SNode} {l : List SNode}
    (h1 : sigsFromNode T n = true) (h2 : sigsFromList T l = true) :
    sigsFromList T (n :: l) = true := by
  rw [sigsFromList, Bool.and_eq_true]
  exact ⟨h1, h2⟩

theorem sigsFromList_singleton {T : List StampSig} {n : SNode}
    (h : sigsFromNode T n = true) : sigsFromList T [n] = true :=
  sigsFromList_cons h rfl

theorem sigsFromList_set {T : List StampSig} {l : List SNode} {i : Nat}
    {a : SNode} (h : sigsFromList T l = true) (ha : sigsFromNode T a = true) :
    sigsFromList T (l.set i a) = true := by
  refine sigsFromList_mem.2 fun n hn => ?_
  rcases List.mem_or_eq_of_mem_set hn with h1 | h1
  · exact sigsFromList_mem.1 h n h1
  · exact h1 ▸ ha

theorem sigsFrom_elem_iff {T : List StampSig} {ty : String}
    {lb : Option String} {v : Option Int} {cs : List SNode} :
    sigsFromNode T (.elem ty lb v cs) = true ↔
      ((ty == stampedBlockType) = false ∨ (ty, lb, v) ∈ T) ∧
        sigsFromList T cs = true := by
  rw [sigsFromNode, Bool.and_eq_true, Bool.or_eq_true, Bool.not_eq_true',
    decide_eq_true_eq]

theorem sigsFrom_elem {T : List StampSig} {ty : String} {lb : Option String}
    {v : Option Int} {cs : List SNode}
    (hty : (ty == stampedBlockType) = false ∨ (ty, lb, v) ∈ T)
    (hcs : sigsFromList T cs = true) :
    sigsFromNode T (.elem ty lb v cs) = true :=
  sigsFrom_elem_iff.2 ⟨hty, hcs⟩

theorem sigsFrom_children {T : List StampSig} {n : SNode}
    (h : sigsFromNode T n = true) : sigsFromList T n.childrenOf = true := by
  cases n with
  | text s m => rfl
  | elem ty lb v cs => exact (sigsFrom_elem_iff.1 h).2

theorem sigsFrom_getElem {T : List StampSig} {l : List SNode} {i : Nat}
    {n : SNode} (h : sigsFromList T l = true) (hi : l[i]? = some n) :
    sigsFromNode T n = true :=
  sigsFromList_mem.1 h n (List.getElem?_mem hi)

theorem sigsFrom_nodeAt : ∀ {p : SPath} {T : List StampSig} {doc : List SNode}
    {n : SNode}, sigsFromList T doc = true → nodeAt doc p = some n →
    sigsFromNode T n = true := by
  intro p
  induction p with
  | nil => intro T doc n _ h; cases h
  | cons i rest ih =>
    intro T doc n hdoc h
    rw [nodeAt] at h
    rcases hi : doc[i]? with _ | m
    · rw [hi] at h; cases h
    · rw [hi] at h
      have hm : sigsFromNode T m = true := sigsFrom_getElem hdoc hi
      cases rest with
      | nil => cases h; exact hm
      | cons j rest2 => exact ih (sigsFrom_children hm) h

theorem sigsFrom_childListAt {T : List StampSig} {doc : List SNode} {p : SPath}
    {cs : List SNode} (hdoc : sigsFromList T doc = true)
    (h : childListAt doc p = some cs) : sigsFromList T cs = true := by
  cases p with
  | nil => cases h; exact hdoc
  | cons i rest =>
    have hdef : childListAt doc (i :: rest) =
        (nodeAt doc (i :: rest)).map SNode.childrenOf := rfl
    rw [hdef] at h
    rcases hn : nodeAt doc (i :: rest) with _ | n
    · rw [hn] at h; cases h
    · rw [hn] at h
      simp only [Option.map_some'] at h
      cases h
      exact sigsFrom_children (sigsFrom_nodeAt hdoc hn)

mutual
/-- A subtree is covered by any signature list containing its own
signatures. -/
theorem sigsFrom_of_sub_node : ∀ (n : SNode) (T : List StampSig),
    stampSigsNode n ⊆ T → sigsFromNode T n = true
  | .text s m, T, _ => rfl
  | .elem ty lb v cs, T, hsub => by
    rw [stampSigsNode] at hsub
    refine sigsFrom_elem ?_ (sigsFrom_of_sub_list cs T
      (fun x hx => hsub (List.mem_append.2 (Or.inr hx))))
    by_cases hty : (ty == stampedBlockType) = true
    · refine Or.inr (hsub (List.mem_append.2 (Or.inl ?_)))
      rw [if_pos hty]
      exact List.mem_singleton.2 rfl
    · exact Or.inl (Bool.eq_false_iff.2 hty)

theorem sigsFrom_of_sub_list : ∀ (l : List SNode) (T : List StampSig),
    stampSigsList l ⊆ T → sigsFromList T l = true
  | [], T, _ => rfl
  | n :: ns, T, hsub => by
    rw [stampSigsList] at hsub
    exact sigsFromList_cons
      (sigsFrom_of_sub_node n T (fun x hx => hsub (List.mem_append.2 (Or.inl hx))))
      (sigsFrom_of_sub_list ns T (fun x hx => hsub (List.mem_append.2 (Or.inr hx))))
end

theorem sigsFrom_self (l : List SNode) :
    sigsFromList (stampSigsList l) l = true :=
  sigsFrom_of_sub_list l _ (fun x hx => hx)

theorem modify_sigs : ∀ {p : SPath} {T : List StampSig} {doc : List SNode}
    {f : List SNode → Option (List SNode)} {doc' : List SNode},
    modifyChildrenO doc p f = some doc' → sigsFromList T doc = true →
    (∀ cs cs', sigsFromList T cs = true → f cs = some cs' →
      sigsFromList T cs' = true) →
    sigsFromList T doc' = true := by
  intro p
  induction p with
  | nil =>
    intro T doc f doc' h hdoc hf
    exact hf doc doc' hdoc h
  | cons i rest ih =>
    intro T doc f doc' h hdoc hf
    rw [modifyChildrenO] at h
    rcases hi : doc[i]? with _ | n
    · rw [hi] at h; cases h
    · rw [hi] at h
      cases n with
      | text s m => cases h
      | elem ty lb v cs =>
        dsimp only at h
        rcases hrec : modifyChildrenO cs rest f with _ | inner
        · rw [hrec] at h; cases h
        · rw [hrec] at h
          simp only [Option.map_some'] at h
          cases h
          have hn : sigsFromNode T (SNode.elem ty lb v cs) = true :=
            sigsFrom_getElem hdoc hi
          obtain ⟨hn1, hn2⟩ := sigsFrom_elem_iff.1 hn
          have hinner : sigsFromList T inner = true := ih hrec hn2 hf
          exact sigsFromList_set hdoc (sigsFrom_elem hn1 hinner)

theorem insertAtPathD_sigs {T : List StampSig} {doc : List SNode} {p : SPath}
    {ns doc' : List SNode} (h : insertAtPathD doc p ns = some doc')
    (hdoc : sigsFromList T doc = true) (hns : sigsFromList T ns = true) :
    sigsFromList T doc' = true := by
  rw [insertAtPathD] at h
  simp only [Option.bind_eq_bind, Option.bind_eq_some] at h
  obtain ⟨⟨pref, j⟩, hsp, h⟩ := h
  refine modify_sigs h hdoc ?_
  intro cs cs' hcs hf
  by_cases hle : j ≤ cs.length
  · rw [if_pos hle] at hf
    cases hf
    exact sigsFromList_append
      (sigsFromList_append (sigsFromList_sub (List.take_subset _ _) hcs) hns)
      (sigsFromList_sub (List.drop_subset _ _) hcs)
  · rw [if_neg hle] at hf; cases hf

theorem removeAtPathD_sigs {T : List StampSig} {doc : List SNode} {p : SPath}
    {doc' : List SNode} (h : removeAtPathD doc p = some doc')
    (hdoc : sigsFromList T doc = true) : sigsFromList T doc' = true := by
  rw [removeAtPathD] at h
  simp only [Option.bind_eq_bind, Option.bind_eq_some] at h
  obtain ⟨⟨pref, j⟩, hsp, h⟩ := h
  refine modify_sigs h hdoc ?_
  intro cs cs' hcs hf
  by_cases hlt : j < cs.length
  · rw [if_pos hlt] at hf
    cases hf
    exact sigsFromList_sub (List.eraseIdx_subset _ _) hcs
  · rw [if_neg hlt] at hf; cases hf

theorem replaceAtPathD_sigs {T : List StampSig} {doc : List SNode} {p : SPath}
    {ns doc' : List SNode} (h : replaceAtPathD doc p ns = some doc')
    (hdoc : sigsFromList T doc = true) (hns : sigsFromList T ns = true) :
    sigsFromList T doc' = true := by
  rw [replaceAtPathD] at h
  simp only [Option.bind_eq_bind, Option.bind_eq_some] at h
  obtain ⟨⟨pref, j⟩, hsp, h⟩ := h
  refine modify_sigs h hdoc ?_
  intro cs cs' hcs hf
  by_cases hlt : j < cs.length
  · rw [if_pos hlt] at hf
    cases hf
    exact sigsFromList_append
      (sigsFromList_append (sigsFromList_sub (List.take_subset _ _) hcs) hns)
      (sigsFromList_sub (List.drop_subset _ _) hcs)
  · rw [if_neg hlt] at hf; cases hf

theorem modifyTextAt_sigs {T : List StampSig} {doc : List SNode} {p : SPath}
    {f : Str → Marks → SNode} {doc' : List SNode}
    (h : modifyTextAt doc p f = some doc') (hdoc : sigsFromList T doc = true)
    (hf : ∀ s m, sigsFromNode T (f s m) = true) :
    sigsFromList T doc' = true := by
  rw [modifyTextAt] at h
  simp only [Option.bind_eq_bind, Option.bind_eq_some] at h
  obtain ⟨⟨pref, j⟩, hsp, h⟩ := h
  refine modify_sigs h hdoc ?_
  intro cs cs' hcs hg
  rcases hj : cs[j]? with _ | n
  · rw [hj] at hg; cases hg
  · rw [hj] at hg
    cases n with
    | text s m =>
      cases hg
      exact sigsFromList_set hcs (hf s m)
    | elem ty lb v cs2 => cases hg

theorem stInsertTextAt_sigs {T : List StampSig} {st : EState} {p : SPath}
    {o : Nat} {txt : Str} {st' : EState} (h : stInsertTextAt st p o txt = some st')
    (hdoc : sigsFromList T st.doc = true) : sigsFromList T st'.doc = true := by
  rw [stInsertTextAt] at h
  by_cases he : txt.isEmpty = true
  · rw [if_pos he] at h; cases h; exact hdoc
  · rw [if_neg he] at h
    simp only [Option.bind_eq_bind, Option.bind_eq_some, Option.pure_def,
      Option.some.injEq] at h
    obtain ⟨doc2, hm, h⟩ := h
    cases h
    exact modifyTextAt_sigs hm hdoc fun s m => rfl

theorem stRemoveTextAt_sigs {T : List StampSig} {st : EState} {p : SPath}
    {o len : Nat} {st' : EState} (h : stRemoveTextAt st p o len = some st')
    (hdoc : sigsFromList T st.doc = true) : sigsFromList T st'.doc = true := by
  rw [stRemoveTextAt] at h
  by_cases he : len = 0
  · rw [if_pos he] at h; cases h; exact hdoc
  · rw [if_neg he] at h
    simp only [Option.bind_eq_bind, Option.bind_eq_some, Option.pure_def,
      Option.some.injEq] at h
    obtain ⟨doc2, hm, h⟩ := h
    cases h
    exact modifyTextAt_sigs hm hdoc fun s m => rfl

theorem stInsertNodesAtPath_sigs {T : List StampSig} {st : EState}
    {ns : List SNode} {p : SPath} {st' : EState}
    (h : stInsertNodesAtPath st ns p = some st')
    (hdoc : sigsFromList T st.doc = true) (hns : sigsFromList T ns = true) :
    sigsFromList T st'.doc = true := by
  rw [stInsertNodesAtPath] at h
  by_cases he : ns.isEmpty = true
  · rw [if_pos he] at h; cases h; exact hdoc
  · rw [if_neg he] at h
    simp only [Option.bind_eq_bind, Option.bind_eq_some, Option.pure_def,
      Option.some.injEq] at h
    obtain ⟨doc2, hm, h⟩ := h
    cases h
    exact insertAtPathD_sigs hm hdoc hns

theorem stRemoveNodeAtPath_sigs {T : List StampSig} {st : EState} {p : SPath}
    {st' : EState} (h : stRemoveNodeAtPath st p = some st')
    (hdoc : sigsFromList T st.doc = true) : sigsFromList T st'.doc = true := by
  rw [stRemoveNodeAtPath] at h
  simp only [Option.bind_eq_bind, Option.bind_eq_some, Option.pure_def,
    Option.some.injEq] at h
  obtain ⟨doc2, hm, h⟩ := h
  cases h
  exact removeAtPathD_sigs hm hdoc

theorem stSplitTextOnly_sigs {T : List StampSig} {st : EState} {p : SPath}
    {off : Nat} {st' : EState} (h : stSplitTextOnly st p off = some st')
    (hdoc : sigsFromList T st.doc = true) : sigsFromList T st'.doc = true := by
  rw [stSplitTextOnly] at h
  simp only [Option.bind_eq_bind, Option.bind_eq_some] at h
  obtain ⟨s0, hs0, h⟩ := h
  by_cases he : off = 0 ∨ s0.length ≤ off
  · rw [if_pos he] at h; cases h; exact hdoc
  · rw [if_neg he] at h
    simp only [Option.bind_eq_bind, Option.bind_eq_some, Option.pure_def,
      Option.some.injEq] at h
    obtain ⟨m0, hm0, doc2, hrep, h⟩ := h
    cases h
    exact replaceAtPathD_sigs hrep hdoc rfl

/-- Both halves of a `split_node` copy the original element's
signature: no new signature appears. -/
theorem splitNodeRel_sigs : ∀ {rel : SPath} {T : List StampSig} {o : Nat}
    {n : SNode} {l r : SNode}, splitNodeRel rel o n = some (.parts l r) →
    sigsFromNode T n = true → sigsFromNode T l = true ∧ sigsFromNode T r = true := by
  intro rel
  induction rel with
  | nil =>
    intro T o n l r h hn
    cases n with
    | text s m =>
      rw [splitNodeRel] at h
      by_cases h0 : o = 0
      · rw [if_pos h0] at h; cases h
      · rw [if_neg h0] at h
        by_cases h1 : s.length ≤ o
        · rw [if_pos h1] at h; cases h
        · rw [if_neg h1] at h
          cases h
          exact ⟨rfl, rfl⟩
    | elem ty lb v cs => rw [splitNodeRel] at h; cases h
  | cons j rest ih =>
    intro T o n l r h hn
    cases n with
    | text s m => rw [splitNodeRel] at h; cases h
    | elem ty lb v cs =>
      rw [splitNodeRel] at h
      rcases hj : cs[j]? with _ | c
      · rw [hj] at h; cases h
      · rw [hj] at h
        simp only [Option.map_eq_some'] at h
        obtain ⟨res, hres, h⟩ := h
        obtain ⟨hn1, hn2⟩ := sigsFrom_elem_iff.1 hn
        have hc : sigsFromNode T c = true := sigsFrom_getElem hn2 hj
        cases res with
        | atStart =>
          dsimp only at h
          by_cases hz : j = 0
          · rw [if_pos hz] at h; cases h
          · rw [if_neg hz] at h
            cases h
            exact ⟨sigsFrom_elem hn1
                (sigsFromList_sub (List.take_subset _ _) hn2),
              sigsFrom_elem hn1
                (sigsFromList_sub (List.drop_subset _ _) hn2)⟩
        | atEnd =>
          dsimp only at h
          by_cases hz : j = cs.length - 1
          · rw [if_pos hz] at h; cases h
          · rw [if_neg hz] at h
            cases h
            exact ⟨sigsFrom_elem hn1
                (sigsFromList_sub (List.take_subset _ _) hn2),
              sigsFrom_elem hn1
                (sigsFromList_sub (List.drop_subset _ _) hn2)⟩
        | parts cl cr =>
          dsimp only at h
          cases h
          obtain ⟨hcl, hcr⟩ := ih hres hc
          refine ⟨sigsFrom_elem hn1
              (sigsFromList_append (sigsFromList_sub (List.take_subset _ _) hn2)
                (sigsFromList_singleton hcl)), ?_⟩
          exact sigsFrom_elem hn1
            (sigsFromList_cons hcr (sigsFromList_sub (List.drop_subset _ _) hn2))

theorem stSplitAtPoint_sigs {T : List StampSig} {st : EState} {pt : SPoint}
    {st' : EState} (h : stSplitAtPoint st pt = some st')
    (hdoc : sigsFromList T st.doc = true) : sigsFromList T st'.doc = true := by
  rw [stSplitAtPoint] at h
  rcases hblk : getWrappingBlockAt st.doc pt.path with _ | bq
  · rw [hblk] at h; cases h; exact hdoc
  · rw [hblk] at h
    obtain ⟨block, bp⟩ := bq
    dsimp only at h
    have hb : sigsFromNode T block = true :=
      sigsFrom_nodeAt hdoc (aboveAt_inv hblk).1
    rcases hsp : splitNodeRel (pt.path.drop bp.length) pt.offset block with _ | res
    · rw [hsp] at h; cases h
    · rw [hsp] at h
      cases res with
      | atStart => cases h; exact hdoc
      | atEnd => cases h; exact hdoc
      | parts l r =>
        dsimp only at h
        simp only [Option.bind_eq_bind, Option.bind_eq_some, Option.pure_def,
          Option.some.injEq] at h
        obtain ⟨doc2, hrep, h⟩ := h
        cases h
        obtain ⟨hl, hr⟩ := splitNodeRel_sigs hsp hb
        exact replaceAtPathD_sigs hrep hdoc
          (sigsFromList_cons hl (sigsFromList_singleton hr))

theorem stMoveNode_sigs {T : List StampSig} {st : EState} {f t : SPath}
    {st' : EState} (h : stMoveNode st f t = some st')
    (hdoc : sigsFromList T st.doc = true) : sigsFromList T st'.doc = true := by
  rw [stMoveNode] at h
  by_cases hpre : isPrefixOfP f t = true
  · rw [if_pos hpre] at h; cases h
  · rw [if_neg hpre] at h
    simp only [Option.bind_eq_bind, Option.bind_eq_some, Option.pure_def,
      Option.some.injEq] at h
    obtain ⟨n, hn, doc1, hrem, t', ht', doc2, hins, h⟩ := h
    cases h
    exact insertAtPathD_sigs hins (removeAtPathD_sigs hrem hdoc)
      (sigsFromList_singleton (sigsFrom_nodeAt hdoc hn))

theorem stWrapNodeAt_sigs {T : List StampSig} {st : EState} {ty : String}
    {p : SPath} {st' : EState} (h : stWrapNodeAt st ty p = some st')
    (hty : (ty == stampedBlockType) = false)
    (hdoc : sigsFromList T st.doc = true) : sigsFromList T st'.doc = true := by
  rw [stWrapNodeAt] at h
  simp only [Option.bind_eq_bind, Option.bind_eq_some, Option.pure_def,
    Option.some.injEq] at h
  obtain ⟨n, hn, doc2, hrep, h⟩ := h
  cases h
  exact replaceAtPathD_sigs hrep hdoc
    (sigsFromList_singleton (sigsFrom_elem (Or.inl hty)
      (sigsFromList_singleton (sigsFrom_nodeAt hdoc hn))))

theorem stUnwrapAt_sigs {T : List StampSig} {st : EState} {p : SPath}
    {st' : EState} (h : stUnwrapAt st p = some st')
    (hdoc : sigsFromList T st.doc = true) : sigsFromList T st'.doc = true := by
  rw [stUnwrapAt] at h
  simp only [Option.bind_eq_bind, Option.bind_eq_some] at h
  obtain ⟨n, hn, h⟩ := h
  have hnf : sigsFromNode T n = true := sigsFrom_nodeAt hdoc hn
  cases n with
  | text s m => cases h
  | elem ty lb v cs =>
    simp only [Option.bind_eq_bind, Option.bind_eq_some, Option.pure_def,
      Option.some.injEq] at h
    obtain ⟨⟨pref, j⟩, hsp, doc2, hmod, h⟩ := h
    cases h
    obtain ⟨hnf1, hnf2⟩ := sigsFrom_elem_iff.1 hnf
    refine modify_sigs hmod hdoc ?_
    intro l l' hl hf
    by_cases hlt : j < l.length
    · rw [if_pos hlt] at hf
      cases hf
      exact sigsFromList_append
        (sigsFromList_append (sigsFromList_sub (List.take_subset _ _) hl) hnf2)
        (sigsFromList_sub (List.drop_subset _ _) hl)
    · rw [if_neg hlt] at hf; cases hf

theorem stMergeBlocks_sigs {T : List StampSig} {st : EState}
    {prevPath curPath : SPath} {st' : EState}
    (h : stMergeBlocks st prevPath curPath = some st')
    (hdoc : sigsFromList T st.doc = true) : sigsFromList T st'.doc = true := by
  rw [stMergeBlocks] at h
  simp only [Option.bind_eq_bind, Option.bind_eq_some] at h
  obtain ⟨cur, hcur, prev, hprev, h⟩ := h
  have hcn : sigsFromNode T cur = true := sigsFrom_nodeAt hdoc hcur
  have hpn : sigsFromNode T prev = true := sigsFrom_nodeAt hdoc hprev
  cases prev with
  | text s m => cases h
  | elem ty lb v pcs =>
    cases cur with
    | text s2 m2 => cases h
    | elem ty2 lb2 v2 ccs =>
      simp only [Option.bind_eq_bind, Option.bind_eq_some, Option.pure_def,
        Option.some.injEq] at h
      obtain ⟨doc1, hrep, doc2, hrem, h⟩ := h
      cases h
      obtain ⟨hcn1, hcn2⟩ := sigsFrom_elem_iff.1 hcn
      obtain ⟨hpn1, hpn2⟩ := sigsFrom_elem_iff.1 hpn
      refine removeAtPathD_sigs hrem
        (replaceAtPathD_sigs hrep hdoc (sigsFromList_singleton ?_))
      exact sigsFrom_elem hpn1 (sigsFromList_append hpn2 hcn2)

theorem stRemovePathsAux_sigs : ∀ {ps : List SPath} {T : List StampSig}
    {st : EState} {adj : SPath → Option SPath} {st' : EState},
    stRemovePathsAux st adj ps = some st' → sigsFromList T st.doc = true →
    sigsFromList T st'.doc = true := by
  intro ps
  induction ps with
  | nil =>
    intro T st adj st' h hdoc
    cases h; exact hdoc
  | cons p rest ih =>
    intro T st adj st' h hdoc
    rw [stRemovePathsAux] at h
    rcases ha : adj p with _ | p'
    · rw [ha] at h
      exact ih h hdoc
    · rw [ha] at h
      dsimp only at h
      rcases hrm : stRemoveNodeAtPath st p' with _ | st1
      · rw [hrm] at h; cases h
      · rw [hrm] at h
        exact ih h (stRemoveNodeAtPath_sigs hrm hdoc)

theorem stRemoveMatchingInRange_sigs {T : List StampSig} {st : EState}
    {pred : SNode → Bool} {r : SRange} {st' : EState}
    (h : stRemoveMatchingInRange st pred r = some st')
    (hdoc : sigsFromList T st.doc = true) : sigsFromList T st'.doc = true := by
  rw [stRemoveMatchingInRange] at h
  exact stRemovePathsAux_sigs h hdoc

theorem stRemoveBlocksAtSelection_sigs {T : List StampSig} {st : EState}
    {st' : EState} (h : stRemoveBlocksAtSelection st = some st')
    (hdoc : sigsFromList T st.doc = true) : sigsFromList T st'.doc = true := by
  rw [stRemoveBlocksAtSelection] at h
  rcases hsel : st.sel with _ | r
  · rw [hsel] at h; cases h; exact hdoc
  · rw [hsel] at h
    exact stRemoveMatchingInRange_sigs h hdoc

theorem stUnwrapPathsAux_sigs : ∀ {ps : List SPath} {T : List StampSig}
    {st : EState} {adj : SPath → SPath} {st' : EState},
    stUnwrapPathsAux st adj ps = some st' → sigsFromList T st.doc = true →
    sigsFromList T st'.doc = true := by
  intro ps
  induction ps with
  | nil =>
    intro T st adj st' h hdoc
    cases h; exact hdoc
  | cons p rest ih =>
    intro T st adj st' h hdoc
    rw [stUnwrapPathsAux] at h
    rcases hu : stUnwrapAt st (adj p) with _ | st1
    · rw [hu] at h; cases h
    · rw [hu] at h
      exact ih h (stUnwrapAt_sigs hu hdoc)

theorem stUnwrapAtSelection_sigs {T : List StampSig} {st : EState} {st' : EState}
    (h : stUnwrapAtSelection st = some st')
    (hdoc : sigsFromList T st.doc = true) : sigsFromList T st'.doc = true := by
  rw [stUnwrapAtSelection] at h
  rcases hsel : st.sel with _ | r
  · rw [hsel] at h; cases h; exact hdoc
  · rw [hsel] at h
    dsimp only at h
    exact stUnwrapPathsAux_sigs h hdoc

theorem stRemovePathsTrack_sigs : ∀ {ps : List SPath} {T : List StampSig}
    {st : EState} {adj : SPath → Option SPath} {e : SPoint} {st' : EState}
    {e' : SPoint}, stRemovePathsTrack st adj ps e = some (st', e') →
    sigsFromList T st.doc = true → sigsFromList T st'.doc = true := by
  intro ps
  induction ps with
  | nil =>
    intro T st adj e st' e' h hdoc
    cases h; exact hdoc
  | cons p rest ih =>
    intro T st adj e st' e' h hdoc
    rw [stRemovePathsTrack] at h
    rcases ha : adj p with _ | p'
    · rw [ha] at h
      exact ih h hdoc
    · rw [ha] at h
      dsimp only at h
      rcases hrm : stRemoveNodeAtPath st p' with _ | st1
      · rw [hrm] at h; cases h
      · rw [hrm] at h
        dsimp only at h
        rcases hsh : pathShiftRem p' e.path with _ | e2
        · rw [hsh] at h; cases h
        · rw [hsh] at h
          exact ih h (stRemoveNodeAtPath_sigs hrm hdoc)

theorem stMergeAtPoint_sigs {T : List StampSig} {st : EState} {pt : SPoint}
    {st' : EState} (h : stMergeAtPoint st pt = some st')
    (hdoc : sigsFromList T st.doc = true) : sigsFromList T st'.doc = true := by
  rw [stMergeAtPoint] at h
  rcases hblk : getWrappingBlockAt st.doc pt.path with _ | bq
  · rw [hblk] at h; cases h; exact hdoc
  · rw [hblk] at h
    obtain ⟨b0, path⟩ := bq
    dsimp only at h
    rcases hprev : prevBlockEntry st.doc path with _ | pq
    · rw [hprev] at h; cases h; exact hdoc
    · rw [hprev] at h
      obtain ⟨prevPath, prevNode⟩ := pq
      by_cases hsib : pathParent path = pathParent prevPath
      · simp only [if_pos hsib, Option.pure_def, Option.some_bind] at h
        split at h
        · exact stRemoveNodeAtPath_sigs h hdoc
        · exact stMergeBlocks_sigs h hdoc
      · simp only [if_neg hsib] at h
        rcases hmv : stMoveNode st path (pathNext prevPath) with _ | st1
        · rw [hmv] at h
          simp only [Option.bind_eq_bind, Option.none_bind] at h
          cases h
        · rw [hmv] at h
          simp only [Option.bind_eq_bind, Option.some_bind] at h
          have hd1 : sigsFromList T st1.doc = true := stMoveNode_sigs hmv hdoc
          rcases hemp : emptyAncestorPath st.doc path prevPath with _ | ap
          · rw [hemp] at h
            simp only [Option.pure_def, Option.some_bind] at h
            split at h
            · exact stRemoveNodeAtPath_sigs h hd1
            · exact stMergeBlocks_sigs h hd1
          · rw [hemp] at h
            dsimp only at h
            rcases hrm : stRemoveNodeAtPath st1
                (pathShiftIns (pathNext prevPath) 1 ap) with _ | st2
            · rw [hrm] at h
              simp only [Option.bind_eq_bind, Option.none_bind] at h
              cases h
            · rw [hrm] at h
              simp only [Option.bind_eq_bind, Option.some_bind,
                Option.pure_def] at h
              have hd2 : sigsFromList T st2.doc = true :=
                stRemoveNodeAtPath_sigs hrm hd1
              rcases hc2 : pathShiftRem (pathShiftIns (pathNext prevPath) 1 ap)
                  (pathNext prevPath) with _ | cur2
              · rw [hc2] at h
                simp only [Option.none_bind] at h
                cases h
              · rw [hc2] at h
                simp only [Option.some_bind] at h
                rcases hp2 : pathShiftRem (pathShiftIns (pathNext prevPath) 1 ap)
                    prevPath with _ | prev2
                · rw [hp2] at h
                  simp only [Option.none_bind] at h
                  cases h
                · rw [hp2] at h
                  simp only [Option.some_bind] at h
                  split at h
                  · exact stRemoveNodeAtPath_sigs h hd2
                  · exact stMergeBlocks_sigs h hd2

theorem stDeleteRange_sigs {T : List StampSig} {st : EState} {r : SRange}
    {hanging : Bool} {st' : EState} (h : stDeleteRange st r hanging = some st')
    (hdoc : sigsFromList T st.doc = true) : sigsFromList T st'.doc = true := by
  rw [stDeleteRange] at h
  dsimp only at h
  generalize (if hanging then r
      else if (endOf st.doc []).any fun de => de = r.endPt then r
      else unhangRange st.doc r) = r1 at h
  by_cases hse : r1.startPt = r1.endPt
  · rw [if_pos hse] at h
    cases h; exact hdoc
  · rw [if_neg hse] at h
    by_cases hsing : r1.startPt.path = r1.endPt.path
    · simp only [if_pos hsing, Option.pure_def, Option.some_bind,
        Option.bind_eq_bind, Option.bind_eq_some, Option.some.injEq] at h
      obtain ⟨⟨st2, e2⟩, htr, st3, hst3, h⟩ := h
      have hd2 : sigsFromList T st2.doc = true :=
        stRemovePathsTrack_sigs htr hdoc
      have hd3 : sigsFromList T st3.doc = true :=
        stRemoveTextAt_sigs hst3 hd2
      cases h; exact hd3
    · simp only [if_neg hsing, Option.pure_def, Option.bind_eq_bind,
        Option.bind_eq_some] at h
      obtain ⟨st1, hst1, ⟨st2, e2⟩, htr, st3, hst3, h⟩ := h
      have hd1 : sigsFromList T st1.doc = true :=
        stRemoveTextAt_sigs hst1 hdoc
      have hd2 : sigsFromList T st2.doc = true :=
        stRemovePathsTrack_sigs htr hd1
      have hd3 : sigsFromList T st3.doc = true :=
        stRemoveTextAt_sigs hst3 hd2
      split at h
      · exact stMergeAtPoint_sigs h hd3
      · cases h; exact hd3

theorem transformsDeleteSel_sigs {T : List StampSig} {st : EState} {st' : EState}
    (h : transformsDeleteSel st = some st')
    (hdoc : sigsFromList T st.doc = true) : sigsFromList T st'.doc = true := by
  rw [transformsDeleteSel] at h
  rcases hsel : st.sel with _ | r
  · rw [hsel] at h; cases h; exact hdoc
  · rw [hsel] at h
    dsimp only at h
    split at h
    · exact stDeleteRange_sigs h hdoc
    · rcases hx : (afterPt st.doc r.anchor <|> endOf st.doc []) with _ | t
      · rw [hx] at h; cases h; exact hdoc
      · rw [hx] at h
        exact stDeleteRange_sigs h hdoc

theorem transformsDeleteAt_sigs {T : List StampSig} {st : EState} {r : SRange}
    {st' : EState} (h : transformsDeleteAt st r = some st')
    (hdoc : sigsFromList T st.doc = true) : sigsFromList T st'.doc = true := by
  rw [transformsDeleteAt] at h
  split at h
  · rcases hx : (afterPt st.doc r.anchor <|> endOf st.doc []) with _ | t
    · rw [hx] at h; cases h; exact hdoc
    · rw [hx] at h
      exact stDeleteRange_sigs h hdoc
  · exact stDeleteRange_sigs h hdoc

theorem transformsDeleteReverseChar_sigs {T : List StampSig} {st : EState}
    {st' : EState} (h : transformsDeleteReverseChar st = some st')
    (hdoc : sigsFromList T st.doc = true) : sigsFromList T st'.doc = true := by
  rw [transformsDeleteReverseChar] at h
  rcases hsel : st.sel with _ | r
  · rw [hsel] at h; cases h; exact hdoc
  · rw [hsel] at h
    dsimp only at h
    by_cases hexp : r.isExpanded = true
    · rw [if_pos hexp] at h
      exact stDeleteRange_sigs h hdoc
    · rw [if_neg hexp] at h
      rcases hx : (beforePt st.doc r.anchor <|> startOf st.doc []) with _ | t
      · rw [hx] at h; cases h; exact hdoc
      · rw [hx] at h
        dsimp only at h
        by_cases hta : t = r.anchor
        · rw [if_pos hta] at h; cases h; exact hdoc
        · rw [if_neg hta] at h
          exact stDeleteRange_sigs h hdoc

theorem fragmentOf_sigs {T : List StampSig} {cs : List SNode} {a b : SPoint}
    (hcs : sigsFromList T cs = true) :
    sigsFromList T (fragmentOf cs a b) = true := by
  refine sigsFromList_mem.2 fun x hx => ?_
  rw [fragmentOf] at hx
  obtain ⟨i, hi, hf⟩ := List.mem_filterMap.1 hx
  split at hf
  · cases hf
  · rcases hci : cs[i]? with _ | n
    · rw [hci] at hf; cases hf
    · rw [hci] at hf
      cases n with
      | text str m =>
        dsimp only at hf
        cases hf
        rfl
      | elem ty lb v cs2 =>
        cases hf
        exact sigsFrom_getElem hcs hci

theorem stInsertNodesAtPoint_sigs {T : List StampSig} {st : EState}
    {ns : List SNode} {pt : SPoint} {st' : EState}
    (h : stInsertNodesAtPoint st ns pt = some st')
    (hdoc : sigsFromList T st.doc = true) (hns : sigsFromList T ns = true) :
    sigsFromList T st'.doc = true := by
  rw [stInsertNodesAtPoint] at h
  split at h
  · cases h; exact hdoc
  · rcases hhd : (subLeaves st.doc pt.path).head? with _ | q
    · rw [hhd] at h; cases h; exact hdoc
    · rw [hhd] at h
      dsimp only at h
      simp only [Option.bind_eq_bind, Option.bind_eq_some] at h
      obtain ⟨st1, hst1, h⟩ := h
      exact stInsertNodesAtPath_sigs h (stSplitTextOnly_sigs hst1 hdoc) hns

theorem stInsertNodesAtRange_sigs {T : List StampSig} {st : EState}
    {ns : List SNode} {r : SRange} {st' : EState}
    (h : stInsertNodesAtRange st ns r = some st')
    (hdoc : sigsFromList T st.doc = true) (hns : sigsFromList T ns = true) :
    sigsFromList T st'.doc = true := by
  rw [stInsertNodesAtRange] at h
  split at h
  · exact stInsertNodesAtPoint_sigs h hdoc hns
  · simp only [Option.bind_eq_bind, Option.bind_eq_some] at h
    obtain ⟨stG, hstG, ePt, hePt, stR, hstR, h⟩ := h
    exact stInsertNodesAtPoint_sigs h (stDeleteRange_sigs hstR hdoc) hns

theorem transformsInsertTextSel_sigs {T : List StampSig} {st : EState}
    {txt : Str} {st' : EState} (h : transformsInsertTextSel st txt = some st')
    (hdoc : sigsFromList T st.doc = true) : sigsFromList T st'.doc = true := by
  rw [transformsInsertTextSel] at h
  rcases hsel : st.sel with _ | r
  · rw [hsel] at h; cases h; exact hdoc
  · rw [hsel] at h
    dsimp only at h
    split at h
    · simp only [Option.bind_eq_bind, Option.bind_eq_some] at h
      obtain ⟨st1, hst1, h⟩ := h
      have hd1 : sigsFromList T st1.doc = true :=
        stDeleteRange_sigs hst1 hdoc
      rcases hs1 : st1.sel with _ | r1
      · rw [hs1] at h; cases h; exact hd1
      · rw [hs1] at h
        exact stInsertTextAt_sigs h hd1
    · exact stInsertTextAt_sigs h hdoc

theorem baseInsertText_sigs {T : List StampSig} {st : EState} {txt : Str}
    {st' : EState} (h : baseInsertText st txt = some st')
    (hdoc : sigsFromList T st.doc = true) : sigsFromList T st'.doc = true := by
  rw [baseInsertText] at h
  rcases hsel : st.sel with _ | r
  · rw [hsel] at h; cases h; exact hdoc
  · rw [hsel] at h
    dsimp only at h
    rcases hem : st.emarks with _ | m
    · rw [hem] at h
      dsimp only at h
      simp only [Option.bind_eq_bind, Option.bind_eq_some, Option.pure_def,
        Option.some.injEq] at h
      obtain ⟨stM, hstM, h⟩ := h
      have hM : sigsFromList T stM.doc = true :=
        transformsInsertTextSel_sigs hstM hdoc
      cases h
      exact hM
    · rw [hem] at h
      dsimp only at h
      by_cases hexp : r.isExpanded = true
      · rw [if_pos hexp] at h
        rcases hdel : stDeleteRange
            { doc := st.doc, sel := some ⟨r.endPt, r.endPt⟩, emarks := some m }
            ⟨r.startPt, r.endPt⟩ false with _ | st1
        · rw [hdel] at h
          simp only [Option.bind_eq_bind, Option.none_bind] at h
          cases h
        · rw [hdel] at h
          simp only [Option.bind_eq_bind, Option.some_bind] at h
          have hd1 : sigsFromList T st1.doc = true :=
            stDeleteRange_sigs hdel hdoc
          rcases hs1 : st1.sel with _ | r1
          · rw [hs1] at h
            dsimp only at h
            simp only [Option.pure_def, Option.bind_eq_bind, Option.some_bind,
              Option.some.injEq] at h
            cases h
            exact hd1
          · rw [hs1] at h
            dsimp only at h
            simp only [Option.pure_def, Option.bind_eq_bind, Option.bind_eq_some,
              Option.some_bind, Option.some.injEq] at h
            obtain ⟨st2, hst2, h⟩ := h
            cases h
            show sigsFromList T st2.doc = true
            exact stInsertNodesAtPoint_sigs hst2 hd1 (sigsFromList_singleton rfl)
      · rw [if_neg hexp] at h
        simp only [Option.pure_def, Option.bind_eq_bind, Option.some_bind] at h
        rw [hsel] at h
        dsimp only at h
        simp only [Option.bind_eq_some, Option.some.injEq] at h
        obtain ⟨st2, hst2, h⟩ := h
        cases h
        show sigsFromList T st2.doc = true
        exact stInsertNodesAtPoint_sigs hst2 hdoc (sigsFromList_singleton rfl)

theorem baseDeleteBackward_sigs {T : List StampSig} {st : EState} {st' : EState}
    (h : baseDeleteBackward st = some st')
    (hdoc : sigsFromList T st.doc = true) : sigsFromList T st'.doc = true := by
  rw [baseDeleteBackward] at h
  rcases hsel : st.sel with _ | r
  · rw [hsel] at h; cases h; exact hdoc
  · rw [hsel] at h
    dsimp only at h
    split at h
    · exact transformsDeleteReverseChar_sigs h hdoc
    · cases h; exact hdoc

theorem engineDeleteFragment_sigs {T : List StampSig} {st st' : EState}
    (h : engineDeleteFragment st = .ok st')
    (hdoc : sigsFromList T st.doc = true) : sigsFromList T st'.doc = true := by
  rw [engineDeleteFragment] at h
  rcases hsel : st.sel with _ | selection
  · rw [hsel] at h; cases h
  · rw [hsel] at h
    dsimp only at h
    rcases hsb : getWrappingBlockAt st.doc selection.startPt.path with _ | sb
    · rw [hsb] at h; cases h
    · rw [hsb] at h
      obtain ⟨sbn, sbp⟩ := sb
      dsimp only at h
      rcases heb : getWrappingBlockAt st.doc selection.endPt.path with _ | eb
      · rw [heb] at h; cases h
      · rw [heb] at h
        obtain ⟨ebn, ebp⟩ := eb
        dsimp only at h
        rcases hbs : startOf st.doc sbp with _ | bs
        · rw [hbs] at h; cases h
        · rcases hbe : endOf st.doc sbp with _ | be
          · rw [hbs, hbe] at h; cases h
          · rw [hbs, hbe] at h
            dsimp only at h
            split at h
            · exact transformsDeleteSel_sigs (liftO_ok h) hdoc
            · rcases hanc : getWrappingUnstampedAncestorAt st.doc
                  selection.startPt.path with _ | anc
              · rw [hanc] at h; cases h
              · rw [hanc] at h
                obtain ⟨ancN, ancPath⟩ := anc
                dsimp only at h
                rcases hrs : startOf st.doc (pathNext ancPath) with _ | rmStart
                · rw [hrs] at h; cases h
                · rw [hrs] at h
                  dsimp only at h
                  rcases hrm : stRemoveMatchingInRange st
                      (fun n => n.isElem && !n.isStamped)
                      ⟨rmStart, selection.endPt⟩ with _ | st1
                  · rw [hrm] at h; cases h
                  · rw [hrm] at h
                    dsimp only at h
                    have hd1 : sigsFromList T st1.doc = true :=
                      stRemoveMatchingInRange_sigs hrm hdoc
                    rcases hae : endOf st1.doc ancPath with _ | ancEnd
                    · rw [hae] at h; cases h
                    · rw [hae] at h
                      dsimp only at h
                      rcases hins : stInsertNodesAtRange st1 _
                          ⟨selection.startPt, ancEnd⟩ with _ | st2
                      · rw [hins] at h; cases h
                      · rw [hins] at h
                        cases h
                        rw [stCollapseStart_doc]
                        refine stInsertNodesAtRange_sigs hins hd1 ?_
                        exact fragmentOf_sigs
                          (sigsFrom_children (sigsFrom_nodeAt hdoc (aboveAt_inv heb).1))

theorem engineInsertBreakFinish_sigs {T : List StampSig} {hook : Option StampData}
    {ancTy : String} {ancPath : SPath} {content : List SNode} {st1 st' : EState}
    (h : engineInsertBreakFinish hook ancTy ancPath content st1 = .ok st')
    (hdecl : declinedP hook) (hty : (ancTy == stampedBlockType) = false)
    (hc : sigsFromList T content = true) (hd1 : sigsFromList T st1.doc = true) :
    sigsFromList T st'.doc = true := by
  have he : engineInsertBreakFinish hook = engineInsertBreakFinish none := by
    rcases hdecl with h0 | ⟨sd, hsd, hv⟩
    · subst h0; rfl
    · subst hsd
      obtain ⟨lb, val⟩ := sd
      have hv' : val = none := hv
      subst hv'
      rfl
  rw [he, engineInsertBreakFinish.eq_def] at h
  dsimp only at h
  rcases hins : stInsertNodesAtPath st1 [SNode.elem ancTy none none content]
      (pathNext ancPath) with _ | st2
  · rw [hins] at h; cases h
  · rw [hins] at h
    dsimp only at h
    rcases hsp : startOf st2.doc (pathNext ancPath) with _ | sp
    · rw [hsp] at h; cases h
    · rw [hsp] at h
      cases h
      show sigsFromList T st2.doc = true
      exact stInsertNodesAtPath_sigs hins hd1
        (sigsFromList_singleton (sigsFrom_elem (Or.inl hty) hc))

theorem engineInsertBreakCore_sigs {T : List StampSig} {hook : Option StampData}
    {st st' : EState} (h : engineInsertBreakCore hook st = .ok st')
    (hdecl : declinedP hook) (hdoc : sigsFromList T st.doc = true) :
    sigsFromList T st'.doc = true := by
  rw [engineInsertBreakCore] at h
  rcases hsel : st.sel with _ | r
  · rw [hsel] at h; cases h
  · rw [hsel] at h
    dsimp only at h
    rcases hanc : getWrappingUnstampedAncestorAt st.doc r.basePath with _ | ancp
    · rw [hanc] at h; cases h
    · rw [hanc] at h
      obtain ⟨anc, ancPath⟩ := ancp
      dsimp only at h
      have hty : (anc.tyOf == stampedBlockType) = false :=
        unstamped_ty (aboveAt_inv hanc).2
      rcases hblk : getWrappingBlockAt st.doc r.basePath with _ | blkp
      · rw [hblk] at h; cases h
      · rw [hblk] at h
        obtain ⟨block, blockPath⟩ := blkp
        dsimp only at h
        have hbn : sigsFromList T block.childrenOf = true :=
          sigsFrom_children (sigsFrom_nodeAt hdoc (aboveAt_inv hblk).1)
        rcases hbs : startOf st.doc blockPath with _ | blockStart
        · rw [hbs] at h; cases h
        · rcases hbe : endOf st.doc blockPath with _ | blockEnd
          · rw [hbs, hbe] at h; cases h
          · rw [hbs, hbe] at h
            dsimp only at h
            by_cases hend : r.focus = blockEnd
            · rw [if_pos hend] at h
              rcases hins : stInsertNodesAtPath st
                  [SNode.elem anc.tyOf none none [SNode.text [] []]]
                  (pathNext ancPath) with _ | st1
              · rw [hins] at h; cases h
              · rw [hins] at h
                dsimp only at h
                rcases hrg : rangeOf st1.doc (pathNext ancPath) with _ | rg
                · rw [hrg] at h; cases h
                · rw [hrg] at h
                  cases h
                  show sigsFromList T st1.doc = true
                  exact stInsertNodesAtPath_sigs hins hdoc
                    (sigsFromList_singleton (sigsFrom_elem (Or.inl hty) rfl))
            · rw [if_neg hend] at h
              by_cases hst : r.focus = blockStart
              · rw [if_pos hst] at h
                rcases hdel : transformsDeleteAt st ⟨blockStart, blockEnd⟩ with _ | st1
                · rw [hdel] at h; cases h
                · rw [hdel] at h
                  exact engineInsertBreakFinish_sigs h hdecl hty hbn
                    (transformsDeleteAt_sigs hdel hdoc)
              · rw [if_neg hst] at h
                rcases hdel : transformsDeleteAt st ⟨r.anchor, blockEnd⟩ with _ | st1
                · rw [hdel] at h; cases h
                · rw [hdel] at h
                  exact engineInsertBreakFinish_sigs h hdecl hty
                    (fragmentOf_sigs hbn)
                    (transformsDeleteAt_sigs hdel hdoc)

theorem engineInsertBreak_sigs {T : List StampSig} {hook : Option StampData}
    {st st' : EState} (h : engineInsertBreak hook st = .ok st')
    (hdecl : declinedP hook) (hdoc : sigsFromList T st.doc = true) :
    sigsFromList T st'.doc = true := by
  rw [engineInsertBreak] at h
  rcases hsel : st.sel with _ | r
  · rw [hsel] at h; cases h
  · rw [hsel] at h
    dsimp only at h
    split at h
    · rcases hdf : engineDeleteFragment st with e | st0
      · rw [hdf] at h; cases h
      · rw [hdf] at h
        exact engineInsertBreakCore_sigs h hdecl
          (engineDeleteFragment_sigs hdf hdoc)
    · exact engineInsertBreakCore_sigs h hdecl hdoc

theorem engineInsertTextCore_sigs {T : List StampSig} {hook : Option StampData}
    {txt : Str} {st st' : EState} (h : engineInsertTextCore hook txt st = .ok st')
    (hdecl : declinedP hook) (hdoc : sigsFromList T st.doc = true) :
    sigsFromList T st'.doc = true := by
  have he : engineInsertTextCore hook = engineInsertTextCore none := by
    rcases hdecl with h0 | ⟨sd, hsd, hv⟩
    · subst h0; rfl
    · subst hsd
      obtain ⟨lb, val⟩ := sd
      have hv' : val = none := hv
      subst hv'
      rfl
  rw [he, engineInsertTextCore.eq_def] at h
  dsimp only at h
  rcases hsel : st.sel with _ | r
  · rw [hsel] at h; cases h
  · rw [hsel] at h
    dsimp only at h
    rcases hblk : getWrappingBlockAt st.doc r.basePath with _ | blkp
    · rw [hblk] at h; cases h
    · rw [hblk] at h
      obtain ⟨block, blockPath⟩ := blkp
      dsimp only at h
      split at h
      · exact baseInsertText_sigs (liftO_ok h) hdoc
      · exact baseInsertText_sigs (liftO_ok h) hdoc

theorem engineInsertText_sigs {T : List StampSig} {hook : Option StampData}
    {txt : Str} {st st' : EState} (h : engineInsertText hook txt st = .ok st')
    (hdecl : declinedP hook) (hdoc : sigsFromList T st.doc = true) :
    sigsFromList T st'.doc = true := by
  rw [engineInsertText] at h
  rcases hsel : st.sel with _ | r
  · rw [hsel] at h; cases h
  · rw [hsel] at h
    dsimp only at h
    split at h
    · rcases hdf : engineDeleteFragment st with e | st0
      · rw [hdf] at h; cases h
      · rw [hdf] at h
        exact engineInsertTextCore_sigs h hdecl
          (engineDeleteFragment_sigs hdf hdoc)
    · exact engineInsertTextCore_sigs h hdecl hdoc

theorem engineDeleteBackward_sigs {T : List StampSig} {st st' : EState}
    (h : engineDeleteBackward st = .ok st')
    (hdoc : sigsFromList T st.doc = true) : sigsFromList T st'.doc = true := by
  rw [engineDeleteBackward] at h
  rcases hsel : st.sel with _ | selection
  · rw [hsel] at h; cases h
  · rw [hsel] at h
    dsimp only at h
    rcases hblk : getWrappingBlockAt st.doc selection.basePath with _ | blkp
    · rw [hblk] at h; cases h
    · rw [hblk] at h
      obtain ⟨block, blockPath⟩ := blkp
      dsimp only at h
      rcases hbs : startOf st.doc blockPath with _ | blockStart
      · rw [hbs] at h; cases h
      · rw [hbs] at h
        dsimp only at h
        split at h
        · split at h
          · exact stUnwrapAtSelection_sigs (liftO_ok h) hdoc
          · rcases hsab : (beforePt st.doc selection.anchor).bind
                (fun pb => (aboveAt st.doc pb.path
                  fun n => n.isElem && n.isStamped).map fun _ => pb) with _ | pb
            · rw [hsab] at h
              exact baseDeleteBackward_sigs (liftO_ok h) hdoc
            · rw [hsab] at h
              dsimp only at h
              rcases hrm : stRemoveBlocksAtSelection st with _ | st1
              · rw [hrm] at h; cases h
              · rw [hrm] at h
                dsimp only at h
                have hd1 : sigsFromList T st1.doc = true :=
                  stRemoveBlocksAtSelection_sigs hrm hdoc
                split at h
                · refine stInsertNodesAtPoint_sigs (liftO_ok h) hd1 ?_
                  exact sigsFrom_children
                    (sigsFrom_nodeAt hdoc (aboveAt_inv hblk).1)
                · cases h
                  exact hd1
        · exact baseDeleteBackward_sigs (liftO_ok h) hdoc

theorem engineNormalizeAt_sigs {T : List StampSig} {st : EState} {path : SPath}
    {st' : EState} (h : engineNormalizeAt st path = some st')
    (hdoc : sigsFromList T st.doc = true) : sigsFromList T st'.doc = true := by
  rw [engineNormalizeAt] at h
  rcases hn : nodeAt st.doc path with _ | n
  · rw [hn] at h; cases h; exact hdoc
  · rw [hn] at h
    cases n with
    | elem ty lb v cs => cases h; exact hdoc
    | text s m =>
      dsimp only at h
      rcases hu : findUNL s with _ | ni
      · rw [hu] at h; cases h; exact hdoc
      · rw [hu] at h
        dsimp only at h
        rcases hanc : getWrappingUnstampedAncestorAt st.doc path with _ | ancp
        · rw [hanc] at h; cases h; exact hdoc
        · rw [hanc] at h
          obtain ⟨anc, ancPath⟩ := ancp
          dsimp only at h
          have hty : (anc.tyOf == stampedBlockType) = false :=
            unstamped_ty (aboveAt_inv hanc).2
          simp only [Option.bind_eq_bind, Option.bind_eq_some] at h
          obtain ⟨st1, hst1, h⟩ := h
          have hd1 : sigsFromList T st1.doc = true :=
            stSplitAtPoint_sigs hst1 hdoc
          rcases ht : (afterPt st1.doc ⟨path, ni⟩ <|> endOf st1.doc []) with _ | t
          · rw [ht] at h
            simp only [Option.some_bind] at h
            split at h
            · cases h; exact hd1
            · rcases hab : aboveAt st1.doc path
                  (fun n => n.isElem && n.isStamped) with _ | sq
              · rw [hab] at h; cases h; exact hd1
              · rw [hab] at h
                obtain ⟨sn, leftPath⟩ := sq
                dsimp only at h
                simp only [Option.bind_eq_bind, Option.bind_eq_some] at h
                obtain ⟨st3, hmv, h⟩ := h
                exact stWrapNodeAt_sigs h hty (stMoveNode_sigs hmv hd1)
          · rw [ht] at h
            simp only [Option.bind_eq_bind, Option.bind_eq_some] at h
            obtain ⟨st2, hst2, h⟩ := h
            have hd2 : sigsFromList T st2.doc = true :=
              stDeleteRange_sigs hst2 hd1
            split at h
            · cases h; exact hd2
            · rcases hab : aboveAt st2.doc path
                  (fun n => n.isElem && n.isStamped) with _ | sq
              · rw [hab] at h; cases h; exact hd2
              · rw [hab] at h
                obtain ⟨sn, leftPath⟩ := sq
                dsimp only at h
                simp only [Option.bind_eq_bind, Option.bind_eq_some] at h
                obtain ⟨st3, hmv, h⟩ := h
                exact stWrapNodeAt_sigs h hty (stMoveNode_sigs hmv hd2)

theorem normalizeFixGo_sigs : ∀ {fuel : Nat} {T : List StampSig} {st st' : EState},
    normalizeFixGo fuel st = .ok st' → sigsFromList T st.doc = true →
    sigsFromList T st'.doc = true := by
  intro fuel
  induction fuel with
  | zero =>
    intro T st st' h hdoc
    cases h; exact hdoc
  | succ n ih =>
    intro T st st' h hdoc
    rw [normalizeFixGo] at h
    rcases hns : normalizeStep st with _ | o
    · rw [hns] at h; cases h; exact hdoc
    · rw [hns] at h
      cases o with
      | none => cases h
      | some st1 =>
        rw [normalizeStep] at hns
        rcases hf : (docLeaves st.doc).find? (normActs st.doc) with _ | q
        · rw [hf] at hns; cases hns
        · rw [hf] at hns
          injection hns with hns2
          exact ih h (engineNormalizeAt_sigs hns2 hdoc)

theorem normalizeFix_sigs {T : List StampSig} {st st' : EState}
    (h : normalizeFix st = .ok st') (hdoc : sigsFromList T st.doc = true) :
    sigsFromList T st'.doc = true :=
  normalizeFixGo_sigs h hdoc

theorem runOps_sigs : ∀ {ops : List EngineOp} {T : List StampSig} {st st' : EState},
    runOps ops st = .ok st' → (∀ op ∈ ops, opDeclined op) →
    sigsFromList T st.doc = true → sigsFromList T st'.doc = true := by
  intro ops
  induction ops with
  | nil =>
    intro T st st' h hdecl hdoc
    cases h; exact hdoc
  | cons op rest ih =>
    intro T st st' h hdecl hdoc
    rw [runOps] at h
    rcases hap : applyOp op st with e | st1
    · rw [hap] at h; cases h
    · rw [hap] at h
      have hd1 : sigsFromList T st1.doc = true := by
        cases op with
        | ibreak hook =>
          exact engineInsertBreak_sigs hap
            (hdecl _ (List.mem_cons_self _ _)) hdoc
        | itext hook txt =>
          exact engineInsertText_sigs hap
            (hdecl _ (List.mem_cons_self _ _)) hdoc
        | dfrag => exact engineDeleteFragment_sigs hap hdoc
        | dback => exact engineDeleteBackward_sigs hap hdoc
        | normalize => exact normalizeFix_sigs hap hdoc
      exact ih h (fun o ho => hdecl o (List.mem_cons_of_mem _ ho)) hd1

/-- C4 amended: when `onStampInsert` declines on every invocation, no
StampedElement is ever created over any sequence of completed engine
operations, starting from ANY tree: every stamped element of the
result carries the (type, label, value) identity of a stamped element
already present in the input -- so in particular a stamp-free tree
stays stamp-free. The second half of the original claim is false: the
engine's observable behaviour does not coincide with the host's
unmodified defaults (see the counterexample: the declined
`insertBreak` inserts a fresh unmarked empty line instead of splitting
the block). -/
theorem c4_amended : ∀ (ops : List EngineOp) (st st' : EState),
    (∀ op ∈ ops, opDeclined op) → runOps ops st = .ok st' →
    sigsFromList (stampSigsList st.doc) st'.doc = true := by
  intro ops st st' hdecl h
  exact runOps_sigs h hdecl (sigsFrom_self st.doc)

/-- Witness start for `c4_amended`: a stamped line followed by a plain
line, caret at the end of the plain line. -/
def c4gStart : EState :=
  { doc := [.elem stampedBlockType (some "s") (some 7) [.text ['t'] []],
      .elem "paragraph" none none [.text ['a'] []]],
    sel := some ⟨⟨[1, 0], 1⟩, ⟨[1, 0], 1⟩⟩, emarks := none }

/-- The state after typing `B` at the caret of `c4gStart`: the stamped
line is untouched, and no new stamp signature appears. -/
def c4gRes : EState :=
  { doc := [.elem stampedBlockType (some "s") (some 7) [.text ['t'] []],
      .elem "paragraph" none none [.text ['a', 'B'] []]],
    sel := some ⟨⟨[1, 0], 2⟩, ⟨[1, 0], 2⟩⟩, emarks := none }

theorem c4_amended_witness :
    runOps [.itext none ['B']] c4gStart = .ok c4gRes ∧
    sigsFromList (stampSigsList c4gStart.doc) c4gRes.doc = true :=
  ⟨rfl,
   c4_amended [.itext none ['B']] c4gStart c4gRes
     (by
       intro op hop
       simp only [List.mem_cons, List.not_mem_nil, or_false] at hop
       rcases hop with rfl
       exact Or.inl rfl)
     rfl⟩


end SlateStamps
